import Mathlib

/-! # Active-set QP solver (`casadi/solvers/conic_activeset.cpp`)

A shallow embedding of `ConicActiveSet::eval` in exact arithmetic.  Doubles that
are stored in work vectors are rationals; the bound inputs may in addition be
infinite.  Work vectors are functions on indices, sparsity patterns are in
compressed-column form, and the sparse QR kernel is a parameter.
-/

namespace casadi

/-! ## Numbers -/

/-- Smallest strictly positive normalized double,
`std::numeric_limits<double>::min()`, which is `2^(-1022)`. -/
def DMIN : ℚ := 1 / 2 ^ 1022

/-- A double read from a bound input in exact arithmetic: a finite number or an
infinity of either sign (NaN is not modelled). -/
inductive Ext where
  | fin (q : ℚ) : Ext
  | pinf : Ext
  | ninf : Ext
  deriving DecidableEq

namespace Ext

instance : Coe ℚ Ext := ⟨Ext.fin⟩

/-- The C library test `isinf`. -/
def isinf : Ext → Bool
  | fin _ => false
  | pinf => true
  | ninf => true

/-- Comparison `a < b` of doubles. -/
def lt : Ext → Ext → Prop
  | fin a, fin b => a < b
  | fin _, pinf => True
  | fin _, ninf => False
  | pinf, _ => False
  | ninf, fin _ => True
  | ninf, pinf => True
  | ninf, ninf => False

/-- Comparison `a <= b` of doubles. -/
def le : Ext → Ext → Prop
  | fin a, fin b => a ≤ b
  | fin _, pinf => True
  | fin _, ninf => False
  | pinf, fin _ => False
  | pinf, pinf => True
  | pinf, ninf => False
  | ninf, _ => True

instance : LT Ext := ⟨Ext.lt⟩

instance : LE Ext := ⟨Ext.le⟩

instance decLt : (a b : Ext) → Decidable (a < b)
  | fin a, fin b => inferInstanceAs (Decidable (a < b))
  | fin _, pinf => isTrue trivial
  | fin _, ninf => isFalse (fun h => h)
  | pinf, fin _ => isFalse (fun h => h)
  | pinf, pinf => isFalse (fun h => h)
  | pinf, ninf => isFalse (fun h => h)
  | ninf, fin _ => isTrue trivial
  | ninf, pinf => isTrue trivial
  | ninf, ninf => isFalse (fun h => h)

instance decLe : (a b : Ext) → Decidable (a ≤ b)
  | fin a, fin b => inferInstanceAs (Decidable (a ≤ b))
  | fin _, pinf => isTrue trivial
  | fin _, ninf => isFalse (fun h => h)
  | pinf, fin _ => isFalse (fun h => h)
  | pinf, pinf => isTrue trivial
  | pinf, ninf => isFalse (fun h => h)
  | ninf, fin _ => isTrue trivial
  | ninf, pinf => isTrue trivial
  | ninf, ninf => isTrue trivial

/-- Sum `b + e` of a bound and a finite number. -/
def add : Ext → ℚ → Ext
  | fin a, e => fin (a + e)
  | pinf, _ => pinf
  | ninf, _ => ninf

/-- Difference `b - e` of a bound and a finite number. -/
def sub : Ext → ℚ → Ext
  | fin a, e => fin (a - e)
  | pinf, _ => pinf
  | ninf, _ => ninf

/-- Difference `z - b` of a finite number and a bound. -/
def rsub : ℚ → Ext → Ext
  | z, fin a => fin (z - a)
  | _, pinf => ninf
  | _, ninf => pinf

/-- Quotient `b / d` of a bound by a finite number (only used with `d` nonzero). -/
def div : Ext → ℚ → Ext
  | fin a, d => fin (a / d)
  | pinf, d => if 0 < d then pinf else ninf
  | ninf, d => if 0 < d then ninf else pinf

/-- The value when it is finite, for storing in a work vector. -/
def finite : Ext → Option ℚ
  | fin a => some a
  | pinf => none
  | ninf => none

end Ext

/-! ## Sparsity patterns and work vectors -/

/-- Compressed-column sparsity pattern: column `c` owns the nonzero slots
`colind c, ..., colind (c+1) - 1`, and `row k` is the row of slot `k`. -/
structure Sparsity where
  nrow : Nat
  ncol : Nat
  colind : Nat → Nat
  row : Nat → Nat

/-- The nonzero slots `colind[c] <= k < colind[c+1]` of column `c`, in loop order. -/
def Sparsity.col (sp : Sparsity) (c : Nat) : List Nat :=
  List.range' (sp.colind c) (sp.colind (c + 1) - sp.colind c)

/-- Number of structural nonzeros, `colind[ncol]`. -/
def Sparsity.nnz (sp : Sparsity) : Nat := sp.colind sp.ncol

/-- Pointer offset `v + n`. -/
def offset (v : Nat → α) (n : Nat) : Nat → α := fun i => v (n + i)

/-- The vector whose first `n` entries are those of `v` and whose later entries
are those of `u`, as after writing `u` to `v + n`. -/
def splice (v : Nat → α) (n : Nat) (u : Nat → α) : Nat → α :=
  fun i => if i < n then v i else u (i - n)

/-- Modelled from the spec: dense `axpy`, `y <- y + alpha x` on the first `n` entries. -/
def casadi_axpy (n : Nat) (alpha : ℚ) (x y : Nat → ℚ) : Nat → ℚ :=
  fun i => if i < n then y i + alpha * x i else y i

/-- Modelled from the spec: dense `scal`, `x <- alpha x` on the first `n` entries. -/
def casadi_scal (n : Nat) (alpha : ℚ) (x : Nat → ℚ) : Nat → ℚ :=
  fun i => if i < n then alpha * x i else x i

/-- Modelled from the spec: dense `fill` of the first `n` entries. -/
def casadi_fill (x : Nat → ℚ) (n : Nat) (alpha : ℚ) : Nat → ℚ :=
  fun i => if i < n then alpha else x i

/-- Modelled from the spec: dense `copy` of the first `n` entries of `x` into `y`. -/
def casadi_copy (x : Nat → α) (n : Nat) (y : Nat → α) : Nat → α :=
  fun i => if i < n then x i else y i

/-- Modelled from the spec: dense `dot` of the first `n` entries. -/
def casadi_dot (n : Nat) (x y : Nat → ℚ) : ℚ :=
  (List.range n).foldl (fun r i => r + x i * y i) 0

/-- Modelled from the spec: sparse matrix-vector multiply `mv(M, sp, x, y, trans)`,
`y <- y + M x` or `y <- y + Mᵀ x`, looping over the columns and their slots. -/
def casadi_mv (x : Nat → ℚ) (sp : Sparsity) (z y : Nat → ℚ) (tr : Bool) : Nat → ℚ :=
  (List.range sp.ncol).foldl (fun y cc =>
    (sp.col cc).foldl (fun y el =>
      if tr then Function.update y cc (y cc + x el * z (sp.row el))
      else Function.update y (sp.row el) (y (sp.row el) + x el * z cc)) y) y

/-- Modelled from the spec: sparse quadratic form `bilin(M, sp, x, y) = xᵀ M y`. -/
def casadi_bilin (A : Nat → ℚ) (sp : Sparsity) (x y : Nat → ℚ) : ℚ :=
  (List.range sp.ncol).foldl (fun r cc =>
    (sp.col cc).foldl (fun r el => r + x (sp.row el) * A el * y cc) r) 0

/-- Modelled from the spec: sparse transpose `trans(M, sp_in, M_out, sp_out, iw)`;
slot `k` of the input goes to the next free slot of column `row_in[k]` of the output. -/
def casadi_trans (x : Nat → ℚ) (sp_x : Sparsity) (y : Nat → ℚ) (sp_y : Sparsity) :
    Nat → ℚ :=
  ((List.range sp_x.nnz).foldl (fun (st : (Nat → ℚ) × (Nat → Nat)) k =>
    (Function.update st.1 (st.2 (sp_x.row k)) (x k),
     Function.update st.2 (sp_x.row k) (st.2 (sp_x.row k) + 1))) (y, sp_y.colind)).1

/-- Modelled from the spec: sparse projection `project(x_in, sp_in, x_out, sp_out, w)`
onto another sparsity, column by column through the dense scratch column `w`:
entries of the target that the source does not have become zero. -/
def casadi_project (x : Nat → ℚ) (sp_x : Sparsity) (y : Nat → ℚ) (sp_y : Sparsity)
    (w : Nat → ℚ) : Nat → ℚ :=
  ((List.range sp_x.ncol).foldl (fun (st : (Nat → ℚ) × (Nat → ℚ)) i =>
    let w1 := (sp_y.col i).foldl (fun w el => Function.update w (sp_y.row el) 0) st.2
    let w2 := (sp_x.col i).foldl (fun w el => Function.update w (sp_x.row el) (x el)) w1
    ((sp_y.col i).foldl (fun y el => Function.update y el (w2 (sp_y.row el))) st.1, w2))
    (y, w)).1

/-! ## Problem data -/

/-- The members of the solver instance that `eval` reads: dimensions, the
sparsity patterns prepared by `init`, and the options. -/
structure ConicActiveSet where
  nx_ : Nat
  na_ : Nat
  H_ : Sparsity
  A_ : Sparsity
  AT_ : Sparsity
  kkt_ : Sparsity
  kktd_ : Sparsity
  max_iter_ : Int
  tol_ : ℚ

/-- The numeric inputs of `eval` (`arg[CONIC_H]`, ...). -/
structure Args where
  h : Nat → ℚ
  g : Nat → ℚ
  a : Nat → ℚ
  lba : Nat → Ext
  uba : Nat → Ext
  lbx : Nat → Ext
  ubx : Nat → Ext
  x0 : Nat → ℚ
  lam_x0 : Nat → ℚ
  lam_a0 : Nat → ℚ

/-- Inner loop of `casadi_set_sub` over the slots `k, k+1, ...` of one column,
up to `kend`, stopping at the first row that is not below `rend`; `cnt` counts
the values of `y` consumed so far. -/
def casadi_set_sub_col (y : Nat → ℚ) (sp_x : Sparsity) (rbeg rend kend : Nat) :
    Nat → Nat → (Nat → ℚ) × Nat → (Nat → ℚ) × Nat
  | 0, _, st => st
  | fuel + 1, k, st =>
    if k < kend ∧ sp_x.row k < rend then
      casadi_set_sub_col y sp_x rbeg rend kend fuel (k + 1)
        (if sp_x.row k ≥ rbeg then (Function.update st.1 k (y st.2), st.2 + 1) else st)
    else st

/-- `casadi_set_sub(y, x, sp_x, rbeg, rend, cbeg, cend)`: the values of `y` are
written, in order, to the slots of `x` inside the subblock. -/
def casadi_set_sub (y : Nat → ℚ) (x : Nat → ℚ) (sp_x : Sparsity)
    (rbeg rend cbeg cend : Nat) : Nat → ℚ :=
  ((List.range' cbeg (cend - cbeg)).foldl (fun st c =>
    casadi_set_sub_col y sp_x rbeg rend (sp_x.colind (c + 1))
      (sp_x.colind (c + 1) - sp_x.colind c) (sp_x.colind c) st) (x, 0)).1

/-! ## Initialisation -/

/-- Bounds on `z`: `lbz = [lbx; lba]`. -/
def lbz (S : ConicActiveSet) (P : Args) : Nat → Ext :=
  casadi_copy P.lbx S.nx_ (fun i => P.lba (i - S.nx_))

/-- Bounds on `z`: `ubz = [ubx; uba]`. -/
def ubz (S : ConicActiveSet) (P : Args) : Nat → Ext :=
  casadi_copy P.ubx S.nx_ (fun i => P.uba (i - S.nx_))

/-- Transpose of `A` on the sparsity `AT_`. -/
def trans_a (S : ConicActiveSet) (P : Args) : Nat → ℚ :=
  casadi_trans P.a S.A_ (fun _ => 0) S.AT_

/-- The assembled KKT matrix `[[H, Aᵀ], [A, 0]]` on the sparsity `kkt_`
(the work vector starts from zeros). -/
def kkt (S : ConicActiveSet) (P : Args) : Nat → ℚ :=
  let k1 := casadi_set_sub P.h (fun _ => 0) S.kkt_ 0 S.nx_ 0 S.nx_
  let k2 := casadi_set_sub P.a k1 S.kkt_ S.nx_ (S.nx_ + S.na_) 0 S.nx_
  casadi_set_sub (trans_a S P) k2 S.kkt_ 0 S.nx_ S.nx_ (S.nx_ + S.na_)

/-- Look for all-zero rows in `kkt`: `iw[r]` stays `1` unless some slot of row
`r` has magnitude above `1e-16`. -/
def allzero (kkt : Nat → ℚ) (kkt_ : Sparsity) (n : Nat) : Nat → Bool :=
  (List.range n).foldl (fun iw c =>
    (kkt_.col c).foldl (fun iw k =>
      if |kkt k| > 1 / 10 ^ 16 then Function.update iw (kkt_.row k) false else iw) iw)
    (fun _ => true)

/-- The three sign-feasibility flag vectors. -/
structure Flags where
  neverzero : Nat → Bool
  neverupper : Nat → Bool
  neverlower : Nat → Bool

/-- Permitted signs for `lam`: the body of the loop over `c`. -/
def permitted_signs (nx : Nat) (lbz ubz : Nat → Ext) (iw : Nat → Bool) : Flags where
  neverzero := fun c => if iw c then (if c < nx then true else decide (lbz c = ubz c))
    else decide (lbz c = ubz c)
  neverupper := fun c => if iw c then (if c < nx then (ubz c).isinf else true)
    else (ubz c).isinf
  neverlower := fun c => if iw c then (if c < nx then (lbz c).isinf else true)
    else (lbz c).isinf

/-- The flags as `eval` computes them from the problem. -/
def flags (S : ConicActiveSet) (P : Args) : Flags :=
  permitted_signs S.nx_ (lbz S P) (ubz S P) (allzero (kkt S P) S.kkt_ (S.nx_ + S.na_))

/-- Calculate `g`: `z[nx..] <- A z[..nx]`. -/
def calc_g (S : ConicActiveSet) (P : Args) (z : Nat → ℚ) : Nat → ℚ :=
  splice z S.nx_ (casadi_mv P.a S.A_ z (casadi_fill (offset z S.nx_) S.na_ 0) false)

/-- The value given to `lam[i]` when the initial active set is determined. -/
def initial_lam (F : Flags) (z : Nat → ℚ) (lbz : Nat → Ext) (lam : Nat → ℚ) (i : Nat) : ℚ :=
  if !F.neverzero i then 0
  else if F.neverupper i ∨ (z i : Ext) ≤ lbz i then min (lam i) (-DMIN)
  else max (lam i) DMIN

/-- Determine initial active set, over the indices in the list; the error is the
index of the failed assertion `No sign possible for i`. -/
def initial_active_set (F : Flags) (z : Nat → ℚ) (lbz : Nat → Ext) :
    List Nat → (Nat → ℚ) → Except Nat (Nat → ℚ)
  | [], lam => .ok lam
  | i :: is, lam =>
    if !(!F.neverzero i || !F.neverupper i || !F.neverlower i) then .error i
    else initial_active_set F z lbz is (Function.update lam i (initial_lam F z lbz lam i))

/-- The initial guess `z = [x0; A x0]`. -/
def z_init (S : ConicActiveSet) (P : Args) : Nat → ℚ :=
  calc_g S P (casadi_copy P.x0 S.nx_ (fun _ => 0))

/-- The initial guess `lam = [lam_x0; lam_a0]`. -/
def lam_init (S : ConicActiveSet) (P : Args) : Nat → ℚ :=
  splice P.lam_x0 S.nx_ P.lam_a0

/-- The multipliers after the initial active set has been determined, or the
index for which no sign is possible. -/
def lam_start (S : ConicActiveSet) (P : Args) : Except Nat (Nat → ℚ) :=
  initial_active_set (flags S P) (z_init S P) (lbz S P) (List.range (S.nx_ + S.na_))
    (lam_init S P)

/-! ## The sparse QR kernel -/

/-- The sparse QR routines that `eval` calls on the working KKT matrix, taken as
given: `singular` is `casadi_qr` followed by `casadi_qr_singular` with threshold
`1e-12`; `solve` is `casadi_qr_solve` with `tr = 1` on that factorization; and
`colcomb` is `casadi_qr_colcomb` at the index of the smallest diagonal of `R`. -/
structure QRKernel where
  singular : Sparsity → (Nat → ℚ) → Bool
  solve : Sparsity → (Nat → ℚ) → (Nat → ℚ) → (Nat → ℚ)
  colcomb : Sparsity → (Nat → ℚ) → (Nat → ℚ)

/-! ## One pass of the QP iteration -/

/-- The ways `eval` can stop other than by returning a flag. -/
inductive Err where
  | no_sign (i : Nat) : Err
  | dev_assert : Err
  | inconsistent_step : Err
  | nonfinite : Err
  deriving DecidableEq

/-- The variables that live across passes of the `while (true)` loop. -/
structure State where
  z : Nat → ℚ
  lam : Nat → ℚ
  new_active_set : Bool
  tau : ℚ
  sing : Bool
  sing_ind : Int
  sing_sign : Int
  iter : Int
  fk : ℚ

/-- Evaluate gradient of the Lagrangian: `glag = g + H z + Aᵀ lam[nx..]`. -/
def calc_glag (S : ConicActiveSet) (P : Args) (z lam : Nat → ℚ) : Nat → ℚ :=
  casadi_mv P.a S.A_ (offset lam S.nx_)
    (casadi_mv P.h S.H_ z (casadi_copy P.g S.nx_ (fun _ => 0)) false) true

/-- Recalculate `lam(x)`, without changing the sign. -/
def recalc_lam (nx : Nat) (glag lam : Nat → ℚ) : Nat → ℚ :=
  fun i => if i < nx then
      (if lam i > 0 then max (-glag i) DMIN
       else if lam i < 0 then min (-glag i) (-DMIN) else lam i)
    else lam i

/-- Calculate cost: `fk = bilin(H, z, z)/2 + dot(z, g)`. -/
def calc_fk (S : ConicActiveSet) (P : Args) (z : Nat → ℚ) : ℚ :=
  casadi_bilin P.h S.H_ z z / 2 + casadi_dot S.nx_ z P.g

/-- The running values `prerr`, `iprerr`, `prerr_pos` of the bound-violation scan. -/
structure PrErr where
  prerr : ℚ
  iprerr : Int
  prerr_pos : Bool

/-- Look for largest bound violation, over the indices in the list. -/
def prerr_scan (z : Nat → ℚ) (lbz ubz : Nat → Ext) : List Nat → PrErr → Except Err PrErr
  | [], st => .ok st
  | i :: is, st =>
    if (ubz i).add st.prerr < (z i : Ext) then
      match (Ext.rsub (z i) (ubz i)).finite with
      | some p => prerr_scan z lbz ubz is ⟨p, i, true⟩
      | none => .error .nonfinite
    else if (z i : Ext) < (lbz i).sub st.prerr then
      match ((lbz i).sub (z i)).finite with
      | some p => prerr_scan z lbz ubz is ⟨p, i, false⟩
      | none => .error .nonfinite
    else prerr_scan z lbz ubz is st

/-- The running values `duerr`, `iduerr`, `duerr_pos` of the dual scan. -/
structure DuErr where
  duerr : ℚ
  iduerr : Int
  duerr_pos : Bool

/-- Calculate dual infeasibility `infeas = glag + lam` on the first `nx` entries. -/
def calc_infeas (nx : Nat) (glag lam : Nat → ℚ) : Nat → ℚ :=
  fun i => if i < nx then glag i + lam i else 0

/-- The scan for the largest `|infeas[i]|`, over the indices in the list. -/
def duerr_scan (glag lam : Nat → ℚ) : List Nat → DuErr → DuErr
  | [], st => st
  | i :: is, st =>
    if |glag i + lam i| > st.duerr then
      duerr_scan glag lam is ⟨|glag i + lam i|, i, decide (glag i + lam i > 0)⟩
    else duerr_scan glag lam is st

/-- If last step was full, add constraint?  Returns the multipliers and
`new_active_set`. -/
def post_step (s : State) (e : PrErr) (z lam : Nat → ℚ) (lbz : Nat → Ext) :
    Except Err ((Nat → ℚ) × Bool) :=
  if !s.new_active_set then
    if s.sing then
      if s.sing_ind ≥ 0 then
        .ok (Function.update lam s.sing_ind.toNat
              (if s.sing_sign = 0 then 0 else if s.sing_sign < 0 then -DMIN else DMIN), true)
      else .error .dev_assert
    else if e.iprerr ≥ 0 ∧ lam e.iprerr.toNat = 0 then
      .ok (Function.update lam e.iprerr.toNat
            (if (z e.iprerr.toNat : Ext) < lbz e.iprerr.toNat then -DMIN else DMIN), true)
    else .ok (lam, s.new_active_set)
  else .ok (lam, s.new_active_set)

/-- Overwrite the slots of column `c` of `kktd`: diagonal entry `d`, others `0`. -/
def set_column (sp : Sparsity) (c : Nat) (d : ℚ) (kktd : Nat → ℚ) : Nat → ℚ :=
  (sp.col c).foldl (fun kktd k => Function.update kktd k (if sp.row k = c then d else 0)) kktd

/-- Copy `kkt` to `kktd` and loop over the `kktd` columns: an active box column
becomes the unit column, an inactive linear column minus the unit column. -/
def calc_kktd (S : ConicActiveSet) (kkt lam : Nat → ℚ) : Nat → ℚ :=
  let k0 := casadi_project kkt S.kkt_ (fun _ => 0) S.kktd_ (fun _ => 0)
  let k1 := (List.range S.nx_).foldl
    (fun kktd c => if lam c ≠ 0 then set_column S.kktd_ c 1 kktd else kktd) k0
  (List.range S.na_).foldl
    (fun kktd c => if lam (S.nx_ + c) = 0 then set_column S.kktd_ (S.nx_ + c) (-1) kktd
      else kktd) k1

/-- KKT residual at index `i`. -/
def kkt_residual (nx : Nat) (z lam glag : Nat → ℚ) (lbz ubz : Nat → Ext) (i : Nat) :
    Option ℚ :=
  if lam i > 0 then (Ext.rsub (z i) (ubz i)).finite
  else if lam i < 0 then (Ext.rsub (z i) (lbz i)).finite
  else if i < nx then some (glag i)
  else some (-lam i)

/-- The loop that writes the KKT residual into `dz`, over the indices in the list. -/
def residual_loop (nx : Nat) (z lam glag : Nat → ℚ) (lbz ubz : Nat → Ext) :
    List Nat → (Nat → ℚ) → Except Err (Nat → ℚ)
  | [], dz => .ok dz
  | i :: is, dz =>
    match kkt_residual nx z lam glag lbz ubz i with
    | some r => residual_loop nx z lam glag lbz ubz is (Function.update dz i r)
    | none => .error .nonfinite

/-- Calculate search direction: the value of `dz` before the steps in `lam` and
`z(g)` are split off.  In a singular pass a linear combination of the columns of
`kktd`, otherwise the solution of the transposed system for minus the residual. -/
def search_direction (qr : QRKernel) (S : ConicActiveSet) (sing : Bool)
    (kktd z lam glag : Nat → ℚ) (lbz ubz : Nat → Ext) : Except Err (Nat → ℚ) :=
  if sing then .ok (qr.colcomb S.kktd_ kktd)
  else
    match residual_loop S.nx_ z lam glag lbz ubz (List.range (S.nx_ + S.na_)) (fun _ => 0) with
    | .ok r => .ok (qr.solve S.kktd_ kktd (casadi_scal (S.nx_ + S.na_) (-1) r))
    | .error e => .error e

/-- Step in `lam`: `dlam(x) = -(H dz + Aᵀ dz[nx..])`, zero for inactive box
constraints, and `dlam(g) = dz[nx..]`. -/
def calc_dlam (S : ConicActiveSet) (P : Args) (lam dz : Nat → ℚ) : Nat → ℚ :=
  let d1 := casadi_mv P.a S.A_ (offset dz S.nx_)
    (casadi_mv P.h S.H_ dz (casadi_fill (fun _ => 0) S.nx_ 0) false) true
  let d2 := casadi_scal S.nx_ (-1) d1
  let d3 : Nat → ℚ := fun i => if i < S.nx_ ∧ lam i = 0 then 0 else d2 i
  splice d3 S.nx_ (casadi_copy (offset dz S.nx_) S.na_ (fun _ => 0))

/-- Step in `z(g)`: `dz[nx..] <- A dz[..nx]`. -/
def calc_dz (S : ConicActiveSet) (P : Args) (dz : Nat → ℚ) : Nat → ℚ :=
  splice dz S.nx_ (casadi_mv P.a S.A_ dz (casadi_fill (offset dz S.nx_) S.na_ 0) false)

/-- Tangent of the dual infeasibility at `tau = 0`:
`tinfeas = H dz + Aᵀ dlam[nx..] + dlam[..nx]`. -/
def calc_tinfeas (S : ConicActiveSet) (P : Args) (dz dlam : Nat → ℚ) : Nat → ℚ :=
  casadi_axpy S.nx_ 1 dlam
    (casadi_mv P.a S.A_ (offset dlam S.nx_)
      (casadi_mv P.h S.H_ dz (casadi_fill (fun _ => 0) S.nx_ 0) false) true)

/-! ### Handling of a singular working KKT -/

/-- The best flip found so far: `best_tau` (`none` for the initial `inf`),
`sing_ind`, `sing_sign` and the number `nflip` of flippable constraints. -/
structure Flip where
  best_tau : Option ℚ
  sing_ind : Int
  sing_sign : Int
  nflip : Nat

/-- The test `fabs(tau_test) < fabs(best_tau)`. -/
def Flip.better (f : Flip) (tau_test : ℚ) : Prop :=
  match f.best_tau with
  | none => True
  | some b => |tau_test| < |b|

instance (f : Flip) (t : ℚ) : Decidable (f.better t) := by
  unfold Flip.better; cases f.best_tau <;> infer_instance

/-- The loop over the row of `Aᵀ` for a linear constraint `i`, returning
`at_bound` and `increasing`; it stops at the first increasing entry. -/
def linear_at_bound (duerr : ℚ) (infeas trans_a : Nat → ℚ) (at_row : Nat → Nat) (lami : ℚ) :
    List Nat → Bool × Bool → Bool × Bool
  | [], st => st
  | k :: ks, st =>
    if duerr = |infeas (at_row k) - trans_a k * lami| then
      if trans_a k ≠ 0 ∧
          (decide (infeas (at_row k) > 0) ≠ (decide (trans_a k > 0) == decide (lami > 0))) then
        (true, true)
      else linear_at_bound duerr infeas trans_a at_row lami ks (true, false)
    else linear_at_bound duerr infeas trans_a at_row lami ks st

/-- The test `at_bound && increasing` for an active constraint `i`: we are at the
bound and setting `lam[i] = 0` would increase the dual error. -/
def flip_increases (S : ConicActiveSet) (trans_a : Nat → ℚ) (duerr : ℚ)
    (glag infeas lam : Nat → ℚ) (i : Nat) : Bool :=
  if i < S.nx_ then
    if duerr = |glag i| then decide (decide (glag i > 0) ≠ decide (lam i > 0)) else false
  else
    let r := linear_at_bound duerr infeas trans_a S.AT_.row (lam i) (S.AT_.col (i - S.nx_))
      (false, false)
    r.1 && r.2

/-- The candidate test shared by the lower and upper bound of an inactive
constraint: keep the best `tau_test` that does not increase `max(prerr, duerr)`
and is not below `1e-16` in magnitude. -/
def try_bound (derr tau_test : ℚ) (i : Nat) (sign : Int) (f : Flip) : Flip :=
  if !((derr > 0 ∧ tau_test > 0) ∨ (derr < 0 ∧ tau_test < 0)) then
    if |tau_test| ≥ 1 / 10 ^ 16 then
      if f.better tau_test then { f with best_tau := some tau_test, sing_ind := i, sing_sign := sign }
      else f
    else f
  else f

/-- The dot product `d = (i<nx ? w[i] : -w[i]) - sum_k kkt[k]*w[kkt_row[k]]` over
the slots of column `i` of `kkt`. -/
def flip_dot (S : ConicActiveSet) (kkt w : Nat → ℚ) (i : Nat) : ℚ :=
  (S.kkt_.col i).foldl (fun d k => d - kkt k * w (S.kkt_.row k))
    (if i < S.nx_ then w i else -w i)

/-- The data of a pass that the flip selection reads. -/
structure Iterate where
  z : Nat → ℚ
  lam : Nat → ℚ
  dz : Nat → ℚ
  dlam : Nat → ℚ
  glag : Nat → ℚ
  infeas : Nat → ℚ
  tinfeas : Nat → ℚ
  prerr : ℚ
  duerr : ℚ

/-- Body of the loop `Which constraints can be flipped in order to restore
regularity?` for the index `i`. -/
def flip_candidate (S : ConicActiveSet) (F : Flags) (kkt trans_a w : Nat → ℚ)
    (lbz ubz : Nat → Ext) (derr : ℚ) (v : Iterate) (i : Nat) (f : Flip) : Except Err Flip :=
  if |if i < S.nx_ then v.dz i else v.dlam i| < 1 / 10 ^ 12 then .ok f
  else if |flip_dot S kkt w i| < 1 / 10 ^ 12 then .ok f
  else if v.lam i ≠ 0 ∧ flip_increases S trans_a v.duerr v.glag v.infeas v.lam i then .ok f
  else if v.lam i = 0 then
    if |v.dz i| < 1 / 10 ^ 12 then .ok f
    else
      match (if !F.neverlower i then
          (((lbz i).sub (v.z i)).div (v.dz i)).finite.map (fun t => try_bound derr t i (-1) f)
        else some f) with
      | none => .error .nonfinite
      | some f1 =>
        match (if !F.neverupper i then
            (((ubz i).sub (v.z i)).div (v.dz i)).finite.map (fun t => try_bound derr t i 1 f1)
          else some f1) with
        | none => .error .nonfinite
        | some f2 => .ok { f2 with nflip := f2.nflip + 1 }
  else
    if |v.dlam i| < 1 / 10 ^ 12 then .ok f
    else if !F.neverzero i then
      if (derr > 0 ∧ -v.lam i / v.dlam i > 0) ∨ (derr < 0 ∧ -v.lam i / v.dlam i < 0) then .ok f
      else if f.better (-v.lam i / v.dlam i) then
        .ok { best_tau := some (-v.lam i / v.dlam i), sing_ind := i, sing_sign := 0,
              nflip := f.nflip + 1 }
      else .ok { f with nflip := f.nflip + 1 }
    else .ok { f with nflip := f.nflip + 1 }

/-- The loop over the candidate indices in the list. -/
def select_flip (S : ConicActiveSet) (F : Flags) (kkt trans_a w : Nat → ℚ)
    (lbz ubz : Nat → Ext) (derr : ℚ) (v : Iterate) : List Nat → Flip → Except Err Flip
  | [], f => .ok f
  | i :: is, f =>
    match flip_candidate S F kkt trans_a w lbz ubz derr v i f with
    | .ok f1 => select_flip S F kkt trans_a w lbz ubz derr v is f1
    | .error e => .error e

/-- Change in error in the search direction, `derr`. -/
def calc_derr (e : PrErr) (d : DuErr) (dz infeas tinfeas : Nat → ℚ) : ℚ :=
  let prtau := if e.iprerr < 0 then 0
    else if e.prerr_pos then dz e.iprerr.toNat / e.prerr else -dz e.iprerr.toNat / e.prerr
  let dutau := if d.iduerr < 0 then 0 else tinfeas d.iduerr.toNat / infeas d.iduerr.toNat
  if e.prerr ≥ d.duerr then prtau else dutau

/-- The normal `w`: a linear combination of the rows of `kktd`, from the QR
factorization of the transpose. -/
def left_null (qr : QRKernel) (S : ConicActiveSet) (kktd : Nat → ℚ) : Nat → ℚ :=
  qr.colcomb S.kktd_
    (casadi_copy (casadi_trans kktd S.kktd_ (fun _ => 0) S.kktd_) S.kktd_.nnz kktd)

/-- How the handling of a singular pass ends. -/
inductive SingResult where
  | zero_step (f : Flip) : SingResult
  | cannot_restore (f : Flip) : SingResult
  | scaled (best_tau : ℚ) (f : Flip) : SingResult

/-- Handle singularity: select the best flip and decide between a zero step,
giving up, and scaling the step so that `tau = 1` is the full step. -/
def handle_sing (qr : QRKernel) (S : ConicActiveSet) (F : Flags) (kkt trans_a kktd : Nat → ℚ)
    (lbz ubz : Nat → Ext) (e : PrErr) (d : DuErr) (v : Iterate) (sing_sign : Int) :
    Except Err SingResult :=
  match select_flip S F kkt trans_a (left_null qr S kktd) lbz ubz
      (calc_derr e d v.dz v.infeas v.tinfeas) v (List.range (S.nx_ + S.na_))
      ⟨none, -1, sing_sign, 0⟩ with
  | .error err => .error err
  | .ok f =>
    if f.sing_ind ≥ 0 then
      match f.best_tau with
      | some b =>
        if |b| < 1 / 10 ^ 12 then .ok (.zero_step f)
        else if f.nflip = 0 then .ok (.cannot_restore f)
        else .ok (.scaled b f)
      | none => if f.nflip = 0 then .ok (.cannot_restore f) else .error .nonfinite
    else .ok (.cannot_restore f)

/-! ### Step length -/

/-- The running values `tau`, `index`, `sign` of the step-length calculation. -/
structure Bracket where
  tau : ℚ
  index : Int
  sign : Int

/-- Check if the step is nonzero: `zero_step`. -/
def zero_step (n : Nat) (dz dlam : Nat → ℚ) : Bool :=
  (List.range n).all (fun i => decide (dz i = 0)) &&
    (List.range n).all (fun i => decide (dlam i = 0))

/-- Check primal feasibility in the search direction, over the indices in the
list; the loop runs while `tau > 0`. -/
def primal_bracket (prerr : ℚ) (z dz : Nat → ℚ) (lbz ubz : Nat → Ext) :
    List Nat → Bracket → Except Err Bracket
  | [], b => .ok b
  | i :: is, b =>
    if b.tau > 0 then
      if dz i = 0 then primal_bracket prerr z dz lbz ubz is b
      else if (if dz i < 0 then (z i : Ext) ≤ (lbz i).sub (max prerr (1 / 10 ^ 10))
          else (ubz i).add (max prerr (1 / 10 ^ 10)) ≤ (z i : Ext)) then
        .ok ⟨0, i, if dz i < 0 then -1 else 1⟩
      else if dz i < 0 ∧
          ((z i + b.tau * dz i : ℚ) : Ext) < (lbz i).sub (max prerr (1 / 10 ^ 10)) then
        match ((((lbz i).sub (max prerr (1 / 10 ^ 10))).sub (z i)).div (dz i)).finite with
        | some t =>
          if t ≤ b.tau then primal_bracket prerr z dz lbz ubz is ⟨t, i, -1⟩
          else .error .inconsistent_step
        | none => .error .nonfinite
      else if dz i > 0 ∧
          (ubz i).add (max prerr (1 / 10 ^ 10)) < ((z i + b.tau * dz i : ℚ) : Ext) then
        match ((((ubz i).add (max prerr (1 / 10 ^ 10))).sub (z i)).div (dz i)).finite with
        | some t =>
          if t ≤ b.tau then primal_bracket prerr z dz lbz ubz is ⟨t, i, 1⟩
          else .error .inconsistent_step
        | none => .error .nonfinite
      else primal_bracket prerr z dz lbz ubz is b
    else .ok b

/-- Insert `i` into the list `iw`, before the first entry with a larger `w`. -/
def insert_tau (w : Nat → ℚ) (i : Nat) : List Nat → List Nat
  | [] => [i]
  | j :: js => if w i < w j then i :: j :: js else j :: insert_tau w i js

/-- The crossing points `w` and the ordered list `iw` of candidate indices. -/
structure Crossings where
  w : Nat → ℚ
  iw : List Nat

/-- Calculate and order all `tau` for which there is a sign change, over the
indices in the list. -/
def collect_crossings (lam dlam : Nat → ℚ) (tau : ℚ) : List Nat → Crossings → Crossings
  | [], c => c
  | i :: is, c =>
    if dlam i = 0 then collect_crossings lam dlam tau is c
    else if lam i = 0 then collect_crossings lam dlam tau is c
    else if (if lam i > 0 then lam i ≥ -dlam i else lam i ≤ -dlam i) then
      collect_crossings lam dlam tau is c
    else
      let w1 := if (if lam i > 0 then lam i + tau * dlam i < 0 else lam i + tau * dlam i > 0)
        then Function.update c.w i (-lam i / dlam i) else c.w
      collect_crossings lam dlam tau is ⟨w1, insert_tau w1 i c.iw⟩

/-- The clipped step length `tau1 = fmax(tau_k - dtau*(infeas[k]/tinfeas[k]), 0.)`
of the dual bracket, `none` standing for `+inf`.  The code divides without testing
the tangent: for a zero tangent (the one zero of `ℚ`, read as `+0.0`) the quotient
is infinite with the sign of `infeas[k]`, so that `tau_k - dtau * quotient` is
`+inf` when `dtau` and `infeas[k]` have opposite signs and `-inf` when they have
the same sign, which `fmax` turns into `0`; for `dtau = 0` or `infeas[k] = 0` it is
not a number, and `fmax` returns its other argument `0`. -/
def clip_tau (tau_k dtau infeas tinfeas : ℚ) : Option ℚ :=
  if tinfeas = 0 then
    if (infeas > 0 ∧ dtau < 0) ∨ (infeas < 0 ∧ dtau > 0) then none else some 0
  else some (max (tau_k - dtau * (infeas / tinfeas)) 0)

/-- The inner loop over `k < nx` of the dual bracket: the first `k` whose dual
infeasibility exceeds `e` at distance `dtau` and whose `tau1` is below `tau`
gives the new `tau`; an infinite `tau1` is not below `tau`. -/
def dual_check (e tau_k dtau tau : ℚ) (infeas tinfeas : Nat → ℚ) :
    List Nat → Except Err (Option ℚ)
  | [] => .ok none
  | k :: ks =>
    if |infeas k + dtau * tinfeas k| > e then
      match clip_tau tau_k dtau (infeas k) (tinfeas k) with
      | some tau1 =>
        if tau1 < tau then .ok (some tau1)
        else dual_check e tau_k dtau tau infeas tinfeas ks
      | none => dual_check e tau_k dtau tau infeas tinfeas ks
    else dual_check e tau_k dtau tau infeas tinfeas ks

/-- The variables that the dual bracket updates. -/
structure Dual where
  tau : ℚ
  index : Int
  new_active_set : Bool
  tau_k : ℚ
  infeas : Nat → ℚ
  tinfeas : Nat → ℚ
  lam : Nat → ℚ
  dlam : Nat → ℚ

/-- Update the infeasibility tangent when `lam[i]` is set to zero. -/
def drop_tinfeas (S : ConicActiveSet) (trans_a tinfeas lam : Nat → ℚ) (i : Nat) : Nat → ℚ :=
  if i < S.nx_ then Function.update tinfeas i (tinfeas i - lam i)
  else (S.AT_.col (i - S.nx_)).foldl (fun t k =>
    Function.update t (S.AT_.row k) (t (S.AT_.row k) - trans_a k * lam i)) tinfeas

/-- How long step can we take without exceeding `e`?  The loop over the ordered
crossings in the list. -/
def dual_bracket (S : ConicActiveSet) (F : Flags) (trans_a : Nat → ℚ) (duerr : ℚ)
    (w : Nat → ℚ) : List Nat → Dual → Except Err Dual
  | [], d => .ok d
  | i :: is, d =>
    match dual_check (max duerr (1 / 10 ^ 10)) d.tau_k (w i - d.tau_k) d.tau d.infeas d.tinfeas
        (List.range S.nx_) with
    | .error err => .error err
    | .ok (some tau1) => .ok { d with tau := tau1, index := -1, new_active_set := true }
    | .ok none =>
      dual_bracket S F trans_a duerr w is
        { tau := d.tau
          index := d.index
          new_active_set := if (i : Int) ≠ d.index then true else d.new_active_set
          tau_k := w i
          infeas := casadi_axpy S.nx_ (w i - d.tau_k) d.tinfeas d.infeas
          tinfeas := drop_tinfeas S trans_a d.tinfeas d.lam i
          lam := if (i : Int) ≠ d.index then
              Function.update d.lam i
                (if !F.neverzero i then 0 else if d.lam i < 0 then DMIN else -DMIN)
            else d.lam
          dlam := if (i : Int) ≠ d.index then Function.update d.dlam i 0 else d.dlam }

/-- The crossings that the loop of the dual bracket accepts: the candidates
`iw[j]` of the turns that are not ended by `found_tau`, that reach `Accept the
tau`. -/
def dual_accepted (S : ConicActiveSet) (F : Flags) (trans_a : Nat → ℚ) (duerr : ℚ)
    (w : Nat → ℚ) : List Nat → Dual → List Nat
  | [], _ => []
  | i :: is, d =>
    match dual_check (max duerr (1 / 10 ^ 10)) d.tau_k (w i - d.tau_k) d.tau d.infeas d.tinfeas
        (List.range S.nx_) with
    | .error _ => []
    | .ok (some _) => []
    | .ok none =>
      i :: dual_accepted S F trans_a duerr w is
        { tau := d.tau
          index := d.index
          new_active_set := if (i : Int) ≠ d.index then true else d.new_active_set
          tau_k := w i
          infeas := casadi_axpy S.nx_ (w i - d.tau_k) d.tinfeas d.infeas
          tinfeas := drop_tinfeas S trans_a d.tinfeas d.lam i
          lam := if (i : Int) ≠ d.index then
              Function.update d.lam i
                (if !F.neverzero i then 0 else if d.lam i < 0 then DMIN else -DMIN)
            else d.lam
          dlam := if (i : Int) ≠ d.index then Function.update d.dlam i 0 else d.dlam }

/-- Update `lam` carefully: the new `lam[i]`. -/
def update_lam (tau : ℚ) (index sign : Int) (lam dlam : Nat → ℚ) (i : Nat) : ℚ :=
  let s : Int := if lam i > 0 then 1 else if lam i < 0 then -1 else 0
  let s1 : Int := if (i : Int) = index ∧ s ≠ sign then sign else s
  if s1 = -1 then min (lam i + tau * dlam i) (-DMIN)
  else if s1 = 1 then max (lam i + tau * dlam i) DMIN
  else if s1 = 0 then 0
  else lam i + tau * dlam i

/-- Whether the update of `lam` accounts for a sign change at `index`. -/
def sign_changes (n : Nat) (index sign : Int) (lam : Nat → ℚ) : Bool :=
  (List.range n).any (fun i => decide ((i : Int) = index ∧
    (if lam i > 0 then (1 : Int) else if lam i < 0 then -1 else 0) ≠ sign))

/-- What the step-length calculation and the step leave behind. -/
structure Step where
  tau : ℚ
  z : Nat → ℚ
  lam : Nat → ℚ
  new_active_set : Bool

/-- Get maximum step size, take the primal step and update `lam`. -/
def take_step (S : ConicActiveSet) (F : Flags) (trans_a : Nat → ℚ) (lbz ubz : Nat → Ext)
    (prerr duerr : ℚ) (z lam dz dlam infeas tinfeas : Nat → ℚ) : Except Err Step :=
  match primal_bracket prerr z dz lbz ubz (List.range (S.nx_ + S.na_))
      ⟨if zero_step (S.nx_ + S.na_) dz dlam then 0 else 1, -1, 0⟩ with
  | .error err => .error err
  | .ok b =>
    let c := collect_crossings lam dlam b.tau (List.range (S.nx_ + S.na_)) ⟨fun _ => 1, []⟩
    match dual_bracket S F trans_a duerr c.w c.iw
        ⟨b.tau, b.index, false, 0, infeas, tinfeas, lam, dlam⟩ with
    | .error err => .error err
    | .ok d =>
      let index : Int := if d.tau = 1 then -1 else d.index
      .ok { tau := d.tau
            z := casadi_axpy S.nx_ d.tau dz z
            lam := fun i => if i < S.nx_ + S.na_ then update_lam d.tau index b.sign d.lam d.dlam i
              else d.lam i
            new_active_set := d.new_active_set ||
              sign_changes (S.nx_ + S.na_) index b.sign d.lam }

/-- How a pass of the loop ends: at the end of the body or at `continue`, or at
a `break` with the flag to return. -/
inductive Outcome where
  | next (s : State) : Outcome
  | ret (flag : Int) (s : State) : Outcome

/-- The second half of a pass, after the iteration counter has been increased:
search direction, handling of singularity, step. -/
def pass_step (qr : QRKernel) (S : ConicActiveSet) (P : Args) (F : Flags)
    (kkt trans_a : Nat → ℚ) (s : State) (z lam glag infeas kktd : Nat → ℚ) (sing : Bool)
    (e : PrErr) (d : DuErr) (fk : ℚ) : Except Err Outcome :=
  match search_direction qr S sing kktd z lam glag (lbz S P) (ubz S P) with
  | .error err => .error err
  | .ok dz0 =>
    let dlam := calc_dlam S P lam dz0
    let dz := calc_dz S P dz0
    let tinfeas := calc_tinfeas S P dz dlam
    if sing then
      match handle_sing qr S F kkt trans_a kktd (lbz S P) (ubz S P) e d
          ⟨z, lam, dz, dlam, glag, infeas, tinfeas, e.prerr, d.duerr⟩ s.sing_sign with
      | .error err => .error err
      | .ok (.zero_step f) =>
        .ok (.next ⟨z, lam, false, 0, sing, f.sing_ind, f.sing_sign, s.iter + 1, fk⟩)
      | .ok (.cannot_restore f) =>
        .ok (.ret 1 ⟨z, lam, false, s.tau, sing, f.sing_ind, f.sing_sign, s.iter + 1, fk⟩)
      | .ok (.scaled b f) =>
        match take_step S F trans_a (lbz S P) (ubz S P) e.prerr d.duerr z lam
            (casadi_scal (S.nx_ + S.na_) b dz) (casadi_scal (S.nx_ + S.na_) b dlam) infeas
            (casadi_scal S.nx_ b tinfeas) with
        | .error err => .error err
        | .ok t =>
          .ok (.next ⟨t.z, t.lam, t.new_active_set, t.tau, sing, f.sing_ind, f.sing_sign,
            s.iter + 1, fk⟩)
    else
      match take_step S F trans_a (lbz S P) (ubz S P) e.prerr d.duerr z lam dz dlam infeas
          tinfeas with
      | .error err => .error err
      | .ok t =>
        .ok (.next ⟨t.z, t.lam, t.new_active_set, t.tau, sing, s.sing_ind, s.sing_sign,
          s.iter + 1, fk⟩)

/-- One pass of the `while (true)` loop from the state `s`. -/
def pass (qr : QRKernel) (S : ConicActiveSet) (P : Args) (F : Flags)
    (kkt trans_a : Nat → ℚ) (s : State) : Except Err Outcome :=
  let z := calc_g S P s.z
  let glag := calc_glag S P z s.lam
  let lam0 := recalc_lam S.nx_ glag s.lam
  let fk := calc_fk S P z
  match prerr_scan z (lbz S P) (ubz S P) (List.range (S.nx_ + S.na_)) ⟨0, -1, false⟩ with
  | .error err => .error err
  | .ok e =>
    let d := duerr_scan glag lam0 (List.range S.nx_) ⟨0, -1, false⟩
    let infeas := calc_infeas S.nx_ glag lam0
    match post_step s e z lam0 (lbz S P) with
    | .error err => .error err
    | .ok (lam, new_active_set) =>
      let kktd := calc_kktd S kkt lam
      let sing := qr.singular S.kktd_ kktd
      if !new_active_set then
        .ok (.ret 0 ⟨z, lam, new_active_set, s.tau, sing, s.sing_ind, s.sing_sign, s.iter, fk⟩)
      else if s.iter ≥ S.max_iter_ then
        .ok (.ret 1 ⟨z, lam, new_active_set, s.tau, sing, s.sing_ind, s.sing_sign, s.iter, fk⟩)
      else pass_step qr S P F kkt trans_a s z lam glag infeas kktd sing e d fk

/-! ## The solver -/

/-- The indeterminate initial values of the locals `sing`, `sing_ind`, `sing_sign`,
which `eval` declares without initialising. -/
structure Uninit where
  sing : Bool
  sing_ind : Int
  sing_sign : Int

/-- The state at the first pass, or the index for which no sign is possible. -/
def init_state (S : ConicActiveSet) (P : Args) (u : Uninit) : Except Err State :=
  match lam_start S P with
  | .error i => .error (.no_sign i)
  | .ok lam => .ok ⟨z_init S P, lam, true, 0, u.sing, u.sing_ind, u.sing_sign, 0, 0⟩

/-- The `while (true)` loop, for at most `fuel` passes; `none` when the passes
are used up before a `break`. -/
def qp_loop (qr : QRKernel) (S : ConicActiveSet) (P : Args) (F : Flags)
    (kkt trans_a : Nat → ℚ) : Nat → State → Except Err (Option (Int × State))
  | 0, _ => .ok none
  | fuel + 1, s =>
    match pass qr S P F kkt trans_a s with
    | .error err => .error err
    | .ok (.ret flag s1) => .ok (some (flag, s1))
    | .ok (.next s1) => qp_loop qr S P F kkt trans_a fuel s1

/-- The outputs of `eval`: the returned flag and `x`, `lam_x`, `lam_a`, `f`. -/
structure Result where
  flag : Int
  x : Nat → ℚ
  lam_x : Nat → ℚ
  lam_a : Nat → ℚ
  f : ℚ

/-- Calculate optimal cost and get solution from the final state. -/
def copy_out (S : ConicActiveSet) (flag : Int) (s : State) : Result where
  flag := flag
  x := casadi_copy s.z S.nx_ (fun _ => 0)
  lam_x := casadi_copy s.lam S.nx_ (fun _ => 0)
  lam_a := casadi_copy (offset s.lam S.nx_) S.na_ (fun _ => 0)
  f := s.fk

/-- `ConicActiveSet::eval`, run for at most `fuel` passes of the loop. -/
def eval_fuel (qr : QRKernel) (S : ConicActiveSet) (P : Args) (u : Uninit) (fuel : Nat) :
    Except Err (Option Result) :=
  match init_state S P u with
  | .error err => .error err
  | .ok s0 =>
    match qp_loop qr S P (flags S P) (kkt S P) (trans_a S P) fuel s0 with
    | .error err => .error err
    | .ok none => .ok none
    | .ok (some (flag, s)) => .ok (some (copy_out S flag s))

/-- `ConicActiveSet::eval`: the loop needs at most `max(max_iter, 0) + 1` passes. -/
def eval (qr : QRKernel) (S : ConicActiveSet) (P : Args) (u : Uninit) :
    Except Err (Option Result) :=
  eval_fuel qr S P u (S.max_iter_.toNat + 1)

/-! ## Predicates used in the statements -/

/-- Row `r` of the KKT matrix is all-zero: every slot of row `r` in the first `n`
columns has magnitude at most `1e-16`. -/
def RowAllZero (kkt : Nat → ℚ) (kkt_ : Sparsity) (n r : Nat) : Prop :=
  ∀ c < n, ∀ k ∈ kkt_.col c, kkt_.row k = r → |kkt k| ≤ 1 / 10 ^ 16

/-! ## Small concrete problems -/

/-- A vector given by the list of its entries. -/
def vec (l : List α) (d : α) : Nat → α := fun i => l.getD i d

/-- A sparsity pattern given by the lists `colind` and `row`. -/
def Sparsity.ofLists (nrow ncol : Nat) (colind row : List Nat) : Sparsity :=
  ⟨nrow, ncol, vec colind 0, vec row 0⟩

/-- The solver instance for one variable and no linear constraints, with the
entry of `H` stored: every pattern is the full 1-by-1 pattern. -/
def solver1 (max_iter : Int) : ConicActiveSet where
  nx_ := 1
  na_ := 0
  H_ := Sparsity.ofLists 1 1 [0, 1] [0]
  A_ := Sparsity.ofLists 0 1 [0, 0] []
  AT_ := Sparsity.ofLists 1 0 [0] []
  kkt_ := Sparsity.ofLists 1 1 [0, 1] [0]
  kktd_ := Sparsity.ofLists 1 1 [0, 1] [0]
  max_iter_ := max_iter
  tol_ := 1 / 10 ^ 8

/-- The inputs of a problem with one variable: minimize `h x^2 / 2 + g x` subject
to `lbx <= x <= ubx`, from the initial guess `x0`, `lam_x0`. -/
def args1 (h g : ℚ) (lbx ubx : Ext) (x0 lam_x0 : ℚ) : Args where
  h := vec [h] 0
  g := vec [g] 0
  a := vec [] 0
  lba := vec [] (Ext.fin 0)
  uba := vec [] (Ext.fin 0)
  lbx := vec [lbx] (Ext.fin 0)
  ubx := vec [ubx] (Ext.fin 0)
  x0 := vec [x0] 0
  lam_x0 := vec [lam_x0] 0
  lam_a0 := vec [] 0

/-- One variable fixed by equal bounds: minimize `x^2` subject to `1 <= x <= 1`,
from `x0 = 0`. -/
def args_fixed : Args := args1 2 0 (Ext.fin 1) (Ext.fin 1) 0 0

/-- The entry of a sparse matrix at row `r` of column `c`: the value in the last
slot of the column that has this row, and `0` when no slot has it. -/
def Sparsity.entry (sp : Sparsity) (v : Nat → ℚ) (r c : Nat) : ℚ :=
  (sp.col c).foldl (fun acc k => if sp.row k = r then v k else acc) 0

/-- The column pointers of the first `n` columns are non-decreasing. -/
def Sparsity.Monotone (sp : Sparsity) (n : Nat) : Prop :=
  ∀ c < n, sp.colind c ≤ sp.colind (c + 1)

/-- The diagonal entry of each of the first `n` columns is stored. -/
def Sparsity.HasDiag (sp : Sparsity) (n : Nat) : Prop :=
  ∀ c < n, ∃ k ∈ sp.col c, sp.row k = c

/-- The value `x` is within the bounds of index `i` relaxed by `e`:
`lbz[i] - e <= x <= ubz[i] + e`. -/
def Within (lbz ubz : Nat → Ext) (e : ℚ) (i : Nat) (x : ℚ) : Prop :=
  (lbz i).sub e ≤ (x : Ext) ∧ (x : Ext) ≤ (ubz i).add e

/-- What the scan of the primal bracket guarantees when it goes from `b` to `b1`:
`tau` stays in `[0, b.tau]`; every scanned index that is within its bounds relaxed
by `e = max(prerr, 1e-10)` stays so along the step up to `b1.tau`; and either
nothing changed or the recorded index is one whose relaxed bound is reached at
some step length `tc` not above `b.tau`, with the sign of its `dz`. -/
def PrimalSpec (prerr : ℚ) (z dz : Nat → ℚ) (lbz ubz : Nat → Ext) (is : List Nat)
    (b b1 : Bracket) : Prop :=
  0 ≤ b1.tau ∧ b1.tau ≤ b.tau ∧
  (∀ i ∈ is, Within lbz ubz (max prerr (1 / 10 ^ 10)) i (z i) →
    ∀ t, 0 ≤ t → t ≤ b1.tau → Within lbz ubz (max prerr (1 / 10 ^ 10)) i (z i + t * dz i)) ∧
  (b1 = b ∨ ∃ i ∈ is, b1.index = (i : Int) ∧ dz i ≠ 0 ∧
    b1.sign = (if dz i < 0 then -1 else 1) ∧ b1.tau < b.tau ∧
    ∃ tc, 0 ≤ tc ∧ tc ≤ b.tau ∧
      (dz i < 0 → ((z i + tc * dz i : ℚ) : Ext) ≤ (lbz i).sub (max prerr (1 / 10 ^ 10))) ∧
      (0 < dz i → (ubz i).add (max prerr (1 / 10 ^ 10)) ≤ ((z i + tc * dz i : ℚ) : Ext)))

/-- The product `(M z)[r]` of a sparse matrix and a vector: the sum over the
columns `cc` and their slots in row `r` of `x[el] * z[cc]`. -/
def Sparsity.mulVec (sp : Sparsity) (x z : Nat → ℚ) (r : Nat) : ℚ :=
  ((List.range sp.ncol).map (fun cc =>
    ((sp.col cc).map (fun el => if sp.row el = r then x el * z cc else 0)).sum)).sum

/-- The product of column `c` of a sparse matrix with a vector, `(Mᵀ z)[c]`: the
sum over the slots of the column of `x[el] * z[row[el]]`. -/
def Sparsity.colDot (sp : Sparsity) (x z : Nat → ℚ) (c : Nat) : ℚ :=
  ((sp.col c).map (fun el => x el * z (sp.row el))).sum

/-- Modelled from the spec: the sparse QR kernel on a 1-by-1 system `[a]`, where
`R = [a]` up to sign: the system is singular when `|a| < 1e-12`, the solve
divides by `a`, and the column combination is `[1]`. -/
def qr_scalar : QRKernel where
  singular := fun _ v => decide (|v 0| < 1 / 10 ^ 12)
  solve := fun _ v b => fun i => if i = 0 then b 0 / v 0 else b i
  colcomb := fun _ _ => fun i => if i = 0 then 1 else 0

/-- A state of zeros, standing for the state after an error. -/
def State.zero : State := ⟨fun _ => 0, fun _ => 0, false, 0, false, 0, 0, 0, 0⟩

/-- The state at the first pass, a state of zeros when initialisation fails. -/
def first_state (S : ConicActiveSet) (P : Args) (u : Uninit) : State :=
  match init_state S P u with
  | .ok s => s
  | .error _ => State.zero

/-- The state that a pass hands to the next pass, if it does. -/
def next_state : Except Err Outcome → Option State
  | .ok (.next s) => some s
  | _ => none

/-- The state with which a pass breaks out of the loop with the given flag. -/
def ret_state (flag : Int) : Except Err Outcome → Option State
  | .ok (.ret f s) => if f = flag then some s else none
  | _ => none

/-- The indeterminate locals, all zero. -/
def uninit0 : Uninit := ⟨false, 0, 0⟩

/-- The state after the first pass of `eval`, a state of zeros when `eval` stops
before. -/
def second_state (qr : QRKernel) (S : ConicActiveSet) (P : Args) (u : Uninit) : State :=
  (next_state (pass qr S P (flags S P) (kkt S P) (trans_a S P) (first_state S P u))).getD
    State.zero

/-- No row is stored twice in any of the first `n` columns. -/
def Sparsity.NodupRows (sp : Sparsity) (n : Nat) : Prop :=
  ∀ c < n, ((sp.col c).map sp.row).Nodup

/-- The QR solve is exact for the matrix `v` on the sparsity `sp` with `n`
columns: for every right-hand side `b` the vector it returns solves the
transposed system, column `c` of the matrix times the solution being `b[c]`. -/
def QRKernel.Exact (qr : QRKernel) (sp : Sparsity) (v : Nat → ℚ) (n : Nat) : Prop :=
  ∀ b : Nat → ℚ, ∀ c < n, sp.colDot v (qr.solve sp v b) c = b c

/-- The columns of the base KKT matrix for the linear constraints hold the rows
of `A`: for every linear index `c` and vector `x`, the entries of column `c` of
`kkt` at the rows that `kktd_` stores, times `x`, sum to `(A x)[c - nx]`. -/
def LinearColumns (S : ConicActiveSet) (P : Args) (kkt : Nat → ℚ) : Prop :=
  ∀ c, S.nx_ ≤ c → c < S.nx_ + S.na_ → ∀ x : Nat → ℚ,
    ((S.kktd_.col c).map (fun k => S.kkt_.entry kkt (S.kktd_.row k) c * x (S.kktd_.row k))).sum =
      S.A_.mulVec P.a x (c - S.nx_)

/-! ## An exact kernel for small dense systems -/

/-- Row `r` of the dense `n`-column matrix stored in `v` on the sparsity `sp`. -/
def Sparsity.dense_row (sp : Sparsity) (v : Nat → ℚ) (n r : Nat) : List ℚ :=
  (List.range n).map (fun c => ((sp.col c).map (fun k => if sp.row k = r then v k else 0)).sum)

/-- Column `c` of the dense `n`-row matrix stored in `v` on the sparsity `sp`. -/
def Sparsity.dense_col (sp : Sparsity) (v : Nat → ℚ) (n c : Nat) : List ℚ :=
  (List.range n).map (fun r => ((sp.col c).map (fun k => if sp.row k = r then v k else 0)).sum)

/-- The first row with a nonzero entry in column `c`, and the other rows. -/
def find_pivot (c : Nat) : List (List ℚ) → Option (List ℚ × List (List ℚ))
  | [] => none
  | row :: rows =>
    if row.getD c 0 ≠ 0 then some (row, rows)
    else match find_pivot c rows with
      | some (p, rest) => some (p, row :: rest)
      | none => none

/-- Subtract from `row` the multiple of the pivot row `p` that clears column `c`. -/
def clear_column (c : Nat) (p row : List ℚ) : List ℚ :=
  List.zipWith (fun a b => a - row.getD c 0 * b) row p

/-- Gauss-Jordan elimination over the columns in the list: `rows` are the rows
without a pivot yet, `done` the pivot columns with their reduced rows. -/
def gauss_jordan : List Nat → List (List ℚ) → List (Nat × List ℚ) → List (Nat × List ℚ)
  | [], _, done => done
  | c :: cs, rows, done =>
    match find_pivot c rows with
    | none => gauss_jordan cs rows done
    | some (p, rest) =>
      let p1 := p.map (fun a => a / p.getD c 0)
      gauss_jordan cs (rest.map (clear_column c p1))
        ((c, p1) :: done.map (fun d => (d.1, clear_column c p1 d.2)))

/-- The entry of the reduced row whose pivot is in column `c`, at position `j`;
zero when column `c` has no pivot. -/
def pivot_entry (done : List (Nat × List ℚ)) (c j : Nat) : ℚ :=
  match done.find? (fun d => d.1 = c) with
  | some d => d.2.getD j 0
  | none => 0

/-- A vector in the null space of the matrix with the given rows: `1` at the
first column without a pivot, minus the reduced entries at the pivot columns;
zero when every column has a pivot. -/
def null_vector (n : Nat) (rows : List (List ℚ)) : Nat → ℚ :=
  let done := gauss_jordan (List.range n) rows []
  match (List.range n).find? (fun c => (done.find? (fun d => d.1 = c)).isNone) with
  | none => fun _ => 0
  | some f => fun i => if i = f then 1 else -pivot_entry done i f

/-- Modelled from the spec: the sparse QR kernel on an `n`-by-`n` system in exact
arithmetic, by Gauss-Jordan elimination of the dense matrix: the matrix is
singular when some column has no pivot, the solve returns the solution of the
transposed system, and the column combination is a vector that the matrix maps
to zero. -/
def qr_exact (n : Nat) : QRKernel where
  singular := fun sp v =>
    decide ((gauss_jordan (List.range n) ((List.range n).map (sp.dense_row v n)) []).length < n)
  solve := fun sp v b =>
    let done := gauss_jordan (List.range n)
      ((List.range n).map (fun c => sp.dense_col v n c ++ [b c])) []
    fun i => if i < n then pivot_entry done i n else b i
  colcomb := fun sp v => null_vector n ((List.range n).map (sp.dense_row v n))

/-- The solver instance for one variable and one linear constraint, with the
entries of `H` and `A` stored: `kkt_` has the column `[H; A]` and the column
`[Aᵀ]`, and `kktd_` is the full 2-by-2 pattern. -/
def solver11 (max_iter : Int) : ConicActiveSet where
  nx_ := 1
  na_ := 1
  H_ := Sparsity.ofLists 1 1 [0, 1] [0]
  A_ := Sparsity.ofLists 1 1 [0, 1] [0]
  AT_ := Sparsity.ofLists 1 1 [0, 1] [0]
  kkt_ := Sparsity.ofLists 2 2 [0, 2, 3] [0, 1, 0]
  kktd_ := Sparsity.ofLists 2 2 [0, 2, 4] [0, 1, 0, 1]
  max_iter_ := max_iter
  tol_ := 1 / 10 ^ 8

/-- The inputs of a problem with one variable and one linear constraint:
minimize `h x^2 / 2 + g x` subject to `lbx <= x <= ubx` and `lba <= a x <= uba`,
from the initial guess `x0`, `lam_x0`, `lam_a0`. -/
def args11 (h g a : ℚ) (lbx ubx lba uba : Ext) (x0 lam_x0 lam_a0 : ℚ) : Args where
  h := vec [h] 0
  g := vec [g] 0
  a := vec [a] 0
  lba := vec [lba] (Ext.fin 0)
  uba := vec [uba] (Ext.fin 0)
  lbx := vec [lbx] (Ext.fin 0)
  ubx := vec [ubx] (Ext.fin 0)
  x0 := vec [x0] 0
  lam_x0 := vec [lam_x0] 0
  lam_a0 := vec [lam_a0] 0

/-- One variable and one equality constraint: minimize `x` subject to `1 <= x`
and `x = -1`, from `x0 = 0` with `lam_a0 = 1`. -/
def args_clash : Args := args11 0 1 1 (Ext.fin 1) Ext.pinf (Ext.fin (-1)) (Ext.fin (-1)) 0 0 1

/-- The vector inside an `Except` result, zeros after an error. -/
def vector_of (r : Except Err (Nat → ℚ)) : Nat → ℚ :=
  match r with
  | .ok v => v
  | .error _ => fun _ => 0

/-- Whether a result is not an error. -/
def is_ok {α : Type} (r : Except Err α) : Bool :=
  match r with
  | .ok _ => true
  | .error _ => false

/-- One variable with a tiny curvature and no upper bound: minimize
`1e-17 x^2 / 2` subject to `-1 <= x`, from `x0 = 0`. -/
def args_tiny : Args := args1 (1 / 10 ^ 17) 0 (Ext.fin (-1)) Ext.pinf 0 0

/-- The error of a result, if it is one. -/
def error_of {α : Type} (r : Except Err α) : Option Err :=
  match r with
  | .ok _ => none
  | .error e => some e

/-- What the step-length calculation of a pass leaves behind: the acceptable
dual error `e_du = max(duerr, 1e-10)`, the bracket left by the primal scan, and
the variables of the dual bracket at its end. -/
structure DualTrace where
  e_du : ℚ
  primal : Bracket
  dual : Dual

/-- The step-length calculation of a non-singular pass from the state `s`, with
the same quantities as in `pass`; `none` when the pass returns before, is
singular or stops with an error. -/
def pass_dual (qr : QRKernel) (S : ConicActiveSet) (P : Args) (F : Flags)
    (kkt trans_a : Nat → ℚ) (s : State) : Option DualTrace :=
  let z := calc_g S P s.z
  let glag := calc_glag S P z s.lam
  let lam0 := recalc_lam S.nx_ glag s.lam
  match prerr_scan z (lbz S P) (ubz S P) (List.range (S.nx_ + S.na_)) ⟨0, -1, false⟩ with
  | .error _ => none
  | .ok e =>
    let d := duerr_scan glag lam0 (List.range S.nx_) ⟨0, -1, false⟩
    let infeas := calc_infeas S.nx_ glag lam0
    match post_step s e z lam0 (lbz S P) with
    | .error _ => none
    | .ok (lam, new_active_set) =>
      let kktd := calc_kktd S kkt lam
      if !new_active_set || decide (s.iter ≥ S.max_iter_) || qr.singular S.kktd_ kktd then none
      else
        match search_direction qr S false kktd z lam glag (lbz S P) (ubz S P) with
        | .error _ => none
        | .ok dz0 =>
          let dlam := calc_dlam S P lam dz0
          let dz := calc_dz S P dz0
          let tinfeas := calc_tinfeas S P dz dlam
          match primal_bracket e.prerr z dz (lbz S P) (ubz S P) (List.range (S.nx_ + S.na_))
              ⟨if zero_step (S.nx_ + S.na_) dz dlam then 0 else 1, -1, 0⟩ with
          | .error _ => none
          | .ok b =>
            let c := collect_crossings lam dlam b.tau (List.range (S.nx_ + S.na_))
              ⟨fun _ => 1, []⟩
            match dual_bracket S F trans_a d.duerr c.w c.iw
                ⟨b.tau, b.index, false, 0, infeas, tinfeas, lam, dlam⟩ with
            | .error _ => none
            | .ok dd => some ⟨max d.duerr (1 / 10 ^ 10), b, dd⟩

/-- The solver instance for two variables and one linear constraint, with the
diagonal of `H` and both entries of `A` stored. -/
def solver21 (max_iter : Int) : ConicActiveSet where
  nx_ := 2
  na_ := 1
  H_ := Sparsity.ofLists 2 2 [0, 1, 2] [0, 1]
  A_ := Sparsity.ofLists 1 2 [0, 1, 2] [0, 0]
  AT_ := Sparsity.ofLists 2 1 [0, 2] [0, 1]
  kkt_ := Sparsity.ofLists 3 3 [0, 2, 4, 6] [0, 2, 1, 2, 0, 1]
  kktd_ := Sparsity.ofLists 3 3 [0, 2, 4, 7] [0, 2, 1, 2, 0, 1, 2]
  max_iter_ := max_iter
  tol_ := 1 / 10 ^ 8

/-- A feasible strictly convex problem: minimize `x0^2 + x1^2 + 3 x0 + 2 x1`
subject to `x0 <= 2`, `1 <= x1` and `x0 + x1 = -2`, from `x0 = (0, -3)` with
`lam_a0 = 2`; the solution is `x = (-3, 1)`. -/
def args_crossing : Args where
  h := vec [2, 2] 0
  g := vec [3, 2] 0
  a := vec [1, 1] 0
  lba := vec [Ext.fin (-2)] (Ext.fin 0)
  uba := vec [Ext.fin (-2)] (Ext.fin 0)
  lbx := vec [Ext.ninf, Ext.fin 1] (Ext.fin 0)
  ubx := vec [Ext.fin 2, Ext.pinf] (Ext.fin 0)
  x0 := vec [0, -3] 0
  lam_x0 := vec [0, 0] 0
  lam_a0 := vec [2] 0

/-- The dual error that a pass from the state `s` computes at its top: the
largest magnitude of `glag + lam` over the variables, with the refreshed `z`
and the recalculated multipliers of the box constraints. -/
def dual_error (S : ConicActiveSet) (P : Args) (s : State) : ℚ :=
  let z := calc_g S P s.z
  let glag := calc_glag S P z s.lam
  (duerr_scan glag (recalc_lam S.nx_ glag s.lam) (List.range S.nx_) ⟨0, -1, false⟩).duerr

/-- The stationarity residual `(H x + g + Aᵀ lam_a + lam_x)[i]` of a result. -/
def stationarity (S : ConicActiveSet) (P : Args) (r : Result) (i : Nat) : ℚ :=
  calc_glag S P r.x (splice r.lam_x S.nx_ r.lam_a) i + r.lam_x i

/-- The flag that `eval` returns, if it returns. -/
def flag_of : Except Err (Option Result) → Option Int
  | .ok (some r) => some r.flag
  | _ => none

/-- The outputs of `eval` when it returns, zeros otherwise. -/
def result_of : Except Err (Option Result) → Result
  | .ok (some r) => r
  | _ => ⟨0, fun _ => 0, fun _ => 0, fun _ => 0, 0⟩

/-- One variable fixed at zero by equal bounds, with the gradient `-G`: minimize
`x^2 - G x` subject to `0 <= x <= 0`, from `x0 = 0`. -/
def args_pinned (G : ℚ) : Args := args1 2 (-G) (Ext.fin 0) (Ext.fin 0) 0 0

/-- The variables on entry to the dual bracket of a pass: the `tau` left by the
primal bracket, the multipliers and their step, and the crossing points `w` with
the ordered candidate list `iw`. -/
structure CrossTrace where
  tau : ℚ
  lam : Nat → ℚ
  dlam : Nat → ℚ
  crossings : Crossings

/-- The candidate collection of a non-singular pass from the state `s`, with the
same quantities as in `pass`; `none` when the pass returns before, is singular or
stops with an error. -/
def pass_crossings (qr : QRKernel) (S : ConicActiveSet) (P : Args) (kkt : Nat → ℚ)
    (s : State) : Option CrossTrace :=
  let z := calc_g S P s.z
  let glag := calc_glag S P z s.lam
  let lam0 := recalc_lam S.nx_ glag s.lam
  match prerr_scan z (lbz S P) (ubz S P) (List.range (S.nx_ + S.na_)) ⟨0, -1, false⟩ with
  | .error _ => none
  | .ok e =>
    match post_step s e z lam0 (lbz S P) with
    | .error _ => none
    | .ok (lam, new_active_set) =>
      let kktd := calc_kktd S kkt lam
      if !new_active_set || decide (s.iter ≥ S.max_iter_) || qr.singular S.kktd_ kktd then none
      else
        match search_direction qr S false kktd z lam glag (lbz S P) (ubz S P) with
        | .error _ => none
        | .ok dz0 =>
          let dlam := calc_dlam S P lam dz0
          let dz := calc_dz S P dz0
          match primal_bracket e.prerr z dz (lbz S P) (ubz S P) (List.range (S.nx_ + S.na_))
              ⟨if zero_step (S.nx_ + S.na_) dz dlam then 0 else 1, -1, 0⟩ with
          | .error _ => none
          | .ok b =>
            some ⟨b.tau, lam, dlam,
              collect_crossings lam dlam b.tau (List.range (S.nx_ + S.na_)) ⟨fun _ => 1, []⟩⟩

/-- A feasible strictly convex problem: minimize `x0^2/2 + x1^2/2 - x0 + 3 x1`
subject to `-1 <= x0`, `-1 <= x1 <= 0` and `x0 = 0`, from `x0 = (-1, -2)` with
`lam_x0 = (-1, 2)` and `lam_a0 = -2`; the solution is `x = (0, -1)`. -/
def args_early : Args where
  h := vec [1, 1] 0
  g := vec [-1, 3] 0
  a := vec [1, 0] 0
  lba := vec [Ext.fin 0] (Ext.fin 0)
  uba := vec [Ext.fin 0] (Ext.fin 0)
  lbx := vec [Ext.fin (-1), Ext.fin (-1)] (Ext.fin 0)
  ubx := vec [Ext.pinf, Ext.fin 0] (Ext.fin 0)
  x0 := vec [-1, -2] 0
  lam_x0 := vec [-1, 2] 0
  lam_a0 := vec [-2] 0

/-- The sign of a multiplier as the step application takes it:
`lam > 0 ? 1 : lam < 0 ? -1 : 0`. -/
def sgn (x : ℚ) : Int := if x > 0 then 1 else if x < 0 then -1 else 0

/-- A multiplier value that has the sign `s`: at least `DMIN` for `s = 1`, at most
`-DMIN` for `s = -1`, and exactly `0` for `s = 0`. -/
def HasSign (s : Int) (x : ℚ) : Prop :=
  (s = 1 → DMIN ≤ x) ∧ (s = -1 → x ≤ -DMIN) ∧ (s = 0 → x = 0)

/-- The step inside an `Except` result, a step of zeros after an error. -/
def step_of (r : Except Err Step) : Step :=
  match r with
  | .ok t => t
  | .error _ => ⟨0, fun _ => 0, fun _ => 0, false⟩

/-- One variable in a box: minimize `x^2` subject to `-1 <= x <= 1`, from
`x0 = 0`. -/
def args_box : Args := args1 2 0 (Ext.fin (-1)) (Ext.fin 1) 0 0

/-- The test `Ensure nonincrease in max(prerr, duerr)` that a candidate step
length `t` passes. -/
def FlipAllowed (derr t : ℚ) : Prop := ¬ ((derr > 0 ∧ t > 0) ∨ (derr < 0 ∧ t < 0))

/-- The triple `(i, sign, t)` is a candidate that survives the tests of the flip
loop: index `i` passes the rank and dual-error tests, `t` is the step length to
its lower bound (`sign = -1`) or upper bound (`sign = 1`) for an inactive
constraint whose flag permits that bound, or the step length that brings `lam[i]`
to zero (`sign = 0`) for an active constraint that may be inactive, and `t` passes
the nonincrease test and, for an inactive constraint, is not below `1e-16` in
magnitude. -/
def FlipCandidate (S : ConicActiveSet) (F : Flags) (kkt trans_a w : Nat → ℚ)
    (lbz ubz : Nat → Ext) (derr : ℚ) (v : Iterate) (i : Nat) (sign : Int) (t : ℚ) : Prop :=
  ¬ |if i < S.nx_ then v.dz i else v.dlam i| < 1 / 10 ^ 12 ∧
  ¬ |flip_dot S kkt w i| < 1 / 10 ^ 12 ∧
  ¬ (v.lam i ≠ 0 ∧ flip_increases S trans_a v.duerr v.glag v.infeas v.lam i = true) ∧
  FlipAllowed derr t ∧
  ((v.lam i = 0 ∧ ¬ |v.dz i| < 1 / 10 ^ 12 ∧ |t| ≥ 1 / 10 ^ 16 ∧
      ((sign = -1 ∧ F.neverlower i = false ∧
          ((lbz i).sub (v.z i)).div (v.dz i) = Ext.fin t) ∨
       (sign = 1 ∧ F.neverupper i = false ∧
          ((ubz i).sub (v.z i)).div (v.dz i) = Ext.fin t))) ∨
   (v.lam i ≠ 0 ∧ ¬ |v.dlam i| < 1 / 10 ^ 12 ∧ sign = 0 ∧ F.neverzero i = false ∧
      t = -v.lam i / v.dlam i))

/-- The running values of the flip loop are the best of the triples seen so far:
with no `best_tau` yet nothing was seen and `sing_ind = -1`; otherwise
`(sing_ind, sing_sign, best_tau)` was seen and no seen triple has a smaller
`|tau_test|`. -/
def BestFlip (Seen : Nat → Int → ℚ → Prop) (f : Flip) : Prop :=
  match f.best_tau with
  | none => f.sing_ind = -1 ∧ ∀ j sg t, ¬ Seen j sg t
  | some b => ∃ i : Nat, f.sing_ind = (i : Int) ∧ Seen i f.sing_sign b ∧
      ∀ j sg t, Seen j sg t → |b| ≤ |t|
/-- A one-variable problem whose Hessian entry `1e-13` is above the all-zero
threshold `1e-16` but below the singularity threshold `1e-12` of the factorisation:
minimize `1e-13 x^2 / 2 + x` subject to `-1 <= x <= 1`, from `x0 = 0`. -/
def args_flat : Args := args1 (1 / 10 ^ 13) 1 (Ext.fin (-1)) (Ext.fin 1) 0 0

/-- The iterate of the first, singular, pass on `args_flat`. -/
def iterate_flat : Iterate :=
  ⟨vec [0] 0, vec [0] 0,
    calc_dz (solver1 1000) args_flat
      (qr_scalar.colcomb (solver1 1000).kktd_ (vec [1 / 10 ^ 13] 0)),
    calc_dlam (solver1 1000) args_flat (vec [0] 0)
      (qr_scalar.colcomb (solver1 1000).kktd_ (vec [1 / 10 ^ 13] 0)),
    vec [1] 0, vec [1] 0,
    calc_tinfeas (solver1 1000) args_flat
      (calc_dz (solver1 1000) args_flat
        (qr_scalar.colcomb (solver1 1000).kktd_ (vec [1 / 10 ^ 13] 0)))
      (calc_dlam (solver1 1000) args_flat (vec [0] 0)
        (qr_scalar.colcomb (solver1 1000).kktd_ (vec [1 / 10 ^ 13] 0))),
    0, 1⟩

/-- The values `(best_tau, sing_ind, sing_sign, nflip)` that the flip loop ends
with, if it returns. -/
def flip_of : Except Err Flip → Option (Option ℚ × Int × Int × Nat)
  | .ok f => some (f.best_tau, f.sing_ind, f.sing_sign, f.nflip)
  | .error _ => none

/-- How a pass entered in the state `s` may end: it goes on only below the
iteration limit, with the counter increased; it returns the flag 0 only when it
was entered with `new_active_set` unset; it returns the flag 1 at the iteration
limit or, below it, in a singular pass whose flip loop recorded no index. -/
def PassEnds (S : ConicActiveSet) (s : State) : Outcome → Prop
  | .next s1 => s.iter < S.max_iter_ ∧ s1.iter = s.iter + 1
  | .ret flag s1 =>
    (flag = 0 ∧ s.new_active_set = false ∧ s1.iter = s.iter) ∨
    (flag = 1 ∧ S.max_iter_ ≤ s.iter ∧ s1.iter = s.iter) ∨
    (flag = 1 ∧ s.iter < S.max_iter_ ∧ s1.iter = s.iter + 1 ∧ s1.sing = true ∧
      s1.sing_ind < 0)

/-- The solver with another value of the option `tol`. -/
def with_tol (S : ConicActiveSet) (t : ℚ) : ConicActiveSet := { S with tol_ := t }

/-- The solver instance for two variables and no linear constraints, with a
diagonal Hessian pattern. -/
def solver20 (max_iter : Int) : ConicActiveSet where
  nx_ := 2
  na_ := 0
  H_ := Sparsity.ofLists 2 2 [0, 1, 2] [0, 1]
  A_ := Sparsity.ofLists 0 2 [0, 0, 0] []
  AT_ := Sparsity.ofLists 2 0 [0] []
  kkt_ := Sparsity.ofLists 2 2 [0, 1, 2] [0, 1]
  kktd_ := Sparsity.ofLists 2 2 [0, 1, 2] [0, 1]
  max_iter_ := max_iter
  tol_ := 1 / 10 ^ 8

/-- The point `(z, lam)` satisfies the optimality conditions of the problem in
the sign convention of the solver: `z` is within its bounds, the gradient of the
Lagrangian plus the multipliers of the box constraints vanishes, and a constraint
with a positive or negative multiplier is at its upper or lower bound. -/
def KKTPoint (S : ConicActiveSet) (P : Args) (z lam : Nat → ℚ) : Prop :=
  (∀ i < S.nx_ + S.na_, lbz S P i ≤ (z i : Ext) ∧ (z i : Ext) ≤ ubz S P i) ∧
  (∀ i < S.nx_, calc_glag S P z lam i + lam i = 0) ∧
  (∀ i < S.nx_ + S.na_, (0 < lam i → (z i : Ext) = ubz S P i) ∧
    (lam i < 0 → (z i : Ext) = lbz S P i))

instance (S : ConicActiveSet) (P : Args) (z lam : Nat → ℚ) : Decidable (KKTPoint S P z lam) := by
  unfold KKTPoint; infer_instance

/-- The value of the iteration counter when `eval` returns a flag. -/
def iter_of (qr : QRKernel) (S : ConicActiveSet) (P : Args) (u : Uninit) : Option Int :=
  match init_state S P u with
  | .error _ => none
  | .ok s0 =>
    match qp_loop qr S P (flags S P) (kkt S P) (trans_a S P) (S.max_iter_.toNat + 1) s0 with
    | .ok (some (_, s)) => some s.iter
    | _ => none

/-- Minimize `x^2 - 3 x` subject to `0 <= x <= 1`, warm-started at its optimum
`x = 1` with the multiplier `lam_x = 1` of the active upper bound. -/
def args_warm : Args := args1 2 (-3) (Ext.fin 0) (Ext.fin 1) 1 1

/-- Minimize `x^2 - 3 x` subject to `x = 0`, warm-started at its optimum `x = 0`
with the multiplier `lam_x = 3`. -/
def args_warm_eq : Args := args1 2 (-3) (Ext.fin 0) (Ext.fin 0) 0 3

/-- Minimize `x^2 + 3 x` subject to `x = 0`, warm-started at its optimum `x = 0`
with the multiplier `lam_x = -3`. -/
def args_warm_kept : Args := args1 2 3 (Ext.fin 0) (Ext.fin 0) 0 (-3)

/-- Minimize `1e-13 x^2 / 2` subject to `-1 <= x <= 1`, warm-started at its
optimum `x = 0` with the multiplier `lam_x = 0`; the Hessian entry is below the
singularity threshold `1e-12` of the factorisation. -/
def args_warm_flat : Args := args1 (1 / 10 ^ 13) 0 (Ext.fin (-1)) (Ext.fin 1) 0 0

/-- The data of a singular pass that the flip selection reads: the iterate, the
direction built from the column combination of `kktd`, and the errors. -/
def singular_iterate (qr : QRKernel) (S : ConicActiveSet) (P : Args)
    (z lam glag infeas kktd : Nat → ℚ) (e : PrErr) (d : DuErr) : Iterate :=
  ⟨z, lam, calc_dz S P (qr.colcomb S.kktd_ kktd),
    calc_dlam S P lam (qr.colcomb S.kktd_ kktd), glag, infeas,
    calc_tinfeas S P (calc_dz S P (qr.colcomb S.kktd_ kktd))
      (calc_dlam S P lam (qr.colcomb S.kktd_ kktd)), e.prerr, d.duerr⟩

/-- The box-constrained problem `H = diag(2, 2)`, `g = (-4, -6)`,
`0 <= x <= 1` from a zero warm start. -/
def args_box2 : Args where
  h := vec [2, 2] 0
  g := vec [-4, -6] 0
  a := vec [] 0
  lba := vec [] (Ext.fin 0)
  uba := vec [] (Ext.fin 0)
  lbx := vec [Ext.fin 0, Ext.fin 0] (Ext.fin 0)
  ubx := vec [Ext.fin 1, Ext.fin 1] (Ext.fin 0)
  x0 := vec [0, 0] 0
  lam_x0 := vec [0, 0] 0
  lam_a0 := vec [] 0

/-- The solver instance for two variables and no linear constraints, with only
the entry `(0, 0)` of the Hessian stored; `kktd_` adds the diagonal. -/
def solver20s (max_iter : Int) : ConicActiveSet where
  nx_ := 2
  na_ := 0
  H_ := Sparsity.ofLists 2 2 [0, 1, 1] [0]
  A_ := Sparsity.ofLists 0 2 [0, 0, 0] []
  AT_ := Sparsity.ofLists 2 0 [0] []
  kkt_ := Sparsity.ofLists 2 2 [0, 1, 1] [0]
  kktd_ := Sparsity.ofLists 2 2 [0, 1, 2] [0, 1]
  max_iter_ := max_iter
  tol_ := 1 / 10 ^ 8

/-- The problem with an all-zero row: `H = diag(1, 0)`, `g = (0, 0)`,
`-1 <= x <= 1` from a zero warm start; `h` holds the stored entries of `H`. -/
def args_zrow (h : List ℚ) : Args where
  h := vec h 0
  g := vec [0, 0] 0
  a := vec [] 0
  lba := vec [] (Ext.fin 0)
  uba := vec [] (Ext.fin 0)
  lbx := vec [Ext.fin (-1), Ext.fin (-1)] (Ext.fin 0)
  ubx := vec [Ext.fin 1, Ext.fin 1] (Ext.fin 0)
  x0 := vec [0, 0] 0
  lam_x0 := vec [0, 0] 0
  lam_a0 := vec [] 0

/-- The solver instance for two variables and two linear constraints with an
empty Hessian pattern and a dense pattern of `A`: `kkt_` has the columns `[A]` and
`[Aᵀ]`, and `kktd_` adds the diagonal. -/
def solver22 (max_iter : Int) : ConicActiveSet where
  nx_ := 2
  na_ := 2
  H_ := Sparsity.ofLists 2 2 [0, 0, 0] []
  A_ := Sparsity.ofLists 2 2 [0, 2, 4] [0, 1, 0, 1]
  AT_ := Sparsity.ofLists 2 2 [0, 2, 4] [0, 1, 0, 1]
  kkt_ := Sparsity.ofLists 4 4 [0, 2, 4, 6, 8] [2, 3, 2, 3, 0, 1, 0, 1]
  kktd_ := Sparsity.ofLists 4 4 [0, 3, 6, 9, 12] [0, 2, 3, 1, 2, 3, 0, 1, 2, 0, 1, 3]
  max_iter_ := max_iter
  tol_ := 1 / 10 ^ 8

/-- The solver instance for two variables and two linear constraints with an
empty Hessian pattern and only the first column of `A` stored. -/
def solver22s (max_iter : Int) : ConicActiveSet where
  nx_ := 2
  na_ := 2
  H_ := Sparsity.ofLists 2 2 [0, 0, 0] []
  A_ := Sparsity.ofLists 2 2 [0, 2, 2] [0, 1]
  AT_ := Sparsity.ofLists 2 2 [0, 1, 2] [0, 0]
  kkt_ := Sparsity.ofLists 4 4 [0, 2, 2, 3, 4] [2, 3, 0, 0]
  kktd_ := Sparsity.ofLists 4 4 [0, 3, 4, 6, 8] [0, 2, 3, 1, 0, 2, 0, 3]
  max_iter_ := max_iter
  tol_ := 1 / 10 ^ 8

/-- The rank-deficient problem: `H = 0`, `g = (1, 1)`, `A = [[1, 0], [1, 0]]`,
`lba = uba = (0, 0)`, with the box bounds `lbx`, `ubx` on both variables, from a
zero warm start; `a` holds the stored entries of `A`. -/
def args_rank (a : List ℚ) (lbx ubx : List Ext) : Args where
  h := vec [] 0
  g := vec [1, 1] 0
  a := vec a 0
  lba := vec [Ext.fin 0, Ext.fin 0] (Ext.fin 0)
  uba := vec [Ext.fin 0, Ext.fin 0] (Ext.fin 0)
  lbx := vec lbx Ext.ninf
  ubx := vec ubx Ext.pinf
  x0 := vec [0, 0] 0
  lam_x0 := vec [0, 0] 0
  lam_a0 := vec [0, 0] 0

/-- The stored entries of column `c` whose row lies in `[rbeg, rend)`, in the
order of their slots. -/
def Sparsity.block_col (sp : Sparsity) (rbeg rend c : Nat) : List Nat :=
  (sp.col c).filter (fun k => decide (rbeg ≤ sp.row k ∧ sp.row k < rend))

/-- The number of stored entries with a row in `[rbeg, rend)` in the columns
`cbeg, ..., c - 1`. -/
def Sparsity.block_count (sp : Sparsity) (rbeg rend cbeg c : Nat) : Nat :=
  ((List.range' cbeg (c - cbeg)).map (fun d => (sp.block_col rbeg rend d).length)).sum

/-- The row indices are ascending within each of the first `n` columns. -/
def Sparsity.AscendingRows (sp : Sparsity) (n : Nat) : Prop :=
  ∀ c < n, ((sp.col c).map sp.row).Pairwise (fun a b => a ≤ b)

/-- Write the consecutive values `y[cnt], y[cnt + 1], ...` to the slots in the
list, as `x[k] = *y++` does. -/
def scatter (y : Nat → ℚ) : List Nat → (Nat → ℚ) × Nat → (Nat → ℚ) × Nat
  | [], st => st
  | k :: ks, st => scatter y ks (Function.update st.1 k (y st.2), st.2 + 1)

/-- The loop of `casadi_set_sub` over the columns in the list, from the work
vector and the count of values consumed. -/
def set_sub_loop (y : Nat → ℚ) (sp : Sparsity) (rbeg rend : Nat) (cols : List Nat)
    (st : (Nat → ℚ) × Nat) : (Nat → ℚ) × Nat :=
  cols.foldl (fun st c =>
    casadi_set_sub_col y sp rbeg rend (sp.colind (c + 1))
      (sp.colind (c + 1) - sp.colind c) (sp.colind c) st) st

/-- The stored entries of column `c` as pairs of row and value, in slot order. -/
def Sparsity.pairs (sp : Sparsity) (v : Nat → ℚ) (c : Nat) : List (Nat × ℚ) :=
  (sp.col c).map (fun k => (sp.row k, v k))

/-- The value of the last pair with row `r`, and `a` when there is none. -/
def lookup_last (r : Nat) (l : List (Nat × ℚ)) (a : ℚ) : ℚ :=
  l.foldl (fun acc p => if p.1 = r then p.2 else acc) a

/-- Modelled from the spec: the pattern of `kkt_`, which `init` builds by
`Sparsity::kkt(H_, A_, false)` (missing from the source) as the sparsity of
`[[H, Aᵀ], [A, 0]]`: column `c < nx` holds the rows of column `c` of `H_` followed
by the rows of column `c` of `A_` shifted by `nx`, column `nx + j` holds the rows
of column `j` of `AT_`; the three patterns are column-compressed with ascending
rows inside their dimensions. -/
structure KktPattern (S : ConicActiveSet) : Prop where
  kkt_mono : S.kkt_.Monotone (S.nx_ + S.na_)
  h_mono : S.H_.Monotone S.nx_
  a_mono : S.A_.Monotone S.nx_
  at_mono : S.AT_.Monotone S.na_
  h_zero : S.H_.colind 0 = 0
  a_zero : S.A_.colind 0 = 0
  at_zero : S.AT_.colind 0 = 0
  left : ∀ c < S.nx_, (S.kkt_.col c).map S.kkt_.row =
    (S.H_.col c).map S.H_.row ++ (S.A_.col c).map (fun k => S.nx_ + S.A_.row k)
  right : ∀ j < S.na_, (S.kkt_.col (S.nx_ + j)).map S.kkt_.row = (S.AT_.col j).map S.AT_.row
  h_rows : ∀ c < S.nx_, ∀ k ∈ S.H_.col c, S.H_.row k < S.nx_
  a_rows : ∀ c < S.nx_, ∀ k ∈ S.A_.col c, S.A_.row k < S.na_
  at_rows : ∀ j < S.na_, ∀ k ∈ S.AT_.col j, S.AT_.row k < S.nx_
  h_asc : S.H_.AscendingRows S.nx_
  a_asc : S.A_.AscendingRows S.nx_
  at_asc : S.AT_.AscendingRows S.na_

/-- The solver instance for two variables and one linear constraint with dense
patterns of `H` and `A`. -/
def solver24 : ConicActiveSet where
  nx_ := 2
  na_ := 1
  H_ := Sparsity.ofLists 2 2 [0, 2, 4] [0, 1, 0, 1]
  A_ := Sparsity.ofLists 1 2 [0, 1, 2] [0, 0]
  AT_ := Sparsity.ofLists 2 1 [0, 2] [0, 1]
  kkt_ := Sparsity.ofLists 3 3 [0, 3, 6, 8] [0, 1, 2, 0, 1, 2, 0, 1]
  kktd_ := Sparsity.ofLists 3 3 [0, 3, 6, 9] [0, 1, 2, 0, 1, 2, 0, 1, 2]
  max_iter_ := 1000
  tol_ := 1 / 10 ^ 8

/-- The data `H = [[1, 3], [2, 4]]` and `A = [5, 6]` on the dense patterns, with
free variables. -/
def args24 : Args where
  h := vec [1, 2, 3, 4] 0
  g := vec [0, 0] 0
  a := vec [5, 6] 0
  lba := vec [Ext.ninf] Ext.ninf
  uba := vec [Ext.pinf] Ext.pinf
  lbx := vec [Ext.ninf, Ext.ninf] Ext.ninf
  ubx := vec [Ext.pinf, Ext.pinf] Ext.pinf
  x0 := vec [0, 0] 0
  lam_x0 := vec [0, 0] 0
  lam_a0 := vec [0] 0

/-- Two records of the flip loop that agree in what the loop has assigned:
`best_tau`, `sing_ind` and `nflip` are equal, and `sing_sign` is equal once an
index has been recorded. -/
def Flip.Same (f g : Flip) : Prop :=
  f.best_tau = g.best_tau ∧ f.sing_ind = g.sing_ind ∧ f.nflip = g.nflip ∧
    (0 ≤ f.sing_ind → f.sing_sign = g.sing_sign)

/-- Two results that fail with the same error or succeed with related values. -/
def Agree {α : Type} (R : α → α → Prop) : Except Err α → Except Err α → Prop
  | .ok a, .ok b => R a b
  | .error e, .error e1 => e = e1
  | _, _ => False

/-- Two ends of the handling of a singular pass that agree: the same case, with
agreeing records, and a recorded index when the pass goes on. -/
def SingResult.Same : SingResult → SingResult → Prop
  | .zero_step f, .zero_step g => f.Same g ∧ 0 ≤ f.sing_ind
  | .cannot_restore _, .cannot_restore _ => True
  | .scaled b f, .scaled c g => b = c ∧ f.Same g ∧ 0 ≤ f.sing_ind
  | _, _ => False

/-- Two states that agree in everything a pass can read: all variables but
`sing`, `sing_ind`, `sing_sign` are equal; `sing` is equal when `new_active_set`
is unset, and `sing_ind`, `sing_sign` are equal when moreover `sing` is set. -/
def State.Same (s t : State) : Prop :=
  s.z = t.z ∧ s.lam = t.lam ∧ s.new_active_set = t.new_active_set ∧ s.tau = t.tau ∧
    s.iter = t.iter ∧ s.fk = t.fk ∧
    (s.new_active_set = false →
      s.sing = t.sing ∧ (s.sing = true → s.sing_ind = t.sing_ind ∧ s.sing_sign = t.sing_sign))

/-- Two ends of a pass that agree: both go on, with agreeing states, or both
return the same flag with the same `z`, `lam` and `fk`. -/
def Outcome.Same : Outcome → Outcome → Prop
  | .next s, .next t => s.Same t
  | .ret fl s, .ret fl1 t => fl = fl1 ∧ s.z = t.z ∧ s.lam = t.lam ∧ s.fk = t.fk
  | _, _ => False

/-- Two ends of the loop that agree in the flag and in `z`, `lam` and `fk`. -/
def SameFinal : Option (Int × State) → Option (Int × State) → Prop
  | none, none => True
  | some (fl, s), some (fl1, t) => fl = fl1 ∧ s.z = t.z ∧ s.lam = t.lam ∧ s.fk = t.fk
  | _, _ => False

/-- The states in which `eval` enters a pass of its loop: the initial state, and
the state that a pass entered in such a state goes on with. -/
inductive Reachable (qr : QRKernel) (S : ConicActiveSet) (P : Args) (u : Uninit) :
    State → Prop
  | init (s : State) : init_state S P u = .ok s → Reachable qr S P u s
  | step (s s1 : State) : Reachable qr S P u s →
      pass qr S P (flags S P) (kkt S P) (trans_a S P) s = .ok (.next s1) →
      Reachable qr S P u s1

/-- The sign recorded with an index of the flip loop is one of `-1`, `0`, `1`. -/
def Flip.Set (f : Flip) : Prop :=
  0 ≤ f.sing_ind → f.sing_sign = -1 ∨ f.sing_sign = 0 ∨ f.sing_sign = 1

/-- Initial values of the locals that would trip the assertion if they were read:
`sing` set with a negative `sing_ind`. -/
def uninit_neg : Uninit := ⟨true, -1, 7⟩

/-! # Theorems -/

/-! ## Initialisation: flags and initial active set -/

theorem allzero_col (kkt : Nat → ℚ) (row : Nat → Nat) (eps : ℚ) (r : Nat) (ks : List Nat)
    (iw : Nat → Bool) :
    (ks.foldl (fun iw k =>
        if |kkt k| > eps then Function.update iw (row k) false else iw) iw) r = true ↔
      iw r = true ∧ ∀ k ∈ ks, row k = r → |kkt k| ≤ eps := by
  induction ks generalizing iw with
  | nil => simp
  | cons k ks ih =>
    rw [List.foldl_cons, ih]
    by_cases hk : |kkt k| > eps
    · rw [if_pos hk]
      by_cases hr : row k = r
      · subst hr
        simp only [Function.update_same, Bool.false_eq_true, false_and, false_iff, not_and,
          not_forall]
        intro _
        exact ⟨k, List.mem_cons_self _ _, rfl, not_le.mpr hk⟩
      · have hr' : r ≠ row k := fun h => hr h.symm
        rw [Function.update_noteq hr']
        constructor
        · rintro ⟨h1, h2⟩
          refine ⟨h1, ?_⟩
          intro j hj hjr
          rcases List.mem_cons.mp hj with rfl | hj
          · exact absurd hjr hr
          · exact h2 j hj hjr
        · rintro ⟨h1, h2⟩
          exact ⟨h1, fun j hj hjr => h2 j (List.mem_cons_of_mem _ hj) hjr⟩
    · rw [if_neg hk]
      constructor
      · rintro ⟨h1, h2⟩
        refine ⟨h1, ?_⟩
        intro j hj hjr
        rcases List.mem_cons.mp hj with rfl | hj
        · exact not_lt.mp hk
        · exact h2 j hj hjr
      · rintro ⟨h1, h2⟩
        exact ⟨h1, fun j hj hjr => h2 j (List.mem_cons_of_mem _ hj) hjr⟩

theorem allzero_iff (kkt : Nat → ℚ) (kkt_ : Sparsity) (n r : Nat) :
    allzero kkt kkt_ n r = true ↔ RowAllZero kkt kkt_ n r := by
  unfold allzero RowAllZero
  induction n with
  | zero => simp
  | succ n ih =>
    rw [List.range_succ, List.foldl_append, List.foldl_cons, List.foldl_nil, allzero_col, ih]
    constructor
    · rintro ⟨h1, h2⟩ c hc
      rcases Nat.lt_succ_iff_lt_or_eq.mp hc with hc | rfl
      · exact h1 c hc
      · exact h2
    · intro h
      exact ⟨fun c hc => h c (Nat.lt_succ_of_lt hc), h n (Nat.lt_succ_self n)⟩

/-- The three flag vectors in terms of the bounds and the all-zero rows. -/
theorem flags_iff (S : ConicActiveSet) (P : Args) (c : Nat) :
    ((flags S P).neverupper c = true ↔
      (ubz S P c).isinf = true ∨
        (S.nx_ ≤ c ∧ RowAllZero (kkt S P) S.kkt_ (S.nx_ + S.na_) c)) ∧
    ((flags S P).neverlower c = true ↔
      (lbz S P c).isinf = true ∨
        (S.nx_ ≤ c ∧ RowAllZero (kkt S P) S.kkt_ (S.nx_ + S.na_) c)) ∧
    ((flags S P).neverzero c = true ↔
      lbz S P c = ubz S P c ∨
        (c < S.nx_ ∧ RowAllZero (kkt S P) S.kkt_ (S.nx_ + S.na_) c)) := by
  unfold flags permitted_signs
  simp only
  by_cases hz : allzero (kkt S P) S.kkt_ (S.nx_ + S.na_) c = true
  · have hz' := (allzero_iff _ _ _ _).mp hz
    rw [if_pos hz, if_pos hz, if_pos hz]
    by_cases hc : c < S.nx_
    · have hc' : ¬ S.nx_ ≤ c := not_le.mpr hc
      simp [hc, hc', hz']
    · have hc' : S.nx_ ≤ c := not_lt.mp hc
      simp [hc, hc', hz']
  · have hz' : ¬ RowAllZero (kkt S P) S.kkt_ (S.nx_ + S.na_) c :=
      fun h => hz ((allzero_iff _ _ _ _).mpr h)
    rw [if_neg hz, if_neg hz, if_neg hz]
    simp [hz']

/-- C6: after initialisation, for every index `c`, `neverupper[c]` holds exactly
when `ubz[c]` is infinite or `c` is a linear index whose KKT row is all-zero;
`neverlower[c]` exactly when `lbz[c]` is infinite or `c` is a linear index whose
KKT row is all-zero; and `neverzero[c]` exactly when `lbz[c] = ubz[c]` or `c` is a
box index whose KKT row is all-zero; a row is all-zero when each of its stored
entries has magnitude at most `1e-16`. -/
theorem flags_characterisation (S : ConicActiveSet) (P : Args) (c : Nat) :
    ((flags S P).neverupper c = true ↔
      (ubz S P c).isinf = true ∨
        (S.nx_ ≤ c ∧ RowAllZero (kkt S P) S.kkt_ (S.nx_ + S.na_) c)) ∧
    ((flags S P).neverlower c = true ↔
      (lbz S P c).isinf = true ∨
        (S.nx_ ≤ c ∧ RowAllZero (kkt S P) S.kkt_ (S.nx_ + S.na_) c)) ∧
    ((flags S P).neverzero c = true ↔
      lbz S P c = ubz S P c ∨
        (c < S.nx_ ∧ RowAllZero (kkt S P) S.kkt_ (S.nx_ + S.na_) c)) :=
  flags_iff S P c

/-- No sign is possible for the index `i`: all three flags are set. -/
theorem initial_active_set_error (F : Flags) (z : Nat → ℚ) (lbz : Nat → Ext) (is : List Nat)
    (lam : Nat → ℚ) (i : Nat) (h : initial_active_set F z lbz is lam = .error i) :
    i ∈ is ∧ F.neverzero i = true ∧ F.neverupper i = true ∧ F.neverlower i = true := by
  induction is generalizing lam with
  | nil => simp [initial_active_set] at h
  | cons j js ih =>
    unfold initial_active_set at h
    split at h
    · rename_i hbad
      injection h with h
      subst h
      refine ⟨List.mem_cons_self _ _, ?_⟩
      revert hbad
      cases F.neverzero j <;> cases F.neverupper j <;> cases F.neverlower j <;> simp
    · have := ih _ h
      exact ⟨List.mem_cons_of_mem _ this.1, this.2⟩

theorem initial_active_set_ok (F : Flags) (z : Nat → ℚ) (lbz : Nat → Ext) (is : List Nat)
    (lam : Nat → ℚ) (hnd : is.Nodup)
    (h : ∀ i ∈ is, ¬ (F.neverzero i = true ∧ F.neverupper i = true ∧ F.neverlower i = true)) :
    ∃ lam1, initial_active_set F z lbz is lam = .ok lam1 ∧
      ∀ i, lam1 i = if i ∈ is then initial_lam F z lbz lam i else lam i := by
  induction is generalizing lam with
  | nil => exact ⟨lam, rfl, fun i => by simp⟩
  | cons j js ih =>
    have hj := h j (List.mem_cons_self _ _)
    have hnd' := (List.nodup_cons.mp hnd)
    obtain ⟨lam1, h1, h2⟩ := ih (Function.update lam j (initial_lam F z lbz lam j)) hnd'.2
      (fun i hi => h i (List.mem_cons_of_mem _ hi))
    refine ⟨lam1, ?_, ?_⟩
    · unfold initial_active_set
      rw [if_neg]
      · exact h1
      · revert hj
        cases F.neverzero j <;> cases F.neverupper j <;> cases F.neverlower j <;> simp
    · intro i
      rw [h2 i]
      by_cases hij : i = j
      · subst hij
        simp [hnd'.1]
      · have : (i ∈ j :: js) ↔ i ∈ js := by simp [hij]
        simp only [this]
        by_cases hi : i ∈ js
        · simp only [hi, if_true]
          unfold initial_lam
          simp [Function.update_noteq hij]
        · simp [hi, Function.update_noteq hij]

theorem initial_active_set_error_iff (F : Flags) (z : Nat → ℚ) (lbz : Nat → Ext) (is : List Nat)
    (lam : Nat → ℚ) (hnd : is.Nodup) :
    (∃ i, initial_active_set F z lbz is lam = .error i) ↔
      ∃ i ∈ is, F.neverzero i = true ∧ F.neverupper i = true ∧ F.neverlower i = true := by
  constructor
  · rintro ⟨i, hi⟩
    exact ⟨i, initial_active_set_error F z lbz is lam i hi⟩
  · intro hex
    by_contra hne
    have hall : ∀ i ∈ is,
        ¬ (F.neverzero i = true ∧ F.neverupper i = true ∧ F.neverlower i = true) := by
      intro i hi hbad
      cases hres : initial_active_set F z lbz is lam with
      | error j => exact hne ⟨j, hres⟩
      | ok lam1 =>
        clear hne
        induction is generalizing lam with
        | nil => simp at hi
        | cons j js ih =>
          unfold initial_active_set at hres
          split at hres
          · cases hres
          · rename_i hgood
            rcases List.mem_cons.mp hi with rfl | hi'
            · revert hgood
              rw [hbad.1, hbad.2.1, hbad.2.2]
              simp
            · exact ih _ (List.nodup_cons.mp hnd).2 ⟨i, hi', hbad⟩ hi' hres
    obtain ⟨i, hi, hbad⟩ := hex
    exact hall i hi hbad

theorem Ext.isinf_of_le_isinf (z : ℚ) (l ub : Ext) (h1 : (z : Ext) ≤ l)
    (h2 : l.isinf = true) (h3 : l ≤ ub) : ub.isinf = true := by
  cases l <;> cases ub <;> first
    | rfl
    | exact absurd h2 Bool.false_ne_true
    | exact False.elim h1
    | exact False.elim h3

theorem lam_start_eq (S : ConicActiveSet) (P : Args) :
    lam_start S P = initial_active_set (flags S P) (z_init S P) (lbz S P)
      (List.range (S.nx_ + S.na_)) (lam_init S P) := rfl

/-- C4: when `lbz[i] <= ubz[i]` for every index and the assertion `No sign
possible` does not fire, the initial active set gives `lam[i] = 0` where
`neverzero[i]` is false, `lam[i] <= -DMIN` where `neverzero[i]` holds and
`neverupper[i]` or `z[i] <= lbz[i]`, and `lam[i] >= DMIN` otherwise; consequently
`neverupper[i]` implies `lam[i] <= 0`, `neverlower[i]` implies `lam[i] >= 0` and
`neverzero[i]` implies `lam[i] != 0`. -/
theorem initial_signs (S : ConicActiveSet) (P : Args)
    (hb : ∀ i < S.nx_ + S.na_, lbz S P i ≤ ubz S P i)
    (hno : ∀ i < S.nx_ + S.na_, ¬ ((flags S P).neverzero i = true ∧
      (flags S P).neverupper i = true ∧ (flags S P).neverlower i = true)) :
    ∃ lam, lam_start S P = .ok lam ∧ ∀ i < S.nx_ + S.na_,
      ((flags S P).neverzero i = false → lam i = 0) ∧
      ((flags S P).neverzero i = true →
        ((flags S P).neverupper i = true ∨ (z_init S P i : Ext) ≤ lbz S P i) →
          lam i ≤ -DMIN) ∧
      ((flags S P).neverzero i = true →
        ¬ ((flags S P).neverupper i = true ∨ (z_init S P i : Ext) ≤ lbz S P i) →
          DMIN ≤ lam i) ∧
      ((flags S P).neverupper i = true → lam i ≤ 0) ∧
      ((flags S P).neverlower i = true → 0 ≤ lam i) ∧
      ((flags S P).neverzero i = true → lam i ≠ 0) := by
  have hD : (0 : ℚ) < DMIN := by unfold DMIN; positivity
  obtain ⟨lam, h1, h2⟩ := initial_active_set_ok (flags S P) (z_init S P) (lbz S P)
    (List.range (S.nx_ + S.na_)) (lam_init S P) (List.nodup_range _)
    (fun i hi => hno i (List.mem_range.mp hi))
  refine ⟨lam, h1, ?_⟩
  intro i hi
  have hl := h2 i
  rw [if_pos (List.mem_range.mpr hi)] at hl
  have hz : (flags S P).neverzero i = false → lam i = 0 := by
    intro h; rw [hl]; unfold initial_lam; simp [h]
  have hlo : (flags S P).neverzero i = true →
      ((flags S P).neverupper i = true ∨ (z_init S P i : Ext) ≤ lbz S P i) →
        lam i ≤ -DMIN := by
    intro h hc; rw [hl]; unfold initial_lam
    simp only [h, Bool.not_true, Bool.false_eq_true, if_false, if_pos hc]
    exact min_le_right _ _
  have hup : (flags S P).neverzero i = true →
      ¬ ((flags S P).neverupper i = true ∨ (z_init S P i : Ext) ≤ lbz S P i) →
        DMIN ≤ lam i := by
    intro h hc; rw [hl]; unfold initial_lam
    simp only [h, Bool.not_true, Bool.false_eq_true, if_false, if_neg hc]
    exact le_max_right _ _
  refine ⟨hz, hlo, hup, ?_, ?_, ?_⟩
  · intro hnu
    cases hnz : (flags S P).neverzero i with
    | false => exact le_of_eq (hz hnz)
    | true => exact le_trans (hlo hnz (Or.inl hnu)) (le_of_lt (neg_lt_zero.mpr hD))
  · intro hnl
    cases hnz : (flags S P).neverzero i with
    | false => exact le_of_eq (hz hnz).symm
    | true =>
      have hnu : ¬ (flags S P).neverupper i = true := fun hnu => hno i hi ⟨hnz, hnu, hnl⟩
      by_cases hzl : (z_init S P i : Ext) ≤ lbz S P i
      · exfalso
        have hC := flags_iff S P i
        have hnl' := hC.2.1.mp hnl
        have hnu' : ¬ ((ubz S P i).isinf = true ∨
            (S.nx_ ≤ i ∧ RowAllZero (kkt S P) S.kkt_ (S.nx_ + S.na_) i)) :=
          fun h => hnu (hC.1.mpr h)
        have hbi := hb i hi
        have hlinf : (lbz S P i).isinf = true := by
          rcases hnl' with h | h
          · exact h
          · exact absurd (Or.inr h) hnu'
        have huf : ¬ (ubz S P i).isinf = true := fun h => hnu' (Or.inl h)
        exact huf (Ext.isinf_of_le_isinf _ _ _ hzl hlinf hbi)
      · exact le_trans (le_of_lt hD) (hup hnz (fun h => h.elim hnu hzl))
  · intro hnz
    by_cases hc : (flags S P).neverupper i = true ∨ (z_init S P i : Ext) ≤ lbz S P i
    · exact ne_of_lt (lt_of_le_of_lt (hlo hnz hc) (neg_lt_zero.mpr hD))
    · exact (ne_of_lt (lt_of_lt_of_le hD (hup hnz hc))).symm

theorem initial_signs_witness :
    (∀ i < (solver1 1000).nx_ + (solver1 1000).na_,
      lbz (solver1 1000) args_fixed i ≤ ubz (solver1 1000) args_fixed i) ∧
    (∀ i < (solver1 1000).nx_ + (solver1 1000).na_,
      ¬ ((flags (solver1 1000) args_fixed).neverzero i = true ∧
        (flags (solver1 1000) args_fixed).neverupper i = true ∧
        (flags (solver1 1000) args_fixed).neverlower i = true)) ∧
    ∃ lam, lam_start (solver1 1000) args_fixed = .ok lam ∧
      ∀ i < (solver1 1000).nx_ + (solver1 1000).na_,
      ((flags (solver1 1000) args_fixed).neverzero i = false → lam i = 0) ∧
      ((flags (solver1 1000) args_fixed).neverzero i = true →
        ((flags (solver1 1000) args_fixed).neverupper i = true ∨
          (z_init (solver1 1000) args_fixed i : Ext) ≤ lbz (solver1 1000) args_fixed i) →
          lam i ≤ -DMIN) ∧
      ((flags (solver1 1000) args_fixed).neverzero i = true →
        ¬ ((flags (solver1 1000) args_fixed).neverupper i = true ∨
          (z_init (solver1 1000) args_fixed i : Ext) ≤ lbz (solver1 1000) args_fixed i) →
          DMIN ≤ lam i) ∧
      ((flags (solver1 1000) args_fixed).neverupper i = true → lam i ≤ 0) ∧
      ((flags (solver1 1000) args_fixed).neverlower i = true → 0 ≤ lam i) ∧
      ((flags (solver1 1000) args_fixed).neverzero i = true → lam i ≠ 0) :=
  ⟨by decide!, by decide!,
    initial_signs (solver1 1000) args_fixed (by decide!) (by decide!)⟩

/-- C7: initialisation fails with `No sign possible for i` if and only if some
index has `neverzero`, `neverupper` and `neverlower` all set; when there is no
such index, initialisation raises nothing and `eval` is the iteration loop run
from the initial state. -/
theorem no_sign_possible_iff (qr : QRKernel) (S : ConicActiveSet) (P : Args) (u : Uninit) :
    ((∃ i, init_state S P u = .error (.no_sign i)) ↔
      ∃ i < S.nx_ + S.na_, (flags S P).neverzero i = true ∧
        (flags S P).neverupper i = true ∧ (flags S P).neverlower i = true) ∧
    ((∃ i < S.nx_ + S.na_, (flags S P).neverzero i = true ∧
        (flags S P).neverupper i = true ∧ (flags S P).neverlower i = true) ∨
      ∃ s0, init_state S P u = .ok s0 ∧ s0.new_active_set = true ∧ s0.iter = 0 ∧
        ∀ fuel, eval_fuel qr S P u fuel =
          match qp_loop qr S P (flags S P) (kkt S P) (trans_a S P) fuel s0 with
          | .error err => .error err
          | .ok none => .ok none
          | .ok (some (flag, s)) => .ok (some (copy_out S flag s))) := by
  have hiff := initial_active_set_error_iff (flags S P) (z_init S P) (lbz S P)
    (List.range (S.nx_ + S.na_)) (lam_init S P) (List.nodup_range _)
  rw [← lam_start_eq] at hiff
  constructor
  · constructor
    · rintro ⟨i, hi⟩
      have : lam_start S P = .error i := by
        unfold init_state at hi
        cases hl : lam_start S P with
        | error j => rw [hl] at hi; simp at hi; rw [hi]
        | ok lam => rw [hl] at hi; simp at hi
      obtain ⟨j, hj, hbad⟩ := hiff.mp ⟨i, this⟩
      exact ⟨j, List.mem_range.mp hj, hbad⟩
    · rintro ⟨i, hi, hbad⟩
      obtain ⟨j, hj⟩ := hiff.mpr ⟨i, List.mem_range.mpr hi, hbad⟩
      exact ⟨j, by unfold init_state; rw [hj]⟩
  · by_cases hex : ∃ i < S.nx_ + S.na_, (flags S P).neverzero i = true ∧
        (flags S P).neverupper i = true ∧ (flags S P).neverlower i = true
    · exact Or.inl hex
    · right
      cases hl : lam_start S P with
      | error j =>
        exfalso
        obtain ⟨i, hi, hbad⟩ := hiff.mp ⟨j, hl⟩
        exact hex ⟨i, List.mem_range.mp hi, hbad⟩
      | ok lam =>
        refine ⟨⟨z_init S P, lam, true, 0, u.sing, u.sing_ind, u.sing_sign, 0, 0⟩, ?_, rfl, rfl, ?_⟩
        · unfold init_state; rw [hl]
        · intro fuel
          unfold eval_fuel init_state
          rw [hl]

/-! ## The working KKT matrix -/

theorem foldl_update_apply {β : Type} (f : Nat → β) (ks : List Nat) (v : Nat → β) (k : Nat) :
    (ks.foldl (fun v j => Function.update v j (f j)) v) k = if k ∈ ks then f k else v k := by
  induction ks generalizing v with
  | nil => simp
  | cons j js ih =>
    rw [List.foldl_cons, ih]
    by_cases hk : k ∈ js
    · simp [hk]
    · by_cases hkj : k = j
      · subst hkj; simp [hk]
      · simp [hk, hkj, Function.update_noteq hkj]

theorem foldl_update_row (row : Nat → Nat) (x : Nat → ℚ) (ks : List Nat) (w : Nat → ℚ)
    (r : Nat) :
    (ks.foldl (fun w k => Function.update w (row k) (x k)) w) r =
      ks.foldl (fun acc k => if row k = r then x k else acc) (w r) := by
  induction ks generalizing w with
  | nil => rfl
  | cons j js ih =>
    rw [List.foldl_cons, List.foldl_cons, ih]
    by_cases hj : row j = r
    · subst hj; simp
    · have : r ≠ row j := fun h => hj h.symm
      simp [hj, Function.update_noteq this]

theorem foldl_zero_row (row : Nat → Nat) (ks : List Nat) (w : Nat → ℚ) (r : Nat) :
    (ks.foldl (fun w k => Function.update w (row k) 0) w) r =
      if r ∈ ks.map row then 0 else w r := by
  induction ks generalizing w with
  | nil => simp
  | cons j js ih =>
    rw [List.foldl_cons, ih]
    by_cases hr : r ∈ js.map row
    · simp [hr]
    · by_cases hj : r = row j
      · subst hj; simp [hr]
      · simp [hr, hj, Function.update_noteq hj]

theorem Sparsity.mem_col (sp : Sparsity) (c k : Nat) :
    k ∈ sp.col c ↔ sp.colind c ≤ k ∧ k < sp.colind (c + 1) := by
  unfold Sparsity.col
  rw [List.mem_range']
  constructor
  · rintro ⟨i, hi, rfl⟩
    omega
  · rintro ⟨h1, h2⟩
    exact ⟨k - sp.colind c, by omega, by omega⟩

theorem Sparsity.colind_le (sp : Sparsity) (n : Nat) (h : sp.Monotone n) (c d : Nat)
    (hcd : c ≤ d) (hd : d ≤ n) : sp.colind c ≤ sp.colind d := by
  induction d with
  | zero =>
    have : c = 0 := Nat.le_zero.mp hcd
    subst this; exact le_refl _
  | succ d ih =>
    rcases Nat.lt_or_ge c (d + 1) with hlt | hge
    · exact le_trans (ih (Nat.lt_succ_iff.mp hlt) (Nat.le_of_succ_le hd)) (h d hd)
    · have : c = d + 1 := le_antisymm hcd hge
      subst this; exact le_refl _

theorem Sparsity.col_disjoint (sp : Sparsity) (n : Nat) (h : sp.Monotone n) (c d k : Nat)
    (hc : c < n) (hd : d < n) (hkc : k ∈ sp.col c) (hkd : k ∈ sp.col d) : c = d := by
  rw [Sparsity.mem_col] at hkc hkd
  rcases Nat.lt_trichotomy c d with hlt | heq | hgt
  · have := sp.colind_le n h (c + 1) d hlt (le_of_lt hd)
    omega
  · exact heq
  · have := sp.colind_le n h (d + 1) c hgt (le_of_lt hc)
    omega

theorem casadi_project_apply (x : Nat → ℚ) (sp_x : Sparsity) (y : Nat → ℚ) (sp_y : Sparsity)
    (w : Nat → ℚ) (hmono : sp_y.Monotone sp_x.ncol) (c : Nat) (hc : c < sp_x.ncol) (k : Nat)
    (hk : k ∈ sp_y.col c) :
    casadi_project x sp_x y sp_y w k = sp_x.entry x (sp_y.row k) c := by
  unfold casadi_project
  have key : ∀ n, n ≤ sp_x.ncol → ∀ c < n, ∀ k ∈ sp_y.col c,
      ((List.range n).foldl (fun (st : (Nat → ℚ) × (Nat → ℚ)) i =>
        let w1 := (sp_y.col i).foldl (fun w el => Function.update w (sp_y.row el) 0) st.2
        let w2 := (sp_x.col i).foldl (fun w el => Function.update w (sp_x.row el) (x el)) w1
        ((sp_y.col i).foldl (fun y el => Function.update y el (w2 (sp_y.row el))) st.1, w2))
        (y, w)).1 k = sp_x.entry x (sp_y.row k) c := by
    intro n
    induction n with
    | zero => intro _ c hc; exact absurd hc (Nat.not_lt_zero _)
    | succ n ih =>
      intro hn c hc k hk
      rw [List.range_succ, List.foldl_append, List.foldl_cons, List.foldl_nil]
      simp only
      rw [foldl_update_apply (fun el => _)]
      by_cases hkn : k ∈ sp_y.col n
      · have hcn : c = n :=
          sp_y.col_disjoint sp_x.ncol hmono c n k (by omega) (by omega) hk hkn
        subst hcn
        rw [if_pos hkn, foldl_update_row, foldl_zero_row,
          if_pos (List.mem_map_of_mem _ hkn)]
        rfl
      · rw [if_neg hkn]
        have hcn : c < n := by
          rcases Nat.lt_succ_iff_lt_or_eq.mp hc with h | h
          · exact h
          · subst h; exact absurd hk hkn
        exact ih (by omega) c hcn k hk
  exact key sp_x.ncol (le_refl _) c hc k hk

theorem set_column_apply (sp : Sparsity) (c : Nat) (d : ℚ) (v : Nat → ℚ) (k : Nat) :
    set_column sp c d v k =
      if k ∈ sp.col c then (if sp.row k = c then d else 0) else v k := by
  unfold set_column
  exact foldl_update_apply (fun k => if sp.row k = c then d else 0) (sp.col c) v k

/-- A loop that rewrites the selected columns `off + c` with `c` in the list:
slots of other columns keep their value and slots of a selected column get the
unit pattern. -/
theorem rewrite_columns_apply (sp : Sparsity) (n : Nat) (hmono : sp.Monotone n)
    (sel : Nat → Prop) [DecidablePred sel] (off : Nat) (d : ℚ) (cs : List Nat)
    (hcs : ∀ c ∈ cs, off + c < n) (v : Nat → ℚ) (c : Nat) (hc : c < n) (k : Nat)
    (hk : k ∈ sp.col c) :
    (cs.foldl (fun kktd c => if sel c then set_column sp (off + c) d kktd else kktd) v) k =
      if (∃ j ∈ cs, off + j = c ∧ sel j) then (if sp.row k = c then d else 0) else v k := by
  induction cs generalizing v with
  | nil => simp
  | cons j js ih =>
    rw [List.foldl_cons, ih (fun c hc => hcs c (List.mem_cons_of_mem _ hc))]
    by_cases hex : ∃ i ∈ js, off + i = c ∧ sel i
    · have : ∃ i ∈ j :: js, off + i = c ∧ sel i := by
        obtain ⟨i, hi, h⟩ := hex
        exact ⟨i, List.mem_cons_of_mem _ hi, h⟩
      rw [if_pos hex, if_pos this]
    · rw [if_neg hex]
      by_cases hj : off + j = c ∧ sel j
      · have : ∃ i ∈ j :: js, off + i = c ∧ sel i := ⟨j, List.mem_cons_self _ _, hj⟩
        rw [if_pos this, if_pos hj.2, set_column_apply, hj.1, if_pos hk]
      · have : ¬ ∃ i ∈ j :: js, off + i = c ∧ sel i := by
          rintro ⟨i, hi, h⟩
          rcases List.mem_cons.mp hi with rfl | hi
          · exact hj h
          · exact hex ⟨i, hi, h⟩
        rw [if_neg this]
        by_cases hs : sel j
        · rw [if_pos hs, set_column_apply]
          have hne : off + j ≠ c := fun h => hj ⟨h, hs⟩
          have : k ∉ sp.col (off + j) := fun hkj =>
            hne (sp.col_disjoint n hmono (off + j) c k
              (hcs j (List.mem_cons_self _ _)) hc hkj hk)
          rw [if_neg this]
        · rw [if_neg hs]

theorem Sparsity.entry_of_slots (sp : Sparsity) (v : Nat → ℚ) (c : Nat) (f : Nat → ℚ)
    (h : ∀ k ∈ sp.col c, v k = f (sp.row k)) (r : Nat) :
    sp.entry v r c = if r ∈ (sp.col c).map sp.row then f r else 0 := by
  unfold Sparsity.entry
  generalize sp.col c = ks at h
  have key : ∀ (a : ℚ), ks.foldl (fun acc k => if sp.row k = r then v k else acc) a =
      if r ∈ ks.map sp.row then f r else a := by
    induction ks with
    | nil => intro a; simp
    | cons j js ih =>
      intro a
      rw [List.foldl_cons, ih (fun k hk => h k (List.mem_cons_of_mem _ hk))]
      by_cases hr : r ∈ js.map sp.row
      · have : r ∈ (j :: js).map sp.row := by
          rw [List.map_cons]; exact List.mem_cons_of_mem _ hr
        rw [if_pos hr, if_pos this]
      · rw [if_neg hr]
        by_cases hj : sp.row j = r
        · have : r ∈ (j :: js).map sp.row := by
            rw [List.map_cons, ← hj]; exact List.mem_cons_self _ _
          rw [if_pos hj, if_pos this, h j (List.mem_cons_self _ _), hj]
        · have : r ∉ (j :: js).map sp.row := by
            rw [List.map_cons]
            intro hmem
            rcases List.mem_cons.mp hmem with h1 | h1
            · exact hj h1.symm
            · exact hr h1
          rw [if_neg hj, if_neg this]
  exact key 0

theorem calc_kktd_apply (S : ConicActiveSet) (kkt lam : Nat → ℚ)
    (hmono : S.kktd_.Monotone (S.nx_ + S.na_)) (hncol : S.kkt_.ncol = S.nx_ + S.na_)
    (c : Nat) (hc : c < S.nx_ + S.na_) (k : Nat) (hk : k ∈ S.kktd_.col c) :
    calc_kktd S kkt lam k =
      if c < S.nx_ ∧ lam c ≠ 0 then (if S.kktd_.row k = c then 1 else 0)
      else if S.nx_ ≤ c ∧ lam c = 0 then (if S.kktd_.row k = c then -1 else 0)
      else S.kkt_.entry kkt (S.kktd_.row k) c := by
  unfold calc_kktd
  have h2 := rewrite_columns_apply S.kktd_ (S.nx_ + S.na_) hmono
    (fun j => lam (S.nx_ + j) = 0) S.nx_ (-1) (List.range S.na_)
    (fun j hj => by have := List.mem_range.mp hj; omega)
  have h1 := rewrite_columns_apply S.kktd_ (S.nx_ + S.na_) hmono
    (fun j => lam j ≠ 0) 0 1 (List.range S.nx_)
    (fun j hj => by have := List.mem_range.mp hj; omega)
  simp only [Nat.zero_add] at h1
  rw [h2 _ c hc k hk, h1 _ c hc k hk]
  have hp := casadi_project_apply kkt S.kkt_ (fun _ => 0) S.kktd_ (fun _ => 0)
    (by rw [hncol]; exact hmono) c (by rw [hncol]; exact hc) k hk
  rw [hp]
  by_cases hA : c < S.nx_ ∧ lam c ≠ 0
  · have hB : ¬ ∃ j ∈ List.range S.na_, S.nx_ + j = c ∧ lam (S.nx_ + j) = 0 := by
      rintro ⟨j, _, hj, _⟩; omega
    have hA' : ∃ j ∈ List.range S.nx_, j = c ∧ lam j ≠ 0 :=
      ⟨c, List.mem_range.mpr hA.1, rfl, hA.2⟩
    rw [if_neg hB, if_pos hA', if_pos hA]
  · have hA' : ¬ ∃ j ∈ List.range S.nx_, j = c ∧ lam j ≠ 0 := by
      rintro ⟨j, hj, rfl, hl⟩
      exact hA ⟨List.mem_range.mp hj, hl⟩
    rw [if_neg hA]
    by_cases hB : S.nx_ ≤ c ∧ lam c = 0
    · have hB' : ∃ j ∈ List.range S.na_, S.nx_ + j = c ∧ lam (S.nx_ + j) = 0 := by
        refine ⟨c - S.nx_, List.mem_range.mpr (by omega), by omega, ?_⟩
        have : S.nx_ + (c - S.nx_) = c := by omega
        rw [this]; exact hB.2
      rw [if_pos hB', if_pos hB]
    · have hB' : ¬ ∃ j ∈ List.range S.na_, S.nx_ + j = c ∧ lam (S.nx_ + j) = 0 := by
        rintro ⟨j, _, hj, hl⟩
        rw [hj] at hl
        exact hB ⟨by omega, hl⟩
      rw [if_neg hB', if_neg hA', if_neg hB]

/-- C2: after the rewrite, for every column `c` of the working KKT matrix on the
sparsity `kktd_` (which stores the diagonal): if `c < nx` and `lam[c] != 0` the
column is the unit vector `e_c`; if `c >= nx` and `lam[c] = 0` it is `-e_c`;
otherwise every stored entry of the column is the entry of the base KKT matrix at
that position, `0` where the base KKT stores nothing. -/
theorem working_kkt_columns (S : ConicActiveSet) (kkt lam : Nat → ℚ)
    (hmono : S.kktd_.Monotone (S.nx_ + S.na_)) (hncol : S.kkt_.ncol = S.nx_ + S.na_)
    (hdiag : S.kktd_.HasDiag (S.nx_ + S.na_)) (c : Nat) (hc : c < S.nx_ + S.na_) :
    (c < S.nx_ ∧ lam c ≠ 0 →
      (∀ k ∈ S.kktd_.col c, calc_kktd S kkt lam k = if S.kktd_.row k = c then 1 else 0) ∧
      ∀ r, S.kktd_.entry (calc_kktd S kkt lam) r c = if r = c then 1 else 0) ∧
    (S.nx_ ≤ c ∧ lam c = 0 →
      (∀ k ∈ S.kktd_.col c, calc_kktd S kkt lam k = if S.kktd_.row k = c then -1 else 0) ∧
      ∀ r, S.kktd_.entry (calc_kktd S kkt lam) r c = if r = c then -1 else 0) ∧
    (¬ (c < S.nx_ ∧ lam c ≠ 0) ∧ ¬ (S.nx_ ≤ c ∧ lam c = 0) →
      ∀ k ∈ S.kktd_.col c,
        calc_kktd S kkt lam k = S.kkt_.entry kkt (S.kktd_.row k) c) := by
  have hdc : c ∈ (S.kktd_.col c).map S.kktd_.row := by
    obtain ⟨k, hk, hr⟩ := hdiag c hc
    exact List.mem_map.mpr ⟨k, hk, hr⟩
  refine ⟨?_, ?_, ?_⟩
  · intro hA
    have hs : ∀ k ∈ S.kktd_.col c,
        calc_kktd S kkt lam k = if S.kktd_.row k = c then 1 else 0 := by
      intro k hk
      rw [calc_kktd_apply S kkt lam hmono hncol c hc k hk, if_pos hA]
    refine ⟨hs, fun r => ?_⟩
    rw [S.kktd_.entry_of_slots _ c (fun r => if r = c then 1 else 0) hs r]
    by_cases hr : r = c
    · subst hr; rw [if_pos hdc]
    · simp [hr]
  · intro hB
    have hA : ¬ (c < S.nx_ ∧ lam c ≠ 0) := fun h => h.2 hB.2
    have hs : ∀ k ∈ S.kktd_.col c,
        calc_kktd S kkt lam k = if S.kktd_.row k = c then -1 else 0 := by
      intro k hk
      rw [calc_kktd_apply S kkt lam hmono hncol c hc k hk, if_neg hA, if_pos hB]
    refine ⟨hs, fun r => ?_⟩
    rw [S.kktd_.entry_of_slots _ c (fun r => if r = c then -1 else 0) hs r]
    by_cases hr : r = c
    · subst hr; rw [if_pos hdc]
    · simp [hr]
  · rintro ⟨hA, hB⟩ k hk
    rw [calc_kktd_apply S kkt lam hmono hncol c hc k hk, if_neg hA, if_neg hB]

theorem working_kkt_columns_witness :
    (solver1 1000).kktd_.Monotone ((solver1 1000).nx_ + (solver1 1000).na_) ∧
    (solver1 1000).kkt_.ncol = (solver1 1000).nx_ + (solver1 1000).na_ ∧
    (solver1 1000).kktd_.HasDiag ((solver1 1000).nx_ + (solver1 1000).na_) ∧
    0 < (solver1 1000).nx_ + (solver1 1000).na_ ∧
    ((0 < (solver1 1000).nx_ ∧ (vec [1] 0 : Nat → ℚ) 0 ≠ 0 →
      (∀ k ∈ (solver1 1000).kktd_.col 0,
        calc_kktd (solver1 1000) (vec [2] 0) (vec [1] 0) k =
          if (solver1 1000).kktd_.row k = 0 then 1 else 0) ∧
      ∀ r, (solver1 1000).kktd_.entry (calc_kktd (solver1 1000) (vec [2] 0) (vec [1] 0)) r 0 =
        if r = 0 then 1 else 0) ∧
    ((solver1 1000).nx_ ≤ 0 ∧ (vec [1] 0 : Nat → ℚ) 0 = 0 →
      (∀ k ∈ (solver1 1000).kktd_.col 0,
        calc_kktd (solver1 1000) (vec [2] 0) (vec [1] 0) k =
          if (solver1 1000).kktd_.row k = 0 then -1 else 0) ∧
      ∀ r, (solver1 1000).kktd_.entry (calc_kktd (solver1 1000) (vec [2] 0) (vec [1] 0)) r 0 =
        if r = 0 then -1 else 0) ∧
    (¬ (0 < (solver1 1000).nx_ ∧ (vec [1] 0 : Nat → ℚ) 0 ≠ 0) ∧
        ¬ ((solver1 1000).nx_ ≤ 0 ∧ (vec [1] 0 : Nat → ℚ) 0 = 0) →
      ∀ k ∈ (solver1 1000).kktd_.col 0,
        calc_kktd (solver1 1000) (vec [2] 0) (vec [1] 0) k =
          (solver1 1000).kkt_.entry (vec [2] 0) ((solver1 1000).kktd_.row k) 0)) :=
  ⟨by unfold Sparsity.Monotone; decide!, by decide!, by unfold Sparsity.HasDiag; decide!,
    by decide!,
    working_kkt_columns (solver1 1000) (vec [2] 0) (vec [1] 0)
      (by unfold Sparsity.Monotone; decide!) (by decide!)
      (by unfold Sparsity.HasDiag; decide!) 0 (by decide!)⟩

/-! ## Comparisons with bounds -/

@[simp] theorem Ext.fin_le_fin (a b : ℚ) : (Ext.fin a ≤ Ext.fin b) ↔ a ≤ b := Iff.rfl

@[simp] theorem Ext.fin_lt_fin (a b : ℚ) : (Ext.fin a < Ext.fin b) ↔ a < b := Iff.rfl

@[simp] theorem Ext.fin_le_pinf (a : ℚ) : (Ext.fin a ≤ Ext.pinf) ↔ True := Iff.rfl

@[simp] theorem Ext.fin_lt_pinf (a : ℚ) : (Ext.fin a < Ext.pinf) ↔ True := Iff.rfl

@[simp] theorem Ext.fin_le_ninf (a : ℚ) : (Ext.fin a ≤ Ext.ninf) ↔ False := Iff.rfl

@[simp] theorem Ext.fin_lt_ninf (a : ℚ) : (Ext.fin a < Ext.ninf) ↔ False := Iff.rfl

@[simp] theorem Ext.pinf_le_fin (a : ℚ) : (Ext.pinf ≤ Ext.fin a) ↔ False := Iff.rfl

@[simp] theorem Ext.pinf_lt_fin (a : ℚ) : (Ext.pinf < Ext.fin a) ↔ False := Iff.rfl

@[simp] theorem Ext.ninf_le_fin (a : ℚ) : (Ext.ninf ≤ Ext.fin a) ↔ True := Iff.rfl

@[simp] theorem Ext.ninf_lt_fin (a : ℚ) : (Ext.ninf < Ext.fin a) ↔ True := Iff.rfl

@[simp] theorem Ext.sub_fin (a e : ℚ) : (Ext.fin a).sub e = Ext.fin (a - e) := rfl

@[simp] theorem Ext.sub_pinf (e : ℚ) : Ext.pinf.sub e = Ext.pinf := rfl

@[simp] theorem Ext.sub_ninf (e : ℚ) : Ext.ninf.sub e = Ext.ninf := rfl

@[simp] theorem Ext.add_fin (a e : ℚ) : (Ext.fin a).add e = Ext.fin (a + e) := rfl

@[simp] theorem Ext.add_pinf (e : ℚ) : Ext.pinf.add e = Ext.pinf := rfl

@[simp] theorem Ext.add_ninf (e : ℚ) : Ext.ninf.add e = Ext.ninf := rfl

@[simp] theorem Ext.rsub_fin (z a : ℚ) : Ext.rsub z (Ext.fin a) = Ext.fin (z - a) := rfl

@[simp] theorem Ext.rsub_pinf (z : ℚ) : Ext.rsub z Ext.pinf = Ext.ninf := rfl

@[simp] theorem Ext.rsub_ninf (z : ℚ) : Ext.rsub z Ext.ninf = Ext.pinf := rfl

@[simp] theorem Ext.div_fin (a d : ℚ) : (Ext.fin a).div d = Ext.fin (a / d) := rfl

@[simp] theorem Ext.finite_fin (a : ℚ) : (Ext.fin a).finite = some a := rfl

@[simp] theorem Ext.finite_pinf : Ext.pinf.finite = none := rfl

@[simp] theorem Ext.finite_ninf : Ext.ninf.finite = none := rfl

theorem tol_pos (prerr : ℚ) : 0 < max prerr (1 / 10 ^ 10) :=
  lt_of_lt_of_le (by positivity) (le_max_right _ _)

theorem DMIN_pos : 0 < DMIN := by unfold DMIN; positivity

/-! ## The primal bracket -/

theorem within_zero_step (lbz ubz : Nat → Ext) (e : ℚ) (i : Nat) (zi d t : ℚ)
    (h : Within lbz ubz e i zi) (ht : t = 0 ∨ d = 0) : Within lbz ubz e i (zi + t * d) := by
  have : zi + t * d = zi := by rcases ht with h | h <;> simp [h]
  rw [this]; exact h

theorem within_down (lbz ubz : Nat → Ext) (e : ℚ) (i : Nat) (zi d t T : ℚ)
    (h : Within lbz ubz e i zi) (hd : d < 0) (ht0 : 0 ≤ t) (htT : t ≤ T)
    (hT : (lbz i).sub e ≤ ((zi + T * d : ℚ) : Ext)) : Within lbz ubz e i (zi + t * d) := by
  unfold Within at *
  have h1 : zi + T * d ≤ zi + t * d := by nlinarith
  have h2 : zi + t * d ≤ zi := by nlinarith
  constructor
  · cases hl : lbz i <;> rw [hl] at hT <;> (simp at hT ⊢) <;> linarith
  · have hu2 := h.2
    cases hu : ubz i <;> rw [hu] at hu2 <;> (simp at hu2 ⊢) <;> linarith

theorem within_up (lbz ubz : Nat → Ext) (e : ℚ) (i : Nat) (zi d t T : ℚ)
    (h : Within lbz ubz e i zi) (hd : 0 < d) (ht0 : 0 ≤ t) (htT : t ≤ T)
    (hT : ((zi + T * d : ℚ) : Ext) ≤ (ubz i).add e) : Within lbz ubz e i (zi + t * d) := by
  unfold Within at *
  have h1 : zi + t * d ≤ zi + T * d := by nlinarith
  have h2 : zi ≤ zi + t * d := by nlinarith
  constructor
  · have hl2 := h.1
    cases hl : lbz i <;> rw [hl] at hl2 <;> (simp at hl2 ⊢) <;> linarith
  · cases hu : ubz i <;> rw [hu] at hT <;> (simp at hT ⊢) <;> linarith

theorem PrimalSpec.tail (prerr : ℚ) (z dz : Nat → ℚ) (lbz ubz : Nat → Ext) (i : Nat)
    (is : List Nat) (b b1 : Bracket) (h : PrimalSpec prerr z dz lbz ubz is b b1)
    (hi : Within lbz ubz (max prerr (1 / 10 ^ 10)) i (z i) →
      ∀ t, 0 ≤ t → t ≤ b1.tau →
        Within lbz ubz (max prerr (1 / 10 ^ 10)) i (z i + t * dz i)) :
    PrimalSpec prerr z dz lbz ubz (i :: is) b b1 := by
  obtain ⟨h0, h1, h2, h3⟩ := h
  refine ⟨h0, h1, ?_, ?_⟩
  · intro j hj
    rcases List.mem_cons.mp hj with rfl | hj
    · exact hi
    · exact h2 j hj
  · rcases h3 with h3 | ⟨j, hj, h3⟩
    · exact Or.inl h3
    · exact Or.inr ⟨j, List.mem_cons_of_mem _ hj, h3⟩

theorem PrimalSpec.step (prerr : ℚ) (z dz : Nat → ℚ) (lbz ubz : Nat → Ext) (i : Nat)
    (is : List Nat) (b bm b1 : Bracket) (h : PrimalSpec prerr z dz lbz ubz is bm b1)
    (hm0 : bm.tau < b.tau) (hmi : bm.index = (i : Int)) (hdz : dz i ≠ 0)
    (hms : bm.sign = if dz i < 0 then -1 else 1)
    (htc : ∃ tc, 0 ≤ tc ∧ tc ≤ b.tau ∧
      (dz i < 0 → ((z i + tc * dz i : ℚ) : Ext) ≤ (lbz i).sub (max prerr (1 / 10 ^ 10))) ∧
      (0 < dz i → (ubz i).add (max prerr (1 / 10 ^ 10)) ≤ ((z i + tc * dz i : ℚ) : Ext)))
    (hi : Within lbz ubz (max prerr (1 / 10 ^ 10)) i (z i) →
      ∀ t, 0 ≤ t → t ≤ bm.tau →
        Within lbz ubz (max prerr (1 / 10 ^ 10)) i (z i + t * dz i)) :
    PrimalSpec prerr z dz lbz ubz (i :: is) b b1 := by
  obtain ⟨h0, h1, h2, h3⟩ := h
  refine ⟨h0, le_trans h1 (le_of_lt hm0), ?_, ?_⟩
  · intro j hj
    rcases List.mem_cons.mp hj with rfl | hj
    · intro hw t ht0 ht1
      exact hi hw t ht0 (le_trans ht1 h1)
    · exact h2 j hj
  · right
    rcases h3 with h3 | ⟨j, hj, hji, hjd, hjs, hjt, tc, hc0, hc1, hc2⟩
    · subst h3
      exact ⟨i, List.mem_cons_self _ _, hmi, hdz, hms, hm0, htc⟩
    · exact ⟨j, List.mem_cons_of_mem _ hj, hji, hjd, hjs, lt_of_lt_of_le hjt (le_of_lt hm0),
        tc, hc0, le_trans hc1 (le_of_lt hm0), hc2⟩

theorem primal_bracket_spec (prerr : ℚ) (z dz : Nat → ℚ) (lbz ubz : Nat → Ext)
    (is : List Nat) (b : Bracket) (hb : 0 ≤ b.tau) :
    ∃ b1, primal_bracket prerr z dz lbz ubz is b = .ok b1 ∧
      PrimalSpec prerr z dz lbz ubz is b b1 := by
  have he := tol_pos prerr
  induction is generalizing b with
  | nil =>
    exact ⟨b, rfl, hb, le_refl _, fun i hi => absurd hi (List.not_mem_nil _), Or.inl rfl⟩
  | cons i is ih =>
    unfold primal_bracket
    by_cases htau : b.tau > 0
    swap
    · -- the loop has ended
      have h0 : b.tau = 0 := le_antisymm (not_lt.mp htau) hb
      rw [if_neg htau]
      refine ⟨b, rfl, hb, le_refl _, ?_, Or.inl rfl⟩
      intro j _ hw t ht0 ht1
      exact within_zero_step lbz ubz _ j _ _ t hw (Or.inl (le_antisymm (h0 ▸ ht1) ht0))
    rw [if_pos htau]
    by_cases hdz : dz i = 0
    · rw [if_pos hdz]
      obtain ⟨b1, hb1, hs⟩ := ih b hb
      refine ⟨b1, hb1, hs.tail prerr z dz lbz ubz i is b b1 ?_⟩
      intro hw t _ _
      exact within_zero_step lbz ubz _ i _ _ t hw (Or.inr hdz)
    rw [if_neg hdz]
    by_cases hbrk : (if dz i < 0 then (z i : Ext) ≤ (lbz i).sub (max prerr (1 / 10 ^ 10))
        else (ubz i).add (max prerr (1 / 10 ^ 10)) ≤ (z i : Ext))
    · -- violation with tau = 0 and not improving
      rw [if_pos hbrk]
      refine ⟨_, rfl, le_refl _, le_of_lt htau, ?_, Or.inr ⟨i, List.mem_cons_self _ _, rfl, hdz,
        rfl, htau, 0, le_refl _, le_of_lt htau, ?_, ?_⟩⟩
      · intro j _ hw t ht0 ht1
        exact within_zero_step lbz ubz _ j _ _ t hw (Or.inl (le_antisymm ht1 ht0))
      · intro hd
        rw [if_pos hd] at hbrk
        simpa using hbrk
      · intro hd
        rw [if_neg (not_lt.mpr (le_of_lt hd))] at hbrk
        simpa using hbrk
    rw [if_neg hbrk]
    by_cases hlo : dz i < 0 ∧
        ((z i + b.tau * dz i : ℚ) : Ext) < (lbz i).sub (max prerr (1 / 10 ^ 10))
    · -- the trial step would pass the relaxed lower bound
      rw [if_pos hlo]
      obtain ⟨hd, htr⟩ := hlo
      rw [if_pos hd] at hbrk
      cases hl : lbz i with
      | pinf => rw [hl] at hbrk; exact absurd trivial hbrk
      | ninf => rw [hl] at htr; exact absurd htr (by simp)
      | fin l =>
        rw [hl] at hbrk htr
        simp only [Ext.sub_fin, Ext.fin_le_fin, Ext.fin_lt_fin, not_le] at hbrk htr
        simp only [Ext.sub_fin, Ext.div_fin, Ext.finite_fin]
        have ht1 : (l - max prerr (1 / 10 ^ 10) - z i) / dz i < b.tau := by
          rw [div_lt_iff_of_neg hd]; linarith
        have ht0 : 0 < (l - max prerr (1 / 10 ^ 10) - z i) / dz i :=
          div_pos_of_neg_of_neg (by linarith) hd
        rw [if_pos (le_of_lt ht1)]
        obtain ⟨b1, hb1, hs⟩ := ih ⟨(l - max prerr (1 / 10 ^ 10) - z i) / dz i, i, -1⟩
          (le_of_lt ht0)
        refine ⟨b1, hb1, hs.step prerr z dz lbz ubz i is b _ b1 ht1 rfl hdz
          (by simp only [if_pos hd]) ⟨b.tau, hb, le_refl _, ?_, ?_⟩ ?_⟩
        · intro _; rw [hl]; simp only [Ext.sub_fin, Ext.fin_le_fin]; exact le_of_lt htr
        · intro h; exact absurd h (not_lt.mpr (le_of_lt hd))
        · intro hw t h0 h1
          refine within_down lbz ubz _ i _ _ t _ hw hd h0 h1 ?_
          rw [hl]
          simp only [Ext.sub_fin, Ext.fin_le_fin]
          rw [div_mul_cancel₀ _ hdz]
          linarith
    rw [if_neg hlo]
    by_cases hup : dz i > 0 ∧
        (ubz i).add (max prerr (1 / 10 ^ 10)) < ((z i + b.tau * dz i : ℚ) : Ext)
    · -- the trial step would pass the relaxed upper bound
      rw [if_pos hup]
      obtain ⟨hd, htr⟩ := hup
      rw [if_neg (not_lt.mpr (le_of_lt hd))] at hbrk
      cases hu : ubz i with
      | ninf => rw [hu] at hbrk; exact absurd trivial hbrk
      | pinf => rw [hu] at htr; exact absurd htr (by simp)
      | fin l =>
        rw [hu] at hbrk htr
        simp only [Ext.add_fin, Ext.fin_le_fin, Ext.fin_lt_fin, not_le] at hbrk htr
        simp only [Ext.add_fin, Ext.sub_fin, Ext.div_fin, Ext.finite_fin]
        have ht1 : (l + max prerr (1 / 10 ^ 10) - z i) / dz i < b.tau := by
          rw [div_lt_iff hd]; linarith
        have ht0 : 0 < (l + max prerr (1 / 10 ^ 10) - z i) / dz i :=
          div_pos (by linarith) hd
        rw [if_pos (le_of_lt ht1)]
        obtain ⟨b1, hb1, hs⟩ := ih ⟨(l + max prerr (1 / 10 ^ 10) - z i) / dz i, i, 1⟩
          (le_of_lt ht0)
        refine ⟨b1, hb1, hs.step prerr z dz lbz ubz i is b _ b1 ht1 rfl hdz
          (by simp only [if_neg (not_lt.mpr (le_of_lt hd))]) ⟨b.tau, hb, le_refl _, ?_, ?_⟩ ?_⟩
        · intro h; exact absurd h (not_lt.mpr (le_of_lt hd))
        · intro _; rw [hu]; simp only [Ext.add_fin, Ext.fin_le_fin]; exact le_of_lt htr
        · intro hw t h0 h1
          refine within_up lbz ubz _ i _ _ t _ hw hd h0 h1 ?_
          rw [hu]
          simp only [Ext.add_fin, Ext.fin_le_fin]
          rw [div_mul_cancel₀ _ hdz]
          linarith
    rw [if_neg hup]
    -- the trial step stays within the relaxed bounds
    obtain ⟨b1, hb1, hs⟩ := ih b hb
    refine ⟨b1, hb1, hs.tail prerr z dz lbz ubz i is b b1 ?_⟩
    intro hw t h0 h1
    have h1' : t ≤ b.tau := le_trans h1 hs.2.1
    rcases lt_or_gt_of_ne hdz with hd | hd
    · refine within_down lbz ubz _ i _ _ t b.tau hw hd h0 h1' ?_
      have : ¬ ((z i + b.tau * dz i : ℚ) : Ext) < (lbz i).sub (max prerr (1 / 10 ^ 10)) :=
        fun h => hlo ⟨hd, h⟩
      revert this
      cases lbz i <;> simp
    · refine within_up lbz ubz _ i _ _ t b.tau hw hd h0 h1' ?_
      have : ¬ (ubz i).add (max prerr (1 / 10 ^ 10)) < ((z i + b.tau * dz i : ℚ) : Ext) :=
        fun h => hup ⟨hd, h⟩
      revert this
      cases ubz i <;> simp

/-! ## The dual bracket -/

theorem clip_tau_nonneg (tau_k dtau infeas tinfeas t : ℚ)
    (h : clip_tau tau_k dtau infeas tinfeas = some t) : 0 ≤ t := by
  unfold clip_tau at h
  split_ifs at h
  · simp only [Option.some.injEq] at h
    rw [← h]
  · simp only [Option.some.injEq] at h
    rw [← h]
    exact le_max_right _ _

/-- The inner loop of the dual bracket returns, with no clip or with a clipped
step length in `[0, tau)`. -/
theorem dual_check_spec (e tau_k dtau tau : ℚ) (infeas tinfeas : Nat → ℚ) (ks : List Nat) :
    dual_check e tau_k dtau tau infeas tinfeas ks = .ok none ∨
    ∃ t, dual_check e tau_k dtau tau infeas tinfeas ks = .ok (some t) ∧ 0 ≤ t ∧ t < tau := by
  induction ks with
  | nil => exact Or.inl rfl
  | cons k ks ih =>
    unfold dual_check
    by_cases h1 : |infeas k + dtau * tinfeas k| > e
    · rw [if_pos h1]
      cases h2 : clip_tau tau_k dtau (infeas k) (tinfeas k) with
      | none => exact ih
      | some t =>
        simp only []
        by_cases h3 : t < tau
        · rw [if_pos h3]
          exact Or.inr ⟨t, rfl, clip_tau_nonneg _ _ _ _ t h2, h3⟩
        · rw [if_neg h3]; exact ih
    · rw [if_neg h1]; exact ih

/-- What the dual bracket guarantees when it goes from `d` to `d1`: it returns,
`tau` stays in `[0, d.tau]`, and when `new_active_set` is still unset nothing was
clipped and no multiplier was removed. -/
theorem dual_bracket_spec (S : ConicActiveSet) (F : Flags) (trans_a : Nat → ℚ) (duerr : ℚ)
    (w : Nat → ℚ) (is : List Nat) (d : Dual) (hd : 0 ≤ d.tau) :
    ∃ d1, dual_bracket S F trans_a duerr w is d = .ok d1 ∧ 0 ≤ d1.tau ∧ d1.tau ≤ d.tau ∧
      (d1.new_active_set = false → d.new_active_set = false ∧ d1.tau = d.tau ∧
        d1.index = d.index ∧ d1.lam = d.lam ∧ d1.dlam = d.dlam) := by
  induction is generalizing d with
  | nil => exact ⟨d, rfl, hd, le_refl _, fun h => ⟨h, rfl, rfl, rfl, rfl⟩⟩
  | cons i is ih =>
    unfold dual_bracket
    rcases dual_check_spec (max duerr (1 / 10 ^ 10)) d.tau_k (w i - d.tau_k) d.tau d.infeas
      d.tinfeas (List.range S.nx_) with h | ⟨t, h, ht0, ht1⟩
    · rw [h]
      simp only
      obtain ⟨d1, h2, h3, h4, h5⟩ := ih _ (show (0 : ℚ) ≤ (Dual.mk d.tau d.index
          (if (i : Int) ≠ d.index then true else d.new_active_set) (w i)
          (casadi_axpy S.nx_ (w i - d.tau_k) d.tinfeas d.infeas)
          (drop_tinfeas S trans_a d.tinfeas d.lam i)
          (if (i : Int) ≠ d.index then
              Function.update d.lam i
                (if !F.neverzero i then 0 else if d.lam i < 0 then DMIN else -DMIN)
            else d.lam)
          (if (i : Int) ≠ d.index then Function.update d.dlam i 0 else d.dlam)).tau from hd)
      refine ⟨d1, h2, h3, h4, ?_⟩
      intro hn
      obtain ⟨h6, h7, h8, h9, h10⟩ := h5 hn
      simp only at h6 h7 h8 h9 h10
      by_cases hi : (i : Int) ≠ d.index
      · rw [if_pos hi] at h6; exact absurd h6 (by simp)
      · rw [if_neg hi] at h6 h9 h10
        exact ⟨h6, h7, h8, h9, h10⟩
    · rw [h]
      simp only
      exact ⟨_, rfl, ht0, le_of_lt ht1, fun hn => absurd hn (by simp)⟩

/-! ## The step -/

theorem start_tau_nonneg (n : Nat) (dz dlam : Nat → ℚ) :
    (0 : ℚ) ≤ (Bracket.mk (if zero_step n dz dlam then 0 else 1) (-1) 0).tau := by
  show (0 : ℚ) ≤ if zero_step n dz dlam then 0 else 1
  split <;> norm_num

/-- The step-length calculation unfolded: the primal bracket and the dual
bracket always return, and the step is built from what they return. -/
theorem take_step_spec (S : ConicActiveSet) (F : Flags) (trans_a : Nat → ℚ)
    (lbz ubz : Nat → Ext) (prerr duerr : ℚ) (z lam dz dlam infeas tinfeas : Nat → ℚ) :
    ∃ b, primal_bracket prerr z dz lbz ubz (List.range (S.nx_ + S.na_))
        ⟨if zero_step (S.nx_ + S.na_) dz dlam then 0 else 1, -1, 0⟩ = .ok b ∧
      PrimalSpec prerr z dz lbz ubz (List.range (S.nx_ + S.na_))
        ⟨if zero_step (S.nx_ + S.na_) dz dlam then 0 else 1, -1, 0⟩ b ∧
      ∃ d, dual_bracket S F trans_a duerr
          (collect_crossings lam dlam b.tau (List.range (S.nx_ + S.na_)) ⟨fun _ => 1, []⟩).w
          (collect_crossings lam dlam b.tau (List.range (S.nx_ + S.na_)) ⟨fun _ => 1, []⟩).iw
          ⟨b.tau, b.index, false, 0, infeas, tinfeas, lam, dlam⟩ = .ok d ∧
        0 ≤ d.tau ∧ d.tau ≤ b.tau ∧
        (d.new_active_set = false →
          d.tau = b.tau ∧ d.index = b.index ∧ d.lam = lam ∧ d.dlam = dlam) ∧
        take_step S F trans_a lbz ubz prerr duerr z lam dz dlam infeas tinfeas =
          .ok { tau := d.tau
                z := casadi_axpy S.nx_ d.tau dz z
                lam := fun i => if i < S.nx_ + S.na_ then
                    update_lam d.tau (if d.tau = 1 then -1 else d.index) b.sign d.lam d.dlam i
                  else d.lam i
                new_active_set := d.new_active_set ||
                  sign_changes (S.nx_ + S.na_) (if d.tau = 1 then -1 else d.index) b.sign
                    d.lam } := by
  obtain ⟨b, hb, hs⟩ := primal_bracket_spec prerr z dz lbz ubz (List.range (S.nx_ + S.na_))
    ⟨if zero_step (S.nx_ + S.na_) dz dlam then 0 else 1, -1, 0⟩ (start_tau_nonneg _ _ _)
  refine ⟨b, hb, hs, ?_⟩
  unfold take_step
  rw [hb]
  simp only
  obtain ⟨d, h, h0, h1, h2⟩ := dual_bracket_spec S F trans_a duerr
      (collect_crossings lam dlam b.tau (List.range (S.nx_ + S.na_)) ⟨fun _ => 1, []⟩).w
      (collect_crossings lam dlam b.tau (List.range (S.nx_ + S.na_)) ⟨fun _ => 1, []⟩).iw
      ⟨b.tau, b.index, false, 0, infeas, tinfeas, lam, dlam⟩ hs.1
  rw [h]
  exact ⟨d, rfl, h0, h1, fun hn => (h2 hn).2, rfl⟩

/-- C8: the primal-bracket scan starts from `tau = 1`, or `0` for a zero direction,
and from any `tau >= 0` and over any indices it returns, without tripping the
assertion `Inconsistent step size calculation`, a `tau` that is not negative and
not larger; the step is always taken, also when the dual bracket divides by a zero
tangent, and the `tau` it uses satisfies `0 <= tau <= 1` and is no larger than the
`tau` left by the primal scan. -/
theorem step_length_bracketed (S : ConicActiveSet) (F : Flags) (trans_a : Nat → ℚ)
    (lbz ubz : Nat → Ext) (prerr duerr : ℚ) (z lam dz dlam infeas tinfeas : Nat → ℚ) :
    (∀ (is : List Nat) (b0 : Bracket), 0 ≤ b0.tau →
      ∃ b1, primal_bracket prerr z dz lbz ubz is b0 = .ok b1 ∧ 0 ≤ b1.tau ∧
        b1.tau ≤ b0.tau) ∧
    ∃ b t, primal_bracket prerr z dz lbz ubz (List.range (S.nx_ + S.na_))
        ⟨if zero_step (S.nx_ + S.na_) dz dlam then 0 else 1, -1, 0⟩ = .ok b ∧
      0 ≤ b.tau ∧ b.tau ≤ (if zero_step (S.nx_ + S.na_) dz dlam then 0 else 1) ∧
      take_step S F trans_a lbz ubz prerr duerr z lam dz dlam infeas tinfeas = .ok t ∧
      0 ≤ t.tau ∧ t.tau ≤ 1 ∧ t.tau ≤ b.tau := by
  constructor
  · intro is b0 hb0
    obtain ⟨b1, h1, h2⟩ := primal_bracket_spec prerr z dz lbz ubz is b0 hb0
    exact ⟨b1, h1, h2.1, h2.2.1⟩
  · obtain ⟨b, hb, hs, d, _, h0, h1, _, h⟩ :=
      take_step_spec S F trans_a lbz ubz prerr duerr z lam dz dlam infeas tinfeas
    have hb1 : b.tau ≤ 1 := by
      refine le_trans hs.2.1 ?_
      show (if zero_step (S.nx_ + S.na_) dz dlam then (0 : ℚ) else 1) ≤ 1
      split <;> norm_num
    exact ⟨b, _, hb, hs.1, hs.2.1, h, h0, le_trans h1 hb1, h1⟩

/-- A step whose dual bracket divides by a zero tangent: one variable with
`lam = 1`, `dlam = -2`, `infeas = 5` and `tinfeas = 0`.  The crossing at
`tau = 1/2` finds the dual infeasibility above the bound, the quotient by the zero
tangent is infinite, `tau1 = fmax(-inf, 0.) = 0`, and the step is taken with
`tau = 0`, the multiplier kept. -/
theorem step_length_bracketed_witness :
    (∃ t, take_step (solver1 1000) (flags (solver1 1000) args_box)
        (trans_a (solver1 1000) args_box) (lbz (solver1 1000) args_box)
        (ubz (solver1 1000) args_box) 0 0 (vec [0] 0) (vec [1] 0) (vec [0] 0) (vec [-2] 0)
        (vec [5] 0) (vec [0] 0) = .ok t ∧ 0 ≤ t.tau ∧ t.tau ≤ 1) ∧
    clip_tau 0 (1 / 2) 5 0 = some 0 ∧
    (step_of (take_step (solver1 1000) (flags (solver1 1000) args_box)
        (trans_a (solver1 1000) args_box) (lbz (solver1 1000) args_box)
        (ubz (solver1 1000) args_box) 0 0 (vec [0] 0) (vec [1] 0) (vec [0] 0) (vec [-2] 0)
        (vec [5] 0) (vec [0] 0))).tau = 0 ∧
    (step_of (take_step (solver1 1000) (flags (solver1 1000) args_box)
        (trans_a (solver1 1000) args_box) (lbz (solver1 1000) args_box)
        (ubz (solver1 1000) args_box) 0 0 (vec [0] 0) (vec [1] 0) (vec [0] 0) (vec [-2] 0)
        (vec [5] 0) (vec [0] 0))).lam 0 = 1 :=
  ⟨(step_length_bracketed (solver1 1000) (flags (solver1 1000) args_box)
      (trans_a (solver1 1000) args_box) (lbz (solver1 1000) args_box)
      (ubz (solver1 1000) args_box) 0 0 (vec [0] 0) (vec [1] 0) (vec [0] 0) (vec [-2] 0)
      (vec [5] 0) (vec [0] 0)).2.elim
      (fun _ h => h.elim (fun t ht => ⟨t, ht.2.2.2.1, ht.2.2.2.2.1, ht.2.2.2.2.2.1⟩)),
    by decide!, by decide!, by decide!⟩

/-! ## Sparse products -/

theorem mv_col_apply (x : Nat → ℚ) (row : Nat → Nat) (zc : ℚ) (ks : List Nat) (y : Nat → ℚ)
    (r : Nat) :
    (ks.foldl (fun y el => Function.update y (row el) (y (row el) + x el * zc)) y) r =
      y r + (ks.map (fun el => if row el = r then x el * zc else 0)).sum := by
  induction ks generalizing y with
  | nil => simp
  | cons k ks ih =>
    rw [List.foldl_cons, ih, List.map_cons, List.sum_cons]
    by_cases hk : row k = r
    · subst hk; simp; ring
    · have : r ≠ row k := fun h => hk h.symm
      simp [hk, Function.update_noteq this]

theorem casadi_mv_apply (x : Nat → ℚ) (sp : Sparsity) (z y : Nat → ℚ) (r : Nat) :
    casadi_mv x sp z y false r = y r + sp.mulVec x z r := by
  unfold casadi_mv Sparsity.mulVec
  simp only [Bool.false_eq_true, if_false]
  generalize List.range sp.ncol = cs
  induction cs generalizing y with
  | nil => simp
  | cons c cs ih =>
    rw [List.foldl_cons, ih, mv_col_apply, List.map_cons, List.sum_cons]
    ring

theorem mvt_col_apply (x z : Nat → ℚ) (row : Nat → Nat) (cc : Nat) (ks : List Nat)
    (y : Nat → ℚ) (c : Nat) :
    (ks.foldl (fun y el => Function.update y cc (y cc + x el * z (row el))) y) c =
      if c = cc then y c + (ks.map (fun el => x el * z (row el))).sum else y c := by
  induction ks generalizing y with
  | nil => simp
  | cons k ks ih =>
    rw [List.foldl_cons, ih, List.map_cons, List.sum_cons]
    by_cases hc : c = cc
    · subst hc; simp; ring
    · simp [hc, Function.update_noteq hc]

theorem casadi_mv_trans_apply (x : Nat → ℚ) (sp : Sparsity) (z y : Nat → ℚ) (c : Nat) :
    casadi_mv x sp z y true c = if c < sp.ncol then y c + sp.colDot x z c else y c := by
  unfold casadi_mv Sparsity.colDot
  simp only [if_true]
  have key : ∀ n (y : Nat → ℚ), ((List.range n).foldl (fun y cc =>
      (sp.col cc).foldl (fun y el =>
        Function.update y cc (y cc + x el * z (sp.row el))) y) y) c =
      if c < n then y c + ((sp.col c).map (fun el => x el * z (sp.row el))).sum else y c := by
    intro n
    induction n with
    | zero => intro y; simp
    | succ n ih =>
      intro y
      rw [List.range_succ, List.foldl_append, List.foldl_cons, List.foldl_nil, mvt_col_apply]
      by_cases hc : c = n
      · subst hc
        rw [if_pos rfl, ih, if_neg (lt_irrefl _), if_pos (Nat.lt_succ_self _)]
      · rw [if_neg hc, ih]
        by_cases hlt : c < n
        · rw [if_pos hlt, if_pos (Nat.lt_succ_of_lt hlt)]
        · rw [if_neg hlt, if_neg (by omega)]
  exact key sp.ncol y

theorem Sparsity.mulVec_congr (sp : Sparsity) (x z z1 : Nat → ℚ) (r : Nat)
    (h : ∀ c < sp.ncol, z c = z1 c) : sp.mulVec x z r = sp.mulVec x z1 r := by
  unfold Sparsity.mulVec
  congr 1
  apply List.map_congr_left
  intro c hc
  rw [h c (List.mem_range.mp hc)]

theorem Sparsity.mulVec_add_mul (sp : Sparsity) (x z d : Nat → ℚ) (t : ℚ) (r : Nat) :
    sp.mulVec x (fun i => z i + t * d i) r = sp.mulVec x z r + t * sp.mulVec x d r := by
  unfold Sparsity.mulVec
  generalize List.range sp.ncol = cs
  induction cs with
  | nil => simp
  | cons c cs ih =>
    rw [List.map_cons, List.sum_cons, List.map_cons, List.sum_cons, List.map_cons,
      List.sum_cons, ih]
    have : ((sp.col c).map (fun el => if sp.row el = r then x el * (z c + t * d c) else 0)).sum =
        ((sp.col c).map (fun el => if sp.row el = r then x el * z c else 0)).sum +
        t * ((sp.col c).map (fun el => if sp.row el = r then x el * d c else 0)).sum := by
      generalize sp.col c = ks
      induction ks with
      | nil => simp
      | cons k ks ih2 =>
        rw [List.map_cons, List.sum_cons, List.map_cons, List.sum_cons, List.map_cons,
          List.sum_cons, ih2]
        by_cases hk : sp.row k = r
        · simp only [hk, if_true]; ring
        · simp only [hk, if_false]; ring
    rw [this]; ring

theorem calc_g_lo (S : ConicActiveSet) (P : Args) (z : Nat → ℚ) (i : Nat) (hi : i < S.nx_) :
    calc_g S P z i = z i := by
  unfold calc_g splice; rw [if_pos hi]

theorem calc_g_hi (S : ConicActiveSet) (P : Args) (z : Nat → ℚ) (i : Nat) (h1 : S.nx_ ≤ i)
    (h2 : i < S.nx_ + S.na_) : calc_g S P z i = S.A_.mulVec P.a z (i - S.nx_) := by
  unfold calc_g splice
  rw [if_neg (not_lt.mpr h1), casadi_mv_apply]
  unfold casadi_fill
  rw [if_pos (by omega)]
  ring

theorem calc_dz_eq (S : ConicActiveSet) (P : Args) (dz : Nat → ℚ) :
    calc_dz S P dz = calc_g S P dz := rfl

theorem calc_g_idem (S : ConicActiveSet) (P : Args) (hA : S.A_.ncol = S.nx_) (z : Nat → ℚ)
    (i : Nat) (hi : i < S.nx_ + S.na_) : calc_g S P (calc_g S P z) i = calc_g S P z i := by
  rcases Nat.lt_or_ge i S.nx_ with h | h
  · rw [calc_g_lo S P _ i h]
  · rw [calc_g_hi S P _ i h hi, calc_g_hi S P _ i h hi]
    apply Sparsity.mulVec_congr
    intro c hc
    exact calc_g_lo S P z c (hA ▸ hc)

/-- The refreshed `z` after a primal step of length `t`: every entry, also in the
block `A x`, has moved by `t` times the entry of the direction. -/
theorem calc_g_axpy (S : ConicActiveSet) (P : Args) (hA : S.A_.ncol = S.nx_) (z dz : Nat → ℚ)
    (t : ℚ) (i : Nat) (hi : i < S.nx_ + S.na_) :
    calc_g S P (casadi_axpy S.nx_ t (calc_g S P dz) (calc_g S P z)) i =
      calc_g S P z i + t * calc_g S P dz i := by
  rcases Nat.lt_or_ge i S.nx_ with h | h
  · rw [calc_g_lo S P _ i h]
    unfold casadi_axpy
    rw [if_pos h]
  · rw [calc_g_hi S P _ i h hi, calc_g_hi S P z i h hi, calc_g_hi S P dz i h hi,
      ← Sparsity.mulVec_add_mul]
    apply Sparsity.mulVec_congr
    intro c hc
    have hc' : c < S.nx_ := hA ▸ hc
    unfold casadi_axpy
    rw [if_pos hc', calc_g_lo S P z c hc', calc_g_lo S P dz c hc']

theorem casadi_scal_calc_g (S : ConicActiveSet) (P : Args) (hA : S.A_.ncol = S.nx_)
    (dz : Nat → ℚ) (b : ℚ) (i : Nat) (hi : i < S.nx_ + S.na_) :
    casadi_scal (S.nx_ + S.na_) b (calc_g S P dz) i =
      calc_g S P (casadi_scal (S.nx_ + S.na_) b (calc_g S P dz)) i := by
  rcases Nat.lt_or_ge i S.nx_ with h | h
  · rw [calc_g_lo S P _ i h]
  · rw [calc_g_hi S P _ i h hi]
    unfold casadi_scal
    rw [if_pos hi, calc_g_hi S P dz i h hi]
    have : S.A_.mulVec P.a (fun i => if i < S.nx_ + S.na_ then b * calc_g S P dz i
        else calc_g S P dz i) (i - S.nx_) =
        S.A_.mulVec P.a (fun i => 0 + b * dz i) (i - S.nx_) := by
      apply Sparsity.mulVec_congr
      intro c hc
      have hc' : c < S.nx_ := hA ▸ hc
      show (if c < S.nx_ + S.na_ then b * calc_g S P dz c else calc_g S P dz c) = 0 + b * dz c
      rw [if_pos (by omega), calc_g_lo S P dz c hc']
      ring
    rw [this, Sparsity.mulVec_add_mul]
    have h0 : S.A_.mulVec P.a (fun _ => 0) (i - S.nx_) = 0 := by
      unfold Sparsity.mulVec
      simp
    rw [h0]; ring

/-! ## The scan for the largest bound violation -/

theorem within_mono (lbz ubz : Nat → Ext) (e e1 : ℚ) (i : Nat) (x : ℚ)
    (h : Within lbz ubz e i x) (he : e ≤ e1) : Within lbz ubz e1 i x := by
  unfold Within at *
  obtain ⟨h1, h2⟩ := h
  constructor
  · revert h1; cases lbz i <;> simp <;> intro h1 <;> linarith
  · revert h2; cases ubz i <;> simp <;> intro h2 <;> linarith

theorem prerr_scan_spec (z : Nat → ℚ) (lbz ubz : Nat → Ext) (is : List Nat) (st e : PrErr)
    (h0 : 0 ≤ st.prerr) (hb : ∀ i ∈ is, lbz i ≤ ubz i)
    (h : prerr_scan z lbz ubz is st = .ok e) :
    st.prerr ≤ e.prerr ∧ (∀ i ∈ is, Within lbz ubz e.prerr i (z i)) ∧
    (e = st ∨ ∃ i ∈ is, e.iprerr = (i : Int) ∧ 0 < e.prerr ∧
      ((e.prerr_pos = true ∧ ubz i = Ext.fin (z i - e.prerr)) ∨
       (e.prerr_pos = false ∧ lbz i = Ext.fin (z i + e.prerr)))) := by
  induction is generalizing st with
  | nil =>
    simp only [prerr_scan, Except.ok.injEq] at h
    subst h
    exact ⟨le_refl _, fun i hi => absurd hi (List.not_mem_nil _), Or.inl rfl⟩
  | cons i is ih =>
    have hbi := hb i (List.mem_cons_self _ _)
    have hbt : ∀ j ∈ is, lbz j ≤ ubz j := fun j hj => hb j (List.mem_cons_of_mem _ hj)
    unfold prerr_scan at h
    by_cases hu : (ubz i).add st.prerr < (z i : Ext)
    · rw [if_pos hu] at h
      cases hub : ubz i with
      | pinf => rw [hub] at hu; exact absurd hu (by simp)
      | ninf => rw [hub] at h; simp at h
      | fin u =>
        rw [hub] at h hu hbi
        simp only [Ext.add_fin, Ext.fin_lt_fin] at hu
        simp only [Ext.rsub_fin, Ext.finite_fin] at h
        obtain ⟨h1, h2, h3⟩ := ih ⟨z i - u, i, true⟩ (by simp only; linarith) hbt h
        simp only at h1
        refine ⟨by linarith, ?_, ?_⟩
        · intro j hj
          rcases List.mem_cons.mp hj with rfl | hj
          · unfold Within
            rw [hub]
            constructor
            · revert hbi; cases lbz j <;> simp <;> intro hbi <;> linarith
            · simp; linarith
          · exact h2 j hj
        · right
          rcases h3 with h3 | ⟨j, hj, h3⟩
          · subst h3
            refine ⟨i, List.mem_cons_self _ _, rfl, by simp only; linarith, Or.inl ⟨rfl, ?_⟩⟩
            rw [hub]; simp
          · exact ⟨j, List.mem_cons_of_mem _ hj, h3⟩
    · rw [if_neg hu] at h
      by_cases hl : (z i : Ext) < (lbz i).sub st.prerr
      · rw [if_pos hl] at h
        clear hu
        cases hlb : lbz i with
        | ninf => rw [hlb] at hl; exact absurd hl (by simp)
        | pinf => rw [hlb] at h; simp at h
        | fin l =>
          rw [hlb] at h hl hbi
          simp only [Ext.sub_fin, Ext.fin_lt_fin] at hl
          simp only [Ext.sub_fin, Ext.finite_fin] at h
          obtain ⟨h1, h2, h3⟩ := ih ⟨l - z i, i, false⟩ (by simp only; linarith) hbt h
          simp only at h1
          refine ⟨by linarith, ?_, ?_⟩
          · intro j hj
            rcases List.mem_cons.mp hj with rfl | hj
            · unfold Within
              rw [hlb]
              constructor
              · simp; linarith
              · revert hbi; cases ubz j <;> simp <;> intro hbi <;> linarith
            · exact h2 j hj
          · right
            rcases h3 with h3 | ⟨j, hj, h3⟩
            · subst h3
              refine ⟨i, List.mem_cons_self _ _, rfl, by simp only; linarith, Or.inr ⟨rfl, ?_⟩⟩
              rw [hlb]; simp
            · exact ⟨j, List.mem_cons_of_mem _ hj, h3⟩
      · rw [if_neg hl] at h
        obtain ⟨h1, h2, h3⟩ := ih st h0 hbt h
        refine ⟨h1, ?_, ?_⟩
        · intro j hj
          rcases List.mem_cons.mp hj with rfl | hj
          · refine within_mono lbz ubz st.prerr e.prerr j (z j) ⟨?_, ?_⟩ h1
            · revert hl; cases lbz j <;> simp
            · revert hu; cases ubz j <;> simp
          · exact h2 j hj
        · rcases h3 with h3 | ⟨j, hj, h3⟩
          · exact Or.inl h3
          · exact Or.inr ⟨j, List.mem_cons_of_mem _ hj, h3⟩

/-- The refreshed `z` after a primal step of length `t` from a refreshed `z`
along a refreshed direction. -/
theorem calc_g_step (S : ConicActiveSet) (P : Args) (hA : S.A_.ncol = S.nx_) (Z D : Nat → ℚ)
    (hZ : ∀ i < S.nx_ + S.na_, calc_g S P Z i = Z i)
    (hD : ∀ i < S.nx_ + S.na_, calc_g S P D i = D i)
    (t : ℚ) (i : Nat) (hi : i < S.nx_ + S.na_) :
    calc_g S P (casadi_axpy S.nx_ t D Z) i = Z i + t * D i := by
  rcases Nat.lt_or_ge i S.nx_ with h | h
  · rw [calc_g_lo S P _ i h]
    unfold casadi_axpy
    rw [if_pos h]
  · rw [calc_g_hi S P _ i h hi, ← hZ i hi, ← hD i hi, calc_g_hi S P Z i h hi,
      calc_g_hi S P D i h hi, ← Sparsity.mulVec_add_mul]
    apply Sparsity.mulVec_congr
    intro c hc
    have hc' : c < S.nx_ := hA ▸ hc
    unfold casadi_axpy
    rw [if_pos hc']

/-! ## The structure of a pass -/

/-- A pass that goes on to the next pass has scanned the bound violations, has
`new_active_set` set after the post-step sign management, and ends either with a
zero step of a singular pass, which leaves the refreshed `z`, or with a step
along a refreshed direction. -/
theorem pass_next_z (qr : QRKernel) (S : ConicActiveSet) (P : Args) (F : Flags)
    (kkt trans_a : Nat → ℚ) (hA : S.A_.ncol = S.nx_) (s s1 : State)
    (hp : pass qr S P F kkt trans_a s = .ok (.next s1)) :
    ∃ e, prerr_scan (calc_g S P s.z) (lbz S P) (ubz S P) (List.range (S.nx_ + S.na_))
        ⟨0, -1, false⟩ = .ok e ∧
      (s1.z = calc_g S P s.z ∨
        ∃ (lam dz dlam infeas tinfeas : Nat → ℚ) (duerr : ℚ) (t : Step),
          (∀ i < S.nx_ + S.na_, calc_g S P dz i = dz i) ∧
          take_step S F trans_a (lbz S P) (ubz S P) e.prerr duerr (calc_g S P s.z) lam dz dlam
            infeas tinfeas = .ok t ∧
          s1.z = t.z) := by
  unfold pass at hp
  simp only at hp
  split at hp
  · cases hp
  · rename_i e he
    refine ⟨e, he, ?_⟩
    split at hp
    · cases hp
    · rename_i lam nas hps
      split at hp
      · cases hp
      · split at hp
        · cases hp
        · unfold pass_step at hp
          split at hp
          · cases hp
          · rename_i dz0 hdz0
            simp only at hp
            split at hp
            · split at hp
              · cases hp
              · rename_i f hf
                left
                injection hp with hp
                injection hp with hp
                rw [← hp]
              · cases hp
              · rename_i b f hf
                split at hp
                · cases hp
                · rename_i t ht
                  right
                  injection hp with hp
                  injection hp with hp
                  refine ⟨lam, _, _, _, _, _, t, ?_, ht, by rw [← hp]⟩
                  intro i hi
                  rw [calc_dz_eq]
                  exact (casadi_scal_calc_g S P hA dz0 b i hi).symm
            · split at hp
              · cases hp
              · rename_i t ht
                right
                injection hp with hp
                injection hp with hp
                refine ⟨lam, _, _, _, _, _, t, ?_, ht, by rw [← hp]⟩
                intro i hi
                rw [calc_dz_eq]
                exact calc_g_idem S P hA dz0 i hi

theorem next_state_eq (r : Except Err Outcome) (h : (next_state r).isSome = true) :
    r = .ok (.next ((next_state r).getD State.zero)) := by
  unfold next_state at *
  split at h
  · rfl
  · simp at h

/-- C9: when `lbz <= ubz`, after a pass that goes on to the next pass the
refreshed `z = [x; A x]` satisfies `lbz[i] - e <= z[i] <= ubz[i] + e` at every
index, with `e = max(prerr, 1e-10)` for the `prerr` that the pass found, the
largest bound violation of its refreshed `z`; so the next pass finds a `prerr`
of at most `max(prerr, 1e-10)`, whatever the search direction was. -/
theorem primal_error_nonincreasing (qr : QRKernel) (S : ConicActiveSet) (P : Args)
    (F : Flags) (kkt trans_a : Nat → ℚ) (s s1 : State)
    (hb : ∀ i < S.nx_ + S.na_, lbz S P i ≤ ubz S P i) (hA : S.A_.ncol = S.nx_)
    (hp : pass qr S P F kkt trans_a s = .ok (.next s1)) :
    ∃ e, prerr_scan (calc_g S P s.z) (lbz S P) (ubz S P) (List.range (S.nx_ + S.na_))
        ⟨0, -1, false⟩ = .ok e ∧
      (∀ i < S.nx_ + S.na_, Within (lbz S P) (ubz S P) e.prerr i (calc_g S P s.z i)) ∧
      (∀ i < S.nx_ + S.na_,
        Within (lbz S P) (ubz S P) (max e.prerr (1 / 10 ^ 10)) i (calc_g S P s1.z i)) ∧
      ∀ e1, prerr_scan (calc_g S P s1.z) (lbz S P) (ubz S P) (List.range (S.nx_ + S.na_))
        ⟨0, -1, false⟩ = .ok e1 → e1.prerr ≤ max e.prerr (1 / 10 ^ 10) := by
  obtain ⟨e, he, hz⟩ := pass_next_z qr S P F kkt trans_a hA s s1 hp
  have hbl : ∀ i ∈ List.range (S.nx_ + S.na_), lbz S P i ≤ ubz S P i :=
    fun i hi => hb i (List.mem_range.mp hi)
  obtain ⟨h1, h2, _⟩ := prerr_scan_spec (calc_g S P s.z) (lbz S P) (ubz S P) _ _ e
    (le_refl _) hbl he
  have hw0 : ∀ i < S.nx_ + S.na_,
      Within (lbz S P) (ubz S P) (max e.prerr (1 / 10 ^ 10)) i (calc_g S P s.z i) :=
    fun i hi => within_mono _ _ _ _ i _ (h2 i (List.mem_range.mpr hi)) (le_max_left _ _)
  have hw1 : ∀ i < S.nx_ + S.na_,
      Within (lbz S P) (ubz S P) (max e.prerr (1 / 10 ^ 10)) i (calc_g S P s1.z i) := by
    intro i hi
    rcases hz with hz | ⟨lam, dz, dlam, infeas, tinfeas, duerr, t, hD, ht, hz⟩
    · rw [hz, calc_g_idem S P hA _ i hi]
      exact hw0 i hi
    · obtain ⟨b, _, hs, d, _, hd0, hd1, _, hd⟩ :=
        take_step_spec S F trans_a (lbz S P) (ubz S P) e.prerr duerr
          (calc_g S P s.z) lam dz dlam infeas tinfeas
      rw [hd] at ht
      injection ht with ht
      rw [hz, ← ht]
      simp only
      rw [calc_g_step S P hA _ _ (fun j hj => calc_g_idem S P hA _ j hj) hD _ i hi]
      exact hs.2.2.1 i (List.mem_range.mpr hi) (hw0 i hi) d.tau hd0 hd1
  refine ⟨e, he, fun i hi => h2 i (List.mem_range.mpr hi), hw1, ?_⟩
  intro e1 he1
  obtain ⟨_, _, h3⟩ := prerr_scan_spec (calc_g S P s1.z) (lbz S P) (ubz S P) _ _ e1
    (le_refl _) hbl he1
  rcases h3 with h3 | ⟨i, hi, _, _, h3⟩
  · rw [h3]
    exact le_trans (le_of_lt (by positivity)) (le_max_right _ _)
  · have hw := hw1 i (List.mem_range.mp hi)
    unfold Within at hw
    rcases h3 with ⟨_, h3⟩ | ⟨_, h3⟩
    · rw [h3] at hw
      have := hw.2
      simp only [Ext.add_fin, Ext.fin_le_fin] at this
      linarith
    · rw [h3] at hw
      have := hw.1
      simp only [Ext.sub_fin, Ext.fin_le_fin] at this
      linarith

theorem primal_error_nonincreasing_witness :
    (∀ i < (solver1 1000).nx_ + (solver1 1000).na_,
      lbz (solver1 1000) args_fixed i ≤ ubz (solver1 1000) args_fixed i) ∧
    (solver1 1000).A_.ncol = (solver1 1000).nx_ ∧
    pass qr_scalar (solver1 1000) args_fixed (flags (solver1 1000) args_fixed)
        (kkt (solver1 1000) args_fixed) (trans_a (solver1 1000) args_fixed)
        (first_state (solver1 1000) args_fixed uninit0) =
      .ok (.next (second_state qr_scalar (solver1 1000) args_fixed uninit0)) ∧
    ∃ e, prerr_scan (calc_g (solver1 1000) args_fixed
          (first_state (solver1 1000) args_fixed uninit0).z)
        (lbz (solver1 1000) args_fixed) (ubz (solver1 1000) args_fixed)
        (List.range ((solver1 1000).nx_ + (solver1 1000).na_)) ⟨0, -1, false⟩ = .ok e ∧
      (∀ i < (solver1 1000).nx_ + (solver1 1000).na_,
        Within (lbz (solver1 1000) args_fixed) (ubz (solver1 1000) args_fixed) e.prerr i
          (calc_g (solver1 1000) args_fixed
            (first_state (solver1 1000) args_fixed uninit0).z i)) ∧
      (∀ i < (solver1 1000).nx_ + (solver1 1000).na_,
        Within (lbz (solver1 1000) args_fixed) (ubz (solver1 1000) args_fixed)
          (max e.prerr (1 / 10 ^ 10)) i
          (calc_g (solver1 1000) args_fixed
            (second_state qr_scalar (solver1 1000) args_fixed uninit0).z i)) ∧
      ∀ e1, prerr_scan (calc_g (solver1 1000) args_fixed
          (second_state qr_scalar (solver1 1000) args_fixed uninit0).z)
        (lbz (solver1 1000) args_fixed) (ubz (solver1 1000) args_fixed)
        (List.range ((solver1 1000).nx_ + (solver1 1000).na_)) ⟨0, -1, false⟩ = .ok e1 →
        e1.prerr ≤ max e.prerr (1 / 10 ^ 10) :=
  ⟨by decide!, by decide!, next_state_eq _ (by decide!),
    primal_error_nonincreasing qr_scalar (solver1 1000) args_fixed _ _ _ _ _
      (by decide!) (by decide!) (next_state_eq _ (by decide!))⟩

/-! ## The search direction of a non-singular pass -/

theorem residual_loop_spec (nx : Nat) (z lam glag : Nat → ℚ) (lbz ubz : Nat → Ext)
    (is : List Nat) (hnd : is.Nodup) (dz r : Nat → ℚ)
    (h : residual_loop nx z lam glag lbz ubz is dz = .ok r) :
    ∀ i, (i ∈ is → kkt_residual nx z lam glag lbz ubz i = some (r i)) ∧
      (i ∉ is → r i = dz i) := by
  induction is generalizing dz with
  | nil =>
    simp only [residual_loop, Except.ok.injEq] at h
    subst h
    intro i; simp
  | cons j js ih =>
    unfold residual_loop at h
    split at h
    · rename_i rj hrj
      have hnd' := List.nodup_cons.mp hnd
      have := ih hnd'.2 _ h
      intro i
      constructor
      · intro hi
        rcases List.mem_cons.mp hi with rfl | hi
        · rw [(this i).2 hnd'.1, Function.update_same]
          exact hrj
        · exact (this i).1 hi
      · intro hi
        have h1 : i ∉ js := fun h => hi (List.mem_cons_of_mem _ h)
        have h2 : i ≠ j := fun h => hi (h ▸ List.mem_cons_self _ _)
        rw [(this i).2 h1, Function.update_noteq h2]
    · cases h

theorem sum_unit_row (rs : List Nat) (hnd : rs.Nodup) (i : Nat) (hi : i ∈ rs) (d : ℚ)
    (x : Nat → ℚ) :
    (rs.map (fun r => (if r = i then d else 0) * x r)).sum = d * x i := by
  induction rs with
  | nil => exact absurd hi (List.not_mem_nil _)
  | cons r rs ih =>
    have hnd' := List.nodup_cons.mp hnd
    rw [List.map_cons, List.sum_cons]
    rcases List.mem_cons.mp hi with rfl | hi'
    · have : (rs.map (fun r => (if r = i then d else 0) * x r)).sum = 0 := by
        apply List.sum_eq_zero
        intro y hy
        obtain ⟨r, hr, rfl⟩ := List.mem_map.mp hy
        have : r ≠ i := fun h => hnd'.1 (h ▸ hr)
        simp [this]
      rw [this]; simp
    · have : r ≠ i := fun h => hnd'.1 (h ▸ hi')
      rw [ih hnd'.2 hi']
      simp [this]

theorem colDot_unit (sp : Sparsity) (v x : Nat → ℚ) (c : Nat) (d : ℚ)
    (hnd : ((sp.col c).map sp.row).Nodup) (hdiag : ∃ k ∈ sp.col c, sp.row k = c)
    (hv : ∀ k ∈ sp.col c, v k = if sp.row k = c then d else 0) :
    sp.colDot v x c = d * x c := by
  unfold Sparsity.colDot
  have h1 : (sp.col c).map (fun el => v el * x (sp.row el)) =
      ((sp.col c).map sp.row).map (fun r => (if r = c then d else 0) * x r) := by
    rw [List.map_map]
    apply List.map_congr_left
    intro k hk
    simp only [Function.comp]
    rw [hv k hk]
  rw [h1]
  obtain ⟨k, hk, hr⟩ := hdiag
  exact sum_unit_row _ hnd c (List.mem_map.mpr ⟨k, hk, hr⟩) d x

/-- The rows of the transposed working KKT system for the active box
constraints, the inactive linear constraints and the active linear constraints. -/
theorem colDot_kktd (S : ConicActiveSet) (P : Args) (kkt lam : Nat → ℚ)
    (hmono : S.kktd_.Monotone (S.nx_ + S.na_)) (hncol : S.kkt_.ncol = S.nx_ + S.na_)
    (hdiag : S.kktd_.HasDiag (S.nx_ + S.na_)) (hnd : S.kktd_.NodupRows (S.nx_ + S.na_))
    (hlin : LinearColumns S P kkt) (x : Nat → ℚ) (i : Nat) (hi : i < S.nx_ + S.na_) :
    (i < S.nx_ → lam i ≠ 0 → S.kktd_.colDot (calc_kktd S kkt lam) x i = x i) ∧
    (S.nx_ ≤ i → lam i = 0 → S.kktd_.colDot (calc_kktd S kkt lam) x i = -x i) ∧
    (S.nx_ ≤ i → lam i ≠ 0 →
      S.kktd_.colDot (calc_kktd S kkt lam) x i = calc_dz S P x i) := by
  have hw := calc_kktd_apply S kkt lam hmono hncol i hi
  refine ⟨?_, ?_, ?_⟩
  · intro h1 h2
    rw [colDot_unit S.kktd_ _ x i 1 (hnd i hi) (hdiag i hi)
      (fun k hk => by rw [hw k hk, if_pos ⟨h1, h2⟩])]
    ring
  · intro h1 h2
    rw [colDot_unit S.kktd_ _ x i (-1) (hnd i hi) (hdiag i hi)
      (fun k hk => by
        rw [hw k hk, if_neg (fun h => h.2 h2), if_pos ⟨h1, h2⟩])]
    ring
  · intro h1 h2
    have hs : ∀ k ∈ S.kktd_.col i,
        calc_kktd S kkt lam k = S.kkt_.entry kkt (S.kktd_.row k) i := fun k hk => by
      rw [hw k hk, if_neg (fun h => absurd h.1 (not_lt.mpr h1)), if_neg (fun h => h2 h.2)]
    rw [calc_dz_eq, calc_g_hi S P x i h1 hi, ← hlin i h1 hi x]
    unfold Sparsity.colDot
    congr 1
    apply List.map_congr_left
    intro k hk
    rw [hs k hk]

theorem finite_eq_some (b : Ext) (q : ℚ) (h : b.finite = some q) : b = Ext.fin q := by
  cases b with
  | fin a => simp only [Ext.finite_fin, Option.some.injEq] at h; rw [h]
  | pinf => simp at h
  | ninf => simp at h

theorem rsub_finite (z : ℚ) (b : Ext) (q : ℚ) (h : (Ext.rsub z b).finite = some q) :
    b = Ext.fin (z - q) := by
  cases b with
  | fin a =>
    simp only [Ext.rsub_fin, Ext.finite_fin, Option.some.injEq] at h
    rw [← h]; congr 1; ring
  | pinf => simp at h
  | ninf => simp at h

theorem calc_dlam_hi (S : ConicActiveSet) (P : Args) (lam dz : Nat → ℚ) (i : Nat)
    (h1 : S.nx_ ≤ i) (h2 : i < S.nx_ + S.na_) : calc_dlam S P lam dz i = dz i := by
  unfold calc_dlam splice casadi_copy offset
  simp only
  rw [if_neg (not_lt.mpr h1), if_pos (by omega)]
  congr 1
  omega

/-- The exact solve of the transposed working-KKT system pins the active
constraints and keeps the inactive linear multipliers. -/
theorem pins_active (qr : QRKernel) (S : ConicActiveSet) (P : Args)
    (kkt z lam glag d0 : Nat → ℚ)
    (hmono : S.kktd_.Monotone (S.nx_ + S.na_)) (hncol : S.kkt_.ncol = S.nx_ + S.na_)
    (hdiag : S.kktd_.HasDiag (S.nx_ + S.na_)) (hnd : S.kktd_.NodupRows (S.nx_ + S.na_))
    (hlin : LinearColumns S P kkt)
    (hdir : search_direction qr S false (calc_kktd S kkt lam) z lam glag (lbz S P) (ubz S P) =
      .ok d0)
    (hexact : ∀ c < S.nx_ + S.na_,
      (kkt_residual S.nx_ z lam glag (lbz S P) (ubz S P) c).map (fun r => -r) =
        some (S.kktd_.colDot (calc_kktd S kkt lam) d0 c)) :
    ∀ i < S.nx_ + S.na_,
      (lam i > 0 → ((z i + calc_dz S P d0 i : ℚ) : Ext) = ubz S P i) ∧
      (lam i < 0 → ((z i + calc_dz S P d0 i : ℚ) : Ext) = lbz S P i) ∧
      (S.nx_ ≤ i → lam i = 0 → calc_dlam S P lam d0 i = 0) := by
  unfold search_direction at hdir
  simp only [Bool.false_eq_true, if_false] at hdir
  split at hdir
  swap
  · cases hdir
  rename_i r hr
  injection hdir with hdir
  intro i hi
  have hres := ((residual_loop_spec S.nx_ z lam glag (lbz S P) (ubz S P) _
    (List.nodup_range _) _ r hr) i).1 (List.mem_range.mpr hi)
  have hex := hexact i hi
  rw [hres] at hex
  simp only [Option.map_some', Option.some.injEq] at hex
  replace hex := hex.symm
  obtain ⟨hc1, hc2, hc3⟩ := colDot_kktd S P kkt lam hmono hncol hdiag hnd hlin d0 i hi
  have hdz : lam i ≠ 0 → calc_dz S P d0 i = -r i := by
    intro hl
    rcases Nat.lt_or_ge i S.nx_ with h | h
    · rw [calc_dz_eq, calc_g_lo S P d0 i h, ← hc1 h hl]; exact hex
    · rw [← hc3 h hl]; exact hex
  unfold kkt_residual at hres
  refine ⟨?_, ?_, ?_⟩
  · intro hl
    rw [if_pos hl] at hres
    rw [hdz (ne_of_gt hl), rsub_finite _ _ _ hres]
    congr 1; ring
  · intro hl
    rw [if_neg (not_lt.mpr (le_of_lt hl)), if_pos hl] at hres
    rw [hdz (ne_of_lt hl), rsub_finite _ _ _ hres]
    congr 1; ring
  · intro h1 hl
    rw [if_neg (by rw [hl]; exact lt_irrefl _), if_neg (by rw [hl]; exact lt_irrefl _),
      if_neg (not_lt.mpr h1)] at hres
    injection hres with hres
    rw [calc_dlam_hi S P lam d0 i h1 hi]
    have := hc2 h1 hl
    rw [this] at hex
    rw [hl] at hres
    linarith

/-- C3: in a non-singular pass whose QR solve is the exact solve of the
transposed working-KKT system, the direction pins every active constraint to its
active bound and keeps inactive linear multipliers at zero: for every index `i`
with `lam[i] > 0`, `z[i] + dz[i] = ubz[i]`; with `lam[i] < 0`,
`z[i] + dz[i] = lbz[i]`; and for every linear index `i` with `lam[i] = 0`,
`dlam[i] = 0`. -/
theorem direction_pins_active (qr : QRKernel) (S : ConicActiveSet) (P : Args)
    (kkt z lam glag d0 : Nat → ℚ)
    (hmono : S.kktd_.Monotone (S.nx_ + S.na_)) (hncol : S.kkt_.ncol = S.nx_ + S.na_)
    (hdiag : S.kktd_.HasDiag (S.nx_ + S.na_)) (hnd : S.kktd_.NodupRows (S.nx_ + S.na_))
    (hlin : LinearColumns S P kkt)
    (hdir : search_direction qr S false (calc_kktd S kkt lam) z lam glag (lbz S P) (ubz S P) =
      .ok d0)
    (hexact : ∀ c < S.nx_ + S.na_,
      (kkt_residual S.nx_ z lam glag (lbz S P) (ubz S P) c).map (fun r => -r) =
        some (S.kktd_.colDot (calc_kktd S kkt lam) d0 c)) :
    ∀ i < S.nx_ + S.na_,
      (lam i > 0 → ((z i + calc_dz S P d0 i : ℚ) : Ext) = ubz S P i) ∧
      (lam i < 0 → ((z i + calc_dz S P d0 i : ℚ) : Ext) = lbz S P i) ∧
      (S.nx_ ≤ i → lam i = 0 → calc_dlam S P lam d0 i = 0) :=
  pins_active qr S P kkt z lam glag d0 hmono hncol hdiag hnd hlin hdir hexact

theorem vector_of_eq (r : Except Err (Nat → ℚ)) (h : is_ok r = true) :
    r = .ok (vector_of r) := by
  cases r with
  | ok v => rfl
  | error e => simp [is_ok] at h

theorem linear_columns_clash : LinearColumns (solver11 1000) args_clash
    (kkt (solver11 1000) args_clash) := by
  intro c h1 h2 x
  have hc : c = 1 := by
    have h1' : 1 ≤ c := h1
    have h2' : c < 1 + 1 := h2
    omega
  subst hc
  have e1 : (solver11 1000).kktd_.col 1 = [2, 3] := by decide!
  have e2 : (solver11 1000).kktd_.row 2 = 0 := by decide!
  have e3 : (solver11 1000).kktd_.row 3 = 1 := by decide!
  have e4 : (solver11 1000).kkt_.entry (kkt (solver11 1000) args_clash) 0 1 = 1 := by decide!
  have e5 : (solver11 1000).kkt_.entry (kkt (solver11 1000) args_clash) 1 1 = 0 := by decide!
  have e6 : List.range (solver11 1000).A_.ncol = [0] := by decide!
  have e7 : (solver11 1000).A_.col 0 = [0] := by decide!
  have e8 : (solver11 1000).A_.row 0 = 0 := by decide!
  have e9 : args_clash.a 0 = 1 := by decide!
  have e10 : 1 - (solver11 1000).nx_ = 0 := by decide!
  rw [e1]
  unfold Sparsity.mulVec
  rw [e6, e10]
  simp only [List.map_cons, List.map_nil, List.sum_cons, List.sum_nil, e2, e3, e4, e5, e7, e8,
    e9, if_true]
  ring

theorem direction_pins_active_witness :
    (solver11 1000).kktd_.Monotone ((solver11 1000).nx_ + (solver11 1000).na_) ∧
    (solver11 1000).kkt_.ncol = (solver11 1000).nx_ + (solver11 1000).na_ ∧
    (solver11 1000).kktd_.HasDiag ((solver11 1000).nx_ + (solver11 1000).na_) ∧
    (solver11 1000).kktd_.NodupRows ((solver11 1000).nx_ + (solver11 1000).na_) ∧
    LinearColumns (solver11 1000) args_clash (kkt (solver11 1000) args_clash) ∧
    search_direction (qr_exact 2) (solver11 1000) false
        (calc_kktd (solver11 1000) (kkt (solver11 1000) args_clash) (vec [0, 1] 0))
        (vec [0, 0] 0) (vec [0, 1] 0) (vec [2] 0)
        (lbz (solver11 1000) args_clash) (ubz (solver11 1000) args_clash) =
      .ok (vector_of (search_direction (qr_exact 2) (solver11 1000) false
        (calc_kktd (solver11 1000) (kkt (solver11 1000) args_clash) (vec [0, 1] 0))
        (vec [0, 0] 0) (vec [0, 1] 0) (vec [2] 0)
        (lbz (solver11 1000) args_clash) (ubz (solver11 1000) args_clash))) ∧
    ∀ i < (solver11 1000).nx_ + (solver11 1000).na_,
      ((vec [0, 1] 0 : Nat → ℚ) i > 0 →
        (((vec [0, 0] 0 : Nat → ℚ) i + calc_dz (solver11 1000) args_clash
          (vector_of (search_direction (qr_exact 2) (solver11 1000) false
            (calc_kktd (solver11 1000) (kkt (solver11 1000) args_clash) (vec [0, 1] 0))
            (vec [0, 0] 0) (vec [0, 1] 0) (vec [2] 0)
            (lbz (solver11 1000) args_clash) (ubz (solver11 1000) args_clash))) i : ℚ) : Ext) =
          ubz (solver11 1000) args_clash i) ∧
      ((vec [0, 1] 0 : Nat → ℚ) i < 0 →
        (((vec [0, 0] 0 : Nat → ℚ) i + calc_dz (solver11 1000) args_clash
          (vector_of (search_direction (qr_exact 2) (solver11 1000) false
            (calc_kktd (solver11 1000) (kkt (solver11 1000) args_clash) (vec [0, 1] 0))
            (vec [0, 0] 0) (vec [0, 1] 0) (vec [2] 0)
            (lbz (solver11 1000) args_clash) (ubz (solver11 1000) args_clash))) i : ℚ) : Ext) =
          lbz (solver11 1000) args_clash i) ∧
      ((solver11 1000).nx_ ≤ i → (vec [0, 1] 0 : Nat → ℚ) i = 0 →
        calc_dlam (solver11 1000) args_clash (vec [0, 1] 0)
          (vector_of (search_direction (qr_exact 2) (solver11 1000) false
            (calc_kktd (solver11 1000) (kkt (solver11 1000) args_clash) (vec [0, 1] 0))
            (vec [0, 0] 0) (vec [0, 1] 0) (vec [2] 0)
            (lbz (solver11 1000) args_clash) (ubz (solver11 1000) args_clash))) i = 0) :=
  ⟨by unfold Sparsity.Monotone; decide!, by decide!, by unfold Sparsity.HasDiag; decide!,
    by unfold Sparsity.NodupRows; decide!, linear_columns_clash,
    vector_of_eq _ (by decide!),
    direction_pins_active (qr_exact 2) (solver11 1000) args_clash _ _ _ _ _
      (by unfold Sparsity.Monotone; decide!) (by decide!) (by unfold Sparsity.HasDiag; decide!)
      (by unfold Sparsity.NodupRows; decide!) linear_columns_clash
      (vector_of_eq _ (by decide!)) (by decide!)⟩

/-! ## Sign feasibility across a pass -/

theorem first_state_eq (S : ConicActiveSet) (P : Args) (u : Uninit)
    (h : is_ok (init_state S P u) = true) : init_state S P u = .ok (first_state S P u) := by
  unfold first_state
  cases hi : init_state S P u with
  | ok s => rfl
  | error e => rw [hi] at h; simp [is_ok] at h

theorem error_of_eq {α : Type} (r : Except Err α) (e : Err) (h : error_of r = some e) :
    r = .error e := by
  cases r with
  | ok v => simp [error_of] at h
  | error e1 => simp only [error_of, Option.some.injEq] at h; rw [h]

/-- C5, at a failing input: for one variable with `H = [1e-17]`, `g = 0`,
`lbx = -1`, `ubx = +inf` and `x0 = 0`, `neverupper[0]` and `neverzero[0]` hold and
initialisation gives `lam[0] = -DMIN`, but the first pass ends with
`lam[0] = DMIN > 0`: the dual bracket removes the crossing multiplier by flipping
its sign because `neverzero[0]` holds, without regard to `neverupper[0]`.  The
second pass then computes `z[0] - ubz[0]` with `ubz[0]` infinite. -/
theorem sign_feasibility_broken :
    init_state (solver1 1000) args_tiny uninit0 =
      .ok (first_state (solver1 1000) args_tiny uninit0) ∧
    (flags (solver1 1000) args_tiny).neverupper 0 = true ∧
    (flags (solver1 1000) args_tiny).neverzero 0 = true ∧
    (first_state (solver1 1000) args_tiny uninit0).lam 0 = -DMIN ∧
    pass qr_scalar (solver1 1000) args_tiny (flags (solver1 1000) args_tiny)
        (kkt (solver1 1000) args_tiny) (trans_a (solver1 1000) args_tiny)
        (first_state (solver1 1000) args_tiny uninit0) =
      .ok (.next (second_state qr_scalar (solver1 1000) args_tiny uninit0)) ∧
    (second_state qr_scalar (solver1 1000) args_tiny uninit0).lam 0 = DMIN ∧
    ¬ (second_state qr_scalar (solver1 1000) args_tiny uninit0).lam 0 ≤ 0 ∧
    pass qr_scalar (solver1 1000) args_tiny (flags (solver1 1000) args_tiny)
        (kkt (solver1 1000) args_tiny) (trans_a (solver1 1000) args_tiny)
        (second_state qr_scalar (solver1 1000) args_tiny uninit0) = .error .nonfinite :=
  ⟨first_state_eq _ _ _ (by decide!), by decide!, by decide!, by decide!,
    next_state_eq _ (by decide!), by decide!, by decide!, error_of_eq _ _ (by decide!)⟩

/-! ## The dual bracket at a failing input -/

/-- The pass takes the step with the `tau` that the dual bracket of `pass_dual`
leaves. -/
theorem pass_dual_link (qr : QRKernel) (S : ConicActiveSet) (P : Args) (F : Flags)
    (kkt trans_a : Nat → ℚ) (s : State) (t : DualTrace)
    (h : pass_dual qr S P F kkt trans_a s = some t) :
    ∃ s1, pass qr S P F kkt trans_a s = .ok (.next s1) ∧ s1.tau = t.dual.tau := by
  unfold pass_dual at h
  simp only at h
  split at h
  · cases h
  · rename_i e he
    split at h
    · cases h
    · rename_i lam nas hps
      split at h
      · cases h
      · rename_i hcond
        simp only [Bool.or_eq_true, Bool.not_eq_true', decide_eq_true_eq, not_or,
          Bool.not_eq_true] at hcond
        obtain ⟨⟨h1, h2⟩, h3⟩ := hcond
        have h1' : nas = true := by cases nas <;> simp_all
        subst h1'
        split at h
        · cases h
        · rename_i dz0 hdz
          split at h
          · cases h
          · rename_i b hb
            split at h
            · cases h
            · rename_i dd hdd
              simp only [Option.some.injEq] at h
              subst h
              unfold pass
              simp only [he, hps, Bool.not_true, Bool.false_eq_true, if_false, if_neg h2]
              unfold pass_step
              simp only [h3, hdz, Bool.false_eq_true, if_false]
              unfold take_step
              simp only [hb, hdd]
              exact ⟨_, rfl, rfl⟩
/-- C10, at a failing input: for `minimize x0^2 + x1^2 + 3 x0 + 2 x1` subject to
`x0 <= 2`, `1 <= x1`, `x0 + x1 = -2` from `x0 = (0, -3)`, `lam_a0 = 2`, with
exact linear algebra, the second pass is non-singular and starts with dual
error 0, so that `e_du = 1e-10`. The multiplier of the linear constraint crosses
zero at `1/7`; the dual bracket accepts the crossing, changes the tangent to
`(1/2, 1/2)` and leaves `tau = 1`, so the tracked dual infeasibility at the
selected `tau` is `3/7` in both components, above `e_du`; the pass takes the step
with that `tau`, and the next pass finds the dual error `3 - DMIN`. -/
theorem dual_bound_exceeded :
    (next_state (pass (qr_exact 3) (solver21 1000) args_crossing
      (flags (solver21 1000) args_crossing) (kkt (solver21 1000) args_crossing)
      (trans_a (solver21 1000) args_crossing)
      (first_state (solver21 1000) args_crossing uninit0))).isSome = true ∧
    dual_error (solver21 1000) args_crossing
      (second_state (qr_exact 3) (solver21 1000) args_crossing uninit0) = 0 ∧
    (pass_dual (qr_exact 3) (solver21 1000) args_crossing
      (flags (solver21 1000) args_crossing) (kkt (solver21 1000) args_crossing)
      (trans_a (solver21 1000) args_crossing)
      (second_state (qr_exact 3) (solver21 1000) args_crossing uninit0)).map
      (fun t => [t.e_du, t.primal.tau, t.dual.tau, t.dual.tau_k,
        t.dual.infeas 0 + (t.dual.tau - t.dual.tau_k) * t.dual.tinfeas 0,
        t.dual.infeas 1 + (t.dual.tau - t.dual.tau_k) * t.dual.tinfeas 1])
      = some [1 / 10 ^ 10, 1, 1, 1 / 7, 3 / 7, 3 / 7] ∧
    (next_state (pass (qr_exact 3) (solver21 1000) args_crossing
      (flags (solver21 1000) args_crossing) (kkt (solver21 1000) args_crossing)
      (trans_a (solver21 1000) args_crossing)
      (second_state (qr_exact 3) (solver21 1000) args_crossing uninit0))).map
      (fun s => [s.tau, dual_error (solver21 1000) args_crossing s])
      = some [1, 3 - DMIN] := by
  refine ⟨?_, ?_, ?_, ?_⟩ <;> decide!

/-! ## A successful return -/

/-- A returned flag comes from a pass that breaks out of the loop, started from
the initial state or from the state left by a pass that went on. -/
theorem qp_loop_ret (qr : QRKernel) (S : ConicActiveSet) (P : Args) (F : Flags)
    (kkt trans_a : Nat → ℚ) (fuel : Nat) (s0 sf : State) (flag : Int)
    (h : qp_loop qr S P F kkt trans_a fuel s0 = .ok (some (flag, sf))) :
    ∃ s, pass qr S P F kkt trans_a s = .ok (.ret flag sf) ∧
      (s = s0 ∨ ∃ sp, pass qr S P F kkt trans_a sp = .ok (.next s)) := by
  induction fuel generalizing s0 with
  | zero => simp [qp_loop] at h
  | succ n ih =>
    unfold qp_loop at h
    split at h
    · cases h
    · rename_i fl s1 hp
      simp only [Except.ok.injEq, Option.some.injEq, Prod.mk.injEq] at h
      obtain ⟨h1, h2⟩ := h
      subst h1; subst h2
      exact ⟨s0, hp, Or.inl rfl⟩
    · rename_i s1 hp
      obtain ⟨s, hs, hor⟩ := ih s1 h
      refine ⟨s, hs, Or.inr ?_⟩
      rcases hor with rfl | h1
      · exact ⟨s0, hp⟩
      · exact h1

/-- The second half of a pass never returns the flag 0. -/
theorem pass_step_ret (qr : QRKernel) (S : ConicActiveSet) (P : Args) (F : Flags)
    (kkt trans_a : Nat → ℚ) (s : State) (z lam glag infeas kktd : Nat → ℚ) (sing : Bool)
    (e : PrErr) (d : DuErr) (fk : ℚ) (sf : State) :
    pass_step qr S P F kkt trans_a s z lam glag infeas kktd sing e d fk ≠ .ok (.ret 0 sf) := by
  intro h
  unfold pass_step at h
  split at h
  · cases h
  · simp only at h
    split at h
    · split at h
      · cases h
      · cases h
      · simp at h
      · split at h
        · cases h
        · cases h
    · split at h
      · cases h
      · cases h

/-- The pass that returns the flag 0 was entered with `new_active_set` unset after
a non-singular pass, the post-step sign management changed nothing, and it
returns the refreshed `z` and the recalculated multipliers. -/
theorem pass_ret_zero (qr : QRKernel) (S : ConicActiveSet) (P : Args) (F : Flags)
    (kkt trans_a : Nat → ℚ) (s sf : State)
    (h : pass qr S P F kkt trans_a s = .ok (.ret 0 sf)) :
    s.new_active_set = false ∧ s.sing = false ∧
    ∃ e, prerr_scan (calc_g S P s.z) (lbz S P) (ubz S P) (List.range (S.nx_ + S.na_))
        ⟨0, -1, false⟩ = .ok e ∧
      ¬ (e.iprerr ≥ 0 ∧ sf.lam e.iprerr.toNat = 0) ∧
      sf.z = calc_g S P s.z ∧
      sf.lam = recalc_lam S.nx_ (calc_glag S P (calc_g S P s.z) s.lam) s.lam := by
  unfold pass at h
  simp only at h
  split at h
  · cases h
  · rename_i e he
    split at h
    · cases h
    · rename_i lam nas hps
      split at h
      · rename_i hn
        have hnas : nas = false := by cases nas <;> simp_all
        subst hnas
        simp only [Except.ok.injEq, Outcome.ret.injEq, true_and] at h
        subst h
        unfold post_step at hps
        split at hps
        · rename_i h1
          have hs1 : s.new_active_set = false := by
            cases hh : s.new_active_set <;> simp_all
          split at hps
          · split at hps
            · simp at hps
            · cases hps
          · rename_i h2
            have hs2 : s.sing = false := by cases hh : s.sing <;> simp_all
            split at hps
            · simp at hps
            · rename_i h3
              simp only [Except.ok.injEq, Prod.mk.injEq] at hps
              obtain ⟨hl, _⟩ := hps
              subst hl
              exact ⟨hs1, hs2, e, he, h3, rfl, rfl⟩
        · rename_i h1
          simp only [Except.ok.injEq, Prod.mk.injEq] at hps
          obtain ⟨_, hl⟩ := hps
          rw [hl] at h1
          simp at h1
      · split at h
        · simp at h
        · exact absurd h (pass_step_ret _ _ _ _ _ _ _ _ _ _ _ _ _ _ _ _ _)

/-- A pass that goes on and leaves `sing` unset has taken a regular step along the
direction of the non-singular working KKT system. -/
theorem pass_next_regular (qr : QRKernel) (S : ConicActiveSet) (P : Args) (F : Flags)
    (kkt trans_a : Nat → ℚ) (s s1 : State)
    (h : pass qr S P F kkt trans_a s = .ok (.next s1)) (hs : s1.sing = false) :
    ∃ (e : PrErr) (lam d0 infeas : Nat → ℚ) (duerr : ℚ) (t : Step),
      prerr_scan (calc_g S P s.z) (lbz S P) (ubz S P) (List.range (S.nx_ + S.na_))
        ⟨0, -1, false⟩ = .ok e ∧
      qr.singular S.kktd_ (calc_kktd S kkt lam) = false ∧
      search_direction qr S false (calc_kktd S kkt lam) (calc_g S P s.z) lam
        (calc_glag S P (calc_g S P s.z) s.lam) (lbz S P) (ubz S P) = .ok d0 ∧
      take_step S F trans_a (lbz S P) (ubz S P) e.prerr duerr (calc_g S P s.z) lam
        (calc_dz S P d0) (calc_dlam S P lam d0) infeas
        (calc_tinfeas S P (calc_dz S P d0) (calc_dlam S P lam d0)) = .ok t ∧
      s1.z = t.z ∧ s1.lam = t.lam ∧ s1.new_active_set = t.new_active_set := by
  unfold pass at h
  simp only at h
  split at h
  · cases h
  · rename_i e he
    split at h
    · cases h
    · rename_i lam nas hps
      split at h
      · cases h
      · split at h
        · cases h
        · unfold pass_step at h
          cases hsing : qr.singular S.kktd_ (calc_kktd S kkt lam) with
          | true =>
            rw [hsing] at h
            split at h
            · cases h
            · simp only [if_true] at h
              split at h
              · cases h
              · simp only [Except.ok.injEq, Outcome.next.injEq] at h
                rw [← h] at hs
                simp at hs
              · cases h
              · split at h
                · cases h
                · simp only [Except.ok.injEq, Outcome.next.injEq] at h
                  rw [← h] at hs
                  simp at hs
          | false =>
            rw [hsing] at h
            split at h
            · cases h
            · rename_i d0 hd0
              simp only [Bool.false_eq_true, if_false] at h
              split at h
              · cases h
              · rename_i t ht
                simp only [Except.ok.injEq, Outcome.next.injEq] at h
                refine ⟨e, lam, d0, _, _, t, he, hsing, hd0, ht, ?_, ?_, ?_⟩ <;> rw [← h]
theorem update_lam_sign (tau : ℚ) (index sign : Int) (lam dlam : Nat → ℚ) (i : Nat)
    (h : ¬ ((i : Int) = index ∧
      (if lam i > 0 then (1 : Int) else if lam i < 0 then -1 else 0) ≠ sign)) :
    (0 < update_lam tau index sign lam dlam i ↔ 0 < lam i) ∧
    (update_lam tau index sign lam dlam i < 0 ↔ lam i < 0) := by
  have hD := DMIN_pos
  unfold update_lam
  simp only [if_neg h]
  rcases lt_trichotomy (lam i) 0 with hl | hl | hl
  · have h1 : ¬ lam i > 0 := not_lt.mpr (le_of_lt hl)
    rw [if_neg h1, if_pos hl]
    simp only [if_true]
    have h2 : min (lam i + tau * dlam i) (-DMIN) < 0 :=
      lt_of_le_of_lt (min_le_right _ _) (by linarith)
    exact ⟨⟨fun h => absurd h (not_lt.mpr (le_of_lt h2)), fun h => absurd h h1⟩,
      ⟨fun _ => hl, fun _ => h2⟩⟩
  · have h1 : ¬ lam i > 0 := by rw [hl]; exact lt_irrefl _
    have h2 : ¬ lam i < 0 := by rw [hl]; exact lt_irrefl _
    rw [if_neg h1, if_neg h2]
    simp only [if_true, Int.reduceNeg, zero_ne_one, if_false, lt_self_iff_false, hl]
    simp
  · have h1 : ¬ lam i < 0 := not_lt.mpr (le_of_lt hl)
    rw [if_pos hl]
    simp only [if_true, Int.reduceNeg]
    have h2 : 0 < max (lam i + tau * dlam i) DMIN := lt_of_lt_of_le hD (le_max_right _ _)
    have h3 : ((1 : Int) = -1) = False := by simp
    simp only [h3, if_false]
    exact ⟨⟨fun _ => hl, fun _ => h2⟩,
      ⟨fun h => absurd h (not_lt.mpr (le_of_lt h2)), fun h => absurd h h1⟩⟩

theorem sign_changes_false (n : Nat) (index sign : Int) (lam : Nat → ℚ)
    (h : sign_changes n index sign lam = false) (i : Nat) (hi : i < n) :
    ¬ ((i : Int) = index ∧
      (if lam i > 0 then (1 : Int) else if lam i < 0 then -1 else 0) ≠ sign) := by
  intro hc
  unfold sign_changes at h
  have : (List.range n).any (fun i => decide ((i : Int) = index ∧
      (if lam i > 0 then (1 : Int) else if lam i < 0 then -1 else 0) ≠ sign)) = true :=
    List.any_eq_true.mpr ⟨i, List.mem_range.mpr hi, decide_eq_true hc⟩
  rw [this] at h
  cases h

theorem recalc_lam_sign (nx : Nat) (glag lam : Nat → ℚ) (i : Nat) :
    (0 < recalc_lam nx glag lam i ↔ 0 < lam i) ∧ (recalc_lam nx glag lam i < 0 ↔ lam i < 0) := by
  have hD := DMIN_pos
  unfold recalc_lam
  by_cases hi : i < nx
  · rw [if_pos hi]
    by_cases h1 : lam i > 0
    · rw [if_pos h1]
      have h2 : 0 < max (-glag i) DMIN := lt_of_lt_of_le hD (le_max_right _ _)
      exact ⟨⟨fun _ => h1, fun _ => h2⟩,
        ⟨fun h => absurd h (not_lt.mpr (le_of_lt h2)),
          fun h => absurd h (not_lt.mpr (le_of_lt h1))⟩⟩
    · rw [if_neg h1]
      by_cases h2 : lam i < 0
      · rw [if_pos h2]
        have h3 : min (-glag i) (-DMIN) < 0 := lt_of_le_of_lt (min_le_right _ _) (by linarith)
        exact ⟨⟨fun h => absurd h (not_lt.mpr (le_of_lt h3)), fun h => absurd h h1⟩,
          ⟨fun _ => h2, fun _ => h3⟩⟩
      · rw [if_neg h2]
        exact ⟨Iff.rfl, Iff.rfl⟩
  · rw [if_neg hi]
    exact ⟨Iff.rfl, Iff.rfl⟩

theorem zero_step_dz (n : Nat) (dz dlam : Nat → ℚ) (h : zero_step n dz dlam = true)
    (i : Nat) (hi : i < n) : dz i = 0 := by
  unfold zero_step at h
  rw [Bool.and_eq_true] at h
  have := List.all_eq_true.mp h.1 i (List.mem_range.mpr hi)
  exact of_decide_eq_true this

/-- A step that leaves `new_active_set` unset when the direction pins the active
constraints is a full step, or a step along a zero direction, and keeps the sign
of every multiplier. -/
theorem full_step_of_no_change (S : ConicActiveSet) (F : Flags) (trans_a : Nat → ℚ)
    (lbz ubz : Nat → Ext) (prerr duerr : ℚ) (z lam dz dlam infeas tinfeas : Nat → ℚ) (t : Step)
    (ht : take_step S F trans_a lbz ubz prerr duerr z lam dz dlam infeas tinfeas = .ok t)
    (hn : t.new_active_set = false)
    (hpin : ∀ i < S.nx_ + S.na_,
      (lam i > 0 → ((z i + dz i : ℚ) : Ext) = ubz i) ∧
      (lam i < 0 → ((z i + dz i : ℚ) : Ext) = lbz i)) :
    t.z = casadi_axpy S.nx_ t.tau dz z ∧
    ∀ i < S.nx_ + S.na_, t.tau * dz i = dz i ∧
      (0 < t.lam i ↔ 0 < lam i) ∧ (t.lam i < 0 ↔ lam i < 0) := by
  obtain ⟨b, hb, hs, d, _, hd0, hd1, hd2, hd⟩ :=
    take_step_spec S F trans_a lbz ubz prerr duerr z lam dz dlam infeas tinfeas
  rw [hd] at ht
  injection ht with ht
  subst ht
  simp only [Bool.or_eq_false_iff] at hn
  obtain ⟨hn1, hn2⟩ := hn
  obtain ⟨e1, e2, e3, e4⟩ := hd2 hn1
  rw [e1, e2, e3] at hn2
  have hsg := sign_changes_false _ _ _ _ hn2
  have he := tol_pos prerr
  have hstart : b = ⟨if zero_step (S.nx_ + S.na_) dz dlam then 0 else 1, -1, 0⟩ := by
    rcases hs.2.2.2 with h | ⟨i, hi, h1, h2, h3, h4, tc, h5, h6, h7, h8⟩
    · exact h
    · exfalso
      have hi' := List.mem_range.mp hi
      have h41 : b.tau < 1 := by
        refine lt_of_lt_of_le h4 ?_
        show (if zero_step (S.nx_ + S.na_) dz dlam then (0 : ℚ) else 1) ≤ 1
        split <;> norm_num
      have h61 : tc ≤ 1 := by
        refine le_trans h6 ?_
        show (if zero_step (S.nx_ + S.na_) dz dlam then (0 : ℚ) else 1) ≤ 1
        split <;> norm_num
      have hsi := hsg i hi'
      rw [if_neg (ne_of_lt h41), h1, h3] at hsi
      simp only [true_and, ne_eq, not_not] at hsi
      rcases lt_or_gt_of_ne h2 with hz | hz
      · rw [if_pos hz] at hsi
        have hl : lam i < 0 := by
          by_contra hc
          by_cases hp : lam i > 0
          · rw [if_pos hp] at hsi; simp at hsi
          · rw [if_neg hp, if_neg hc] at hsi; simp at hsi
        have h9 := h7 hz
        rw [← (hpin i hi').2 hl] at h9
        simp only [Ext.sub_fin, Ext.fin_le_fin] at h9
        nlinarith
      · rw [if_neg (not_lt.mpr (le_of_lt hz))] at hsi
        have hl : lam i > 0 := by
          by_contra hc
          rw [if_neg hc] at hsi
          split at hsi <;> simp at hsi
        have h9 := h8 hz
        rw [← (hpin i hi').1 hl] at h9
        simp only [Ext.add_fin, Ext.fin_le_fin] at h9
        nlinarith
  refine ⟨rfl, fun i hi => ⟨?_, ?_⟩⟩
  · show d.tau * dz i = dz i
    rw [e1, hstart]
    simp only
    by_cases hz : zero_step (S.nx_ + S.na_) dz dlam = true
    · rw [if_pos hz, zero_step_dz _ _ _ hz i hi]; ring
    · rw [if_neg hz]; ring
  · show (0 < (if i < S.nx_ + S.na_ then
        update_lam d.tau (if d.tau = 1 then -1 else d.index) b.sign d.lam d.dlam i
        else d.lam i) ↔ 0 < lam i) ∧
      ((if i < S.nx_ + S.na_ then
        update_lam d.tau (if d.tau = 1 then -1 else d.index) b.sign d.lam d.dlam i
        else d.lam i) < 0 ↔ lam i < 0)
    rw [if_pos hi, e1, e2, e3]
    exact update_lam_sign _ _ _ _ _ _ (hsg i hi)
theorem exact_residual (qr : QRKernel) (S : ConicActiveSet) (kktd z lam glag : Nat → ℚ)
    (lbz ubz : Nat → Ext) (d0 : Nat → ℚ)
    (hex : qr.Exact S.kktd_ kktd (S.nx_ + S.na_))
    (hdir : search_direction qr S false kktd z lam glag lbz ubz = .ok d0) :
    ∀ c < S.nx_ + S.na_, (kkt_residual S.nx_ z lam glag lbz ubz c).map (fun r => -r) =
      some (S.kktd_.colDot kktd d0 c) := by
  unfold search_direction at hdir
  simp only [Bool.false_eq_true, if_false] at hdir
  split at hdir
  swap
  · cases hdir
  rename_i r hr
  injection hdir with hdir
  intro c hc
  have hres := ((residual_loop_spec S.nx_ z lam glag lbz ubz _ (List.nodup_range _) _ r hr) c).1
    (List.mem_range.mpr hc)
  rw [hres, ← hdir, hex _ c hc]
  simp [casadi_scal, hc]

theorem Ext.sub_zero (b : Ext) : b.sub 0 = b := by
  cases b <;> simp [Ext.sub]

theorem Ext.add_zero (b : Ext) : b.add 0 = b := by
  cases b <;> simp [Ext.add]

/-- The state with which `eval` returns the flag 0: every entry of the refreshed
`z` is within its bounds, and an entry whose multiplier is positive or negative
is at its upper or lower bound. -/
theorem success_state (qr : QRKernel) (S : ConicActiveSet) (P : Args) (s0 sf : State)
    (fuel : Nat)
    (hb : ∀ i < S.nx_ + S.na_, lbz S P i ≤ ubz S P i) (hA : S.A_.ncol = S.nx_)
    (hmono : S.kktd_.Monotone (S.nx_ + S.na_)) (hncol : S.kkt_.ncol = S.nx_ + S.na_)
    (hdiag : S.kktd_.HasDiag (S.nx_ + S.na_)) (hnd : S.kktd_.NodupRows (S.nx_ + S.na_))
    (hlin : LinearColumns S P (kkt S P))
    (hqr : ∀ v, qr.singular S.kktd_ v = false → qr.Exact S.kktd_ v (S.nx_ + S.na_))
    (h0 : s0.new_active_set = true)
    (hl : qp_loop qr S P (flags S P) (kkt S P) (trans_a S P) fuel s0 = .ok (some (0, sf))) :
    (∀ i < S.nx_ + S.na_,
      lbz S P i ≤ (sf.z i : Ext) ∧ (sf.z i : Ext) ≤ ubz S P i ∧
      (0 < sf.lam i → (sf.z i : Ext) = ubz S P i) ∧
      (sf.lam i < 0 → (sf.z i : Ext) = lbz S P i)) ∧
    ∀ i, S.nx_ ≤ i → i < S.nx_ + S.na_ → sf.z i = S.A_.mulVec P.a sf.z (i - S.nx_) := by
  obtain ⟨s, hs, hor⟩ := qp_loop_ret qr S P _ _ _ fuel s0 sf 0 hl
  obtain ⟨hn, hsing, e, he, hno, hz, hlam⟩ := pass_ret_zero qr S P _ _ _ s sf hs
  rcases hor with rfl | ⟨sp, hsp⟩
  · rw [h0] at hn; cases hn
  obtain ⟨e1, lam, d0, infeas, duerr, t, _, hns, hdir, ht, htz, htl, htn⟩ :=
    pass_next_regular qr S P _ _ _ sp s hsp hsing
  have hpin := pins_active qr S P (kkt S P) _ lam _ d0 hmono hncol hdiag hnd hlin hdir
    (exact_residual qr S _ _ _ _ _ _ d0 (hqr _ hns) hdir)
  obtain ⟨hfz, hfs⟩ := full_step_of_no_change S _ _ _ _ _ _ _ lam _ _ _ _ t ht
    (by rw [← htn]; exact hn) (fun i hi => ⟨(hpin i hi).1, (hpin i hi).2.1⟩)
  have hzi : ∀ i < S.nx_ + S.na_, sf.z i = calc_g S P sp.z i + calc_dz S P d0 i := by
    intro i hi
    rw [hz, htz, hfz, calc_g_step S P hA _ _ (fun j hj => calc_g_idem S P hA _ j hj)
      (fun j hj => by rw [calc_dz_eq]; exact calc_g_idem S P hA _ j hj) _ i hi, (hfs i hi).1]
  have hpos : ∀ i < S.nx_ + S.na_, 0 < sf.lam i → (sf.z i : Ext) = ubz S P i := by
    intro i hi hp
    rw [hlam] at hp
    have h1 := (recalc_lam_sign _ _ _ i).1.mp hp
    rw [htl] at h1
    rw [hzi i hi]
    exact (hpin i hi).1 ((hfs i hi).2.1.mp h1)
  have hneg : ∀ i < S.nx_ + S.na_, sf.lam i < 0 → (sf.z i : Ext) = lbz S P i := by
    intro i hi hp
    rw [hlam] at hp
    have h1 := (recalc_lam_sign _ _ _ i).2.mp hp
    rw [htl] at h1
    rw [hzi i hi]
    exact (hpin i hi).2.1 ((hfs i hi).2.2.mp h1)
  have hbl : ∀ i ∈ List.range (S.nx_ + S.na_), lbz S P i ≤ ubz S P i :=
    fun i hi => hb i (List.mem_range.mp hi)
  obtain ⟨_, hw, h3⟩ := prerr_scan_spec (calc_g S P s.z) (lbz S P) (ubz S P) _ _ e
    (le_refl _) hbl he
  have he0 : e = ⟨0, -1, false⟩ := by
    rcases h3 with h3 | ⟨i, hi, h4, h5, h6⟩
    · exact h3
    · exfalso
      have hi' := List.mem_range.mp hi
      have hne : sf.lam i ≠ 0 := by
        intro hc
        apply hno
        rw [h4]
        exact ⟨Int.ofNat_nonneg i, by simpa using hc⟩
      have hbi := hb i hi'
      rw [← hz] at h6
      rcases lt_or_gt_of_ne hne with hc | hc
      · have := hneg i hi' hc
        rcases h6 with ⟨_, h6⟩ | ⟨_, h6⟩
        · rw [← this, h6] at hbi
          simp only [Ext.fin_le_fin] at hbi
          linarith
        · rw [← this] at h6
          simp only [Ext.fin.injEq] at h6
          linarith
      · have := hpos i hi' hc
        rcases h6 with ⟨_, h6⟩ | ⟨_, h6⟩
        · rw [← this] at h6
          simp only [Ext.fin.injEq] at h6
          linarith
        · rw [← this, h6] at hbi
          simp only [Ext.fin_le_fin] at hbi
          linarith
  constructor
  · intro i hi
    have hwi := hw i (List.mem_range.mpr hi)
    rw [he0] at hwi
    unfold Within at hwi
    simp only [Ext.sub_zero, Ext.add_zero] at hwi
    rw [← hz] at hwi
    exact ⟨hwi.1, hwi.2, hpos i hi, hneg i hi⟩
  · intro i h1 h2
    rw [hz, calc_g_hi S P _ i h1 h2]
    apply Sparsity.mulVec_congr
    intro c hc
    exact (calc_g_lo S P s.z c (hA ▸ hc)).symm
/-- C1, amended: when `eval` returns the flag 0, for bounds with `lbz <= ubz`,
well-formed sparsity patterns and a QR kernel whose solve is exact on every
working KKT matrix that it does not report singular, the returned `x` satisfies
`lbx <= x <= ubx` and `lba <= A x <= uba` exactly, a positive multiplier belongs
to a constraint at its upper bound and a negative multiplier to a constraint at
its lower bound, so that the multiplier of a strictly interior constraint is
zero.  Nothing is claimed about the stationarity residual. -/
theorem success_feasible_complementary (qr : QRKernel) (S : ConicActiveSet) (P : Args)
    (u : Uninit) (r : Result)
    (hb : ∀ i < S.nx_ + S.na_, lbz S P i ≤ ubz S P i) (hA : S.A_.ncol = S.nx_)
    (hmono : S.kktd_.Monotone (S.nx_ + S.na_)) (hncol : S.kkt_.ncol = S.nx_ + S.na_)
    (hdiag : S.kktd_.HasDiag (S.nx_ + S.na_)) (hnd : S.kktd_.NodupRows (S.nx_ + S.na_))
    (hlin : LinearColumns S P (kkt S P))
    (hqr : ∀ v, qr.singular S.kktd_ v = false → qr.Exact S.kktd_ v (S.nx_ + S.na_))
    (he : eval qr S P u = .ok (some r)) (hf : r.flag = 0) :
    (∀ i < S.nx_, P.lbx i ≤ (r.x i : Ext) ∧ (r.x i : Ext) ≤ P.ubx i ∧
      (0 < r.lam_x i → (r.x i : Ext) = P.ubx i) ∧
      (r.lam_x i < 0 → (r.x i : Ext) = P.lbx i)) ∧
    (∀ j < S.na_, P.lba j ≤ ((S.A_.mulVec P.a r.x j : ℚ) : Ext) ∧
      ((S.A_.mulVec P.a r.x j : ℚ) : Ext) ≤ P.uba j ∧
      (0 < r.lam_a j → ((S.A_.mulVec P.a r.x j : ℚ) : Ext) = P.uba j) ∧
      (r.lam_a j < 0 → ((S.A_.mulVec P.a r.x j : ℚ) : Ext) = P.lba j)) := by
  unfold eval eval_fuel at he
  split at he
  · cases he
  rename_i s0 hinit
  have h0 : s0.new_active_set = true := by
    unfold init_state at hinit
    split at hinit
    · cases hinit
    · injection hinit with hinit
      rw [← hinit]
  split at he
  · cases he
  · cases he
  rename_i flag sf hl
  simp only [Except.ok.injEq, Option.some.injEq] at he
  subst he
  have hflag : flag = 0 := hf
  subst hflag
  obtain ⟨h1, h2⟩ := success_state qr S P s0 sf _ hb hA hmono hncol hdiag hnd hlin hqr h0 hl
  constructor
  · intro i hi
    have h := h1 i (by omega)
    have e1 : (copy_out S 0 sf).x i = sf.z i := by
      unfold copy_out casadi_copy; simp only; rw [if_pos hi]
    have e2 : (copy_out S 0 sf).lam_x i = sf.lam i := by
      unfold copy_out casadi_copy; simp only; rw [if_pos hi]
    have e3 : lbz S P i = P.lbx i := by unfold lbz casadi_copy; rw [if_pos hi]
    have e4 : ubz S P i = P.ubx i := by unfold ubz casadi_copy; rw [if_pos hi]
    rw [e1, e2, ← e3, ← e4]
    exact h
  · intro j hj
    have h := h1 (S.nx_ + j) (by omega)
    have e0 : S.nx_ + j - S.nx_ = j := by omega
    have e1 : S.A_.mulVec P.a (copy_out S 0 sf).x j = sf.z (S.nx_ + j) := by
      rw [h2 (S.nx_ + j) (by omega) (by omega), e0]
      apply Sparsity.mulVec_congr
      intro c hc
      unfold copy_out casadi_copy
      simp only
      rw [if_pos (hA ▸ hc)]
    have e2 : (copy_out S 0 sf).lam_a j = sf.lam (S.nx_ + j) := by
      unfold copy_out casadi_copy offset; simp only; rw [if_pos hj]
    have e3 : lbz S P (S.nx_ + j) = P.lba j := by
      unfold lbz casadi_copy; rw [if_neg (by omega)]; simp only [e0]
    have e4 : ubz S P (S.nx_ + j) = P.uba j := by
      unfold ubz casadi_copy; rw [if_neg (by omega)]; simp only [e0]
    rw [e1, e2, ← e3, ← e4]
    exact h

theorem result_of_eq (x : Except Err (Option Result)) (f : Int) (h : flag_of x = some f) :
    x = .ok (some (result_of x)) ∧ (result_of x).flag = f := by
  unfold flag_of at h
  split at h
  · simp only [Option.some.injEq] at h
    exact ⟨rfl, h⟩
  · cases h

theorem qr_scalar_exact (v : Nat → ℚ)
    (h : qr_scalar.singular (solver1 1000).kktd_ v = false) :
    qr_scalar.Exact (solver1 1000).kktd_ v ((solver1 1000).nx_ + (solver1 1000).na_) := by
  intro b c hc
  have hc0 : c = 0 := by
    have : c < 1 + 0 := hc
    omega
  subst hc0
  have hv : v 0 ≠ 0 := by
    intro h0
    have : qr_scalar.singular (solver1 1000).kktd_ v = true := by
      show decide (|v 0| < 1 / 10 ^ 12) = true
      rw [h0]
      simp
    rw [this] at h
    cases h
  have e1 : (solver1 1000).kktd_.col 0 = [0] := by decide!
  have e2 : (solver1 1000).kktd_.row 0 = 0 := by decide!
  unfold Sparsity.colDot
  rw [e1]
  simp only [List.map_cons, List.map_nil, List.sum_cons, List.sum_nil, e2, add_zero]
  show v 0 * (if (0 : Nat) = 0 then b 0 / v 0 else b 0) = b 0
  rw [if_pos rfl]
  field_simp

theorem linear_columns_none (P : Args) (kkt : Nat → ℚ) : LinearColumns (solver1 1000) P kkt := by
  intro c h1 h2 x
  have h1' : 1 ≤ c := h1
  have h2' : c < 1 + 0 := h2
  omega

theorem success_feasible_complementary_witness :
    (∀ i < (solver1 1000).nx_ + (solver1 1000).na_,
      lbz (solver1 1000) args_fixed i ≤ ubz (solver1 1000) args_fixed i) ∧
    (solver1 1000).A_.ncol = (solver1 1000).nx_ ∧
    (solver1 1000).kktd_.Monotone ((solver1 1000).nx_ + (solver1 1000).na_) ∧
    (solver1 1000).kkt_.ncol = (solver1 1000).nx_ + (solver1 1000).na_ ∧
    (solver1 1000).kktd_.HasDiag ((solver1 1000).nx_ + (solver1 1000).na_) ∧
    (solver1 1000).kktd_.NodupRows ((solver1 1000).nx_ + (solver1 1000).na_) ∧
    LinearColumns (solver1 1000) args_fixed (kkt (solver1 1000) args_fixed) ∧
    (∀ v, qr_scalar.singular (solver1 1000).kktd_ v = false →
      qr_scalar.Exact (solver1 1000).kktd_ v ((solver1 1000).nx_ + (solver1 1000).na_)) ∧
    eval qr_scalar (solver1 1000) args_fixed uninit0 =
      .ok (some (result_of (eval qr_scalar (solver1 1000) args_fixed uninit0))) ∧
    (result_of (eval qr_scalar (solver1 1000) args_fixed uninit0)).flag = 0 ∧
    (∀ i < (solver1 1000).nx_,
      args_fixed.lbx i ≤
        ((result_of (eval qr_scalar (solver1 1000) args_fixed uninit0)).x i : Ext) ∧
      ((result_of (eval qr_scalar (solver1 1000) args_fixed uninit0)).x i : Ext) ≤
        args_fixed.ubx i ∧
      (0 < (result_of (eval qr_scalar (solver1 1000) args_fixed uninit0)).lam_x i →
        ((result_of (eval qr_scalar (solver1 1000) args_fixed uninit0)).x i : Ext) =
          args_fixed.ubx i) ∧
      ((result_of (eval qr_scalar (solver1 1000) args_fixed uninit0)).lam_x i < 0 →
        ((result_of (eval qr_scalar (solver1 1000) args_fixed uninit0)).x i : Ext) =
          args_fixed.lbx i)) ∧
    (∀ j < (solver1 1000).na_,
      args_fixed.lba j ≤ (((solver1 1000).A_.mulVec args_fixed.a
        (result_of (eval qr_scalar (solver1 1000) args_fixed uninit0)).x j : ℚ) : Ext) ∧
      (((solver1 1000).A_.mulVec args_fixed.a
        (result_of (eval qr_scalar (solver1 1000) args_fixed uninit0)).x j : ℚ) : Ext) ≤
          args_fixed.uba j ∧
      (0 < (result_of (eval qr_scalar (solver1 1000) args_fixed uninit0)).lam_a j →
        (((solver1 1000).A_.mulVec args_fixed.a
          (result_of (eval qr_scalar (solver1 1000) args_fixed uninit0)).x j : ℚ) : Ext) =
            args_fixed.uba j) ∧
      ((result_of (eval qr_scalar (solver1 1000) args_fixed uninit0)).lam_a j < 0 →
        (((solver1 1000).A_.mulVec args_fixed.a
          (result_of (eval qr_scalar (solver1 1000) args_fixed uninit0)).x j : ℚ) : Ext) =
            args_fixed.lba j)) :=
  ⟨by decide!, by decide!, by unfold Sparsity.Monotone; decide!, by decide!,
    by unfold Sparsity.HasDiag; decide!, by unfold Sparsity.NodupRows; decide!,
    linear_columns_none _ _, qr_scalar_exact,
    (result_of_eq _ 0 (by decide!)).1, (result_of_eq _ 0 (by decide!)).2,
    success_feasible_complementary qr_scalar (solver1 1000) args_fixed uninit0 _
      (by decide!) (by decide!) (by unfold Sparsity.Monotone; decide!) (by decide!)
      (by unfold Sparsity.HasDiag; decide!) (by unfold Sparsity.NodupRows; decide!)
      (linear_columns_none _ _) qr_scalar_exact
      (result_of_eq _ 0 (by decide!)).1 (result_of_eq _ 0 (by decide!)).2⟩

/-! ## Stationarity at a successful return -/

theorem qp_loop_two (qr : QRKernel) (S : ConicActiveSet) (P : Args) (F : Flags)
    (kkt trans_a : Nat → ℚ) (n : Nat) (s0 s1 sf : State) (flag : Int)
    (h1 : pass qr S P F kkt trans_a s0 = .ok (.next s1))
    (h2 : pass qr S P F kkt trans_a s1 = .ok (.ret flag sf)) :
    qp_loop qr S P F kkt trans_a (n + 2) s0 = .ok (some (flag, sf)) := by
  show qp_loop qr S P F kkt trans_a (n + 1 + 1) s0 = .ok (some (flag, sf))
  unfold qp_loop
  rw [h1]
  simp only
  unfold qp_loop
  rw [h2]

theorem init_state_ok (S : ConicActiveSet) (P : Args) (u : Uninit) (lam : Nat → ℚ)
    (h : lam_start S P = .ok lam) :
    init_state S P u = .ok ⟨z_init S P, lam, true, 0, u.sing, u.sing_ind, u.sing_sign, 0, 0⟩ := by
  unfold init_state
  rw [h]

/-- A non-singular pass with one variable that is at its equal bounds and has a
negative multiplier takes a zero step and changes nothing. -/
theorem pass_pinned_next (S : ConicActiveSet) (P : Args) (F : Flags) (kkt trans_a : Nat → ℚ)
    (hnx : S.nx_ = 1) (hna : S.na_ = 0)
    (hlb : lbz S P 0 = Ext.fin 0) (hub : ubz S P 0 = Ext.fin 0)
    (hk : ∀ lam : Nat → ℚ, lam 0 ≠ 0 → calc_kktd S kkt lam 0 = 1)
    (hdl : ∀ lam dz : Nat → ℚ, dz 0 = 0 → calc_dlam S P lam dz 0 = 0)
    (s : State) (hz : s.z 0 = 0) (hl : s.lam 0 < 0) (hn : s.new_active_set = true)
    (hi : ¬ s.iter ≥ S.max_iter_) :
    ∃ s1, pass qr_scalar S P F kkt trans_a s = .ok (.next s1) ∧ s1.z 0 = 0 ∧ s1.lam 0 < 0 ∧
      s1.new_active_set = false ∧ s1.sing = false := by
  have hD := DMIN_pos
  have hr : List.range (S.nx_ + S.na_) = [0] := by rw [hnx, hna]; rfl
  have h0 : 0 < S.nx_ := by omega
  have hz0 : calc_g S P s.z 0 = 0 := by rw [calc_g_lo S P _ 0 h0, hz]
  have hl0 : recalc_lam S.nx_ (calc_glag S P (calc_g S P s.z) s.lam) s.lam 0 < 0 :=
    (recalc_lam_sign _ _ _ 0).2.mpr hl
  have hpr : prerr_scan (calc_g S P s.z) (lbz S P) (ubz S P) [0] ⟨0, -1, false⟩ =
      .ok ⟨0, -1, false⟩ := by
    unfold prerr_scan
    rw [hub, hlb, hz0]
    simp [prerr_scan]
  have hps : ∀ z, post_step s ⟨0, -1, false⟩ z
      (recalc_lam S.nx_ (calc_glag S P (calc_g S P s.z) s.lam) s.lam) (lbz S P) =
      .ok (recalc_lam S.nx_ (calc_glag S P (calc_g S P s.z) s.lam) s.lam, true) := by
    intro z
    unfold post_step
    rw [hn]
    rfl
  have hsing : qr_scalar.singular S.kktd_ (calc_kktd S kkt
      (recalc_lam S.nx_ (calc_glag S P (calc_g S P s.z) s.lam) s.lam)) = false := by
    show decide (|calc_kktd S kkt _ 0| < 1 / 10 ^ 12) = false
    rw [hk _ (ne_of_lt hl0)]
    norm_num
  have hres : residual_loop S.nx_ (calc_g S P s.z)
      (recalc_lam S.nx_ (calc_glag S P (calc_g S P s.z) s.lam) s.lam)
      (calc_glag S P (calc_g S P s.z) s.lam) (lbz S P) (ubz S P) [0] (fun _ => 0) =
      .ok (Function.update (fun _ => 0) 0 0) := by
    unfold residual_loop kkt_residual
    rw [if_neg (not_lt.mpr (le_of_lt hl0)), if_pos hl0, hlb, hz0]
    simp [residual_loop]
  unfold pass
  simp only [hr, hpr, hps, Bool.not_true, Bool.false_eq_true, if_false, if_neg hi]
  unfold pass_step
  simp only [hsing, Bool.false_eq_true, if_false]
  unfold search_direction
  simp only [hr, hres, Bool.false_eq_true, if_false]
  have hd0 : (qr_scalar.solve S.kktd_ (calc_kktd S kkt
      (recalc_lam S.nx_ (calc_glag S P (calc_g S P s.z) s.lam) s.lam))
      (casadi_scal (S.nx_ + S.na_) (-1) (Function.update (fun _ => (0 : ℚ)) 0 0))) 0 = 0 := by
    simp [qr_scalar, casadi_scal]
  generalize qr_scalar.solve S.kktd_ (calc_kktd S kkt
      (recalc_lam S.nx_ (calc_glag S P (calc_g S P s.z) s.lam) s.lam))
      (casadi_scal (S.nx_ + S.na_) (-1) (Function.update (fun _ => (0 : ℚ)) 0 0)) = d0 at hd0 ⊢
  have hdz : calc_dz S P d0 0 = 0 := by rw [calc_dz_eq, calc_g_lo S P _ 0 h0, hd0]
  have hdlam := hdl (recalc_lam S.nx_ (calc_glag S P (calc_g S P s.z) s.lam) s.lam) d0 hd0
  have hzs : zero_step (S.nx_ + S.na_) (calc_dz S P d0)
      (calc_dlam S P (recalc_lam S.nx_ (calc_glag S P (calc_g S P s.z) s.lam) s.lam) d0) =
      true := by
    unfold zero_step
    rw [hr]
    simp [hdz, hdlam]
  unfold take_step
  simp only [hzs, hr, if_true]
  unfold primal_bracket
  simp only [gt_iff_lt, lt_self_iff_false, if_false]
  unfold collect_crossings
  simp only [hdlam, if_true, collect_crossings, dual_bracket]
  refine ⟨_, rfl, ?_, ?_, ?_, rfl⟩
  · show casadi_axpy S.nx_ 0 (calc_dz S P d0) (calc_g S P s.z) 0 = 0
    unfold casadi_axpy
    rw [if_pos h0, hz0]
    ring
  · show (if 0 < S.nx_ + S.na_ then update_lam 0 _ _ _ _ 0 else _) < (0 : ℚ)
    rw [if_pos (by omega)]
    refine (update_lam_sign _ _ _ _ _ 0 ?_).2.mpr hl0
    intro hc
    have := hc.1
    simp at this
  · show (false || sign_changes (S.nx_ + S.na_) _ _ _) = false
    rw [Bool.false_or]
    unfold sign_changes
    rw [hr]
    simp
/-- The pass that follows returns the flag 0 with the variable at its bounds and
the multiplier recalculated without changing its sign. -/
theorem pass_pinned_ret (S : ConicActiveSet) (P : Args) (F : Flags) (kkt trans_a : Nat → ℚ)
    (hnx : S.nx_ = 1) (hna : S.na_ = 0)
    (hlb : lbz S P 0 = Ext.fin 0) (hub : ubz S P 0 = Ext.fin 0)
    (s : State) (hz : s.z 0 = 0) (hl : s.lam 0 < 0) (hn : s.new_active_set = false)
    (hs : s.sing = false) :
    ∃ sf, pass qr_scalar S P F kkt trans_a s = .ok (.ret 0 sf) ∧ sf.z 0 = 0 ∧
      sf.lam 0 = min (-calc_glag S P (calc_g S P s.z) s.lam 0) (-DMIN) := by
  have hr : List.range (S.nx_ + S.na_) = [0] := by rw [hnx, hna]; rfl
  have h0 : 0 < S.nx_ := by omega
  have hz0 : calc_g S P s.z 0 = 0 := by rw [calc_g_lo S P _ 0 h0, hz]
  have hpr : prerr_scan (calc_g S P s.z) (lbz S P) (ubz S P) [0] ⟨0, -1, false⟩ =
      .ok ⟨0, -1, false⟩ := by
    unfold prerr_scan
    rw [hub, hlb, hz0]
    simp [prerr_scan]
  have hps : ∀ z lam, post_step s ⟨0, -1, false⟩ z lam (lbz S P) = .ok (lam, false) := by
    intro z lam
    unfold post_step
    rw [hn, hs]
    simp
  unfold pass
  simp only [hr, hpr, hps, Bool.not_false, if_true]
  refine ⟨_, rfl, hz0, ?_⟩
  show recalc_lam S.nx_ (calc_glag S P (calc_g S P s.z) s.lam) s.lam 0 = _
  unfold recalc_lam
  rw [if_pos h0, if_neg (not_lt.mpr (le_of_lt hl)), if_pos hl]

/-- The run on a problem with one variable fixed at zero by equal bounds, with
`H = [2]`, the gradient `-G` and the initial multiplier negative: `eval` returns
the flag 0 after two passes, with the stationarity residual `-G - DMIN`. -/
theorem pinned_run (S : ConicActiveSet) (P : Args) (u : Uninit) (G : ℚ) (hG : 0 ≤ G)
    (hnx : S.nx_ = 1) (hna : S.na_ = 0) (hmax : S.max_iter_ = 1000)
    (hlb : lbz S P 0 = Ext.fin 0) (hub : ubz S P 0 = Ext.fin 0)
    (hk : ∀ lam : Nat → ℚ, lam 0 ≠ 0 → calc_kktd S (kkt S P) lam 0 = 1)
    (hdl : ∀ lam dz : Nat → ℚ, dz 0 = 0 → calc_dlam S P lam dz 0 = 0)
    (hg : ∀ z lam : Nat → ℚ, calc_glag S P z lam 0 = -G + 2 * z 0)
    (lam0 : Nat → ℚ) (hls : lam_start S P = .ok lam0) (hl0 : lam0 0 < 0)
    (hz0 : z_init S P 0 = 0) :
    ∃ r, eval qr_scalar S P u = .ok (some r) ∧ r.flag = 0 ∧
      stationarity S P r 0 = -G - DMIN := by
  have hD := DMIN_pos
  have h0 : 0 < S.nx_ := by omega
  obtain ⟨s1, hp1, hz1, hl1, hn1, hs1⟩ := pass_pinned_next S P (flags S P) (kkt S P)
    (trans_a S P) hnx hna hlb hub hk hdl
    ⟨z_init S P, lam0, true, 0, u.sing, u.sing_ind, u.sing_sign, 0, 0⟩ hz0 hl0 rfl
    (by rw [hmax]; show ¬ (0 : Int) ≥ 1000; decide)
  obtain ⟨sf, hp2, hz2, hl2⟩ := pass_pinned_ret S P (flags S P) (kkt S P) (trans_a S P)
    hnx hna hlb hub s1 hz1 hl1 hn1 hs1
  have hfuel : S.max_iter_.toNat + 1 = 999 + 2 := by rw [hmax]; rfl
  refine ⟨copy_out S 0 sf, ?_, rfl, ?_⟩
  · unfold eval eval_fuel
    rw [init_state_ok S P u lam0 hls, hfuel]
    simp only
    rw [qp_loop_two qr_scalar S P _ _ _ 999 _ s1 sf 0 hp1 hp2]
  · unfold stationarity
    rw [hg]
    show -G + 2 * casadi_copy sf.z S.nx_ (fun _ => 0) 0 + casadi_copy sf.lam S.nx_ (fun _ => 0) 0
      = -G - DMIN
    unfold casadi_copy
    rw [if_pos h0, hz2, hl2, hg, calc_g_lo S P _ 0 h0, hz1]
    rw [min_eq_right (by linarith)]
    try rw [if_pos h0]
    ring
theorem glag_pinned (G : ℚ) (z lam : Nat → ℚ) :
    calc_glag (solver1 1000) (args_pinned G) z lam 0 = -G + 2 * z 0 := by
  simp [calc_glag, solver1, args_pinned, args1, casadi_mv, casadi_copy, Sparsity.ofLists, vec,
    Sparsity.col, offset, List.range_succ, Function.update_apply]

theorem dlam_pinned (G : ℚ) (lam dz : Nat → ℚ) (h : dz 0 = 0) :
    calc_dlam (solver1 1000) (args_pinned G) lam dz 0 = 0 := by
  simp [calc_dlam, solver1, args_pinned, args1, casadi_mv, casadi_copy, casadi_scal,
    casadi_fill, splice, Sparsity.ofLists, vec, Sparsity.col, offset, List.range_succ,
    Function.update_apply, h]

theorem z_init_pinned (G : ℚ) : z_init (solver1 1000) (args_pinned G) 0 = 0 := by
  simp [z_init, calc_g, splice, casadi_fill, solver1, args_pinned, args1, casadi_mv,
    casadi_copy, Sparsity.ofLists, vec, Sparsity.col, offset, List.range_succ,
    Function.update_apply]

theorem neverzero_pinned (G : ℚ) :
    (flags (solver1 1000) (args_pinned G)).neverzero 0 = true := by
  simp [flags, permitted_signs, lbz, ubz, solver1, args_pinned, args1, casadi_copy, vec]

theorem neverupper_pinned (G : ℚ) :
    (flags (solver1 1000) (args_pinned G)).neverupper 0 = false := by
  simp [flags, permitted_signs, lbz, ubz, solver1, args_pinned, args1, casadi_copy, vec,
    Ext.isinf]

theorem lbz_pinned (G : ℚ) : lbz (solver1 1000) (args_pinned G) 0 = Ext.fin 0 := by
  simp [lbz, solver1, args_pinned, args1, casadi_copy, vec]

theorem ubz_pinned (G : ℚ) : ubz (solver1 1000) (args_pinned G) 0 = Ext.fin 0 := by
  simp [ubz, solver1, args_pinned, args1, casadi_copy, vec]

theorem lam_start_pinned (G : ℚ) :
    lam_start (solver1 1000) (args_pinned G) =
      .ok (Function.update (lam_init (solver1 1000) (args_pinned G)) 0 (-DMIN)) := by
  have hr : List.range ((solver1 1000).nx_ + (solver1 1000).na_) = [0] := rfl
  have hl0 : lam_init (solver1 1000) (args_pinned G) 0 = 0 := by
    simp [lam_init, splice, solver1, args_pinned, args1, vec]
  have hi : initial_lam (flags (solver1 1000) (args_pinned G))
      (z_init (solver1 1000) (args_pinned G)) (lbz (solver1 1000) (args_pinned G))
      (lam_init (solver1 1000) (args_pinned G)) 0 = -DMIN := by
    unfold initial_lam
    rw [neverzero_pinned, neverupper_pinned, z_init_pinned, lbz_pinned, hl0]
    rw [if_neg (by simp), if_pos (Or.inr (by simp))]
    exact min_eq_right (by linarith [DMIN_pos])
  unfold lam_start
  rw [hr]
  unfold initial_active_set
  rw [neverzero_pinned, neverupper_pinned, hi]
  simp only [Bool.not_true, Bool.not_false, Bool.false_or, Bool.true_or, Bool.or_true,
    Bool.false_eq_true, if_false, initial_active_set]

theorem kktd_pinned (kkt lam : Nat → ℚ) (h : lam 0 ≠ 0) :
    calc_kktd (solver1 1000) kkt lam 0 = 1 := by
  have h1 := calc_kktd_apply (solver1 1000) kkt lam (by unfold Sparsity.Monotone; decide!)
    (by decide!) 0 (by decide!) 0 (by decide!)
  rw [h1, if_pos ⟨by decide!, h⟩, if_pos (by decide!)]

/-- C1 fails: no tolerance that depends only on the option `tol` bounds the
stationarity residual at a successful return.  For one variable with `H = [2]`,
`g = -G`, `lbx = ubx = 0` and `x0 = 0`, with the exact solve of the 1-by-1 system,
`eval` returns the flag 0 with `x = 0` and `lam_x = -DMIN`, where the residual is
`-G - DMIN`, for every `G >= 0`. -/
theorem stationarity_unbounded :
    ¬ ∃ eps : ℚ → ℚ, ∀ (P : Args) (r : Result),
      eval qr_scalar (solver1 1000) P uninit0 = .ok (some r) → r.flag = 0 →
        ∀ i < (solver1 1000).nx_, |stationarity (solver1 1000) P r i| ≤ eps (solver1 1000).tol_ := by
  rintro ⟨eps, h⟩
  have hD := DMIN_pos
  have hG : (0 : ℚ) ≤ |eps (solver1 1000).tol_| + 1 := by positivity
  obtain ⟨r, he, hf, hst⟩ := pinned_run (solver1 1000)
    (args_pinned (|eps (solver1 1000).tol_| + 1)) uninit0 _ hG rfl rfl rfl
    (lbz_pinned _) (ubz_pinned _) (fun lam hl => kktd_pinned _ lam hl)
    (fun lam dz hd => dlam_pinned _ lam dz hd) (fun z lam => glag_pinned _ z lam)
    _ (lam_start_pinned _)
    (by rw [Function.update_same]; linarith) (z_init_pinned _)
  have h1 := h _ r he hf 0 (by decide!)
  rw [hst] at h1
  have h2 : |-(|eps (solver1 1000).tol_| + 1) - DMIN| = |eps (solver1 1000).tol_| + 1 + DMIN := by
    rw [abs_of_neg (by linarith)]
    ring
  rw [h2] at h1
  have h3 := le_abs_self (eps (solver1 1000).tol_)
  linarith

/-! ## The candidates of the dual bracket -/

/-- The dual bracket of `pass_dual` runs on the candidates of `pass_crossings`. -/
theorem pass_crossings_link (qr : QRKernel) (S : ConicActiveSet) (P : Args) (F : Flags)
    (kkt trans_a : Nat → ℚ) (s : State) (t : DualTrace)
    (h : pass_dual qr S P F kkt trans_a s = some t) :
    ∃ c, pass_crossings qr S P kkt s = some c ∧ c.tau = t.primal.tau ∧
      ∃ duerr infeas tinfeas, dual_bracket S F trans_a duerr c.crossings.w c.crossings.iw
        ⟨t.primal.tau, t.primal.index, false, 0, infeas, tinfeas, c.lam, c.dlam⟩ = .ok t.dual := by
  unfold pass_dual at h
  simp only at h
  split at h
  · cases h
  · rename_i e he
    split at h
    · cases h
    · rename_i lam nas hps
      split at h
      · cases h
      · rename_i hcond
        split at h
        · cases h
        · rename_i dz0 hdz
          split at h
          · cases h
          · rename_i b hb
            split at h
            · cases h
            · rename_i dd hdd
              simp only [Option.some.injEq] at h
              subst h
              unfold pass_crossings
              simp only [he, hps, if_neg hcond, hdz, hb]
              exact ⟨_, rfl, rfl, _, _, _, hdd⟩

/-- C11, at a failing input: for `minimize x0^2/2 + x1^2/2 - x0 + 3 x1` subject
to `-1 <= x0`, `-1 <= x1 <= 0`, `x0 = 0` from `x0 = (-1, -2)`, `lam_a0 = -2`, with
exact linear algebra, the first pass is non-singular, the primal bracket leaves
`tau = 0`, and the multiplier of the linear constraint has `lam = -2`,
`dlam = 3`, so that `lam + tau * dlam = -2` has the sign of `lam`.  The index is a
candidate all the same, with the crossing point `w = 1` instead of
`-lam / dlam = 2/3`; the dual bracket accepts it, and the pass, which takes the
step with `tau = 0`, ends with the multiplier flipped to `DMIN`. -/
theorem crossing_not_genuine :
    (pass_crossings (qr_exact 3) (solver21 1000) args_early (kkt (solver21 1000) args_early)
      (first_state (solver21 1000) args_early uninit0)).map
      (fun c => (c.crossings.iw, [c.tau, c.lam 2, c.dlam 2, c.lam 2 + c.tau * c.dlam 2,
        c.crossings.w 2, -c.lam 2 / c.dlam 2]))
      = some ([2], [0, -2, 3, -2, 1, 2 / 3]) ∧
    (pass_dual (qr_exact 3) (solver21 1000) args_early (flags (solver21 1000) args_early)
      (kkt (solver21 1000) args_early) (trans_a (solver21 1000) args_early)
      (first_state (solver21 1000) args_early uninit0)).map
      (fun t => [t.primal.tau, t.dual.tau, t.dual.tau_k, t.dual.lam 2])
      = some [0, 0, 1, DMIN] ∧
    (next_state (pass (qr_exact 3) (solver21 1000) args_early (flags (solver21 1000) args_early)
      (kkt (solver21 1000) args_early) (trans_a (solver21 1000) args_early)
      (first_state (solver21 1000) args_early uninit0))).map
      (fun s => [s.tau, s.z 0, s.z 1, s.lam 2])
      = some [0, -1, -2, DMIN] := by
  refine ⟨?_, ?_, ?_⟩ <;> decide!

/-! ## The ordered list of crossings -/

theorem mem_insert_tau (w : Nat → ℚ) (i j : Nat) (l : List Nat) :
    j ∈ insert_tau w i l ↔ j = i ∨ j ∈ l := by
  induction l with
  | nil => simp [insert_tau]
  | cons a l ih =>
    unfold insert_tau
    split
    · simp
    · simp only [List.mem_cons, ih]
      tauto

theorem insert_tau_sorted (w : Nat → ℚ) (i : Nat) (l : List Nat)
    (h : l.Pairwise (fun a b => w a ≤ w b)) :
    (insert_tau w i l).Pairwise (fun a b => w a ≤ w b) := by
  induction l with
  | nil => simp [insert_tau]
  | cons a l ih =>
    have h1 := List.pairwise_cons.mp h
    unfold insert_tau
    split
    · rename_i hlt
      refine List.pairwise_cons.mpr ⟨?_, h⟩
      intro x hx
      rcases List.mem_cons.mp hx with rfl | hx
      · exact le_of_lt hlt
      · exact le_trans (le_of_lt hlt) (h1.1 x hx)
    · rename_i hge
      refine List.pairwise_cons.mpr ⟨?_, ih h1.2⟩
      intro x hx
      rcases (mem_insert_tau w i x l).mp hx with rfl | hx
      · exact not_lt.mp hge
      · exact h1.1 x hx

theorem insert_tau_nodup (w : Nat → ℚ) (i : Nat) (l : List Nat) (hi : i ∉ l) (h : l.Nodup) :
    (insert_tau w i l).Nodup := by
  induction l with
  | nil => simp [insert_tau]
  | cons a l ih =>
    have h1 := List.nodup_cons.mp h
    have hia : i ≠ a := fun e => hi (e ▸ List.mem_cons_self _ _)
    have hil : i ∉ l := fun e => hi (List.mem_cons_of_mem _ e)
    unfold insert_tau
    split
    · exact List.nodup_cons.mpr ⟨hi, h⟩
    · refine List.nodup_cons.mpr ⟨?_, ih hil h1.2⟩
      intro hm
      rcases (mem_insert_tau w i a l).mp hm with e | e
      · exact hia e.symm
      · exact h1.1 e

/-- The candidate loop over the indices in a list without repetitions, none of
which is in the list `iw` yet: it keeps `iw` sorted by `w` and free of
repetitions, adds exactly the indices that pass the three tests, and changes `w`
only at indices of the list. -/
theorem collect_crossings_spec (lam dlam : Nat → ℚ) (tau : ℚ) (is : List Nat) (c : Crossings)
    (hnd : is.Nodup) (hnew : ∀ i ∈ is, i ∉ c.iw)
    (hs : c.iw.Pairwise (fun a b => c.w a ≤ c.w b)) (hn : c.iw.Nodup) :
    (collect_crossings lam dlam tau is c).iw.Pairwise
      (fun a b => (collect_crossings lam dlam tau is c).w a ≤
        (collect_crossings lam dlam tau is c).w b) ∧
    (collect_crossings lam dlam tau is c).iw.Nodup ∧
    (∀ j, j ∈ (collect_crossings lam dlam tau is c).iw ↔
      j ∈ c.iw ∨ (j ∈ is ∧ dlam j ≠ 0 ∧ lam j ≠ 0 ∧
        ¬ (if lam j > 0 then lam j ≥ -dlam j else lam j ≤ -dlam j))) ∧
    ∀ j, j ∉ is → (collect_crossings lam dlam tau is c).w j = c.w j := by
  induction is generalizing c with
  | nil =>
    simp only [collect_crossings]
    exact ⟨hs, hn, by simp, by simp⟩
  | cons i is ih =>
    have hnd' := List.nodup_cons.mp hnd
    have hic : i ∉ c.iw := hnew i (List.mem_cons_self _ _)
    have hnew' : ∀ j ∈ is, j ∉ c.iw := fun j hj => hnew j (List.mem_cons_of_mem _ hj)
    unfold collect_crossings
    by_cases h1 : dlam i = 0
    · rw [if_pos h1]
      obtain ⟨a1, a2, a3, a4⟩ := ih c hnd'.2 hnew' hs hn
      refine ⟨a1, a2, fun j => ?_, fun j hj => a4 j (fun e => hj (List.mem_cons_of_mem _ e))⟩
      rw [a3 j]
      constructor
      · rintro (h | ⟨h, h'⟩)
        · exact Or.inl h
        · exact Or.inr ⟨List.mem_cons_of_mem _ h, h'⟩
      · rintro (h | ⟨h, h'⟩)
        · exact Or.inl h
        · rcases List.mem_cons.mp h with rfl | h
          · exact absurd h1 h'.1
          · exact Or.inr ⟨h, h'⟩
    rw [if_neg h1]
    by_cases h2 : lam i = 0
    · rw [if_pos h2]
      obtain ⟨a1, a2, a3, a4⟩ := ih c hnd'.2 hnew' hs hn
      refine ⟨a1, a2, fun j => ?_, fun j hj => a4 j (fun e => hj (List.mem_cons_of_mem _ e))⟩
      rw [a3 j]
      constructor
      · rintro (h | ⟨h, h'⟩)
        · exact Or.inl h
        · exact Or.inr ⟨List.mem_cons_of_mem _ h, h'⟩
      · rintro (h | ⟨h, h'⟩)
        · exact Or.inl h
        · rcases List.mem_cons.mp h with rfl | h
          · exact absurd h2 h'.2.1
          · exact Or.inr ⟨h, h'⟩
    rw [if_neg h2]
    by_cases h3 : (if lam i > 0 then lam i ≥ -dlam i else lam i ≤ -dlam i)
    · rw [if_pos h3]
      obtain ⟨a1, a2, a3, a4⟩ := ih c hnd'.2 hnew' hs hn
      refine ⟨a1, a2, fun j => ?_, fun j hj => a4 j (fun e => hj (List.mem_cons_of_mem _ e))⟩
      rw [a3 j]
      constructor
      · rintro (h | ⟨h, h'⟩)
        · exact Or.inl h
        · exact Or.inr ⟨List.mem_cons_of_mem _ h, h'⟩
      · rintro (h | ⟨h, h'⟩)
        · exact Or.inl h
        · rcases List.mem_cons.mp h with rfl | h
          · exact absurd h3 h'.2.2
          · exact Or.inr ⟨h, h'⟩
    rw [if_neg h3]
    simp only
    generalize hw1 : (if (if lam i > 0 then lam i + tau * dlam i < 0
      else lam i + tau * dlam i > 0) then Function.update c.w i (-lam i / dlam i) else c.w) = w1
    have hagree : ∀ j, j ≠ i → w1 j = c.w j := by
      intro j hj
      rw [← hw1]
      by_cases hc : (if lam i > 0 then lam i + tau * dlam i < 0
        else lam i + tau * dlam i > 0)
      · rw [if_pos hc]
        exact Function.update_noteq hj _ _
      · rw [if_neg hc]
    have hs1 : c.iw.Pairwise (fun a b => w1 a ≤ w1 b) := by
      refine List.Pairwise.imp_of_mem ?_ hs
      intro a b ha hb hab
      rw [hagree a (fun e => hic (e ▸ ha)), hagree b (fun e => hic (e ▸ hb))]
      exact hab
    obtain ⟨a1, a2, a3, a4⟩ := ih ⟨w1, insert_tau w1 i c.iw⟩ hnd'.2
      (fun j hj hm => by
        rcases (mem_insert_tau w1 i j c.iw).mp hm with e | e
        · exact hnd'.1 (e ▸ hj)
        · exact hnew' j hj e)
      (insert_tau_sorted w1 i c.iw hs1) (insert_tau_nodup w1 i c.iw hic hn)
    refine ⟨a1, a2, fun j => ?_, fun j hj => ?_⟩
    · rw [a3 j]
      simp only [mem_insert_tau]
      constructor
      · rintro ((h | h) | ⟨h, h'⟩)
        · exact Or.inr ⟨h ▸ List.mem_cons_self _ _, h ▸ ⟨h1, h2, h3⟩⟩
        · exact Or.inl h
        · exact Or.inr ⟨List.mem_cons_of_mem _ h, h'⟩
      · rintro (h | ⟨h, h'⟩)
        · exact Or.inl (Or.inr h)
        · rcases List.mem_cons.mp h with rfl | h
          · exact Or.inl (Or.inl rfl)
          · exact Or.inr ⟨h, h'⟩
    · rw [a4 j (fun e => hj (List.mem_cons_of_mem _ e))]
      exact hagree j (fun e => hj (e ▸ List.mem_cons_self _ _))

/-- C12: after the candidate-collection loop over `i = 0, ..., nx+na-1`, started
with every `w[i] = 1` and an empty list, the list `iw` is sorted by crossing
point, `w[iw[0]] <= w[iw[1]] <= ...`, holds no index twice, and holds exactly the
indices below `nx+na` that pass the three tests of the loop (`dlam[i] != 0`,
`lam[i] != 0`, not a full step of the same sign). -/
theorem crossings_sorted (lam dlam : Nat → ℚ) (tau : ℚ) (n : Nat) :
    (collect_crossings lam dlam tau (List.range n) ⟨fun _ => 1, []⟩).iw.Pairwise
      (fun a b => (collect_crossings lam dlam tau (List.range n) ⟨fun _ => 1, []⟩).w a ≤
        (collect_crossings lam dlam tau (List.range n) ⟨fun _ => 1, []⟩).w b) ∧
    (collect_crossings lam dlam tau (List.range n) ⟨fun _ => 1, []⟩).iw.Nodup ∧
    ∀ j, j ∈ (collect_crossings lam dlam tau (List.range n) ⟨fun _ => 1, []⟩).iw ↔
      j < n ∧ dlam j ≠ 0 ∧ lam j ≠ 0 ∧
        ¬ (if lam j > 0 then lam j ≥ -dlam j else lam j ≤ -dlam j) := by
  obtain ⟨a1, a2, a3, _⟩ := collect_crossings_spec lam dlam tau (List.range n)
    ⟨fun _ => 1, []⟩ (List.nodup_range n) (fun _ _ h => absurd h (List.not_mem_nil _))
    List.Pairwise.nil List.nodup_nil
  refine ⟨a1, a2, fun j => ?_⟩
  rw [a3 j]
  simp [List.mem_range]
/-! ## Signs in the step application -/

theorem sgn_cases (x : ℚ) : sgn x = -1 ∨ sgn x = 0 ∨ sgn x = 1 := by
  unfold sgn
  split
  · exact Or.inr (Or.inr rfl)
  · split
    · exact Or.inl rfl
    · exact Or.inr (Or.inl rfl)

theorem hasSign_sgn (s : Int) (x : ℚ) (hs : s = -1 ∨ s = 0 ∨ s = 1) (h : HasSign s x) :
    sgn x = s := by
  have hD := DMIN_pos
  unfold sgn
  rcases hs with rfl | rfl | rfl
  · have := h.2.1 rfl
    rw [if_neg (by linarith), if_pos (by linarith)]
  · have := h.2.2 rfl
    rw [this]
    simp
  · have := h.1 rfl
    rw [if_pos (by linarith)]

/-- The value written by the step application has the sign that the update
works with: the sign on entry, or the recorded sign at the recorded index. -/
theorem update_lam_hasSign (tau : ℚ) (index sign : Int) (lam dlam : Nat → ℚ) (i : Nat)
    (hs : sign = -1 ∨ sign = 0 ∨ sign = 1) :
    HasSign (if (i : Int) = index ∧ sgn (lam i) ≠ sign then sign else sgn (lam i))
      (update_lam tau index sign lam dlam i) := by
  have key : ∀ s1 : Int, s1 = -1 ∨ s1 = 0 ∨ s1 = 1 →
      HasSign s1 (if s1 = -1 then min (lam i + tau * dlam i) (-DMIN)
        else if s1 = 1 then max (lam i + tau * dlam i) DMIN
        else if s1 = 0 then 0 else lam i + tau * dlam i) := by
    intro s1 h1
    rcases h1 with rfl | rfl | rfl
    · refine ⟨fun h => absurd h (by decide), fun _ => ?_, fun h => absurd h (by decide)⟩
      rw [if_pos rfl]
      exact min_le_right _ _
    · refine ⟨fun h => absurd h (by decide), fun h => absurd h (by decide), fun _ => ?_⟩
      rw [if_neg (by decide), if_neg (by decide), if_pos rfl]
    · refine ⟨fun _ => ?_, fun h => absurd h (by decide), fun h => absurd h (by decide)⟩
      rw [if_neg (by decide), if_pos rfl]
      exact le_max_right _ _
  have h1 : (if (i : Int) = index ∧ sgn (lam i) ≠ sign then sign else sgn (lam i)) = -1 ∨
      (if (i : Int) = index ∧ sgn (lam i) ≠ sign then sign else sgn (lam i)) = 0 ∨
      (if (i : Int) = index ∧ sgn (lam i) ≠ sign then sign else sgn (lam i)) = 1 := by
    split
    · exact hs
    · exact sgn_cases _
  exact key _ h1

/-- One turn of the loop over the crossings. -/
theorem dual_bracket_cons (S : ConicActiveSet) (F : Flags) (trans_a : Nat → ℚ) (duerr : ℚ)
    (w : Nat → ℚ) (i : Nat) (is : List Nat) (d : Dual) :
    dual_bracket S F trans_a duerr w (i :: is) d =
      match dual_check (max duerr (1 / 10 ^ 10)) d.tau_k (w i - d.tau_k) d.tau d.infeas
          d.tinfeas (List.range S.nx_) with
      | .error err => .error err
      | .ok (some tau1) => .ok { d with tau := tau1, index := -1, new_active_set := true }
      | .ok none =>
        dual_bracket S F trans_a duerr w is
          { tau := d.tau
            index := d.index
            new_active_set := if (i : Int) ≠ d.index then true else d.new_active_set
            tau_k := w i
            infeas := casadi_axpy S.nx_ (w i - d.tau_k) d.tinfeas d.infeas
            tinfeas := drop_tinfeas S trans_a d.tinfeas d.lam i
            lam := if (i : Int) ≠ d.index then
                Function.update d.lam i
                  (if !F.neverzero i then 0 else if d.lam i < 0 then DMIN else -DMIN)
              else d.lam
            dlam := if (i : Int) ≠ d.index then Function.update d.dlam i 0 else d.dlam } :=
  rfl

theorem dual_accepted_cons (S : ConicActiveSet) (F : Flags) (trans_a : Nat → ℚ) (duerr : ℚ)
    (w : Nat → ℚ) (i : Nat) (is : List Nat) (d : Dual) :
    dual_accepted S F trans_a duerr w (i :: is) d =
      match dual_check (max duerr (1 / 10 ^ 10)) d.tau_k (w i - d.tau_k) d.tau d.infeas
          d.tinfeas (List.range S.nx_) with
      | .error _ => []
      | .ok (some _) => []
      | .ok none =>
        i :: dual_accepted S F trans_a duerr w is
          { tau := d.tau
            index := d.index
            new_active_set := if (i : Int) ≠ d.index then true else d.new_active_set
            tau_k := w i
            infeas := casadi_axpy S.nx_ (w i - d.tau_k) d.tinfeas d.infeas
            tinfeas := drop_tinfeas S trans_a d.tinfeas d.lam i
            lam := if (i : Int) ≠ d.index then
                Function.update d.lam i
                  (if !F.neverzero i then 0 else if d.lam i < 0 then DMIN else -DMIN)
              else d.lam
            dlam := if (i : Int) ≠ d.index then Function.update d.dlam i 0 else d.dlam } :=
  rfl

/-- The crossings that the dual bracket accepts form a beginning of the ordered
list, and the multipliers and their steps outside of them are left alone. -/
theorem dual_bracket_accepts (S : ConicActiveSet) (F : Flags) (trans_a : Nat → ℚ) (duerr : ℚ)
    (w : Nat → ℚ) (is : List Nat) (d0 d : Dual)
    (h : dual_bracket S F trans_a duerr w is d0 = .ok d) :
    (∃ rest, is = dual_accepted S F trans_a duerr w is d0 ++ rest) ∧
      (∀ j, j ∉ dual_accepted S F trans_a duerr w is d0 → d.lam j = d0.lam j) ∧
      (∀ j, j ∉ dual_accepted S F trans_a duerr w is d0 → d.dlam j = d0.dlam j) ∧
      (d.index = d0.index ∨ d.index = -1) := by
  induction is generalizing d0 with
  | nil =>
    simp only [dual_bracket, Except.ok.injEq] at h
    subst h
    exact ⟨⟨[], rfl⟩, fun _ _ => rfl, fun _ _ => rfl, Or.inl rfl⟩
  | cons i is ih =>
    rw [dual_bracket_cons] at h
    rw [dual_accepted_cons]
    revert h
    generalize dual_check (max duerr (1 / 10 ^ 10)) d0.tau_k (w i - d0.tau_k) d0.tau d0.infeas
      d0.tinfeas (List.range S.nx_) = r
    intro h
    cases r with
    | error err => cases h
    | ok o =>
      cases o with
      | some t =>
        simp only [Except.ok.injEq] at h
        subst h
        exact ⟨⟨i :: is, rfl⟩, fun _ _ => rfl, fun _ _ => rfl, Or.inr rfl⟩
      | none =>
        simp only [] at h ⊢
        obtain ⟨⟨rest, e1⟩, e2, e3, e4⟩ := ih _ h
        refine ⟨⟨rest, by rw [List.cons_append, ← e1]⟩, fun j hj => ?_, fun j hj => ?_, e4⟩
        · have hji : j ≠ i := fun e => hj (by rw [e]; exact List.mem_cons_self _ _)
          rw [e2 j (fun e => hj (List.mem_cons_of_mem _ e))]
          simp only
          split
          · exact Function.update_noteq hji _ _
          · rfl
        · have hji : j ≠ i := fun e => hj (by rw [e]; exact List.mem_cons_self _ _)
          rw [e3 j (fun e => hj (List.mem_cons_of_mem _ e))]
          simp only
          split
          · exact Function.update_noteq hji _ _
          · rfl

theorem primal_bracket_sign (prerr : ℚ) (z dz : Nat → ℚ) (lbz ubz : Nat → Ext)
    (is : List Nat) (b b1 : Bracket) (hb : b.sign = -1 ∨ b.sign = 0 ∨ b.sign = 1)
    (h : primal_bracket prerr z dz lbz ubz is b = .ok b1) :
    b1.sign = -1 ∨ b1.sign = 0 ∨ b1.sign = 1 := by
  induction is generalizing b with
  | nil =>
    simp only [primal_bracket, Except.ok.injEq] at h
    exact h ▸ hb
  | cons i is ih =>
    unfold primal_bracket at h
    repeat' split at h
    all_goals first
      | (cases h; done)
      | exact ih _ hb h
      | exact ih _ (Or.inl rfl) h
      | exact ih _ (Or.inr (Or.inr rfl)) h
      | (simp only [Except.ok.injEq] at h
         rw [← h]
         first
           | exact hb
           | exact Or.inl rfl
           | exact Or.inr (Or.inr rfl))

/-- C13: the step is always taken, and the step application writes, for every
index `i < nx+na`, a multiplier that has exactly the sign it works with, which is
the sign `lam[i]` has on entry to the update, except at the recorded index when
`tau != 1` and the signs differ, where it is the recorded sign: a value of at least
`DMIN` for `+1`, at most `-DMIN` for `-1` and exactly `0` for `0`, whatever
`lam[i] + tau * dlam[i]` is.  The index recorded on entry to the update is the one
of the primal bracket or `-1`.  The crossings accepted by the dual bracket are the
candidates of the turns of its loop that reach `Accept the tau`, a beginning of the
ordered list; an index that is not among them keeps its multiplier through the
dual bracket, and when it is also not the recorded index of the primal bracket (or
`tau = 1`) it leaves the ratio test and the step with the sign it entered with. -/
theorem step_application_signs (S : ConicActiveSet) (F : Flags) (trans_a : Nat → ℚ)
    (lbz ubz : Nat → Ext) (prerr duerr : ℚ) (z lam dz dlam infeas tinfeas : Nat → ℚ) :
    ∃ (b : Bracket) (d : Dual) (t : Step),
      primal_bracket prerr z dz lbz ubz (List.range (S.nx_ + S.na_))
        ⟨if zero_step (S.nx_ + S.na_) dz dlam then 0 else 1, -1, 0⟩ = .ok b ∧
      (b.sign = -1 ∨ b.sign = 0 ∨ b.sign = 1) ∧
      dual_bracket S F trans_a duerr
        (collect_crossings lam dlam b.tau (List.range (S.nx_ + S.na_)) ⟨fun _ => 1, []⟩).w
        (collect_crossings lam dlam b.tau (List.range (S.nx_ + S.na_)) ⟨fun _ => 1, []⟩).iw
        ⟨b.tau, b.index, false, 0, infeas, tinfeas, lam, dlam⟩ = .ok d ∧
      take_step S F trans_a lbz ubz prerr duerr z lam dz dlam infeas tinfeas = .ok t ∧
      t.tau = d.tau ∧
      (d.index = b.index ∨ d.index = -1) ∧
      (∃ rest,
        (collect_crossings lam dlam b.tau (List.range (S.nx_ + S.na_)) ⟨fun _ => 1, []⟩).iw =
          dual_accepted S F trans_a duerr
            (collect_crossings lam dlam b.tau (List.range (S.nx_ + S.na_)) ⟨fun _ => 1, []⟩).w
            (collect_crossings lam dlam b.tau (List.range (S.nx_ + S.na_)) ⟨fun _ => 1, []⟩).iw
            ⟨b.tau, b.index, false, 0, infeas, tinfeas, lam, dlam⟩ ++ rest) ∧
      ∀ i < S.nx_ + S.na_,
        HasSign (if (d.tau ≠ 1 ∧ (i : Int) = d.index) ∧ sgn (d.lam i) ≠ b.sign then b.sign
          else sgn (d.lam i)) (t.lam i) ∧
        (i ∉ dual_accepted S F trans_a duerr
            (collect_crossings lam dlam b.tau (List.range (S.nx_ + S.na_)) ⟨fun _ => 1, []⟩).w
            (collect_crossings lam dlam b.tau (List.range (S.nx_ + S.na_)) ⟨fun _ => 1, []⟩).iw
            ⟨b.tau, b.index, false, 0, infeas, tinfeas, lam, dlam⟩ →
          d.lam i = lam i ∧
          (¬ (d.tau ≠ 1 ∧ (i : Int) = d.index) → sgn (t.lam i) = sgn (lam i)) ∧
          ((i : Int) ≠ b.index → sgn (t.lam i) = sgn (lam i))) := by
  obtain ⟨b, hb, _, d, hd, _, _, _, ht⟩ :=
    take_step_spec S F trans_a lbz ubz prerr duerr z lam dz dlam infeas tinfeas
  have hbs := primal_bracket_sign _ _ _ _ _ _ _ b (Or.inr (Or.inl rfl)) hb
  obtain ⟨e1, e2, _, e4⟩ := dual_bracket_accepts S F trans_a duerr _ _ _ d hd
  have e4 : d.index = b.index ∨ d.index = -1 := e4
  have e2 : ∀ j, j ∉ dual_accepted S F trans_a duerr
      (collect_crossings lam dlam b.tau (List.range (S.nx_ + S.na_)) ⟨fun _ => 1, []⟩).w
      (collect_crossings lam dlam b.tau (List.range (S.nx_ + S.na_)) ⟨fun _ => 1, []⟩).iw
      ⟨b.tau, b.index, false, 0, infeas, tinfeas, lam, dlam⟩ → d.lam j = lam j := e2
  refine ⟨b, d, _, hb, hbs, hd, ht, rfl, e4, e1, fun i hi => ?_⟩
  simp only [if_pos hi]
  have hu := update_lam_hasSign d.tau (if d.tau = 1 then -1 else d.index) b.sign d.lam d.dlam i hbs
  have hcond : ((i : Int) = (if d.tau = 1 then -1 else d.index) ∧ sgn (d.lam i) ≠ b.sign) ↔
      ((d.tau ≠ 1 ∧ (i : Int) = d.index) ∧ sgn (d.lam i) ≠ b.sign) := by
    by_cases h1 : d.tau = 1
    · rw [if_pos h1]
      constructor
      · rintro ⟨h, _⟩
        have : (0 : Int) ≤ i := Int.ofNat_nonneg i
        omega
      · rintro ⟨⟨h, _⟩, _⟩
        exact absurd h1 h
    · rw [if_neg h1]
      constructor
      · rintro ⟨h, h2⟩
        exact ⟨⟨h1, h⟩, h2⟩
      · rintro ⟨⟨_, h⟩, h2⟩
        exact ⟨h, h2⟩
  have hkeep : ¬ (d.tau ≠ 1 ∧ (i : Int) = d.index) →
      sgn (update_lam d.tau (if d.tau = 1 then -1 else d.index) b.sign d.lam d.dlam i) =
        sgn (d.lam i) := by
    intro hrec
    rw [if_neg (fun h => hrec (hcond.mp h).1)] at hu
    exact hasSign_sgn _ _ (sgn_cases _) hu
  constructor
  · by_cases hc : (d.tau ≠ 1 ∧ (i : Int) = d.index) ∧ sgn (d.lam i) ≠ b.sign
    · rw [if_pos hc]
      rw [if_pos (hcond.mpr hc)] at hu
      exact hu
    · rw [if_neg hc]
      rw [if_neg (fun h => hc (hcond.mp h))] at hu
      exact hu
  · intro hacc
    refine ⟨e2 i hacc, fun hrec => ?_, fun hne => ?_⟩
    · rw [hkeep hrec, e2 i hacc]
    · rw [hkeep (fun h => by
        rcases e4 with e | e
        · exact hne (by rw [← e]; exact h.2)
        · have : (0 : Int) ≤ i := Int.ofNat_nonneg i
          have h2 := h.2
          omega), e2 i hacc]

theorem step_of_eq (r : Except Err Step) (h : is_ok r = true) : r = .ok (step_of r) := by
  cases r with
  | ok v => rfl
  | error e => simp [is_ok] at h

/-- A step with two crossings on two variables, `lam = (1, 3)`, `dlam = (-4, -4)`:
the dual bracket accepts the crossing of index 0 at `tau = 1/4` and clips at the
one of index 1, so that the step is taken with `tau = 1/4`; the multiplier of the
accepted index 0 becomes `0`, and index 1, which is not accepted and not recorded,
keeps its sign with `lam = 2`. -/
theorem step_application_signs_witness :
    (∃ t, take_step (solver20 1000) (flags (solver20 1000) args_box2)
        (trans_a (solver20 1000) args_box2) (lbz (solver20 1000) args_box2)
        (ubz (solver20 1000) args_box2) 0 0 (vec [0, 0] 0) (vec [1, 3] 0) (vec [0, 0] 0)
        (vec [-4, -4] 0) (vec [0, 0] 0) (vec [0, 0] 0) = .ok t) ∧
    (collect_crossings (vec [1, 3] 0) (vec [-4, -4] 0) 1 (List.range 2) ⟨fun _ => 1, []⟩).iw =
      [0, 1] ∧
    dual_accepted (solver20 1000) (flags (solver20 1000) args_box2)
      (trans_a (solver20 1000) args_box2) 0
      (collect_crossings (vec [1, 3] 0) (vec [-4, -4] 0) 1 (List.range 2) ⟨fun _ => 1, []⟩).w
      (collect_crossings (vec [1, 3] 0) (vec [-4, -4] 0) 1 (List.range 2) ⟨fun _ => 1, []⟩).iw
      ⟨1, -1, false, 0, vec [0, 0] 0, vec [0, 0] 0, vec [1, 3] 0, vec [-4, -4] 0⟩ = [0] ∧
    (step_of (take_step (solver20 1000) (flags (solver20 1000) args_box2)
        (trans_a (solver20 1000) args_box2) (lbz (solver20 1000) args_box2)
        (ubz (solver20 1000) args_box2) 0 0 (vec [0, 0] 0) (vec [1, 3] 0) (vec [0, 0] 0)
        (vec [-4, -4] 0) (vec [0, 0] 0) (vec [0, 0] 0))).tau = 1 / 4 ∧
    (List.range 2).map (step_of (take_step (solver20 1000) (flags (solver20 1000) args_box2)
        (trans_a (solver20 1000) args_box2) (lbz (solver20 1000) args_box2)
        (ubz (solver20 1000) args_box2) 0 0 (vec [0, 0] 0) (vec [1, 3] 0) (vec [0, 0] 0)
        (vec [-4, -4] 0) (vec [0, 0] 0) (vec [0, 0] 0))).lam = [0, 2] ∧
    sgn ((step_of (take_step (solver20 1000) (flags (solver20 1000) args_box2)
        (trans_a (solver20 1000) args_box2) (lbz (solver20 1000) args_box2)
        (ubz (solver20 1000) args_box2) 0 0 (vec [0, 0] 0) (vec [1, 3] 0) (vec [0, 0] 0)
        (vec [-4, -4] 0) (vec [0, 0] 0) (vec [0, 0] 0))).lam 1) =
      sgn ((vec [1, 3] 0 : Nat → ℚ) 1) :=
  ⟨(step_application_signs (solver20 1000) (flags (solver20 1000) args_box2)
      (trans_a (solver20 1000) args_box2) (lbz (solver20 1000) args_box2)
      (ubz (solver20 1000) args_box2) 0 0 (vec [0, 0] 0) (vec [1, 3] 0) (vec [0, 0] 0)
      (vec [-4, -4] 0) (vec [0, 0] 0) (vec [0, 0] 0)).elim
      (fun _ h => h.elim (fun _ h2 => h2.elim (fun t ht => ⟨t, ht.2.2.2.1⟩))),
    by decide!, by decide!, by decide!, by decide!, by decide!⟩

/-! ## The refresh of the box multipliers -/

/-- C14: the recalculation of `lam(x)` at the top of a pass gives, for `i < nx`,
`max(-glag[i], DMIN)` when `lam[i] > 0`, `min(-glag[i], -DMIN)` when
`lam[i] < 0`, and leaves a zero `lam[i]` zero; it leaves `lam[nx..]` untouched,
never changes the sign of a multiplier, and gives `glag[i] + lam[i] >= 0` for an
upper-active and `<= 0` for a lower-active box index. -/
theorem refresh_multipliers (nx : Nat) (glag lam : Nat → ℚ) (i : Nat) :
    (i < nx → lam i > 0 → recalc_lam nx glag lam i = max (-glag i) DMIN) ∧
    (i < nx → lam i < 0 → recalc_lam nx glag lam i = min (-glag i) (-DMIN)) ∧
    (lam i = 0 → recalc_lam nx glag lam i = 0) ∧
    (nx ≤ i → recalc_lam nx glag lam i = lam i) ∧
    sgn (recalc_lam nx glag lam i) = sgn (lam i) ∧
    (i < nx → lam i > 0 → 0 ≤ glag i + recalc_lam nx glag lam i) ∧
    (i < nx → lam i < 0 → glag i + recalc_lam nx glag lam i ≤ 0) := by
  have h1 : i < nx → lam i > 0 → recalc_lam nx glag lam i = max (-glag i) DMIN := by
    intro hi hl
    unfold recalc_lam
    rw [if_pos hi, if_pos hl]
  have h2 : i < nx → lam i < 0 → recalc_lam nx glag lam i = min (-glag i) (-DMIN) := by
    intro hi hl
    unfold recalc_lam
    rw [if_pos hi, if_neg (not_lt.mpr (le_of_lt hl)), if_pos hl]
  have hs := recalc_lam_sign nx glag lam i
  refine ⟨h1, h2, ?_, ?_, ?_, ?_, ?_⟩
  · intro hl
    unfold recalc_lam
    split
    · rw [if_neg (by rw [hl]; exact lt_irrefl _), if_neg (by rw [hl]; exact lt_irrefl _), hl]
    · exact hl
  · intro hi
    unfold recalc_lam
    rw [if_neg (not_lt.mpr hi)]
  · unfold sgn
    by_cases hp : lam i > 0
    · rw [if_pos hp, if_pos (hs.1.mpr hp)]
    · rw [if_neg hp, if_neg (fun h => hp (hs.1.mp h))]
      by_cases hn : lam i < 0
      · rw [if_pos hn, if_pos (hs.2.mpr hn)]
      · rw [if_neg hn, if_neg (fun h => hn (hs.2.mp h))]
  · intro hi hl
    rw [h1 hi hl]
    have := le_max_left (-glag i) DMIN
    linarith
  · intro hi hl
    rw [h2 hi hl]
    have := min_le_left (-glag i) (-DMIN)
    linarith

/-! ## The primal error measure -/

theorem bestFlip_same (Seen Seen1 : Nat → Int → ℚ → Prop) (f f1 : Flip)
    (h : BestFlip Seen f) (hS : ∀ j s u, Seen1 j s u ↔ Seen j s u)
    (h1 : f1.best_tau = f.best_tau) (h2 : f1.sing_ind = f.sing_ind)
    (h3 : f1.sing_sign = f.sing_sign) : BestFlip Seen1 f1 := by
  unfold BestFlip at *
  rw [h1, h2, h3]
  cases hb : f.best_tau with
  | none =>
    rw [hb] at h
    exact ⟨h.1, fun j s u hs => h.2 j s u ((hS j s u).mp hs)⟩
  | some b =>
    rw [hb] at h
    obtain ⟨i, e1, e2, e3⟩ := h
    exact ⟨i, e1, (hS _ _ _).mpr e2, fun j s u hs => e3 j s u ((hS j s u).mp hs)⟩

theorem bestFlip_record (Seen Seen1 : Nat → Int → ℚ → Prop) (f f1 : Flip) (i : Nat) (sg : Int)
    (t : ℚ) (h : BestFlip Seen f)
    (hS : ∀ j s u, Seen1 j s u ↔ Seen j s u ∨ (j = i ∧ s = sg ∧ u = t))
    (hb : f.better t) (h1 : f1.best_tau = some t) (h2 : f1.sing_ind = (i : Int))
    (h3 : f1.sing_sign = sg) : BestFlip Seen1 f1 := by
  unfold BestFlip at *
  rw [h1]
  refine ⟨i, h2, (hS _ _ _).mpr (Or.inr ⟨rfl, h3, rfl⟩), fun j s u hs => ?_⟩
  rcases (hS j s u).mp hs with hs | ⟨_, _, rfl⟩
  · unfold Flip.better at hb
    cases hbt : f.best_tau with
    | none =>
      rw [hbt] at h
      exact absurd hs (h.2 j s u)
    | some b =>
      rw [hbt] at h hb
      obtain ⟨_, _, _, e3⟩ := h
      exact le_trans (le_of_lt hb) (e3 j s u hs)
  · exact le_refl _

theorem bestFlip_keep (Seen Seen1 : Nat → Int → ℚ → Prop) (f f1 : Flip) (i : Nat) (sg : Int)
    (t : ℚ) (h : BestFlip Seen f)
    (hS : ∀ j s u, Seen1 j s u ↔ Seen j s u ∨ (j = i ∧ s = sg ∧ u = t))
    (hb : ¬ f.better t) (h1 : f1.best_tau = f.best_tau) (h2 : f1.sing_ind = f.sing_ind)
    (h3 : f1.sing_sign = f.sing_sign) : BestFlip Seen1 f1 := by
  unfold BestFlip at *
  rw [h1, h2, h3]
  unfold Flip.better at hb
  cases hbt : f.best_tau with
  | none =>
    rw [hbt] at hb
    exact absurd trivial hb
  | some b =>
    rw [hbt] at h hb
    obtain ⟨k, e1, e2, e3⟩ := h
    refine ⟨k, e1, (hS _ _ _).mpr (Or.inl e2), fun j s u hs => ?_⟩
    rcases (hS j s u).mp hs with hs | ⟨_, _, rfl⟩
    · exact e3 j s u hs
    · exact not_lt.mp hb

/-- One candidate test: the running values stay the best of the triples seen,
where `(i, sign, t)` counts as seen when `t` passes the two tests. -/
theorem try_bound_best (Seen Seen1 : Nat → Int → ℚ → Prop) (derr t : ℚ) (i : Nat) (sign : Int)
    (f : Flip) (h : BestFlip Seen f)
    (hS : ∀ j s u, Seen1 j s u ↔ Seen j s u ∨
      ((FlipAllowed derr t ∧ |t| ≥ 1 / 10 ^ 16) ∧ j = i ∧ s = sign ∧ u = t)) :
    BestFlip Seen1 (try_bound derr t i sign f) ∧ (try_bound derr t i sign f).nflip = f.nflip := by
  unfold try_bound
  by_cases c1 : (derr > 0 ∧ t > 0) ∨ (derr < 0 ∧ t < 0)
  · have : (!decide ((derr > 0 ∧ t > 0) ∨ (derr < 0 ∧ t < 0))) = false := by simp [c1]
    rw [this]
    simp only [Bool.false_eq_true, if_false, and_true]
    refine bestFlip_same Seen Seen1 f f h (fun j s u => ?_) rfl rfl rfl
    rw [hS]
    constructor
    · rintro (h | ⟨⟨h, _⟩, _⟩)
      · exact h
      · exact absurd c1 h
    · exact Or.inl
  · have : (!decide ((derr > 0 ∧ t > 0) ∨ (derr < 0 ∧ t < 0))) = true := by simp [c1]
    rw [this]
    simp only [if_true]
    by_cases c2 : |t| ≥ 1 / 10 ^ 16
    · rw [if_pos c2]
      have hS' : ∀ j s u, Seen1 j s u ↔ Seen j s u ∨ (j = i ∧ s = sign ∧ u = t) := by
        intro j s u
        rw [hS]
        constructor
        · rintro (h | ⟨_, h⟩)
          · exact Or.inl h
          · exact Or.inr h
        · rintro (h | h)
          · exact Or.inl h
          · exact Or.inr ⟨⟨c1, c2⟩, h⟩
      by_cases c3 : f.better t
      · rw [if_pos c3]
        exact ⟨bestFlip_record Seen Seen1 f _ i sign t h hS' c3 rfl rfl rfl, rfl⟩
      · rw [if_neg c3]
        exact ⟨bestFlip_keep Seen Seen1 f f i sign t h hS' c3 rfl rfl rfl, rfl⟩
    · rw [if_neg c2]
      refine ⟨bestFlip_same Seen Seen1 f f h (fun j s u => ?_) rfl rfl rfl, rfl⟩
      rw [hS]
      constructor
      · rintro (h | ⟨⟨_, h⟩, _⟩)
        · exact h
        · exact absurd h c2
      · exact Or.inl
theorem bestFlip_skip (C : Nat → Int → ℚ → Prop) (pre : List Nat) (i : Nat) (f f1 : Flip)
    (h : BestFlip (fun j s u => j ∈ pre ∧ C j s u) f) (hno : ∀ s u, ¬ C i s u)
    (h1 : f1.best_tau = f.best_tau) (h2 : f1.sing_ind = f.sing_ind)
    (h3 : f1.sing_sign = f.sing_sign) :
    BestFlip (fun j s u => (j ∈ pre ∨ j = i) ∧ C j s u) f1 := by
  refine bestFlip_same _ _ f f1 h (fun j s u => ?_) h1 h2 h3
  constructor
  · rintro ⟨hj | hj, hc⟩
    · exact ⟨hj, hc⟩
    · exact absurd (hj ▸ hc) (hno s u)
  · rintro ⟨hj, hc⟩
    exact ⟨Or.inl hj, hc⟩

/-- The body of the flip loop for the index `i`: it returns, when a bound that the
flags permit is finite, and the running values stay the best of the surviving
candidates among the indices seen. -/
theorem flip_candidate_best (S : ConicActiveSet) (F : Flags) (kkt trans_a w : Nat → ℚ)
    (lbz ubz : Nat → Ext) (derr : ℚ) (v : Iterate) (pre : List Nat) (i : Nat) (f : Flip)
    (hl : F.neverlower i = false → ∃ l, lbz i = Ext.fin l)
    (hu : F.neverupper i = false → ∃ u, ubz i = Ext.fin u)
    (h : BestFlip (fun j s u => j ∈ pre ∧
      FlipCandidate S F kkt trans_a w lbz ubz derr v j s u) f) :
    ∃ f1, flip_candidate S F kkt trans_a w lbz ubz derr v i f = .ok f1 ∧
      BestFlip (fun j s u => (j ∈ pre ∨ j = i) ∧
        FlipCandidate S F kkt trans_a w lbz ubz derr v j s u) f1 := by
  unfold flip_candidate
  by_cases c1 : |if i < S.nx_ then v.dz i else v.dlam i| < 1 / 10 ^ 12
  · rw [if_pos c1]
    exact ⟨f, rfl, bestFlip_skip _ pre i f f h (fun s u hc => hc.1 c1) rfl rfl rfl⟩
  rw [if_neg c1]
  by_cases c2 : |flip_dot S kkt w i| < 1 / 10 ^ 12
  · rw [if_pos c2]
    exact ⟨f, rfl, bestFlip_skip _ pre i f f h (fun s u hc => hc.2.1 c2) rfl rfl rfl⟩
  rw [if_neg c2]
  by_cases c3 : v.lam i ≠ 0 ∧ flip_increases S trans_a v.duerr v.glag v.infeas v.lam i = true
  · rw [if_pos c3]
    exact ⟨f, rfl, bestFlip_skip _ pre i f f h (fun s u hc => hc.2.2.1 c3) rfl rfl rfl⟩
  rw [if_neg c3]
  by_cases c4 : v.lam i = 0
  · rw [if_pos c4]
    by_cases c5 : |v.dz i| < 1 / 10 ^ 12
    · rw [if_pos c5]
      refine ⟨f, rfl, bestFlip_skip _ pre i f f h (fun s u hc => ?_) rfl rfl rfl⟩
      rcases hc.2.2.2.2 with hc | hc
      · exact hc.2.1 c5
      · exact hc.1 c4
    rw [if_neg c5]
    -- the lower bound
    have stage1 : ∃ f1, (if (!F.neverlower i) = true then
          (((lbz i).sub (v.z i)).div (v.dz i)).finite.map (fun t => try_bound derr t i (-1) f)
        else some f) = some f1 ∧ f1.nflip = f.nflip ∧
        BestFlip (fun j s u => (j ∈ pre ∧ FlipCandidate S F kkt trans_a w lbz ubz derr v j s u) ∨
          (((FlipAllowed derr u ∧ |u| ≥ 1 / 10 ^ 16) ∧ F.neverlower i = false ∧
            ((lbz i).sub (v.z i)).div (v.dz i) = Ext.fin u) ∧ j = i ∧ s = -1)) f1 := by
      cases hnl : F.neverlower i with
      | true =>
        simp only [Bool.not_true, Bool.false_eq_true, if_false]
        refine ⟨f, rfl, rfl, bestFlip_same _ _ f f h (fun j s u => ?_) rfl rfl rfl⟩
        constructor
        · rintro (hh | ⟨⟨_, hh, _⟩, _⟩)
          · exact hh
          · cases hh
        · exact Or.inl
      | false =>
        obtain ⟨l, hlb⟩ := hl hnl
        rw [hlb]
        simp only [Bool.not_false, if_true, Ext.sub_fin, Ext.div_fin, Ext.finite_fin,
          Option.map_some', Option.some.injEq, exists_eq_left']
        obtain ⟨hb, hn⟩ := try_bound_best
          (fun j s u => j ∈ pre ∧ FlipCandidate S F kkt trans_a w lbz ubz derr v j s u)
          (fun j s u => (j ∈ pre ∧ FlipCandidate S F kkt trans_a w lbz ubz derr v j s u) ∨
            (((FlipAllowed derr u ∧ |u| ≥ 1 / 10 ^ 16) ∧ true = true ∧
              (l - v.z i) / v.dz i = u) ∧ j = i ∧ s = -1))
          derr ((l - v.z i) / v.dz i) i (-1) f h (fun j s u => by
            constructor
            · rintro (hh | ⟨⟨hg, _, rfl⟩, rfl, rfl⟩)
              · exact Or.inl hh
              · exact Or.inr ⟨hg, rfl, rfl, rfl⟩
            · rintro (hh | ⟨hg, rfl, rfl, rfl⟩)
              · exact Or.inl hh
              · exact Or.inr ⟨⟨hg, rfl, rfl⟩, rfl, rfl⟩)
        exact ⟨hn, bestFlip_same _ _ _ _ hb (fun j s u => by simp) rfl rfl rfl⟩
    obtain ⟨f1, e1, n1, b1⟩ := stage1
    rw [e1]
    simp only
    -- the upper bound
    have stage2 : ∃ f2, (if (!F.neverupper i) = true then
          (((ubz i).sub (v.z i)).div (v.dz i)).finite.map (fun t => try_bound derr t i 1 f1)
        else some f1) = some f2 ∧ f2.nflip = f1.nflip ∧
        BestFlip (fun j s u => ((j ∈ pre ∧ FlipCandidate S F kkt trans_a w lbz ubz derr v j s u) ∨
          (((FlipAllowed derr u ∧ |u| ≥ 1 / 10 ^ 16) ∧ F.neverlower i = false ∧
            ((lbz i).sub (v.z i)).div (v.dz i) = Ext.fin u) ∧ j = i ∧ s = -1)) ∨
          (((FlipAllowed derr u ∧ |u| ≥ 1 / 10 ^ 16) ∧ F.neverupper i = false ∧
            ((ubz i).sub (v.z i)).div (v.dz i) = Ext.fin u) ∧ j = i ∧ s = 1)) f2 := by
      cases hnu : F.neverupper i with
      | true =>
        simp only [Bool.not_true, Bool.false_eq_true, if_false]
        refine ⟨f1, rfl, rfl, bestFlip_same _ _ f1 f1 b1 (fun j s u => ?_) rfl rfl rfl⟩
        constructor
        · rintro (hh | ⟨⟨_, hh, _⟩, _⟩)
          · exact hh
          · cases hh
        · exact Or.inl
      | false =>
        obtain ⟨ub, hub⟩ := hu hnu
        rw [hub]
        simp only [Bool.not_false, if_true, Ext.sub_fin, Ext.div_fin, Ext.finite_fin,
          Option.map_some', Option.some.injEq, exists_eq_left']
        obtain ⟨hb, hn⟩ := try_bound_best _
          (fun j s u => ((j ∈ pre ∧ FlipCandidate S F kkt trans_a w lbz ubz derr v j s u) ∨
            (((FlipAllowed derr u ∧ |u| ≥ 1 / 10 ^ 16) ∧ F.neverlower i = false ∧
              ((lbz i).sub (v.z i)).div (v.dz i) = Ext.fin u) ∧ j = i ∧ s = -1)) ∨
            (((FlipAllowed derr u ∧ |u| ≥ 1 / 10 ^ 16) ∧ true = true ∧
              (ub - v.z i) / v.dz i = u) ∧ j = i ∧ s = 1))
          derr ((ub - v.z i) / v.dz i) i 1 f1 b1 (fun j s u => by
            constructor
            · rintro (hh | ⟨⟨hg, _, rfl⟩, rfl, rfl⟩)
              · exact Or.inl hh
              · exact Or.inr ⟨hg, rfl, rfl, rfl⟩
            · rintro (hh | ⟨hg, rfl, rfl, rfl⟩)
              · exact Or.inl hh
              · exact Or.inr ⟨⟨hg, rfl, rfl⟩, rfl, rfl⟩)
        exact ⟨hn, bestFlip_same _ _ _ _ hb (fun j s u => by simp) rfl rfl rfl⟩
    obtain ⟨f2, e2, n2, b2⟩ := stage2
    rw [e2]
    simp only
    refine ⟨_, rfl, bestFlip_same _ _ f2 _ b2 (fun j s u => ?_) rfl rfl rfl⟩
    constructor
    · rintro ⟨hj | hj, hc⟩
      · exact Or.inl (Or.inl ⟨hj, hc⟩)
      · subst hj
        obtain ⟨_, _, _, ha, hc⟩ := hc
        rcases hc with ⟨_, _, hm, hc⟩ | hc
        · rcases hc with ⟨hs, hn, he⟩ | ⟨hs, hn, he⟩
          · exact Or.inl (Or.inr ⟨⟨⟨ha, hm⟩, hn, he⟩, rfl, hs⟩)
          · exact Or.inr ⟨⟨⟨ha, hm⟩, hn, he⟩, rfl, hs⟩
        · exact absurd c4 hc.1
    · rintro ((⟨hj, hc⟩ | ⟨⟨⟨ha, hm⟩, hn, he⟩, hj, hs⟩) | ⟨⟨⟨ha, hm⟩, hn, he⟩, hj, hs⟩)
      · exact ⟨Or.inl hj, hc⟩
      · subst hj
        exact ⟨Or.inr rfl, c1, c2, c3, ha, Or.inl ⟨c4, c5, hm, Or.inl ⟨hs, hn, he⟩⟩⟩
      · subst hj
        exact ⟨Or.inr rfl, c1, c2, c3, ha, Or.inl ⟨c4, c5, hm, Or.inr ⟨hs, hn, he⟩⟩⟩
  rw [if_neg c4]
  by_cases c6 : |v.dlam i| < 1 / 10 ^ 12
  · rw [if_pos c6]
    refine ⟨f, rfl, bestFlip_skip _ pre i f f h (fun s u hc => ?_) rfl rfl rfl⟩
    rcases hc.2.2.2.2 with hc | hc
    · exact c4 hc.1
    · exact hc.2.1 c6
  rw [if_neg c6]
  cases hnz : F.neverzero i with
  | true =>
    simp only [Bool.not_true, Bool.false_eq_true, if_false]
    refine ⟨_, rfl, bestFlip_skip _ pre i f _ h (fun s u hc => ?_) rfl rfl rfl⟩
    rcases hc.2.2.2.2 with hc | hc
    · exact c4 hc.1
    · rw [hnz] at hc
      exact absurd hc.2.2.2.1 (by simp)
  | false =>
    simp only [Bool.not_false, if_true]
    by_cases c7 : (derr > 0 ∧ -v.lam i / v.dlam i > 0) ∨ (derr < 0 ∧ -v.lam i / v.dlam i < 0)
    · rw [if_pos c7]
      refine ⟨f, rfl, bestFlip_skip _ pre i f f h (fun s u hc => ?_) rfl rfl rfl⟩
      obtain ⟨_, _, _, ha, hc⟩ := hc
      rcases hc with hc | hc
      · exact c4 hc.1
      · rw [hc.2.2.2.2] at ha
        exact ha c7
    rw [if_neg c7]
    have hS : ∀ j s u, ((j ∈ pre ∨ j = i) ∧ FlipCandidate S F kkt trans_a w lbz ubz derr v j s u) ↔
        (j ∈ pre ∧ FlipCandidate S F kkt trans_a w lbz ubz derr v j s u) ∨
          (j = i ∧ s = 0 ∧ u = -v.lam i / v.dlam i) := by
      intro j s u
      constructor
      · rintro ⟨hj | hj, hc⟩
        · exact Or.inl ⟨hj, hc⟩
        · subst hj
          obtain ⟨_, _, _, _, hc⟩ := hc
          rcases hc with hc | hc
          · exact absurd hc.1 c4
          · exact Or.inr ⟨rfl, hc.2.2.1, hc.2.2.2.2⟩
      · rintro (⟨hj, hc⟩ | ⟨hj, hs, hu⟩)
        · exact ⟨Or.inl hj, hc⟩
        · subst hj; subst hs; subst hu
          exact ⟨Or.inr rfl, c1, c2, c3, c7, Or.inr ⟨c4, c6, rfl, hnz, rfl⟩⟩
    by_cases c8 : f.better (-v.lam i / v.dlam i)
    · rw [if_pos c8]
      exact ⟨_, rfl, bestFlip_record _ _ f _ i 0 _ h hS c8 rfl rfl rfl⟩
    · rw [if_neg c8]
      exact ⟨_, rfl, bestFlip_keep _ _ f _ i 0 _ h hS c8 rfl rfl rfl⟩
/-- One turn of the flip loop. -/
theorem select_flip_cons (S : ConicActiveSet) (F : Flags) (kkt trans_a w : Nat → ℚ)
    (lbz ubz : Nat → Ext) (derr : ℚ) (v : Iterate) (i : Nat) (is : List Nat) (f : Flip) :
    select_flip S F kkt trans_a w lbz ubz derr v (i :: is) f =
      match flip_candidate S F kkt trans_a w lbz ubz derr v i f with
      | .ok f1 => select_flip S F kkt trans_a w lbz ubz derr v is f1
      | .error e => .error e := rfl

/-- The flip loop over the indices in a list: it returns, and its running values
are the best of the surviving candidates among the indices seen. -/
theorem select_flip_best (S : ConicActiveSet) (F : Flags) (kkt trans_a w : Nat → ℚ)
    (lbz ubz : Nat → Ext) (derr : ℚ) (v : Iterate) (is pre : List Nat) (f : Flip)
    (hl : ∀ i ∈ is, F.neverlower i = false → ∃ l, lbz i = Ext.fin l)
    (hu : ∀ i ∈ is, F.neverupper i = false → ∃ u, ubz i = Ext.fin u)
    (h : BestFlip (fun j s u => j ∈ pre ∧
      FlipCandidate S F kkt trans_a w lbz ubz derr v j s u) f) :
    ∃ f1, select_flip S F kkt trans_a w lbz ubz derr v is f = .ok f1 ∧
      BestFlip (fun j s u => j ∈ pre ++ is ∧
        FlipCandidate S F kkt trans_a w lbz ubz derr v j s u) f1 := by
  induction is generalizing pre f with
  | nil =>
    refine ⟨f, rfl, ?_⟩
    simpa using h
  | cons i is ih =>
    obtain ⟨f1, e1, b1⟩ := flip_candidate_best S F kkt trans_a w lbz ubz derr v pre i f
      (hl i (List.mem_cons_self _ _)) (hu i (List.mem_cons_self _ _)) h
    have b1' : BestFlip (fun j s u => j ∈ pre ++ [i] ∧
        FlipCandidate S F kkt trans_a w lbz ubz derr v j s u) f1 :=
      bestFlip_same _ _ f1 f1 b1 (fun j s u => by simp) rfl rfl rfl
    obtain ⟨f2, e2, b2⟩ := ih (pre ++ [i]) f1
      (fun j hj => hl j (List.mem_cons_of_mem _ hj))
      (fun j hj => hu j (List.mem_cons_of_mem _ hj)) b1'
    refine ⟨f2, ?_, ?_⟩
    · rw [select_flip_cons, e1]
      exact e2
    · have b2' : BestFlip (fun j s u => j ∈ pre ++ i :: is ∧
          FlipCandidate S F kkt trans_a w lbz ubz derr v j s u) f2 :=
        bestFlip_same _ _ f2 f2 b2 (fun j s u => by simp) rfl rfl rfl
      exact b2'

/-- The flip loop of a singular pass, for any flags under which every permitted
bound is finite: the loop returns; if it ends with `sing_ind >= 0` the recorded
triple is a surviving candidate with an admissible sign and the smallest
`|tau_test|`; when no candidate survives, `sing_ind = -1` and the pass breaks out
of the loop with flag 1. -/
theorem select_flip_spec (qr : QRKernel) (S : ConicActiveSet) (P : Args) (F : Flags)
    (kkt trans_a : Nat → ℚ) (s : State) (z lam glag infeas kktd : Nat → ℚ)
    (e : PrErr) (d : DuErr) (fk : ℚ) (v : Iterate)
    (hv : v = ⟨z, lam, calc_dz S P (qr.colcomb S.kktd_ kktd),
      calc_dlam S P lam (qr.colcomb S.kktd_ kktd), glag, infeas,
      calc_tinfeas S P (calc_dz S P (qr.colcomb S.kktd_ kktd))
        (calc_dlam S P lam (qr.colcomb S.kktd_ kktd)), e.prerr, d.duerr⟩)
    (hl : ∀ i < S.nx_ + S.na_, F.neverlower i = false → ∃ l, lbz S P i = Ext.fin l)
    (hu : ∀ i < S.nx_ + S.na_, F.neverupper i = false → ∃ u, ubz S P i = Ext.fin u) :
    ∃ f, select_flip S F kkt trans_a (left_null qr S kktd) (lbz S P) (ubz S P)
        (calc_derr e d v.dz v.infeas v.tinfeas) v (List.range (S.nx_ + S.na_))
        ⟨none, -1, s.sing_sign, 0⟩ = .ok f ∧
      (f.sing_ind ≥ 0 → ∃ (i : Nat) (b : ℚ), i < S.nx_ + S.na_ ∧ f.sing_ind = (i : Int) ∧
        f.best_tau = some b ∧
        FlipCandidate S F kkt trans_a (left_null qr S kktd) (lbz S P) (ubz S P)
          (calc_derr e d v.dz v.infeas v.tinfeas) v i f.sing_sign b ∧
        (f.sing_sign = -1 → v.lam i = 0 ∧ F.neverlower i = false) ∧
        (f.sing_sign = 1 → v.lam i = 0 ∧ F.neverupper i = false) ∧
        (f.sing_sign = 0 → v.lam i ≠ 0 ∧ F.neverzero i = false) ∧
        ∀ j < S.nx_ + S.na_, ∀ sg t,
          FlipCandidate S F kkt trans_a (left_null qr S kktd) (lbz S P) (ubz S P)
            (calc_derr e d v.dz v.infeas v.tinfeas) v j sg t → |b| ≤ |t|) ∧
      ((∀ j < S.nx_ + S.na_, ∀ sg t,
          ¬ FlipCandidate S F kkt trans_a (left_null qr S kktd) (lbz S P) (ubz S P)
            (calc_derr e d v.dz v.infeas v.tinfeas) v j sg t) →
        f.sing_ind = -1 ∧
        ∃ s1, pass_step qr S P F kkt trans_a s z lam glag infeas kktd true e d fk =
          .ok (.ret 1 s1)) := by
  obtain ⟨f, hf, hb⟩ := select_flip_best S F kkt trans_a (left_null qr S kktd) (lbz S P)
    (ubz S P) (calc_derr e d v.dz v.infeas v.tinfeas) v (List.range (S.nx_ + S.na_)) []
    ⟨none, -1, s.sing_sign, 0⟩
    (fun i hi => hl i (List.mem_range.mp hi)) (fun i hi => hu i (List.mem_range.mp hi))
    ⟨rfl, fun j sg t hc => absurd hc.1 (List.not_mem_nil _)⟩
  refine ⟨f, hf, ?_, ?_⟩
  · intro hind
    unfold BestFlip at hb
    cases hbt : f.best_tau with
    | none =>
      rw [hbt] at hb
      rw [hb.1] at hind
      exact absurd hind (by decide)
    | some b =>
      rw [hbt] at hb
      obtain ⟨i, e1, ⟨hi, hc⟩, e3⟩ := hb
      simp only [List.nil_append, List.mem_range] at hi e3
      refine ⟨i, b, hi, e1, rfl, hc, ?_, ?_, ?_, fun j hj sg t hcj => e3 j sg t ⟨hj, hcj⟩⟩
      · intro hs
        rcases hc.2.2.2.2 with ⟨h0, _, _, h1 | h1⟩ | h1
        · exact ⟨h0, h1.2.1⟩
        · rw [hs] at h1; exact absurd h1.1 (by decide)
        · rw [hs] at h1; exact absurd h1.2.2.1 (by decide)
      · intro hs
        rcases hc.2.2.2.2 with ⟨h0, _, _, h1 | h1⟩ | h1
        · rw [hs] at h1; exact absurd h1.1 (by decide)
        · exact ⟨h0, h1.2.1⟩
        · rw [hs] at h1; exact absurd h1.2.2.1 (by decide)
      · intro hs
        rcases hc.2.2.2.2 with ⟨h0, _, _, h1 | h1⟩ | h1
        · rw [hs] at h1; exact absurd h1.1 (by decide)
        · rw [hs] at h1; exact absurd h1.1 (by decide)
        · exact ⟨h1.1, h1.2.2.2.1⟩
  · intro hno
    have hind : f.sing_ind = -1 := by
      unfold BestFlip at hb
      cases hbt : f.best_tau with
      | none => rw [hbt] at hb; exact hb.1
      | some b =>
        rw [hbt] at hb
        obtain ⟨i, _, ⟨hi, hc⟩, _⟩ := hb
        simp only [List.nil_append, List.mem_range] at hi
        exact absurd hc (hno i hi _ _)
    refine ⟨hind, ?_⟩
    unfold pass_step search_direction
    simp only [if_true]
    unfold handle_sing
    rw [← hv, hf]
    simp only
    rw [if_neg (by rw [hind]; decide)]
    exact ⟨_, rfl⟩

/-- The first pass on `args_flat` is the singular pass whose iterate is
`iterate_flat`, and it flips the lower bound of `x` with `best_tau = -1`. -/
theorem flat_pass_singular :
    (qr_scalar.singular (solver1 1000).kktd_ (vec [1 / 10 ^ 13] 0) = true ∧
      (List.range 1).map (calc_kktd (solver1 1000) (kkt (solver1 1000) args_flat)
        (first_state (solver1 1000) args_flat uninit0).lam) = [1 / 10 ^ 13]) ∧
    flip_of (select_flip (solver1 1000) (flags (solver1 1000) args_flat)
        (kkt (solver1 1000) args_flat) (trans_a (solver1 1000) args_flat)
        (left_null qr_scalar (solver1 1000) (vec [1 / 10 ^ 13] 0))
        (lbz (solver1 1000) args_flat) (ubz (solver1 1000) args_flat)
        (calc_derr ⟨0, -1, false⟩ ⟨1, 0, true⟩ iterate_flat.dz iterate_flat.infeas
          iterate_flat.tinfeas)
        iterate_flat (List.range ((solver1 1000).nx_ + (solver1 1000).na_))
        ⟨none, -1, 0, 0⟩) = some (some (-1), 0, -1, 1) := by
  decide!

/-- A bound that the flags of `eval` permit is finite. -/
theorem flags_finite (S : ConicActiveSet) (P : Args) (i : Nat) :
    ((flags S P).neverlower i = false → ∃ l, lbz S P i = Ext.fin l) ∧
    ((flags S P).neverupper i = false → ∃ u, ubz S P i = Ext.fin u) := by
  have h := flags_iff S P i
  constructor
  · intro hf
    cases hl : lbz S P i with
    | fin l => exact ⟨l, rfl⟩
    | pinf =>
      have := h.2.1.mpr (Or.inl (by rw [hl]; rfl))
      rw [hf] at this
      cases this
    | ninf =>
      have := h.2.1.mpr (Or.inl (by rw [hl]; rfl))
      rw [hf] at this
      cases this
  · intro hf
    cases hu : ubz S P i with
    | fin l => exact ⟨l, rfl⟩
    | pinf =>
      have := h.1.mpr (Or.inl (by rw [hu]; rfl))
      rw [hf] at this
      cases this
    | ninf =>
      have := h.1.mpr (Or.inl (by rw [hu]; rfl))
      rw [hf] at this
      cases this

/-- C16: in a singular pass the candidate loop returns, and if it ends with
`sing_ind >= 0` then `(sing_ind, sing_sign, best_tau)` is a surviving candidate,
its sign is admissible (`-1` only for `lam = 0` with `neverlower` unset, `+1` only
for `lam = 0` with `neverupper` unset, `0` only for `lam != 0` with `neverzero`
unset), and no surviving candidate has a smaller `|tau_test|`; when no candidate
survives, `sing_ind = -1` and the pass breaks out of the loop with flag 1. -/
theorem flip_selection (qr : QRKernel) (S : ConicActiveSet) (P : Args) (s : State)
    (z lam glag infeas kktd : Nat → ℚ) (e : PrErr) (d : DuErr) (fk : ℚ) :
    ∃ f, select_flip S (flags S P) (kkt S P) (trans_a S P) (left_null qr S kktd) (lbz S P)
        (ubz S P)
        (calc_derr e d (singular_iterate qr S P z lam glag infeas kktd e d).dz
          (singular_iterate qr S P z lam glag infeas kktd e d).infeas
          (singular_iterate qr S P z lam glag infeas kktd e d).tinfeas)
        (singular_iterate qr S P z lam glag infeas kktd e d) (List.range (S.nx_ + S.na_))
        ⟨none, -1, s.sing_sign, 0⟩ = .ok f ∧
      (f.sing_ind ≥ 0 → ∃ (i : Nat) (b : ℚ), i < S.nx_ + S.na_ ∧ f.sing_ind = (i : Int) ∧
        f.best_tau = some b ∧
        FlipCandidate S (flags S P) (kkt S P) (trans_a S P) (left_null qr S kktd) (lbz S P)
          (ubz S P)
          (calc_derr e d (singular_iterate qr S P z lam glag infeas kktd e d).dz
            (singular_iterate qr S P z lam glag infeas kktd e d).infeas
            (singular_iterate qr S P z lam glag infeas kktd e d).tinfeas)
          (singular_iterate qr S P z lam glag infeas kktd e d) i f.sing_sign b ∧
        (f.sing_sign = -1 → lam i = 0 ∧ (flags S P).neverlower i = false) ∧
        (f.sing_sign = 1 → lam i = 0 ∧ (flags S P).neverupper i = false) ∧
        (f.sing_sign = 0 → lam i ≠ 0 ∧ (flags S P).neverzero i = false) ∧
        ∀ j < S.nx_ + S.na_, ∀ sg t,
          FlipCandidate S (flags S P) (kkt S P) (trans_a S P) (left_null qr S kktd) (lbz S P)
            (ubz S P)
            (calc_derr e d (singular_iterate qr S P z lam glag infeas kktd e d).dz
              (singular_iterate qr S P z lam glag infeas kktd e d).infeas
              (singular_iterate qr S P z lam glag infeas kktd e d).tinfeas)
            (singular_iterate qr S P z lam glag infeas kktd e d) j sg t → |b| ≤ |t|) ∧
      ((∀ j < S.nx_ + S.na_, ∀ sg t,
          ¬ FlipCandidate S (flags S P) (kkt S P) (trans_a S P) (left_null qr S kktd) (lbz S P)
            (ubz S P)
            (calc_derr e d (singular_iterate qr S P z lam glag infeas kktd e d).dz
              (singular_iterate qr S P z lam glag infeas kktd e d).infeas
              (singular_iterate qr S P z lam glag infeas kktd e d).tinfeas)
            (singular_iterate qr S P z lam glag infeas kktd e d) j sg t) →
        f.sing_ind = -1 ∧
        ∃ s1, pass_step qr S P (flags S P) (kkt S P) (trans_a S P) s z lam glag infeas kktd
          true e d fk = .ok (.ret 1 s1)) :=
  select_flip_spec qr S P (flags S P) (kkt S P) (trans_a S P) s z lam glag infeas kktd e d fk
    (singular_iterate qr S P z lam glag infeas kktd e d) rfl
    (fun i _ => (flags_finite S P i).1) (fun i _ => (flags_finite S P i).2)

theorem flip_selection_witness :
    ∃ f, select_flip (solver1 1000) (flags (solver1 1000) args_flat)
        (kkt (solver1 1000) args_flat) (trans_a (solver1 1000) args_flat)
        (left_null qr_scalar (solver1 1000) (vec [1 / 10 ^ 13] 0))
        (lbz (solver1 1000) args_flat) (ubz (solver1 1000) args_flat)
        (calc_derr ⟨0, -1, false⟩ ⟨1, 0, true⟩ iterate_flat.dz iterate_flat.infeas
          iterate_flat.tinfeas)
        iterate_flat (List.range ((solver1 1000).nx_ + (solver1 1000).na_))
        ⟨none, -1, (first_state (solver1 1000) args_flat uninit0).sing_sign, 0⟩ = .ok f ∧
      (f.sing_ind ≥ 0 → ∃ (i : Nat) (b : ℚ),
        i < (solver1 1000).nx_ + (solver1 1000).na_ ∧ f.sing_ind = (i : Int) ∧
        f.best_tau = some b ∧
        FlipCandidate (solver1 1000) (flags (solver1 1000) args_flat)
          (kkt (solver1 1000) args_flat) (trans_a (solver1 1000) args_flat)
          (left_null qr_scalar (solver1 1000) (vec [1 / 10 ^ 13] 0))
          (lbz (solver1 1000) args_flat) (ubz (solver1 1000) args_flat)
          (calc_derr ⟨0, -1, false⟩ ⟨1, 0, true⟩ iterate_flat.dz iterate_flat.infeas
            iterate_flat.tinfeas) iterate_flat i f.sing_sign b ∧
        (f.sing_sign = -1 → (vec [0] 0 : Nat → ℚ) i = 0 ∧
          (flags (solver1 1000) args_flat).neverlower i = false) ∧
        (f.sing_sign = 1 → (vec [0] 0 : Nat → ℚ) i = 0 ∧
          (flags (solver1 1000) args_flat).neverupper i = false) ∧
        (f.sing_sign = 0 → (vec [0] 0 : Nat → ℚ) i ≠ 0 ∧
          (flags (solver1 1000) args_flat).neverzero i = false) ∧
        ∀ j < (solver1 1000).nx_ + (solver1 1000).na_, ∀ sg t,
          FlipCandidate (solver1 1000) (flags (solver1 1000) args_flat)
            (kkt (solver1 1000) args_flat) (trans_a (solver1 1000) args_flat)
            (left_null qr_scalar (solver1 1000) (vec [1 / 10 ^ 13] 0))
            (lbz (solver1 1000) args_flat) (ubz (solver1 1000) args_flat)
            (calc_derr ⟨0, -1, false⟩ ⟨1, 0, true⟩ iterate_flat.dz iterate_flat.infeas
              iterate_flat.tinfeas) iterate_flat j sg t → |b| ≤ |t|) ∧
      ((∀ j < (solver1 1000).nx_ + (solver1 1000).na_, ∀ sg t,
          ¬ FlipCandidate (solver1 1000) (flags (solver1 1000) args_flat)
            (kkt (solver1 1000) args_flat) (trans_a (solver1 1000) args_flat)
            (left_null qr_scalar (solver1 1000) (vec [1 / 10 ^ 13] 0))
            (lbz (solver1 1000) args_flat) (ubz (solver1 1000) args_flat)
            (calc_derr ⟨0, -1, false⟩ ⟨1, 0, true⟩ iterate_flat.dz iterate_flat.infeas
              iterate_flat.tinfeas) iterate_flat j sg t) →
        f.sing_ind = -1 ∧
        ∃ s1, pass_step qr_scalar (solver1 1000) args_flat (flags (solver1 1000) args_flat)
          (kkt (solver1 1000) args_flat) (trans_a (solver1 1000) args_flat)
          (first_state (solver1 1000) args_flat uninit0) (vec [0] 0) (vec [0] 0) (vec [1] 0)
          (vec [1] 0) (vec [1 / 10 ^ 13] 0) true ⟨0, -1, false⟩ ⟨1, 0, true⟩ 0 =
          .ok (.ret 1 s1)) :=
  flip_selection qr_scalar (solver1 1000) args_flat
    (first_state (solver1 1000) args_flat uninit0) (vec [0] 0) (vec [0] 0) (vec [1] 0)
    (vec [1] 0) (vec [1 / 10 ^ 13] 0) ⟨0, -1, false⟩ ⟨1, 0, true⟩ 0

/-! ## The iteration limit -/

/-- One turn of the flip loop leaves the running values alone or counts a
flippable constraint. -/
theorem flip_candidate_nflip (S : ConicActiveSet) (F : Flags) (kkt trans_a w : Nat → ℚ)
    (lbz ubz : Nat → Ext) (derr : ℚ) (v : Iterate) (i : Nat) (f f1 : Flip)
    (h : flip_candidate S F kkt trans_a w lbz ubz derr v i f = .ok f1) :
    f1 = f ∨ 1 ≤ f1.nflip := by
  unfold flip_candidate at h
  repeat' split at h
  all_goals first
    | (cases h; done)
    | (simp only [Except.ok.injEq] at h; subst h; exact Or.inl rfl)
    | (simp only [Except.ok.injEq] at h; subst h; exact Or.inr (Nat.le_add_left 1 _))

/-- The flip loop leaves the running values alone or counts a flippable
constraint. -/
theorem select_flip_nflip (S : ConicActiveSet) (F : Flags) (kkt trans_a w : Nat → ℚ)
    (lbz ubz : Nat → Ext) (derr : ℚ) (v : Iterate) (is : List Nat) (f f1 : Flip)
    (h : select_flip S F kkt trans_a w lbz ubz derr v is f = .ok f1) :
    f1 = f ∨ 1 ≤ f1.nflip := by
  induction is generalizing f with
  | nil =>
    change Except.ok f = Except.ok f1 at h
    simp only [Except.ok.injEq] at h
    exact Or.inl h.symm
  | cons i is ih =>
    rw [select_flip_cons] at h
    split at h
    · rename_i f2 h2
      rcases ih f2 h with e | e
      · subst e
        exact flip_candidate_nflip S F kkt trans_a w lbz ubz derr v i f f1 h2
      · exact Or.inr e
    · cases h

/-- Singularity recovery gives up only when the flip loop ended with no index
recorded. -/
theorem handle_sing_cannot (qr : QRKernel) (S : ConicActiveSet) (F : Flags)
    (kkt trans_a kktd : Nat → ℚ) (lbz ubz : Nat → Ext) (e : PrErr) (d : DuErr) (v : Iterate)
    (sing_sign : Int) (f : Flip)
    (h : handle_sing qr S F kkt trans_a kktd lbz ubz e d v sing_sign =
      .ok (.cannot_restore f)) :
    select_flip S F kkt trans_a (left_null qr S kktd) lbz ubz
      (calc_derr e d v.dz v.infeas v.tinfeas) v (List.range (S.nx_ + S.na_))
      ⟨none, -1, sing_sign, 0⟩ = .ok f ∧ f.sing_ind < 0 := by
  unfold handle_sing at h
  split at h
  · cases h
  · rename_i f1 hf
    have key : f1 = f ∧ (f1.sing_ind < 0 ∨ f1.nflip = 0) := by
      by_cases h1 : f1.sing_ind ≥ 0
      · rw [if_pos h1] at h
        by_cases h2 : f1.nflip = 0
        · refine ⟨?_, Or.inr h2⟩
          cases hb : f1.best_tau with
          | none =>
            rw [hb] at h
            simp only [if_pos h2, Except.ok.injEq, SingResult.cannot_restore.injEq] at h
            exact h
          | some b =>
            rw [hb] at h
            simp only [if_pos h2] at h
            split at h
            · cases h
            · simp only [Except.ok.injEq, SingResult.cannot_restore.injEq] at h
              exact h
        · exfalso
          cases hb : f1.best_tau with
          | none =>
            rw [hb] at h
            simp only [if_neg h2] at h
            cases h
          | some b =>
            rw [hb] at h
            simp only [if_neg h2] at h
            split at h <;> cases h
      · rw [if_neg h1] at h
        simp only [Except.ok.injEq, SingResult.cannot_restore.injEq] at h
        exact ⟨h, Or.inl (not_le.mp h1)⟩
    obtain ⟨e1, e2⟩ := key
    subst e1
    refine ⟨hf, ?_⟩
    rcases e2 with e2 | e2
    · exact e2
    · rcases select_flip_nflip _ _ _ _ _ _ _ _ _ _ _ f1 hf with e3 | e3
      · rw [e3]
        show (-1 : Int) < 0
        decide
      · omega

/-- The second half of a pass either goes on, or gives up in a singular pass whose
flip loop recorded no index; either way the iteration counter was increased. -/
theorem pass_step_cases (qr : QRKernel) (S : ConicActiveSet) (P : Args) (F : Flags)
    (kkt trans_a : Nat → ℚ) (s : State) (z lam glag infeas kktd : Nat → ℚ) (sing : Bool)
    (e : PrErr) (d : DuErr) (fk : ℚ) (o : Outcome)
    (h : pass_step qr S P F kkt trans_a s z lam glag infeas kktd sing e d fk = .ok o) :
    match o with
    | .next s1 => s1.iter = s.iter + 1
    | .ret flag s1 => flag = 1 ∧ s1.iter = s.iter + 1 ∧ s1.sing = true ∧ s1.sing_ind < 0 := by
  unfold pass_step at h
  split at h
  · cases h
  · simp only at h
    split at h
    · rename_i hsing
      split at h
      · cases h
      · simp only [Except.ok.injEq] at h
        subst h
        rfl
      · rename_i f hf
        simp only [Except.ok.injEq] at h
        subst h
        exact ⟨rfl, rfl, hsing, (handle_sing_cannot _ _ _ _ _ _ _ _ _ _ _ _ f hf).2⟩
      · split at h
        · cases h
        · simp only [Except.ok.injEq] at h
          subst h
          rfl
    · split at h
      · cases h
      · simp only [Except.ok.injEq] at h
        subst h
        rfl

/-- Every pass that does not fail ends in one of the ways of `PassEnds`. -/
theorem pass_cases (qr : QRKernel) (S : ConicActiveSet) (P : Args) (F : Flags)
    (kkt trans_a : Nat → ℚ) (s : State) (o : Outcome)
    (h : pass qr S P F kkt trans_a s = .ok o) : PassEnds S s o := by
  unfold pass at h
  simp only at h
  split at h
  · cases h
  · split at h
    · cases h
    · rename_i lam nas hps
      by_cases hn : (!nas) = true
      · rw [if_pos hn] at h
        simp only [Except.ok.injEq] at h
        subst h
        refine Or.inl ⟨rfl, ?_, rfl⟩
        have hnas : nas = false := by cases nas <;> simp_all
        subst hnas
        unfold post_step at hps
        cases hs : s.new_active_set with
        | false => rfl
        | true =>
          rw [hs] at hps
          simp at hps
      · rw [if_neg hn] at h
        by_cases hi : s.iter ≥ S.max_iter_
        · rw [if_pos hi] at h
          simp only [Except.ok.injEq] at h
          subst h
          exact Or.inr (Or.inl ⟨rfl, hi, rfl⟩)
        · rw [if_neg hi] at h
          have hc := pass_step_cases _ _ _ _ _ _ _ _ _ _ _ _ _ _ _ _ o h
          cases o with
          | next s1 => exact ⟨not_le.mp hi, hc⟩
          | ret flag s1 =>
            exact Or.inr (Or.inr ⟨hc.1, not_le.mp hi, hc.2.1, hc.2.2.1, hc.2.2.2⟩)
/-- One pass of the loop. -/
theorem qp_loop_succ (qr : QRKernel) (S : ConicActiveSet) (P : Args) (F : Flags)
    (kkt trans_a : Nat → ℚ) (fuel : Nat) (s : State) :
    qp_loop qr S P F kkt trans_a (fuel + 1) s =
      match pass qr S P F kkt trans_a s with
      | .error err => .error err
      | .ok (.ret flag s1) => .ok (some (flag, s1))
      | .ok (.next s1) => qp_loop qr S P F kkt trans_a fuel s1 := rfl

/-- The loop breaks or fails within `max_iter - iter + 1` passes, and within one
pass when the counter is beyond the limit. -/
theorem qp_loop_no_exhaust (qr : QRKernel) (S : ConicActiveSet) (P : Args) (F : Flags)
    (kkt trans_a : Nat → ℚ) (fuel : Nat) (s : State) (h1 : 1 ≤ fuel)
    (h2 : S.max_iter_ - s.iter < (fuel : Int)) :
    qp_loop qr S P F kkt trans_a fuel s ≠ .ok none := by
  induction fuel generalizing s with
  | zero => omega
  | succ n ih =>
    rw [qp_loop_succ]
    split
    · intro h; cases h
    · intro h; cases h
    · rename_i s1 hp
      have hc := pass_cases qr S P F kkt trans_a s _ hp
      simp only [PassEnds] at hc
      refine ih s1 ?_ ?_
      · have := hc.1
        omega
      · rw [hc.2]
        have := hc.1
        omega

/-- More passes than the loop needs do not change its result. -/
theorem qp_loop_fuel_mono (qr : QRKernel) (S : ConicActiveSet) (P : Args) (F : Flags)
    (kkt trans_a : Nat → ℚ) (fuel k : Nat) (s : State)
    (h : qp_loop qr S P F kkt trans_a fuel s ≠ .ok none) :
    qp_loop qr S P F kkt trans_a (fuel + k) s = qp_loop qr S P F kkt trans_a fuel s := by
  induction fuel generalizing s with
  | zero => exact absurd rfl h
  | succ n ih =>
    have e1 : n + 1 + k = n + k + 1 := by omega
    rw [e1, qp_loop_succ, qp_loop_succ]
    rw [qp_loop_succ] at h
    split
    · rfl
    · rfl
    · rename_i s1 hp
      rw [hp] at h
      exact ih s1 h

/-- A returned flag is 0 or 1, and the iteration counter ends between its start
and the larger of the start and `max_iter`. -/
theorem qp_loop_bound (qr : QRKernel) (S : ConicActiveSet) (P : Args) (F : Flags)
    (kkt trans_a : Nat → ℚ) (fuel : Nat) (s sf : State) (flag : Int)
    (h : qp_loop qr S P F kkt trans_a fuel s = .ok (some (flag, sf))) :
    (flag = 0 ∨ flag = 1) ∧ s.iter ≤ sf.iter ∧ sf.iter ≤ max S.max_iter_ s.iter := by
  induction fuel generalizing s with
  | zero => cases h
  | succ n ih =>
    rw [qp_loop_succ] at h
    split at h
    · cases h
    · rename_i fl s1 hp
      simp only [Except.ok.injEq, Option.some.injEq, Prod.mk.injEq] at h
      obtain ⟨e1, e2⟩ := h
      subst e1; subst e2
      have hc := pass_cases qr S P F kkt trans_a s _ hp
      simp only [PassEnds] at hc
      rcases hc with ⟨a, _, c⟩ | ⟨a, _, c⟩ | ⟨a, b, c, _⟩
      · exact ⟨Or.inl a, by omega, by rw [c]; exact le_max_right _ _⟩
      · exact ⟨Or.inr a, by omega, by rw [c]; exact le_max_right _ _⟩
      · exact ⟨Or.inr a, by omega, by rw [c]; exact le_trans (by omega) (le_max_left _ _)⟩
    · rename_i s1 hp
      have hc := pass_cases qr S P F kkt trans_a s _ hp
      simp only [PassEnds] at hc
      obtain ⟨a, b, c⟩ := ih s1 h
      refine ⟨a, by omega, le_trans c ?_⟩
      rw [hc.2]
      exact max_le (le_max_left _ _) (le_trans (by have := hc.1; omega) (le_max_left _ _))

/-- The state after initialisation has the iteration counter 0. -/
theorem init_state_iter (S : ConicActiveSet) (P : Args) (u : Uninit) (s0 : State)
    (h : init_state S P u = .ok s0) : s0.iter = 0 := by
  unfold init_state at h
  split at h
  · cases h
  · simp only [Except.ok.injEq] at h
    subst h
    rfl

/-- C17: for every input and every `max_iter`, the loop of `eval` breaks or fails
within `max(max_iter, 0) + 1` passes (the result is never `none`, and more passes
do not change it); a pass goes on only below the limit and then increases the
iteration counter, so the counter ends at most at `max(max_iter, 0)`; a returned
flag is 0 or 1; the flag 0 is returned only by a pass entered with
`new_active_set` unset, and the flag 1 is returned by the limit test or, below
the limit, by a singular pass whose flip loop recorded no index. -/
theorem iteration_limit (qr : QRKernel) (S : ConicActiveSet) (P : Args) (u : Uninit) :
    eval qr S P u ≠ .ok none ∧
    (∀ k, eval_fuel qr S P u (S.max_iter_.toNat + 1 + k) = eval qr S P u) ∧
    (∀ s o, pass qr S P (flags S P) (kkt S P) (trans_a S P) s = .ok o → PassEnds S s o) ∧
    (∀ s0 flag sf, init_state S P u = .ok s0 →
      qp_loop qr S P (flags S P) (kkt S P) (trans_a S P) (S.max_iter_.toNat + 1) s0 =
        .ok (some (flag, sf)) →
      (flag = 0 ∨ flag = 1) ∧ 0 ≤ sf.iter ∧ sf.iter ≤ max S.max_iter_ 0 ∧
      ∃ s, pass qr S P (flags S P) (kkt S P) (trans_a S P) s = .ok (.ret flag sf) ∧
        (flag = 0 → s.new_active_set = false) ∧
        (flag = 1 → S.max_iter_ ≤ s.iter ∨ (sf.sing = true ∧ sf.sing_ind < 0))) ∧
    (∀ r, eval qr S P u = .ok (some r) → r.flag = 0 ∨ r.flag = 1) := by
  have hne : ∀ s0, init_state S P u = .ok s0 →
      qp_loop qr S P (flags S P) (kkt S P) (trans_a S P) (S.max_iter_.toNat + 1) s0 ≠
        .ok none := by
    intro s0 h0
    refine qp_loop_no_exhaust qr S P _ _ _ _ s0 (Nat.le_add_left 1 _) ?_
    rw [init_state_iter S P u s0 h0]
    omega
  refine ⟨?_, ?_, fun s o h => pass_cases qr S P _ _ _ s o h, ?_, ?_⟩
  · unfold eval eval_fuel
    cases h0 : init_state S P u with
    | error err => simp
    | ok s0 =>
      simp only
      have := hne s0 h0
      split
      · simp
      · rename_i hq; exact absurd hq this
      · simp
  · intro k
    unfold eval eval_fuel
    cases h0 : init_state S P u with
    | error err => rfl
    | ok s0 =>
      simp only
      rw [qp_loop_fuel_mono qr S P _ _ _ _ k s0 (hne s0 h0)]
  · intro s0 flag sf h0 hq
    obtain ⟨a, b, c⟩ := qp_loop_bound qr S P _ _ _ _ s0 sf flag hq
    rw [init_state_iter S P u s0 h0] at b c
    refine ⟨a, b, c, ?_⟩
    obtain ⟨s, hs, _⟩ := qp_loop_ret qr S P _ _ _ _ s0 sf flag hq
    refine ⟨s, hs, ?_, ?_⟩
    · intro hf
      have hc := pass_cases qr S P _ _ _ s _ hs
      simp only [PassEnds] at hc
      rcases hc with ⟨_, x, _⟩ | ⟨x, _, _⟩ | ⟨x, _, _⟩
      · exact x
      · rw [hf] at x; exact absurd x (by decide)
      · rw [hf] at x; exact absurd x (by decide)
    · intro hf
      have hc := pass_cases qr S P _ _ _ s _ hs
      simp only [PassEnds] at hc
      rcases hc with ⟨x, _, _⟩ | ⟨_, x, _⟩ | ⟨_, _, _, x, y⟩
      · rw [hf] at x; exact absurd x (by decide)
      · exact Or.inl x
      · exact Or.inr ⟨x, y⟩
  · intro r hr
    unfold eval eval_fuel at hr
    split at hr
    · cases hr
    · split at hr
      · cases hr
      · cases hr
      · rename_i flag sf hq
        simp only [Except.ok.injEq, Option.some.injEq] at hr
        subst hr
        exact (qp_loop_bound qr S P _ _ _ _ _ sf flag hq).1

/-- With `max_iter = 0` the first pass of `args_box` stops at the limit test, and
with a negative `max_iter` likewise. -/
theorem iteration_limit_witness :
    eval qr_scalar (solver1 0) args_box uninit0 ≠ .ok none ∧
    flag_of (eval qr_scalar (solver1 0) args_box uninit0) = some 1 ∧
    flag_of (eval qr_scalar (solver1 (-5)) args_box uninit0) = some 1 ∧
    flag_of (eval qr_scalar (solver1 1000) args_box uninit0) = some 0 :=
  ⟨(iteration_limit qr_scalar (solver1 0) args_box uninit0).1, by decide!, by decide!,
    by decide!⟩

/-! ## The option `tol` -/

/-- The definition `lbz` does not read `tol`. -/
theorem lbz_tol (S : ConicActiveSet) (t : ℚ) : lbz (with_tol S t) = lbz S := rfl

/-- The definition `ubz` does not read `tol`. -/
theorem ubz_tol (S : ConicActiveSet) (t : ℚ) : ubz (with_tol S t) = ubz S := rfl

/-- The definition `trans_a` does not read `tol`. -/
theorem trans_a_tol (S : ConicActiveSet) (t : ℚ) : trans_a (with_tol S t) = trans_a S := rfl

/-- The definition `kkt` does not read `tol`. -/
theorem kkt_tol (S : ConicActiveSet) (t : ℚ) : kkt (with_tol S t) = kkt S := rfl

/-- The definition `flags` does not read `tol`. -/
theorem flags_tol (S : ConicActiveSet) (t : ℚ) : flags (with_tol S t) = flags S := rfl

/-- The definition `calc_g` does not read `tol`. -/
theorem calc_g_tol (S : ConicActiveSet) (t : ℚ) : calc_g (with_tol S t) = calc_g S := rfl

/-- The definition `z_init` does not read `tol`. -/
theorem z_init_tol (S : ConicActiveSet) (t : ℚ) : z_init (with_tol S t) = z_init S := rfl

/-- The definition `lam_init` does not read `tol`. -/
theorem lam_init_tol (S : ConicActiveSet) (t : ℚ) : lam_init (with_tol S t) = lam_init S := rfl

/-- The definition `lam_start` does not read `tol`. -/
theorem lam_start_tol (S : ConicActiveSet) (t : ℚ) : lam_start (with_tol S t) = lam_start S := rfl

/-- The definition `calc_glag` does not read `tol`. -/
theorem calc_glag_tol (S : ConicActiveSet) (t : ℚ) : calc_glag (with_tol S t) = calc_glag S := rfl

/-- The definition `calc_fk` does not read `tol`. -/
theorem calc_fk_tol (S : ConicActiveSet) (t : ℚ) : calc_fk (with_tol S t) = calc_fk S := rfl

/-- The definition `calc_kktd` does not read `tol`. -/
theorem calc_kktd_tol (S : ConicActiveSet) (t : ℚ) : calc_kktd (with_tol S t) = calc_kktd S := rfl

/-- The definition `calc_dlam` does not read `tol`. -/
theorem calc_dlam_tol (S : ConicActiveSet) (t : ℚ) : calc_dlam (with_tol S t) = calc_dlam S := rfl

/-- The definition `calc_dz` does not read `tol`. -/
theorem calc_dz_tol (S : ConicActiveSet) (t : ℚ) : calc_dz (with_tol S t) = calc_dz S := rfl

/-- The definition `calc_tinfeas` does not read `tol`. -/
theorem calc_tinfeas_tol (S : ConicActiveSet) (t : ℚ) : calc_tinfeas (with_tol S t) = calc_tinfeas S := rfl

/-- The definition `flip_increases` does not read `tol`. -/
theorem flip_increases_tol (S : ConicActiveSet) (t : ℚ) : flip_increases (with_tol S t) = flip_increases S := rfl

/-- The definition `flip_dot` does not read `tol`. -/
theorem flip_dot_tol (S : ConicActiveSet) (t : ℚ) : flip_dot (with_tol S t) = flip_dot S := rfl

/-- The definition `flip_candidate` does not read `tol`. -/
theorem flip_candidate_tol (S : ConicActiveSet) (t : ℚ) : flip_candidate (with_tol S t) = flip_candidate S := rfl

/-- The definition `drop_tinfeas` does not read `tol`. -/
theorem drop_tinfeas_tol (S : ConicActiveSet) (t : ℚ) : drop_tinfeas (with_tol S t) = drop_tinfeas S := rfl

/-- The definition `init_state` does not read `tol`. -/
theorem init_state_tol (S : ConicActiveSet) (t : ℚ) : init_state (with_tol S t) = init_state S := rfl

/-- The definition `copy_out` does not read `tol`. -/
theorem copy_out_tol (S : ConicActiveSet) (t : ℚ) : copy_out (with_tol S t) = copy_out S := rfl

/-- The definition `search_direction` does not read `tol`. -/
theorem search_direction_tol (qr : QRKernel) (S : ConicActiveSet) (t : ℚ) : search_direction qr (with_tol S t) = search_direction qr S := rfl

/-- The definition `left_null` does not read `tol`. -/
theorem left_null_tol (qr : QRKernel) (S : ConicActiveSet) (t : ℚ) : left_null qr (with_tol S t) = left_null qr S := rfl

/-- The definition `select_flip` does not read `tol`. -/
theorem select_flip_tol (S : ConicActiveSet) (t : ℚ) :
    select_flip (with_tol S t) = select_flip S := by
  funext F kkt trans_a w lbz ubz derr v is f
  induction is generalizing f with
  | nil => rfl
  | cons i is ih =>
    rw [select_flip_cons, select_flip_cons, flip_candidate_tol]
    split
    · exact ih _
    · rfl

/-- The definition `dual_bracket` does not read `tol`. -/
theorem dual_bracket_tol (S : ConicActiveSet) (t : ℚ) :
    dual_bracket (with_tol S t) = dual_bracket S := by
  funext F trans_a duerr w is d
  induction is generalizing d with
  | nil => rfl
  | cons i is ih =>
    rw [dual_bracket_cons, dual_bracket_cons, drop_tinfeas_tol]
    have e : (with_tol S t).nx_ = S.nx_ := rfl
    rw [e]
    split
    · rfl
    · rfl
    · exact ih _

/-- The definition `take_step` does not read `tol`. -/
theorem take_step_tol (S : ConicActiveSet) (t : ℚ) : take_step (with_tol S t) = take_step S := by
  delta take_step
  rw [dual_bracket_tol]
  rfl

/-- The definition `handle_sing` does not read `tol`. -/
theorem handle_sing_tol (qr : QRKernel) (S : ConicActiveSet) (t : ℚ) :
    handle_sing qr (with_tol S t) = handle_sing qr S := by
  delta handle_sing
  rw [select_flip_tol, left_null_tol]
  rfl

/-- The definition `pass_step` does not read `tol`. -/
theorem pass_step_tol (qr : QRKernel) (S : ConicActiveSet) (t : ℚ) :
    pass_step qr (with_tol S t) = pass_step qr S := by
  delta pass_step
  rw [take_step_tol, handle_sing_tol]
  rfl

/-- The definition `pass` does not read `tol`. -/
theorem pass_tol (qr : QRKernel) (S : ConicActiveSet) (t : ℚ) :
    pass qr (with_tol S t) = pass qr S := by
  delta pass
  rw [pass_step_tol]
  rfl

/-- The definition `qp_loop` does not read `tol`. -/
theorem qp_loop_tol (qr : QRKernel) (S : ConicActiveSet) (t : ℚ) :
    qp_loop qr (with_tol S t) = qp_loop qr S := by
  funext P F kkt trans_a fuel s
  induction fuel generalizing s with
  | zero => rfl
  | succ n ih =>
    rw [qp_loop_succ, qp_loop_succ, pass_tol]
    split
    · rfl
    · rfl
    · exact ih _

/-- The definition `eval_fuel` does not read `tol`. -/
theorem eval_fuel_tol (qr : QRKernel) (S : ConicActiveSet) (t : ℚ) :
    eval_fuel qr (with_tol S t) = eval_fuel qr S := by
  delta eval_fuel
  rw [qp_loop_tol]
  rfl

/-- C19: two runs of `eval` that differ only in the value of the option `tol`
give the same result: the same failure, or the same flag, `x`, `lam_x`, `lam_a`
and `f`. -/
theorem tol_not_read (qr : QRKernel) (S : ConicActiveSet) (P : Args) (u : Uninit) (t : ℚ) :
    eval qr { S with tol_ := t } P u = eval qr S P u := by
  show eval qr (with_tol S t) P u = eval qr S P u
  unfold eval
  rw [eval_fuel_tol]
  rfl

/-! ## Passes that meet no bound and no sign change -/

theorem Ext.not_lt_of_le : ∀ (a b : Ext), a ≤ b → ¬ b < a
  | .fin a, .fin b, h => fun h1 => absurd (show a ≤ b from h) (not_le.mpr (show b < a from h1))
  | .fin _, .pinf, _ => fun h1 => h1
  | .fin _, .ninf, h => fun _ => h
  | .pinf, .fin _, h => fun _ => h
  | .pinf, .pinf, _ => fun h1 => h1
  | .pinf, .ninf, h => fun _ => h
  | .ninf, .fin _, _ => fun h1 => h1
  | .ninf, .pinf, _ => fun h1 => h1
  | .ninf, .ninf, _ => fun h1 => h1

/-- At a point within its bounds the scan for the largest bound violation finds
none. -/
theorem prerr_scan_feasible (z : Nat → ℚ) (lbz ubz : Nat → Ext) (is : List Nat)
    (h : ∀ i ∈ is, lbz i ≤ (z i : Ext) ∧ (z i : Ext) ≤ ubz i) :
    prerr_scan z lbz ubz is ⟨0, -1, false⟩ = .ok ⟨0, -1, false⟩ := by
  induction is with
  | nil => rfl
  | cons i is ih =>
    have hi := h i (List.mem_cons_self _ _)
    unfold prerr_scan
    simp only [Ext.add_zero, Ext.sub_zero]
    rw [if_neg (Ext.not_lt_of_le _ _ hi.2), if_neg (Ext.not_lt_of_le _ _ hi.1)]
    exact ih (fun j hj => h j (List.mem_cons_of_mem _ hj))

/-- The primal bracket keeps its running values when every entry of the
direction is zero or has no bound. -/
theorem primal_bracket_free (prerr : ℚ) (z dz : Nat → ℚ) (lbz ubz : Nat → Ext)
    (is : List Nat) (b : Bracket)
    (h : ∀ i ∈ is, dz i = 0 ∨ (lbz i = Ext.ninf ∧ ubz i = Ext.pinf)) :
    primal_bracket prerr z dz lbz ubz is b = .ok b := by
  induction is with
  | nil => rfl
  | cons i is ih =>
    have ih1 := ih (fun j hj => h j (List.mem_cons_of_mem _ hj))
    unfold primal_bracket
    by_cases htau : b.tau > 0
    swap
    · rw [if_neg htau]
    rw [if_pos htau]
    by_cases hdz : dz i = 0
    · rw [if_pos hdz]
      exact ih1
    rw [if_neg hdz]
    rcases h i (List.mem_cons_self _ _) with h0 | ⟨hl, hu⟩
    · exact absurd h0 hdz
    have hc1 : ¬ (if dz i < 0 then (z i : Ext) ≤ (lbz i).sub (max prerr (1 / 10 ^ 10))
        else (ubz i).add (max prerr (1 / 10 ^ 10)) ≤ (z i : Ext)) := by
      rw [hl, hu]
      split <;> exact fun h1 => h1
    have hc2 : ¬ (dz i < 0 ∧
        ((z i + b.tau * dz i : ℚ) : Ext) < (lbz i).sub (max prerr (1 / 10 ^ 10))) := by
      rw [hl]
      exact fun h1 => h1.2
    have hc3 : ¬ (dz i > 0 ∧
        (ubz i).add (max prerr (1 / 10 ^ 10)) < ((z i + b.tau * dz i : ℚ) : Ext)) := by
      rw [hu]
      exact fun h1 => h1.2
    rw [if_neg hc1, if_neg hc2, if_neg hc3]
    exact ih1

/-- No crossing is collected where `dlam` or `lam` is zero. -/
theorem collect_crossings_none (lam dlam : Nat → ℚ) (tau : ℚ) (is : List Nat) (c : Crossings)
    (h : ∀ i ∈ is, dlam i = 0 ∨ lam i = 0) : collect_crossings lam dlam tau is c = c := by
  induction is with
  | nil => rfl
  | cons i is ih =>
    have ih1 := ih (fun j hj => h j (List.mem_cons_of_mem _ hj))
    unfold collect_crossings
    by_cases hd : dlam i = 0
    · rw [if_pos hd]
      exact ih1
    rw [if_neg hd]
    rcases h i (List.mem_cons_self _ _) with h0 | h0
    · exact absurd h0 hd
    rw [if_pos h0]
    exact ih1

/-- The careful update keeps a multiplier that is zero or at least `DMIN` in
magnitude when its step is zero and its sign is not forced. -/
theorem update_lam_keep (tau : ℚ) (index sign : Int) (lam dlam : Nat → ℚ) (i : Nat)
    (hi : (i : Int) ≠ index) (hd : dlam i = 0 ∨ lam i = 0)
    (hD : lam i = 0 ∨ DMIN ≤ |lam i|) : update_lam tau index sign lam dlam i = lam i := by
  have hpos := DMIN_pos
  unfold update_lam
  simp only [hi, false_and, if_false]
  by_cases h1 : lam i > 0
  · have hd0 : dlam i = 0 := by
      rcases hd with h | h
      · exact h
      · rw [h] at h1; exact absurd h1 (lt_irrefl _)
    have hD0 : DMIN ≤ lam i := by
      rcases hD with h | h
      · rw [h] at h1; exact absurd h1 (lt_irrefl _)
      · rwa [abs_of_pos h1] at h
    simp only [h1, if_true, hd0, mul_zero, add_zero]
    simp only [show ¬ ((1 : Int) = -1) by decide, if_false, if_true]
    exact max_eq_left hD0
  · by_cases h2 : lam i < 0
    · have hd0 : dlam i = 0 := by
        rcases hd with h | h
        · exact h
        · rw [h] at h2; exact absurd h2 (lt_irrefl _)
      have hD0 : lam i ≤ -DMIN := by
        rcases hD with h | h
        · rw [h] at h2; exact absurd h2 (lt_irrefl _)
        · rw [abs_of_neg h2] at h; linarith
      simp only [h1, if_false, h2, if_true, hd0, mul_zero, add_zero]
      exact min_eq_left hD0
    · have h0 : lam i = 0 := le_antisymm (not_lt.mp h1) (not_lt.mp h2)
      simp only [h1, h2, if_false]
      simp only [show ¬ ((0 : Int) = -1) by decide, show ¬ ((0 : Int) = 1) by decide, if_false,
        if_true]
      exact h0.symm

/-- No sign change is accounted for when no index blocks. -/
theorem sign_changes_none (n : Nat) (sign : Int) (lam : Nat → ℚ) :
    sign_changes n (-1) sign lam = false := by
  unfold sign_changes
  rw [List.any_eq_false]
  intro i _
  have : ¬ ((i : Int) = -1) := by omega
  simp [this]

/-- The loop over the crossings with no crossing. -/
theorem dual_bracket_nil (S : ConicActiveSet) (F : Flags) (trans_a : Nat → ℚ) (duerr : ℚ)
    (w : Nat → ℚ) (d : Dual) : dual_bracket S F trans_a duerr w [] d = .ok d := rfl

/-- The step when no entry of the direction meets a bound and no multiplier
moves: the step length is 1, or 0 for a zero direction, and the multipliers and
`new_active_set = false` are kept. -/
theorem take_step_free (S : ConicActiveSet) (F : Flags) (trans_a : Nat → ℚ)
    (lbz ubz : Nat → Ext) (prerr duerr : ℚ) (z lam dz dlam infeas tinfeas : Nat → ℚ)
    (hfree : ∀ i < S.nx_ + S.na_, dz i = 0 ∨ (lbz i = Ext.ninf ∧ ubz i = Ext.pinf))
    (hd : ∀ i < S.nx_ + S.na_, dlam i = 0 ∨ lam i = 0)
    (hD : ∀ i < S.nx_ + S.na_, lam i = 0 ∨ DMIN ≤ |lam i|) :
    take_step S F trans_a lbz ubz prerr duerr z lam dz dlam infeas tinfeas =
      .ok ⟨if zero_step (S.nx_ + S.na_) dz dlam then 0 else 1,
        casadi_axpy S.nx_ (if zero_step (S.nx_ + S.na_) dz dlam then 0 else 1) dz z, lam,
        false⟩ := by
  unfold take_step
  rw [primal_bracket_free prerr z dz lbz ubz _ _
    (fun i hi => hfree i (List.mem_range.mp hi))]
  simp only
  rw [collect_crossings_none lam dlam _ _ _ (fun i hi => hd i (List.mem_range.mp hi))]
  simp only [dual_bracket_nil, ite_self, sign_changes_none, Bool.or_self]
  congr 2
  funext i
  by_cases hi : i < S.nx_ + S.na_
  · rw [if_pos hi]
    exact update_lam_keep _ _ _ _ _ i (by omega) (hd i hi) (hD i hi)
  · rw [if_neg hi]

/-- A pass below the iteration limit that is entered with `new_active_set` set,
finds the working KKT matrix non-singular and whose direction and step are
computed, goes on with the step applied. -/
theorem pass_regular (qr : QRKernel) (S : ConicActiveSet) (P : Args) (F : Flags)
    (kkt trans_a : Nat → ℚ) (s : State) (e : PrErr) (dz0 : Nat → ℚ) (t : Step)
    (hn : s.new_active_set = true)
    (he : prerr_scan (calc_g S P s.z) (lbz S P) (ubz S P) (List.range (S.nx_ + S.na_))
      ⟨0, -1, false⟩ = .ok e)
    (hs : qr.singular S.kktd_ (calc_kktd S kkt
      (recalc_lam S.nx_ (calc_glag S P (calc_g S P s.z) s.lam) s.lam)) = false)
    (hi : s.iter < S.max_iter_)
    (hdir : search_direction qr S false
      (calc_kktd S kkt (recalc_lam S.nx_ (calc_glag S P (calc_g S P s.z) s.lam) s.lam))
      (calc_g S P s.z) (recalc_lam S.nx_ (calc_glag S P (calc_g S P s.z) s.lam) s.lam)
      (calc_glag S P (calc_g S P s.z) s.lam) (lbz S P) (ubz S P) = .ok dz0)
    (ht : take_step S F trans_a (lbz S P) (ubz S P) e.prerr
      (duerr_scan (calc_glag S P (calc_g S P s.z) s.lam)
        (recalc_lam S.nx_ (calc_glag S P (calc_g S P s.z) s.lam) s.lam)
        (List.range S.nx_) ⟨0, -1, false⟩).duerr
      (calc_g S P s.z) (recalc_lam S.nx_ (calc_glag S P (calc_g S P s.z) s.lam) s.lam)
      (calc_dz S P dz0)
      (calc_dlam S P (recalc_lam S.nx_ (calc_glag S P (calc_g S P s.z) s.lam) s.lam) dz0)
      (calc_infeas S.nx_ (calc_glag S P (calc_g S P s.z) s.lam)
        (recalc_lam S.nx_ (calc_glag S P (calc_g S P s.z) s.lam) s.lam))
      (calc_tinfeas S P (calc_dz S P dz0)
        (calc_dlam S P (recalc_lam S.nx_ (calc_glag S P (calc_g S P s.z) s.lam) s.lam) dz0)) =
      .ok t) :
    pass qr S P F kkt trans_a s =
      .ok (.next ⟨t.z, t.lam, t.new_active_set, t.tau, false, s.sing_ind, s.sing_sign,
        s.iter + 1, calc_fk S P (calc_g S P s.z)⟩) := by
  unfold pass
  simp only
  rw [he]
  simp only
  unfold post_step
  simp only [hn, Bool.not_true, Bool.false_eq_true, if_false, hs, not_le.mpr hi, ge_iff_le]
  unfold pass_step
  rw [hdir]
  simp only [Bool.false_eq_true, if_false]
  rw [ht]

/-- A pass that is entered with `new_active_set` and `sing` unset at a point
without bound violation returns the flag 0. -/
theorem pass_quiet (qr : QRKernel) (S : ConicActiveSet) (P : Args) (F : Flags)
    (kkt trans_a : Nat → ℚ) (s : State) (e : PrErr)
    (hn : s.new_active_set = false) (hsing : s.sing = false)
    (he : prerr_scan (calc_g S P s.z) (lbz S P) (ubz S P) (List.range (S.nx_ + S.na_))
      ⟨0, -1, false⟩ = .ok e)
    (hip : e.iprerr < 0) :
    pass qr S P F kkt trans_a s =
      .ok (.ret 0 ⟨calc_g S P s.z,
        recalc_lam S.nx_ (calc_glag S P (calc_g S P s.z) s.lam) s.lam, false, s.tau,
        qr.singular S.kktd_ (calc_kktd S kkt
          (recalc_lam S.nx_ (calc_glag S P (calc_g S P s.z) s.lam) s.lam)),
        s.sing_ind, s.sing_sign, s.iter, calc_fk S P (calc_g S P s.z)⟩) := by
  unfold pass
  simp only
  rw [he]
  simp only
  unfold post_step
  have h1 : ¬ (e.iprerr ≥ 0 ∧
      recalc_lam S.nx_ (calc_glag S P (calc_g S P s.z) s.lam) s.lam e.iprerr.toNat = 0) :=
    fun h => absurd h.1 (not_le.mpr hip)
  simp only [hn, hsing, Bool.not_false, if_true, Bool.false_eq_true, if_false, h1]
/-! ## The unconstrained minimum -/

/-- The residual loop returns when every residual it reads is finite. -/
theorem residual_loop_total (nx : Nat) (z lam glag : Nat → ℚ) (lbz ubz : Nat → Ext)
    (is : List Nat) (dz : Nat → ℚ)
    (h : ∀ i ∈ is, ∃ r, kkt_residual nx z lam glag lbz ubz i = some r) :
    ∃ r, residual_loop nx z lam glag lbz ubz is dz = .ok r := by
  induction is generalizing dz with
  | nil => exact ⟨dz, rfl⟩
  | cons i is ih =>
    obtain ⟨r, hr⟩ := h i (List.mem_cons_self _ _)
    unfold residual_loop
    rw [hr]
    exact ih _ (fun j hj => h j (List.mem_cons_of_mem _ hj))

/-- The multipliers that the initial active set returns. -/
theorem initial_active_set_val (F : Flags) (z : Nat → ℚ) (lbz : Nat → Ext) (is : List Nat)
    (lam lam1 : Nat → ℚ) (hnd : is.Nodup) (h : initial_active_set F z lbz is lam = .ok lam1) :
    ∀ i, lam1 i = if i ∈ is then initial_lam F z lbz lam i else lam i := by
  have hall : ∀ i ∈ is,
      ¬ (F.neverzero i = true ∧ F.neverupper i = true ∧ F.neverlower i = true) := by
    intro i hi hbad
    obtain ⟨j, hj⟩ := (initial_active_set_error_iff F z lbz is lam hnd).mpr ⟨i, hi, hbad⟩
    rw [hj] at h
    cases h
  obtain ⟨lam2, h2, h3⟩ := initial_active_set_ok F z lbz is lam hnd hall
  rw [h2] at h
  injection h with h
  subst h
  exact h3

/-- A multiplier that the initial active set returns is zero or at least `DMIN`
in magnitude. -/
theorem lam_start_magnitude (S : ConicActiveSet) (P : Args) (lam0 : Nat → ℚ)
    (h : lam_start S P = .ok lam0) (i : Nat) (hi : i < S.nx_ + S.na_) :
    lam0 i = 0 ∨ DMIN ≤ |lam0 i| := by
  have hD := DMIN_pos
  rw [initial_active_set_val _ _ _ _ _ lam0 (List.nodup_range _) h i,
    if_pos (List.mem_range.mpr hi)]
  unfold initial_lam
  split
  · exact Or.inl rfl
  · split
    · right
      have h1 : min (lam_init S P i) (-DMIN) ≤ -DMIN := min_le_right _ _
      rw [abs_of_neg (by linarith)]
      linarith
    · right
      have h1 : DMIN ≤ max (lam_init S P i) DMIN := le_max_right _ _
      rw [abs_of_pos (by linarith)]
      exact h1

/-- The gradient of the Lagrangian reads `z` at the variables and `lam` at the
linear constraints only. -/
theorem calc_glag_congr (S : ConicActiveSet) (P : Args) (z z1 lam lam1 : Nat → ℚ)
    (hA : S.A_.ncol = S.nx_) (hArow : ∀ c < S.nx_, ∀ k ∈ S.A_.col c, S.A_.row k < S.na_)
    (hH : S.H_.ncol = S.nx_) (hz : ∀ c < S.nx_, z c = z1 c)
    (hl : ∀ i < S.nx_ + S.na_, lam i = lam1 i) :
    calc_glag S P z lam = calc_glag S P z1 lam1 := by
  funext c
  unfold calc_glag
  rw [casadi_mv_trans_apply, casadi_mv_trans_apply, casadi_mv_apply, casadi_mv_apply]
  rw [Sparsity.mulVec_congr S.H_ P.h z z1 c (fun j hj => hz j (by omega))]
  by_cases hc : c < S.A_.ncol
  · rw [if_pos hc, if_pos hc]
    congr 1
    unfold Sparsity.colDot
    congr 1
    apply List.map_congr_left
    intro k hk
    unfold offset
    rw [hl _ (by have := hArow c (by omega) k hk; omega)]
  · rw [if_neg hc, if_neg hc]

/-- The rows of `z` for the linear constraints are computed from its entries for
the variables only. -/
theorem calc_g_congr (S : ConicActiveSet) (P : Args) (z z1 : Nat → ℚ)
    (hA : S.A_.ncol = S.nx_) (hz : ∀ c < S.nx_, z c = z1 c) (i : Nat)
    (hi : i < S.nx_ + S.na_) : calc_g S P z i = calc_g S P z1 i := by
  rcases Nat.lt_or_ge i S.nx_ with h | h
  · rw [calc_g_lo S P _ i h, calc_g_lo S P _ i h, hz i h]
  · rw [calc_g_hi S P _ i h hi, calc_g_hi S P _ i h hi]
    exact Sparsity.mulVec_congr _ _ _ _ _ (fun c hc => hz c (by omega))

/-- The product of a sparse matrix with a vector that is zero on its columns. -/
theorem Sparsity.mulVec_zero (sp : Sparsity) (x z : Nat → ℚ) (r : Nat)
    (h : ∀ c < sp.ncol, z c = 0) : sp.mulVec x z r = 0 := by
  rw [Sparsity.mulVec_congr sp x z (fun _ => 0) r h]
  unfold Sparsity.mulVec
  simp

/-- The step in `z` along a zero direction is zero. -/
theorem calc_dz_zero (S : ConicActiveSet) (P : Args) (dz0 : Nat → ℚ)
    (hA : S.A_.ncol = S.nx_) (h0 : ∀ i < S.nx_ + S.na_, dz0 i = 0) (i : Nat)
    (hi : i < S.nx_ + S.na_) : calc_dz S P dz0 i = 0 := by
  rw [calc_dz_eq]
  rcases Nat.lt_or_ge i S.nx_ with h | h
  · rw [calc_g_lo S P _ i h]
    exact h0 i hi
  · rw [calc_g_hi S P _ i h hi]
    exact Sparsity.mulVec_zero _ _ _ _ (fun c hc => h0 c (by omega))

/-- The step in `lam` along a zero direction is zero. -/
theorem calc_dlam_zero (S : ConicActiveSet) (P : Args) (lam dz0 : Nat → ℚ)
    (hA : S.A_.ncol = S.nx_) (hArow : ∀ c < S.nx_, ∀ k ∈ S.A_.col c, S.A_.row k < S.na_)
    (hH : S.H_.ncol = S.nx_) (h0 : ∀ i < S.nx_ + S.na_, dz0 i = 0) (i : Nat)
    (hi : i < S.nx_ + S.na_) : calc_dlam S P lam dz0 i = 0 := by
  rcases Nat.lt_or_ge i S.nx_ with h | h
  swap
  · rw [calc_dlam_hi S P lam dz0 i h hi]
    exact h0 i hi
  unfold calc_dlam splice
  simp only
  rw [if_pos h]
  by_cases hl : i < S.nx_ ∧ lam i = 0
  · rw [if_pos hl]
  rw [if_neg hl]
  unfold casadi_scal
  rw [if_pos h, casadi_mv_trans_apply, casadi_mv_apply, if_pos (by omega)]
  rw [Sparsity.mulVec_zero _ _ _ _ (fun c hc => h0 c (by omega))]
  have e1 : S.A_.colDot P.a (offset dz0 S.nx_) i = 0 := by
    unfold Sparsity.colDot
    apply List.sum_eq_zero
    intro x hx
    obtain ⟨k, hk, rfl⟩ := List.mem_map.mp hx
    unfold offset
    rw [h0 _ (by have := hArow i h k hk; omega)]
    ring
  rw [e1]
  unfold casadi_fill
  rw [if_pos h]
  ring

/-- The refresh of the box multipliers keeps multipliers that balance the
gradient of the Lagrangian and are zero or at least `DMIN` in magnitude. -/
theorem recalc_lam_keep (nx : Nat) (glag lam : Nat → ℚ)
    (hs : ∀ i < nx, glag i + lam i = 0) (hD : ∀ i < nx, lam i = 0 ∨ DMIN ≤ |lam i|) :
    recalc_lam nx glag lam = lam := by
  funext i
  unfold recalc_lam
  by_cases hi : i < nx
  swap
  · rw [if_neg hi]
  rw [if_pos hi]
  have h1 : -glag i = lam i := by linarith [hs i hi]
  rw [h1]
  by_cases hp : lam i > 0
  · rw [if_pos hp]
    rcases hD i hi with h | h
    · rw [h] at hp; exact absurd hp (lt_irrefl _)
    · rw [abs_of_pos hp] at h
      exact max_eq_left h
  rw [if_neg hp]
  by_cases hn : lam i < 0
  · rw [if_pos hn]
    rcases hD i hi with h | h
    · rw [h] at hn; exact absurd hn (lt_irrefl _)
    · rw [abs_of_neg hn] at h
      exact min_eq_left (by linarith)
  rw [if_neg hn]
/-- The run of `eval` from a warm start at an optimum whose multipliers the
initial active set keeps: the first pass takes a zero step and the second pass
returns the flag 0. -/
theorem warm_run (qr : QRKernel) (S : ConicActiveSet) (P : Args) (u : Uninit)
    (lam0 : Nat → ℚ)
    (hA : S.A_.ncol = S.nx_) (hArow : ∀ c < S.nx_, ∀ k ∈ S.A_.col c, S.A_.row k < S.na_)
    (hH : S.H_.ncol = S.nx_)
    (hkkt : KKTPoint S P (z_init S P) (lam_init S P))
    (hls : lam_start S P = .ok lam0)
    (hkeep : ∀ i < S.nx_ + S.na_, lam0 i = lam_init S P i)
    (hns : qr.singular S.kktd_ (calc_kktd S (kkt S P) lam0) = false)
    (hsolve : ∀ i < S.nx_ + S.na_,
      qr.solve S.kktd_ (calc_kktd S (kkt S P) lam0) (fun _ => 0) i = 0)
    (hmax : 0 < S.max_iter_) :
    ∃ s0 sf, init_state S P u = .ok s0 ∧
      qp_loop qr S P (flags S P) (kkt S P) (trans_a S P) (S.max_iter_.toNat + 1) s0 =
        .ok (some (0, sf)) ∧
      sf.iter = 1 ∧
      eval qr S P u = .ok (some (copy_out S 0 sf)) ∧
      (∀ i < S.nx_, (copy_out S 0 sf).x i = P.x0 i) ∧
      (∀ i < S.nx_, (copy_out S 0 sf).lam_x i = P.lam_x0 i) ∧
      (∀ i < S.na_, (copy_out S 0 sf).lam_a i = P.lam_a0 i) := by
  obtain ⟨hfe, hst, hco⟩ := hkkt
  have hinit := init_state_ok S P u lam0 hls
  have hD : ∀ i < S.nx_ + S.na_, lam0 i = 0 ∨ DMIN ≤ |lam0 i| :=
    fun i hi => lam_start_magnitude S P lam0 hls i hi
  -- every refreshed `z` that agrees with the warm start on the variables
  have hzi : ∀ zz : Nat → ℚ, (∀ c < S.nx_, zz c = P.x0 c) →
      ∀ i < S.nx_ + S.na_, calc_g S P zz i = z_init S P i := by
    intro zz hzz i hi
    unfold z_init
    apply calc_g_congr S P _ _ hA _ i hi
    intro c hc
    rw [hzz c hc]
    unfold casadi_copy
    rw [if_pos hc]
  have hz0 : ∀ c < S.nx_, z_init S P c = P.x0 c := by
    intro c hc
    unfold z_init
    rw [calc_g_lo S P _ c hc]
    unfold casadi_copy
    rw [if_pos hc]
  have hgl : ∀ zz : Nat → ℚ, (∀ c < S.nx_, zz c = P.x0 c) →
      calc_glag S P (calc_g S P zz) lam0 = calc_glag S P (z_init S P) (lam_init S P) := by
    intro zz hzz
    apply calc_glag_congr S P _ _ _ _ hA hArow hH _ hkeep
    intro c hc
    exact hzi zz hzz c (by omega)
  have hrec : ∀ zz : Nat → ℚ, (∀ c < S.nx_, zz c = P.x0 c) →
      recalc_lam S.nx_ (calc_glag S P (calc_g S P zz) lam0) lam0 = lam0 := by
    intro zz hzz
    rw [hgl zz hzz]
    apply recalc_lam_keep
    · intro i hi
      rw [hkeep i (by omega)]
      exact hst i hi
    · intro i hi
      exact hD i (by omega)
  have hfeas : ∀ zz : Nat → ℚ, (∀ c < S.nx_, zz c = P.x0 c) →
      prerr_scan (calc_g S P zz) (lbz S P) (ubz S P) (List.range (S.nx_ + S.na_))
        ⟨0, -1, false⟩ = .ok ⟨0, -1, false⟩ := by
    intro zz hzz
    apply prerr_scan_feasible
    intro i hi
    rw [hzi zz hzz i (List.mem_range.mp hi)]
    exact hfe i (List.mem_range.mp hi)
  -- the first pass
  have hres : ∀ i < S.nx_ + S.na_, kkt_residual S.nx_ (calc_g S P (z_init S P)) lam0
      (calc_glag S P (calc_g S P (z_init S P)) lam0) (lbz S P) (ubz S P) i = some 0 := by
    intro i hi
    unfold kkt_residual
    rw [hzi _ hz0 i hi, hgl _ hz0]
    by_cases hp : lam0 i > 0
    · rw [if_pos hp]
      have := (hco i hi).1 (by rw [← hkeep i hi]; exact hp)
      rw [← this]
      simp [Ext.rsub, Ext.finite]
    rw [if_neg hp]
    by_cases hn : lam0 i < 0
    · rw [if_pos hn]
      have := (hco i hi).2 (by rw [← hkeep i hi]; exact hn)
      rw [← this]
      simp [Ext.rsub, Ext.finite]
    rw [if_neg hn]
    have h0 : lam0 i = 0 := le_antisymm (not_lt.mp hp) (not_lt.mp hn)
    by_cases hx : i < S.nx_
    · rw [if_pos hx]
      have := hst i hx
      rw [← hkeep i hi, h0] at this
      rw [← this]
      ring_nf
    · rw [if_neg hx, h0]
      simp
  obtain ⟨r, hr⟩ := residual_loop_total S.nx_ (calc_g S P (z_init S P)) lam0
    (calc_glag S P (calc_g S P (z_init S P)) lam0) (lbz S P) (ubz S P)
    (List.range (S.nx_ + S.na_)) (fun _ => 0)
    (fun i hi => ⟨0, hres i (List.mem_range.mp hi)⟩)
  have hr0 : r = fun _ => 0 := by
    funext i
    have h1 := residual_loop_spec S.nx_ _ lam0 _ (lbz S P) (ubz S P) _ (List.nodup_range _) _ r
      hr i
    by_cases hi : i ∈ List.range (S.nx_ + S.na_)
    · have h2 := h1.1 hi
      rw [hres i (List.mem_range.mp hi)] at h2
      injection h2 with h2
      exact h2.symm
    · exact h1.2 hi
  subst hr0
  have hsc : casadi_scal (S.nx_ + S.na_) (-1) (fun _ => (0 : ℚ)) = fun _ => 0 := by
    funext i
    unfold casadi_scal
    split <;> simp
  have hdir : search_direction qr S false (calc_kktd S (kkt S P) lam0)
      (calc_g S P (z_init S P)) lam0 (calc_glag S P (calc_g S P (z_init S P)) lam0)
      (lbz S P) (ubz S P) =
      .ok (qr.solve S.kktd_ (calc_kktd S (kkt S P) lam0) (fun _ => 0)) := by
    unfold search_direction
    simp only [Bool.false_eq_true, if_false]
    rw [hr]
    simp only
    rw [hsc]
  generalize qr.solve S.kktd_ (calc_kktd S (kkt S P) lam0) (fun _ => 0) = dz0 at hdir hsolve
  have hdz := calc_dz_zero S P dz0 hA hsolve
  have hdl := calc_dlam_zero S P lam0 dz0 hA hArow hH hsolve
  have ht := take_step_free S (flags S P) (trans_a S P) (lbz S P) (ubz S P) 0
    (duerr_scan (calc_glag S P (calc_g S P (z_init S P)) lam0) lam0 (List.range S.nx_)
      ⟨0, -1, false⟩).duerr
    (calc_g S P (z_init S P)) lam0 (calc_dz S P dz0) (calc_dlam S P lam0 dz0)
    (calc_infeas S.nx_ (calc_glag S P (calc_g S P (z_init S P)) lam0) lam0)
    (calc_tinfeas S P (calc_dz S P dz0) (calc_dlam S P lam0 dz0))
    (fun i hi => Or.inl (hdz i hi)) (fun i hi => Or.inl (hdl i hi)) hD
  generalize (if zero_step (S.nx_ + S.na_) (calc_dz S P dz0) (calc_dlam S P lam0 dz0)
    then (0 : ℚ) else 1) = tau at ht
  have hz1 : ∀ c < S.nx_,
      casadi_axpy S.nx_ tau (calc_dz S P dz0) (calc_g S P (z_init S P)) c = P.x0 c := by
    intro c hc
    unfold casadi_axpy
    rw [if_pos hc, hdz c (by omega), hzi _ hz0 c (by omega), hz0 c hc]
    ring
  have hp0 : pass qr S P (flags S P) (kkt S P) (trans_a S P)
      ⟨z_init S P, lam0, true, 0, u.sing, u.sing_ind, u.sing_sign, 0, 0⟩ =
      .ok (.next ⟨casadi_axpy S.nx_ tau (calc_dz S P dz0) (calc_g S P (z_init S P)), lam0,
        false, tau, false, u.sing_ind, u.sing_sign, 0 + 1,
        calc_fk S P (calc_g S P (z_init S P))⟩) := by
    refine pass_regular qr S P (flags S P) (kkt S P) (trans_a S P)
      ⟨z_init S P, lam0, true, 0, u.sing, u.sing_ind, u.sing_sign, 0, 0⟩ ⟨0, -1, false⟩ dz0
      ⟨tau, casadi_axpy S.nx_ tau (calc_dz S P dz0) (calc_g S P (z_init S P)), lam0, false⟩
      rfl (hfeas _ hz0) ?_ hmax ?_ ?_
    · show qr.singular S.kktd_ (calc_kktd S (kkt S P)
        (recalc_lam S.nx_ (calc_glag S P (calc_g S P (z_init S P)) lam0) lam0)) = false
      rw [hrec _ hz0]
      exact hns
    · show search_direction qr S false (calc_kktd S (kkt S P)
          (recalc_lam S.nx_ (calc_glag S P (calc_g S P (z_init S P)) lam0) lam0))
        (calc_g S P (z_init S P))
        (recalc_lam S.nx_ (calc_glag S P (calc_g S P (z_init S P)) lam0) lam0)
        (calc_glag S P (calc_g S P (z_init S P)) lam0) (lbz S P) (ubz S P) = .ok dz0
      rw [hrec _ hz0]
      exact hdir
    · show take_step S (flags S P) (trans_a S P) (lbz S P) (ubz S P) 0
        (duerr_scan (calc_glag S P (calc_g S P (z_init S P)) lam0)
          (recalc_lam S.nx_ (calc_glag S P (calc_g S P (z_init S P)) lam0) lam0)
          (List.range S.nx_) ⟨0, -1, false⟩).duerr
        (calc_g S P (z_init S P))
        (recalc_lam S.nx_ (calc_glag S P (calc_g S P (z_init S P)) lam0) lam0)
        (calc_dz S P dz0)
        (calc_dlam S P
          (recalc_lam S.nx_ (calc_glag S P (calc_g S P (z_init S P)) lam0) lam0) dz0)
        (calc_infeas S.nx_ (calc_glag S P (calc_g S P (z_init S P)) lam0)
          (recalc_lam S.nx_ (calc_glag S P (calc_g S P (z_init S P)) lam0) lam0))
        (calc_tinfeas S P (calc_dz S P dz0) (calc_dlam S P
          (recalc_lam S.nx_ (calc_glag S P (calc_g S P (z_init S P)) lam0) lam0) dz0)) = _
      rw [hrec _ hz0]
      exact ht
  -- the second pass
  have hp1 := pass_quiet qr S P (flags S P) (kkt S P) (trans_a S P)
    ⟨casadi_axpy S.nx_ tau (calc_dz S P dz0) (calc_g S P (z_init S P)), lam0,
      false, tau, false, u.sing_ind, u.sing_sign, 0 + 1,
      calc_fk S P (calc_g S P (z_init S P))⟩ ⟨0, -1, false⟩ rfl rfl (hfeas _ hz1) (by decide)
  simp only [hrec _ hz1] at hp1
  obtain ⟨n, hn⟩ : ∃ n, S.max_iter_.toNat + 1 = n + 2 := ⟨S.max_iter_.toNat - 1, by omega⟩
  have hq := qp_loop_two qr S P (flags S P) (kkt S P) (trans_a S P) n _ _ _ 0 hp0 hp1
  rw [← hn] at hq
  refine ⟨_, _, hinit, hq, by norm_num, ?_, ?_, ?_, ?_⟩
  · unfold eval eval_fuel
    rw [hinit]
    simp only
    rw [hq]
  · intro i hi
    show casadi_copy (calc_g S P (casadi_axpy S.nx_ tau (calc_dz S P dz0)
      (calc_g S P (z_init S P)))) S.nx_ (fun _ => 0) i = P.x0 i
    unfold casadi_copy
    rw [if_pos hi, hzi _ hz1 i (by omega), hz0 i hi]
  · intro i hi
    show casadi_copy lam0 S.nx_ (fun _ => 0) i = P.lam_x0 i
    unfold casadi_copy
    rw [if_pos hi, hkeep i (by omega)]
    unfold lam_init splice
    rw [if_pos hi]
  · intro i hi
    show casadi_copy (offset lam0 S.nx_) S.na_ (fun _ => 0) i = P.lam_a0 i
    unfold casadi_copy offset
    rw [if_pos hi, hkeep _ (by omega)]
    unfold lam_init splice
    rw [if_neg (by omega)]
    congr 1
    omega

/-- C18 fails: (1) warm-started at the optimum `x = 1`, `lam_x = 1` of a problem
whose upper bound is active, `eval` discards the multiplier when it determines the
initial active set and returns the flag 0 only after two iterations; (2)
warm-started at the optimum `x = 0`, `lam_x = 3` of a problem with the equality
bound `x = 0`, it returns `lam_x = -DMIN`; (3) warm-started at the interior optimum
`x = 0` of a problem whose working KKT matrix counts as singular, it returns
`x = -1`; (4) with `max_iter = 0` it returns the flag 1. -/
theorem warm_start_not_kept :
    (KKTPoint (solver1 1000) args_warm (z_init (solver1 1000) args_warm)
        (lam_init (solver1 1000) args_warm) ∧
      (List.range 1).map args_warm.x0 = [1] ∧ (List.range 1).map args_warm.lam_x0 = [1] ∧
      (List.range 1).map (first_state (solver1 1000) args_warm uninit0).lam = [0] ∧
      flag_of (eval qr_scalar (solver1 1000) args_warm uninit0) = some 0 ∧
      iter_of qr_scalar (solver1 1000) args_warm uninit0 = some 2) ∧
    (KKTPoint (solver1 1000) args_warm_eq (z_init (solver1 1000) args_warm_eq)
        (lam_init (solver1 1000) args_warm_eq) ∧
      (List.range 1).map args_warm_eq.x0 = [0] ∧
      (List.range 1).map args_warm_eq.lam_x0 = [3] ∧
      flag_of (eval qr_scalar (solver1 1000) args_warm_eq uninit0) = some 0 ∧
      (List.range 1).map (result_of (eval qr_scalar (solver1 1000) args_warm_eq uninit0)).x =
        [0] ∧
      (List.range 1).map (result_of (eval qr_scalar (solver1 1000) args_warm_eq uninit0)).lam_x =
        [-DMIN]) ∧
    (KKTPoint (solver1 1000) args_warm_flat (z_init (solver1 1000) args_warm_flat)
        (lam_init (solver1 1000) args_warm_flat) ∧
      (List.range 1).map args_warm_flat.x0 = [0] ∧
      (List.range 1).map args_warm_flat.lam_x0 = [0] ∧
      (List.range 1).map (first_state (solver1 1000) args_warm_flat uninit0).lam = [0] ∧
      flag_of (eval qr_scalar (solver1 1000) args_warm_flat uninit0) = some 0 ∧
      iter_of qr_scalar (solver1 1000) args_warm_flat uninit0 = some 2 ∧
      (List.range 1).map (result_of (eval qr_scalar (solver1 1000) args_warm_flat uninit0)).x =
        [-1]) ∧
    (KKTPoint (solver1 0) args_warm_kept (z_init (solver1 0) args_warm_kept)
        (lam_init (solver1 0) args_warm_kept) ∧
      flag_of (eval qr_scalar (solver1 0) args_warm_kept uninit0) = some 1) := by
  decide!

/-- C18, amended: for every problem whose sparsity patterns have `nx` columns
and rows of `A` within range, and every optimum `(x*, lam_x*, lam_a*)` of it whose
multipliers the initial active set keeps, if the first working KKT matrix is
reported non-singular, the solve maps the zero right-hand side to zero and
`max_iter >= 1`, then `eval` warm-started at the optimum returns the flag 0 after
one iteration with `x = x*`, `lam_x = lam_x*` and `lam_a = lam_a*`. -/
theorem warm_start_idempotent (qr : QRKernel) (S : ConicActiveSet) (P : Args) (u : Uninit)
    (lam0 : Nat → ℚ)
    (hA : S.A_.ncol = S.nx_) (hArow : ∀ c < S.nx_, ∀ k ∈ S.A_.col c, S.A_.row k < S.na_)
    (hH : S.H_.ncol = S.nx_)
    (hkkt : KKTPoint S P (z_init S P) (lam_init S P))
    (hls : lam_start S P = .ok lam0)
    (hkeep : ∀ i < S.nx_ + S.na_, lam0 i = lam_init S P i)
    (hns : qr.singular S.kktd_ (calc_kktd S (kkt S P) lam0) = false)
    (hsolve : ∀ i < S.nx_ + S.na_,
      qr.solve S.kktd_ (calc_kktd S (kkt S P) lam0) (fun _ => 0) i = 0)
    (hmax : 0 < S.max_iter_) :
    ∃ s0 sf, init_state S P u = .ok s0 ∧
      qp_loop qr S P (flags S P) (kkt S P) (trans_a S P) (S.max_iter_.toNat + 1) s0 =
        .ok (some (0, sf)) ∧
      sf.iter = 1 ∧
      eval qr S P u = .ok (some (copy_out S 0 sf)) ∧
      (∀ i < S.nx_, (copy_out S 0 sf).x i = P.x0 i) ∧
      (∀ i < S.nx_, (copy_out S 0 sf).lam_x i = P.lam_x0 i) ∧
      (∀ i < S.na_, (copy_out S 0 sf).lam_a i = P.lam_a0 i) :=
  warm_run qr S P u lam0 hA hArow hH hkkt hls hkeep hns hsolve hmax

/-- The initial active set returns the multipliers of the first state. -/
theorem lam_start_first (S : ConicActiveSet) (P : Args) (u : Uninit)
    (h : is_ok (init_state S P u) = true) : lam_start S P = .ok (first_state S P u).lam := by
  unfold first_state init_state
  unfold init_state at h
  cases hl : lam_start S P with
  | ok lam => rfl
  | error i => rw [hl] at h; simp [is_ok] at h

theorem warm_start_idempotent_witness :
    (solver1 1000).A_.ncol = (solver1 1000).nx_ ∧
    (∀ c < (solver1 1000).nx_, ∀ k ∈ (solver1 1000).A_.col c,
      (solver1 1000).A_.row k < (solver1 1000).na_) ∧
    (solver1 1000).H_.ncol = (solver1 1000).nx_ ∧
    KKTPoint (solver1 1000) args_warm_kept (z_init (solver1 1000) args_warm_kept)
      (lam_init (solver1 1000) args_warm_kept) ∧
    lam_start (solver1 1000) args_warm_kept =
      .ok (first_state (solver1 1000) args_warm_kept uninit0).lam ∧
    (∀ i < (solver1 1000).nx_ + (solver1 1000).na_,
      (first_state (solver1 1000) args_warm_kept uninit0).lam i =
        lam_init (solver1 1000) args_warm_kept i) ∧
    qr_scalar.singular (solver1 1000).kktd_
      (calc_kktd (solver1 1000) (kkt (solver1 1000) args_warm_kept)
        (first_state (solver1 1000) args_warm_kept uninit0).lam) = false ∧
    (∀ i < (solver1 1000).nx_ + (solver1 1000).na_,
      qr_scalar.solve (solver1 1000).kktd_
        (calc_kktd (solver1 1000) (kkt (solver1 1000) args_warm_kept)
          (first_state (solver1 1000) args_warm_kept uninit0).lam) (fun _ => 0) i = 0) ∧
    0 < (solver1 1000).max_iter_ ∧
    (∃ s0 sf, init_state (solver1 1000) args_warm_kept uninit0 = .ok s0 ∧
      qp_loop qr_scalar (solver1 1000) args_warm_kept (flags (solver1 1000) args_warm_kept)
        (kkt (solver1 1000) args_warm_kept) (trans_a (solver1 1000) args_warm_kept)
        ((solver1 1000).max_iter_.toNat + 1) s0 = .ok (some (0, sf)) ∧
      sf.iter = 1 ∧
      eval qr_scalar (solver1 1000) args_warm_kept uninit0 =
        .ok (some (copy_out (solver1 1000) 0 sf)) ∧
      (∀ i < (solver1 1000).nx_, (copy_out (solver1 1000) 0 sf).x i = args_warm_kept.x0 i) ∧
      (∀ i < (solver1 1000).nx_,
        (copy_out (solver1 1000) 0 sf).lam_x i = args_warm_kept.lam_x0 i) ∧
      (∀ i < (solver1 1000).na_,
        (copy_out (solver1 1000) 0 sf).lam_a i = args_warm_kept.lam_a0 i)) ∧
    (List.range 1).map
      (result_of (eval qr_scalar (solver1 1000) args_warm_kept uninit0)).lam_x = [-3] :=
  ⟨rfl, by decide!, rfl, by decide!, lam_start_first _ _ _ (by decide!), by decide!, by decide!,
    by decide!, by decide,
    warm_start_idempotent qr_scalar (solver1 1000) args_warm_kept uninit0
      (first_state (solver1 1000) args_warm_kept uninit0).lam rfl (by decide!) rfl (by decide!)
      (lam_start_first _ _ _ (by decide!)) (by decide!) (by decide!) (by decide!) (by decide),
    by decide!⟩

/-! ## The scenarios of the specification -/

/-- C21: for `H = diag(2, 2)`, `g = (-4, -6)`, `0 <= x <= 1`, no linear
constraints and a zero warm start, with exact linear algebra, `eval` returns the
flag 0 with `x = (1, 1)` exactly, `lam_x = (2, 4)` and `f = -8`, after three
iterations; the first pass stops at `x_1 = 1 + 1e-10`, the bound relaxed by the
primal tolerance, and the overshoot is gone at the return. -/
theorem box_only_scenario :
    flag_of (eval (qr_exact 2) (solver20 1000) args_box2 uninit0) = some 0 ∧
    (List.range 2).map (result_of (eval (qr_exact 2) (solver20 1000) args_box2 uninit0)).x =
      [1, 1] ∧
    (List.range 2).map (result_of (eval (qr_exact 2) (solver20 1000) args_box2 uninit0)).lam_x =
      [2, 4] ∧
    (result_of (eval (qr_exact 2) (solver20 1000) args_box2 uninit0)).f = -8 ∧
    iter_of (qr_exact 2) (solver20 1000) args_box2 uninit0 = some 3 ∧
    (List.range 2).map (second_state (qr_exact 2) (solver20 1000) args_box2 uninit0).z =
      [2 / 3 * (1 + 1 / 10 ^ 10), 1 + 1 / 10 ^ 10] := by
  decide!

/-- C22: for `H = diag(1, 0)`, `g = (0, 0)`, `-1 <= x <= 1`, no linear
constraints and a zero warm start, with the zero of `H` stored or not,
initialisation sets `neverzero[1]` (and not `neverzero[0]`), and `eval` returns the
flag 0 with `x_0 = 0`, `x_1 = 1` within `[-1, 1]`, `lam_x[0] = 0` and
`lam_x[1] = DMIN`, which is nonzero. -/
theorem all_zero_row_scenario :
    ((List.range 2).map (flags (solver20 1000) (args_zrow [1, 0])).neverzero = [false, true] ∧
      flag_of (eval (qr_exact 2) (solver20 1000) (args_zrow [1, 0]) uninit0) = some 0 ∧
      (result_of (eval (qr_exact 2) (solver20 1000) (args_zrow [1, 0]) uninit0)).x 0 = 0 ∧
      -1 ≤ (result_of (eval (qr_exact 2) (solver20 1000) (args_zrow [1, 0]) uninit0)).x 1 ∧
      (result_of (eval (qr_exact 2) (solver20 1000) (args_zrow [1, 0]) uninit0)).x 1 ≤ 1 ∧
      (result_of (eval (qr_exact 2) (solver20 1000) (args_zrow [1, 0]) uninit0)).lam_x 0 = 0 ∧
      (result_of (eval (qr_exact 2) (solver20 1000) (args_zrow [1, 0]) uninit0)).lam_x 1 ≠ 0 ∧
      |(result_of (eval (qr_exact 2) (solver20 1000) (args_zrow [1, 0]) uninit0)).lam_x 1| =
        DMIN ∧
      (result_of (eval (qr_exact 2) (solver20 1000) (args_zrow [1, 0]) uninit0)).x 1 = 1 ∧
      (result_of (eval (qr_exact 2) (solver20 1000) (args_zrow [1, 0]) uninit0)).lam_x 1 =
        DMIN) ∧
    ((List.range 2).map (flags (solver20s 1000) (args_zrow [1])).neverzero = [false, true] ∧
      flag_of (eval (qr_exact 2) (solver20s 1000) (args_zrow [1]) uninit0) = some 0 ∧
      (result_of (eval (qr_exact 2) (solver20s 1000) (args_zrow [1]) uninit0)).x 0 = 0 ∧
      -1 ≤ (result_of (eval (qr_exact 2) (solver20s 1000) (args_zrow [1]) uninit0)).x 1 ∧
      (result_of (eval (qr_exact 2) (solver20s 1000) (args_zrow [1]) uninit0)).x 1 ≤ 1 ∧
      (result_of (eval (qr_exact 2) (solver20s 1000) (args_zrow [1]) uninit0)).lam_x 0 = 0 ∧
      (result_of (eval (qr_exact 2) (solver20s 1000) (args_zrow [1]) uninit0)).lam_x 1 ≠ 0 ∧
      |(result_of (eval (qr_exact 2) (solver20s 1000) (args_zrow [1]) uninit0)).lam_x 1| =
        DMIN ∧
      (result_of (eval (qr_exact 2) (solver20s 1000) (args_zrow [1]) uninit0)).x 1 = 1 ∧
      (result_of (eval (qr_exact 2) (solver20s 1000) (args_zrow [1]) uninit0)).lam_x 1 =
        DMIN) := by
  decide!

/-- C23 fails: for `H = 0`, `g = (1, 1)`, `A = [[1, 0], [1, 0]]`,
`lba = uba = (0, 0)`, infinite box bounds and a zero warm start, with the zeros of
`A` stored or not, the KKT row of `x_1` is all-zero and `x_1` has no finite bound,
so that all three flags of index 1 are set and `eval` stops in initialisation with
the assertion `No sign possible for 1`; no flag is returned.  With the bounds
`-1 <= x_1 <= 1` added, the two equality rows have `neverzero` set, the flip loop
of the singular first pass finds no candidate, and `eval` returns the flag 1 with
both `lam_a` at `-DMIN`. -/
theorem rank_deficient_asserts :
    (error_of (eval (qr_exact 4) (solver22 1000)
        (args_rank [1, 1, 0, 0] [Ext.ninf, Ext.ninf] [Ext.pinf, Ext.pinf]) uninit0) =
        some (.no_sign 1) ∧
      flag_of (eval (qr_exact 4) (solver22 1000)
        (args_rank [1, 1, 0, 0] [Ext.ninf, Ext.ninf] [Ext.pinf, Ext.pinf]) uninit0) = none ∧
      (flags (solver22 1000)
        (args_rank [1, 1, 0, 0] [Ext.ninf, Ext.ninf] [Ext.pinf, Ext.pinf])).neverzero 1 = true ∧
      (flags (solver22 1000)
        (args_rank [1, 1, 0, 0] [Ext.ninf, Ext.ninf] [Ext.pinf, Ext.pinf])).neverupper 1 = true ∧
      (flags (solver22 1000)
        (args_rank [1, 1, 0, 0] [Ext.ninf, Ext.ninf] [Ext.pinf, Ext.pinf])).neverlower 1 =
          true) ∧
    (error_of (eval (qr_exact 4) (solver22s 1000)
        (args_rank [1, 1] [Ext.ninf, Ext.ninf] [Ext.pinf, Ext.pinf]) uninit0) =
        some (.no_sign 1) ∧
      flag_of (eval (qr_exact 4) (solver22s 1000)
        (args_rank [1, 1] [Ext.ninf, Ext.ninf] [Ext.pinf, Ext.pinf]) uninit0) = none) ∧
    ((List.range 4).map (flags (solver22 1000)
        (args_rank [1, 1, 0, 0] [Ext.ninf, Ext.fin (-1)] [Ext.pinf, Ext.fin 1])).neverzero =
        [false, true, true, true] ∧
      flag_of (eval (qr_exact 4) (solver22 1000)
        (args_rank [1, 1, 0, 0] [Ext.ninf, Ext.fin (-1)] [Ext.pinf, Ext.fin 1]) uninit0) =
        some 1 ∧
      (List.range 2).map (result_of (eval (qr_exact 4) (solver22 1000)
        (args_rank [1, 1, 0, 0] [Ext.ninf, Ext.fin (-1)] [Ext.pinf, Ext.fin 1]) uninit0)).lam_a =
        [-DMIN, -DMIN]) := by
  decide!

/-- The assertion `No sign possible` of initialisation ends `eval`. -/
theorem eval_no_sign (qr : QRKernel) (S : ConicActiveSet) (P : Args) (u : Uninit) (i : Nat)
    (h : lam_start S P = .error i) : eval qr S P u = .error (.no_sign i) := by
  unfold eval eval_fuel init_state
  rw [h]

/-- The index at which the initial active set fails, if it does. -/
theorem lam_start_error (S : ConicActiveSet) (P : Args) (i : Nat)
    (h : error_of (init_state S P uninit0) = some (.no_sign i)) : lam_start S P = .error i := by
  unfold init_state at h
  cases hl : lam_start S P with
  | ok lam => rw [hl] at h; simp [error_of] at h
  | error j =>
    rw [hl] at h
    simp only [error_of, Option.some.injEq, Err.no_sign.injEq] at h
    rw [h]

/-- C23, amended: for `H = 0`, `g = (1, 1)`, `A = [[1, 0], [1, 0]]`,
`lba = uba = (0, 0)`, infinite box bounds and a zero warm start, with the zeros of
`A` stored or not, for every QR kernel and all values of the uninitialised locals,
`eval` stops in initialisation with the assertion `No sign possible for 1`, before
any singularity is detected or handled. -/
theorem rank_deficient_no_sign (qr : QRKernel) (u : Uninit) :
    eval qr (solver22 1000)
      (args_rank [1, 1, 0, 0] [Ext.ninf, Ext.ninf] [Ext.pinf, Ext.pinf]) u =
        .error (.no_sign 1) ∧
    eval qr (solver22s 1000) (args_rank [1, 1] [Ext.ninf, Ext.ninf] [Ext.pinf, Ext.pinf]) u =
        .error (.no_sign 1) :=
  ⟨eval_no_sign qr _ _ u 1 (lam_start_error _ _ 1 (by decide!)),
    eval_no_sign qr _ _ u 1 (lam_start_error _ _ 1 (by decide!))⟩

/-! ## Assembly of the KKT matrix -/

theorem scatter_nil (y : Nat → ℚ) (st : (Nat → ℚ) × Nat) : scatter y [] st = st := rfl

theorem scatter_cons (y : Nat → ℚ) (k : Nat) (ks : List Nat) (st : (Nat → ℚ) × Nat) :
    scatter y (k :: ks) st = scatter y ks (Function.update st.1 k (y st.2), st.2 + 1) := rfl

theorem casadi_set_sub_col_zero (y : Nat → ℚ) (sp : Sparsity) (rbeg rend kend k : Nat)
    (st : (Nat → ℚ) × Nat) : casadi_set_sub_col y sp rbeg rend kend 0 k st = st := rfl

theorem casadi_set_sub_col_succ (y : Nat → ℚ) (sp : Sparsity) (rbeg rend kend fuel k : Nat)
    (st : (Nat → ℚ) × Nat) :
    casadi_set_sub_col y sp rbeg rend kend (fuel + 1) k st =
      if k < kend ∧ sp.row k < rend then
        casadi_set_sub_col y sp rbeg rend kend fuel (k + 1)
          (if sp.row k ≥ rbeg then (Function.update st.1 k (y st.2), st.2 + 1) else st)
      else st := rfl

/-- The inner loop of `casadi_set_sub` over a column with ascending rows writes
to the slots whose row lies in `[rbeg, rend)`, in order. -/
theorem set_sub_col_scatter (y : Nat → ℚ) (sp : Sparsity) (rbeg rend m k : Nat)
    (st : (Nat → ℚ) × Nat)
    (hs : ((List.range' k m).map sp.row).Pairwise (fun a b => a ≤ b)) :
    casadi_set_sub_col y sp rbeg rend (k + m) m k st =
      scatter y ((List.range' k m).filter
        (fun j => decide (rbeg ≤ sp.row j ∧ sp.row j < rend))) st := by
  induction m generalizing k st with
  | zero => rfl
  | succ m ih =>
    rw [casadi_set_sub_col_succ, List.range'_succ]
    rw [List.range'_succ, List.map_cons, List.pairwise_cons] at hs
    by_cases hr : sp.row k < rend
    · rw [if_pos ⟨by omega, hr⟩]
      have e : k + (m + 1) = (k + 1) + m := by omega
      rw [e, ih _ _ hs.2]
      by_cases hb : sp.row k ≥ rbeg
      · rw [if_pos hb, List.filter_cons_of_pos (by simp; exact ⟨hb, hr⟩), scatter_cons]
      · rw [if_neg hb, List.filter_cons_of_neg (by simp; intro h; exact absurd h hb)]
    · rw [if_neg (fun h => hr h.2)]
      have : (k :: List.range' (k + 1) m).filter
          (fun j => decide (rbeg ≤ sp.row j ∧ sp.row j < rend)) = [] := by
        rw [List.filter_eq_nil_iff]
        intro j hj
        simp only [decide_eq_true_eq, not_and, not_lt]
        intro _
        rcases List.mem_cons.mp hj with rfl | hj
        · exact not_lt.mp hr
        · exact le_trans (not_lt.mp hr) (hs.1 _ (List.mem_map_of_mem _ hj))
      rw [this, scatter_nil]

/-- The inner loop of `casadi_set_sub` on column `c`. -/
theorem set_sub_col_block (y : Nat → ℚ) (sp : Sparsity) (rbeg rend c : Nat)
    (st : (Nat → ℚ) × Nat)
    (hs : ((sp.col c).map sp.row).Pairwise (fun a b => a ≤ b)) :
    casadi_set_sub_col y sp rbeg rend (sp.colind (c + 1))
      (sp.colind (c + 1) - sp.colind c) (sp.colind c) st =
      scatter y (sp.block_col rbeg rend c) st := by
  unfold Sparsity.block_col Sparsity.col
  unfold Sparsity.col at hs
  rcases Nat.le_total (sp.colind c) (sp.colind (c + 1)) with h | h
  · have e : sp.colind (c + 1) = sp.colind c + (sp.colind (c + 1) - sp.colind c) := by omega
    rw [← set_sub_col_scatter y sp rbeg rend _ _ st hs, ← e]
  · have e : sp.colind (c + 1) - sp.colind c = 0 := by omega
    rw [e]
    rfl

theorem scatter_snd (y : Nat → ℚ) (l : List Nat) (st : (Nat → ℚ) × Nat) :
    (scatter y l st).2 = st.2 + l.length := by
  induction l generalizing st with
  | nil => rfl
  | cons k ks ih =>
    rw [scatter_cons, ih, List.length_cons]
    show st.2 + 1 + ks.length = st.2 + (ks.length + 1)
    omega

theorem scatter_not_mem (y : Nat → ℚ) (l : List Nat) (st : (Nat → ℚ) × Nat) (k : Nat)
    (h : k ∉ l) : (scatter y l st).1 k = st.1 k := by
  induction l generalizing st with
  | nil => rfl
  | cons j js ih =>
    rw [scatter_cons, ih _ (fun hk => h (List.mem_cons_of_mem _ hk))]
    exact Function.update_noteq (fun e => h (by rw [e]; exact List.mem_cons_self _ _)) _ _

/-- The `p`-th slot of a list without repetition receives the `p`-th value. -/
theorem scatter_getD (y : Nat → ℚ) (l : List Nat) (st : (Nat → ℚ) × Nat) (hnd : l.Nodup)
    (p : Nat) (hp : p < l.length) : (scatter y l st).1 (l.getD p 0) = y (st.2 + p) := by
  induction l generalizing st p with
  | nil => simp at hp
  | cons j js ih =>
    rw [scatter_cons]
    have hnd' := List.nodup_cons.mp hnd
    cases p with
    | zero =>
      rw [List.getD_cons_zero, scatter_not_mem _ _ _ _ hnd'.1]
      simp
    | succ p =>
      rw [List.getD_cons_succ, ih _ hnd'.2 p (by simpa using hp)]
      show y (st.2 + 1 + p) = y (st.2 + (p + 1))
      congr 1
      omega

theorem Sparsity.block_col_nodup (sp : Sparsity) (rbeg rend c : Nat) :
    (sp.block_col rbeg rend c).Nodup := by
  unfold Sparsity.block_col Sparsity.col
  exact List.Nodup.filter _ (List.nodup_range' _ _)

theorem Sparsity.mem_block_col (sp : Sparsity) (rbeg rend c k : Nat) :
    k ∈ sp.block_col rbeg rend c ↔ k ∈ sp.col c ∧ rbeg ≤ sp.row k ∧ sp.row k < rend := by
  unfold Sparsity.block_col
  simp [List.mem_filter]

theorem casadi_set_sub_eq (y x : Nat → ℚ) (sp : Sparsity) (rbeg rend cbeg cend : Nat) :
    casadi_set_sub y x sp rbeg rend cbeg cend =
      (set_sub_loop y sp rbeg rend (List.range' cbeg (cend - cbeg)) (x, 0)).1 := rfl

theorem List.getD_mem_of_lt (l : List Nat) (p : Nat) (hp : p < l.length) : l.getD p 0 ∈ l := by
  rw [List.getD_eq_getElem _ _ hp]
  exact List.getElem_mem hp

/-- The loop of `casadi_set_sub` over the columns `a, ..., a + m - 1`, started
with the count `N a` where `N` counts the entries of the block column by column:
the `p`-th entry of the block in column `c` receives `y[N c + p]`, and every slot
outside the block keeps its value. -/
theorem set_sub_loop_spec (y : Nat → ℚ) (sp : Sparsity) (rbeg rend m a : Nat) (x : Nat → ℚ)
    (N : Nat → Nat) (hmono : sp.Monotone (a + m)) (hasc : sp.AscendingRows (a + m))
    (hN : ∀ c, a ≤ c → c < a + m → N (c + 1) = N c + (sp.block_col rbeg rend c).length) :
    (set_sub_loop y sp rbeg rend (List.range' a m) (x, N a)).2 = N (a + m) ∧
    (∀ k, (∀ c, a ≤ c → c < a + m → k ∉ sp.block_col rbeg rend c) →
      (set_sub_loop y sp rbeg rend (List.range' a m) (x, N a)).1 k = x k) ∧
    (∀ c, a ≤ c → c < a + m → ∀ p < (sp.block_col rbeg rend c).length,
      (set_sub_loop y sp rbeg rend (List.range' a m) (x, N a)).1
        ((sp.block_col rbeg rend c).getD p 0) = y (N c + p)) := by
  induction m generalizing a x with
  | zero =>
    refine ⟨rfl, fun k _ => rfl, ?_⟩
    intro c h1 h2
    omega
  | succ m ih =>
    have e : a + (m + 1) = a + 1 + m := by omega
    have h1 : set_sub_loop y sp rbeg rend (List.range' a (m + 1)) (x, N a) =
        set_sub_loop y sp rbeg rend (List.range' (a + 1) m)
          ((scatter y (sp.block_col rbeg rend a) (x, N a)).1, N (a + 1)) := by
      unfold set_sub_loop
      rw [List.range'_succ, List.foldl_cons,
        set_sub_col_block y sp rbeg rend a _ (hasc a (by omega))]
      congr 1
      apply Prod.ext
      · rfl
      · rw [scatter_snd, hN a (le_refl _) (by omega)]
    rw [h1]
    obtain ⟨i1, i2, i3⟩ := ih (a + 1) (scatter y (sp.block_col rbeg rend a) (x, N a)).1
      (by rw [← e]; exact hmono) (by rw [← e]; exact hasc)
      (fun c hc1 hc2 => hN c (by omega) (by omega))
    refine ⟨by rw [i1, e], ?_, ?_⟩
    · intro k hk
      rw [i2 k (fun c hc1 hc2 => hk c (by omega) (by omega)),
        scatter_not_mem _ _ _ _ (hk a (le_refl _) (by omega))]
    · intro c hc1 hc2 p hp
      rcases Nat.eq_or_lt_of_le hc1 with rfl | hlt
      · have hmem := List.getD_mem_of_lt _ p hp
        rw [i2 _ (fun d hd1 hd2 hd => by
          have ha := ((sp.mem_block_col rbeg rend a _).mp hmem).1
          have hb := ((sp.mem_block_col rbeg rend d _).mp hd).1
          have := sp.col_disjoint (a + (m + 1)) hmono a d _ (by omega) (by omega) ha hb
          omega)]
        exact scatter_getD y _ _ (sp.block_col_nodup rbeg rend a) p hp
      · exact i3 c (by omega) (by omega) p hp

theorem Sparsity.block_count_self (sp : Sparsity) (rbeg rend cbeg : Nat) :
    sp.block_count rbeg rend cbeg cbeg = 0 := by
  unfold Sparsity.block_count
  simp

theorem Sparsity.block_count_succ (sp : Sparsity) (rbeg rend cbeg c : Nat) (h : cbeg ≤ c) :
    sp.block_count rbeg rend cbeg (c + 1) =
      sp.block_count rbeg rend cbeg c + (sp.block_col rbeg rend c).length := by
  unfold Sparsity.block_count
  have e : c + 1 - cbeg = (c - cbeg) + 1 := by omega
  rw [e, List.range'_concat, List.map_append, List.sum_append]
  simp only [List.map_cons, List.map_nil, List.sum_cons, List.sum_nil, add_zero, Nat.mul_one]
  congr 3
  omega

/-- On a column-compressed sparsity with non-decreasing column
pointers and ascending rows within each column, `casadi_set_sub` writes the
consecutive values of `y`, column by column, to the stored entries of `x` whose
row lies in `[rbeg, rend)` and whose column lies in `[cbeg, cend)` (the `p`-th such
entry of column `c` receives the value after those of the columns before `c` and
of the `p` entries before it), and leaves every other entry of `x` unchanged. -/
theorem casadi_set_sub_spec (y x : Nat → ℚ) (sp : Sparsity) (rbeg rend cbeg cend : Nat)
    (hmono : sp.Monotone cend) (hasc : sp.AscendingRows cend) :
    (∀ c, cbeg ≤ c → c < cend → ∀ p < (sp.block_col rbeg rend c).length,
      casadi_set_sub y x sp rbeg rend cbeg cend ((sp.block_col rbeg rend c).getD p 0) =
        y (sp.block_count rbeg rend cbeg c + p)) ∧
    (∀ k, (∀ c, cbeg ≤ c → c < cend →
        ¬ (k ∈ sp.col c ∧ rbeg ≤ sp.row k ∧ sp.row k < rend)) →
      casadi_set_sub y x sp rbeg rend cbeg cend k = x k) := by
  rw [casadi_set_sub_eq]
  rcases Nat.lt_or_ge cend cbeg with hlt | hge
  · have e : cend - cbeg = 0 := by omega
    rw [e]
    exact ⟨fun c h1 h2 => by omega, fun k _ => rfl⟩
  have e : cbeg + (cend - cbeg) = cend := by omega
  have h0 : (0 : Nat) = sp.block_count rbeg rend cbeg cbeg := (sp.block_count_self _ _ _).symm
  obtain ⟨_, i2, i3⟩ := set_sub_loop_spec y sp rbeg rend (cend - cbeg) cbeg x
    (sp.block_count rbeg rend cbeg) (by rw [e]; exact hmono) (by rw [e]; exact hasc)
    (fun c hc _ => sp.block_count_succ rbeg rend cbeg c hc)
  rw [← h0] at i2 i3
  refine ⟨fun c h1 h2 p hp => i3 c h1 (by omega) p hp, fun k hk => i2 k ?_⟩
  intro c h1 h2 hmem
  exact hk c h1 (by omega) ((sp.mem_block_col rbeg rend c k).mp hmem)

theorem range_map_eq (f g : Nat → β) (n s t : Nat) (h : ∀ p < n, f (s + p) = g (t + p)) :
    (List.range' s n).map f = (List.range' t n).map g := by
  induction n generalizing s t with
  | zero => rfl
  | succ n ih =>
    rw [List.range'_succ, List.range'_succ, List.map_cons, List.map_cons, ih (s + 1) (t + 1)
      (fun p hp => by
        have := h (p + 1) (by omega)
        rw [show s + 1 + p = s + (p + 1) by omega, show t + 1 + p = t + (p + 1) by omega]
        exact this)]
    have := h 0 (by omega)
    rw [Nat.add_zero, Nat.add_zero] at this
    rw [this]

theorem range_map_inj (f g : Nat → β) (n s t : Nat)
    (h : (List.range' s n).map f = (List.range' t n).map g) :
    ∀ p < n, f (s + p) = g (t + p) := by
  induction n generalizing s t with
  | zero => intro p hp; omega
  | succ n ih =>
    rw [List.range'_succ, List.range'_succ, List.map_cons, List.map_cons] at h
    have h1 := (List.cons.inj h).1
    have h2 := ih (s + 1) (t + 1) (List.cons.inj h).2
    intro p hp
    rcases p with _ | p
    · exact h1
    · have := h2 p (by omega)
      rw [show s + 1 + p = s + (p + 1) by omega, show t + 1 + p = t + (p + 1) by omega] at this
      exact this

theorem range_split (s m n : Nat) :
    List.range' s (m + n) = List.range' s m ++ List.range' (s + m) n := by
  induction m generalizing s with
  | zero => simp
  | succ m ih =>
    rw [show m + 1 + n = (m + n) + 1 by omega, List.range'_succ, List.range'_succ,
      List.cons_append, ih (s + 1), show s + 1 + m = s + (m + 1) by omega]

theorem range_getD (s n p : Nat) (hp : p < n) : (List.range' s n).getD p 0 = s + p := by
  rw [List.getD_eq_getElem _ _ (by rw [List.length_range']; exact hp), List.getElem_range']
  omega

theorem Sparsity.entry_lookup (sp : Sparsity) (v : Nat → ℚ) (r c : Nat) :
    sp.entry v r c = lookup_last r (sp.pairs v c) 0 := by
  unfold Sparsity.entry lookup_last Sparsity.pairs
  rw [List.foldl_map]

theorem lookup_last_append (r : Nat) (l1 l2 : List (Nat × ℚ)) (a : ℚ) :
    lookup_last r (l1 ++ l2) a = lookup_last r l2 (lookup_last r l1 a) := by
  unfold lookup_last
  rw [List.foldl_append]

theorem lookup_last_absent (r : Nat) (l : List (Nat × ℚ)) (a : ℚ) (h : ∀ p ∈ l, p.1 ≠ r) :
    lookup_last r l a = a := by
  unfold lookup_last
  induction l generalizing a with
  | nil => rfl
  | cons p ps ih =>
    rw [List.foldl_cons, if_neg (h p (List.mem_cons_self _ _)),
      ih a (fun q hq => h q (List.mem_cons_of_mem _ hq))]

theorem lookup_last_shift (n i : Nat) (l : List (Nat × ℚ)) (a : ℚ) :
    lookup_last (n + i) (l.map (fun p => (n + p.1, p.2))) a = lookup_last i l a := by
  unfold lookup_last
  induction l generalizing a with
  | nil => rfl
  | cons p ps ih =>
    rw [List.map_cons, List.foldl_cons, List.foldl_cons, ih]
    congr 1
    by_cases hp : p.1 = i
    · rw [if_pos hp, if_pos (by rw [hp])]
    · rw [if_neg hp, if_neg (by omega)]

/-- Sums of block lengths that match the column lengths of a second pattern add
up to its column pointers. -/
theorem Sparsity.block_count_colind (sp sp2 : Sparsity) (rbeg rend cbeg j : Nat)
    (hmono : sp2.Monotone j) (h0 : sp2.colind 0 = 0)
    (h : ∀ d < j, (sp.block_col rbeg rend (cbeg + d)).length =
      sp2.colind (d + 1) - sp2.colind d) :
    sp.block_count rbeg rend cbeg (cbeg + j) = sp2.colind j := by
  induction j with
  | zero => rw [Nat.add_zero, sp.block_count_self, h0]
  | succ j ih =>
    rw [show cbeg + (j + 1) = cbeg + j + 1 by omega, sp.block_count_succ _ _ _ _ (by omega),
      ih (fun c hc => hmono c (by omega)) (fun d hd => h d (by omega)), h j (by omega)]
    have := hmono j (by omega)
    omega

theorem Sparsity.col_eq (sp : Sparsity) (c : Nat) :
    sp.col c = List.range' (sp.colind c) (sp.colind (c + 1) - sp.colind c) := rfl

theorem Sparsity.mem_col_add (sp : Sparsity) (c p : Nat)
    (hp : p < sp.colind (c + 1) - sp.colind c) : sp.colind c + p ∈ sp.col c := by
  rw [sp.col_eq, List.mem_range'_1]
  omega

/-- The slots of a column `c < nx` of `kkt_`: first those of column `c` of `H_`,
then those of column `c` of `A_` with the rows shifted by `nx`. -/
theorem KktPattern.left_slots {S : ConicActiveSet} (hK : KktPattern S) (c : Nat)
    (hc : c < S.nx_) :
    S.kkt_.colind (c + 1) - S.kkt_.colind c =
      (S.H_.colind (c + 1) - S.H_.colind c) + (S.A_.colind (c + 1) - S.A_.colind c) ∧
    (∀ p < S.H_.colind (c + 1) - S.H_.colind c,
      S.kkt_.row (S.kkt_.colind c + p) = S.H_.row (S.H_.colind c + p)) ∧
    (∀ p < S.A_.colind (c + 1) - S.A_.colind c,
      S.kkt_.row (S.kkt_.colind c + (S.H_.colind (c + 1) - S.H_.colind c) + p) =
        S.nx_ + S.A_.row (S.A_.colind c + p)) := by
  have h := hK.left c hc
  rw [Sparsity.col_eq, Sparsity.col_eq, Sparsity.col_eq] at h
  have hl := congrArg List.length h
  simp only [List.length_map, List.length_range', List.length_append] at hl
  refine ⟨hl, ?_⟩
  rw [hl, range_split, List.map_append] at h
  have h2 := List.append_inj h (by simp)
  exact ⟨range_map_inj _ _ _ _ _ h2.1, range_map_inj _ _ _ _ _ h2.2⟩

/-- The slots of a column `nx + j` of `kkt_` are those of column `j` of `AT_`. -/
theorem KktPattern.right_slots {S : ConicActiveSet} (hK : KktPattern S) (j : Nat)
    (hj : j < S.na_) :
    S.kkt_.colind (S.nx_ + j + 1) - S.kkt_.colind (S.nx_ + j) =
      S.AT_.colind (j + 1) - S.AT_.colind j ∧
    (∀ p < S.AT_.colind (j + 1) - S.AT_.colind j,
      S.kkt_.row (S.kkt_.colind (S.nx_ + j) + p) = S.AT_.row (S.AT_.colind j + p)) := by
  have h := hK.right j hj
  rw [Sparsity.col_eq, Sparsity.col_eq] at h
  have hl := congrArg List.length h
  simp only [List.length_map, List.length_range'] at hl
  refine ⟨hl, ?_⟩
  rw [hl] at h
  exact range_map_inj _ _ _ _ _ h

theorem KktPattern.ascending {S : ConicActiveSet} (hK : KktPattern S) :
    S.kkt_.AscendingRows (S.nx_ + S.na_) := by
  intro c hc
  rcases Nat.lt_or_ge c S.nx_ with h1 | h1
  · rw [hK.left c h1, List.pairwise_append]
    refine ⟨hK.h_asc c h1, ?_, ?_⟩
    · have := hK.a_asc c h1
      rw [List.pairwise_map] at this ⊢
      exact this.imp (fun h => by omega)
    · intro a ha b hb
      rw [List.mem_map] at ha hb
      obtain ⟨k, hk, rfl⟩ := ha
      obtain ⟨k2, hk2, rfl⟩ := hb
      have := hK.h_rows c h1 k hk
      omega
  · have e : c = S.nx_ + (c - S.nx_) := by omega
    rw [e, hK.right (c - S.nx_) (by omega)]
    exact hK.at_asc _ (by omega)

theorem KktPattern.block_h {S : ConicActiveSet} (hK : KktPattern S) (c : Nat)
    (hc : c < S.nx_) :
    S.kkt_.block_col 0 S.nx_ c =
      List.range' (S.kkt_.colind c) (S.H_.colind (c + 1) - S.H_.colind c) := by
  obtain ⟨h1, h2, h3⟩ := hK.left_slots c hc
  unfold Sparsity.block_col
  rw [Sparsity.col_eq, h1, range_split, List.filter_append, List.filter_eq_self.mpr,
    List.filter_eq_nil_iff.mpr, List.append_nil]
  · intro k hk
    rw [List.mem_range'_1] at hk
    have := h3 (k - (S.kkt_.colind c + (S.H_.colind (c + 1) - S.H_.colind c))) (by omega)
    rw [show S.kkt_.colind c + (S.H_.colind (c + 1) - S.H_.colind c) +
      (k - (S.kkt_.colind c + (S.H_.colind (c + 1) - S.H_.colind c))) = k by omega] at this
    rw [this]
    simp
  · intro k hk
    rw [List.mem_range'_1] at hk
    have := h2 (k - S.kkt_.colind c) (by omega)
    rw [show S.kkt_.colind c + (k - S.kkt_.colind c) = k by omega] at this
    rw [this]
    have := hK.h_rows c hc (S.H_.colind c + (k - S.kkt_.colind c))
      (S.H_.mem_col_add c _ (by omega))
    simp [this]

theorem KktPattern.block_a {S : ConicActiveSet} (hK : KktPattern S) (c : Nat)
    (hc : c < S.nx_) :
    S.kkt_.block_col S.nx_ (S.nx_ + S.na_) c =
      List.range' (S.kkt_.colind c + (S.H_.colind (c + 1) - S.H_.colind c))
        (S.A_.colind (c + 1) - S.A_.colind c) := by
  obtain ⟨h1, h2, h3⟩ := hK.left_slots c hc
  unfold Sparsity.block_col
  rw [Sparsity.col_eq, h1, range_split, List.filter_append, List.filter_eq_nil_iff.mpr,
    List.filter_eq_self.mpr, List.nil_append]
  · intro k hk
    rw [List.mem_range'_1] at hk
    have := h3 (k - (S.kkt_.colind c + (S.H_.colind (c + 1) - S.H_.colind c))) (by omega)
    rw [show S.kkt_.colind c + (S.H_.colind (c + 1) - S.H_.colind c) +
      (k - (S.kkt_.colind c + (S.H_.colind (c + 1) - S.H_.colind c))) = k by omega] at this
    rw [this]
    have := hK.a_rows c hc (S.A_.colind c +
      (k - (S.kkt_.colind c + (S.H_.colind (c + 1) - S.H_.colind c))))
      (S.A_.mem_col_add c _ (by omega))
    simp [this]
  · intro k hk
    rw [List.mem_range'_1] at hk
    have := h2 (k - S.kkt_.colind c) (by omega)
    rw [show S.kkt_.colind c + (k - S.kkt_.colind c) = k by omega] at this
    rw [this]
    have := hK.h_rows c hc (S.H_.colind c + (k - S.kkt_.colind c))
      (S.H_.mem_col_add c _ (by omega))
    simp
    omega

theorem KktPattern.block_at {S : ConicActiveSet} (hK : KktPattern S) (j : Nat)
    (hj : j < S.na_) :
    S.kkt_.block_col 0 S.nx_ (S.nx_ + j) =
      List.range' (S.kkt_.colind (S.nx_ + j)) (S.AT_.colind (j + 1) - S.AT_.colind j) := by
  obtain ⟨h1, h2⟩ := hK.right_slots j hj
  unfold Sparsity.block_col
  rw [Sparsity.col_eq, h1, List.filter_eq_self.mpr]
  intro k hk
  rw [List.mem_range'_1] at hk
  have := h2 (k - S.kkt_.colind (S.nx_ + j)) (by omega)
  rw [show S.kkt_.colind (S.nx_ + j) + (k - S.kkt_.colind (S.nx_ + j)) = k by omega] at this
  rw [this]
  have := hK.at_rows j hj (S.AT_.colind j + (k - S.kkt_.colind (S.nx_ + j)))
    (S.AT_.mem_col_add j _ (by omega))
  simp [this]

theorem Sparsity.monotone_le {sp : Sparsity} {n : Nat} (h : sp.Monotone n) (m : Nat)
    (hm : m ≤ n) : sp.Monotone m := fun c hc => h c (by omega)

theorem Sparsity.ascending_le {sp : Sparsity} {n : Nat} (h : sp.AscendingRows n) (m : Nat)
    (hm : m ≤ n) : sp.AscendingRows m := fun c hc => h c (by omega)

theorem KktPattern.count_h {S : ConicActiveSet} (hK : KktPattern S) (c : Nat)
    (hc : c ≤ S.nx_) : S.kkt_.block_count 0 S.nx_ 0 c = S.H_.colind c := by
  have := S.kkt_.block_count_colind S.H_ 0 S.nx_ 0 c (Sparsity.monotone_le hK.h_mono c hc)
    hK.h_zero
    (fun d hd => by rw [Nat.zero_add, hK.block_h d (by omega), List.length_range'])
  rw [Nat.zero_add] at this
  exact this

theorem KktPattern.count_a {S : ConicActiveSet} (hK : KktPattern S) (c : Nat)
    (hc : c ≤ S.nx_) : S.kkt_.block_count S.nx_ (S.nx_ + S.na_) 0 c = S.A_.colind c := by
  have := S.kkt_.block_count_colind S.A_ S.nx_ (S.nx_ + S.na_) 0 c
    (Sparsity.monotone_le hK.a_mono c hc)
    hK.a_zero
    (fun d hd => by rw [Nat.zero_add, hK.block_a d (by omega), List.length_range'])
  rw [Nat.zero_add] at this
  exact this

theorem KktPattern.count_at {S : ConicActiveSet} (hK : KktPattern S) (j : Nat)
    (hj : j ≤ S.na_) : S.kkt_.block_count 0 S.nx_ S.nx_ (S.nx_ + j) = S.AT_.colind j :=
  S.kkt_.block_count_colind S.AT_ 0 S.nx_ S.nx_ j (Sparsity.monotone_le hK.at_mono j hj)
    hK.at_zero
    (fun d hd => by rw [hK.block_at d (by omega), List.length_range'])

/-- The values of the assembled matrix in the slots of the `H` block. -/
theorem KktPattern.val_h {S : ConicActiveSet} (hK : KktPattern S) (P : Args) (c : Nat)
    (hc : c < S.nx_) (p : Nat) (hp : p < S.H_.colind (c + 1) - S.H_.colind c) :
    kkt S P (S.kkt_.colind c + p) = P.h (S.H_.colind c + p) := by
  obtain ⟨h1, h2, h3⟩ := hK.left_slots c hc
  have hmem : S.kkt_.colind c + p ∈ S.kkt_.col c := S.kkt_.mem_col_add c p (by omega)
  have hrow : S.kkt_.row (S.kkt_.colind c + p) < S.nx_ := by
    rw [h2 p hp]
    exact hK.h_rows c hc _ (S.H_.mem_col_add c p hp)
  unfold kkt
  rw [(casadi_set_sub_spec _ _ S.kkt_ 0 S.nx_ S.nx_ (S.nx_ + S.na_) hK.kkt_mono
      hK.ascending).2 _ (fun d hd1 hd2 hd => by
        have := S.kkt_.col_disjoint (S.nx_ + S.na_) hK.kkt_mono c d _ (by omega) hd2 hmem hd.1
        omega),
    (casadi_set_sub_spec _ _ S.kkt_ S.nx_ (S.nx_ + S.na_) 0 S.nx_
      (Sparsity.monotone_le hK.kkt_mono _ (by omega))
      (Sparsity.ascending_le hK.ascending _ (by omega))).2 _
      (fun d hd1 hd2 hd => by omega)]
  have := (casadi_set_sub_spec P.h (fun _ => 0) S.kkt_ 0 S.nx_ 0 S.nx_
    (Sparsity.monotone_le hK.kkt_mono _ (by omega))
    (Sparsity.ascending_le hK.ascending _ (by omega))).1 c (Nat.zero_le _) hc p
    (by rw [hK.block_h c hc, List.length_range']; exact hp)
  rw [hK.block_h c hc, range_getD _ _ _ hp, hK.count_h c (by omega)] at this
  exact this

/-- The values of the assembled matrix in the slots of the `A` block. -/
theorem KktPattern.val_a {S : ConicActiveSet} (hK : KktPattern S) (P : Args) (c : Nat)
    (hc : c < S.nx_) (p : Nat) (hp : p < S.A_.colind (c + 1) - S.A_.colind c) :
    kkt S P (S.kkt_.colind c + (S.H_.colind (c + 1) - S.H_.colind c) + p) =
      P.a (S.A_.colind c + p) := by
  obtain ⟨h1, h2, h3⟩ := hK.left_slots c hc
  have hmem : S.kkt_.colind c + (S.H_.colind (c + 1) - S.H_.colind c) + p ∈ S.kkt_.col c := by
    rw [Nat.add_assoc]
    exact S.kkt_.mem_col_add c _ (by omega)
  unfold kkt
  rw [(casadi_set_sub_spec _ _ S.kkt_ 0 S.nx_ S.nx_ (S.nx_ + S.na_) hK.kkt_mono
      hK.ascending).2 _ (fun d hd1 hd2 hd => by
        have := S.kkt_.col_disjoint (S.nx_ + S.na_) hK.kkt_mono c d _ (by omega) hd2 hmem hd.1
        omega)]
  have := (casadi_set_sub_spec P.a (casadi_set_sub P.h (fun _ => 0) S.kkt_ 0 S.nx_ 0 S.nx_)
    S.kkt_ S.nx_ (S.nx_ + S.na_) 0 S.nx_
    (Sparsity.monotone_le hK.kkt_mono _ (by omega))
    (Sparsity.ascending_le hK.ascending _ (by omega))).1 c (Nat.zero_le _) hc p
    (by rw [hK.block_a c hc, List.length_range']; exact hp)
  rw [hK.block_a c hc, range_getD _ _ _ hp, hK.count_a c (by omega)] at this
  exact this

/-- The values of the assembled matrix in the slots of the transposed block. -/
theorem KktPattern.val_at {S : ConicActiveSet} (hK : KktPattern S) (P : Args) (j : Nat)
    (hj : j < S.na_) (p : Nat) (hp : p < S.AT_.colind (j + 1) - S.AT_.colind j) :
    kkt S P (S.kkt_.colind (S.nx_ + j) + p) = trans_a S P (S.AT_.colind j + p) := by
  unfold kkt
  have := (casadi_set_sub_spec (trans_a S P)
    (casadi_set_sub P.a (casadi_set_sub P.h (fun _ => 0) S.kkt_ 0 S.nx_ 0 S.nx_)
      S.kkt_ S.nx_ (S.nx_ + S.na_) 0 S.nx_)
    S.kkt_ 0 S.nx_ S.nx_ (S.nx_ + S.na_) hK.kkt_mono hK.ascending).1 (S.nx_ + j)
    (by omega) (by omega) p
    (by rw [hK.block_at j hj, List.length_range']; exact hp)
  rw [hK.block_at j hj, range_getD _ _ _ hp, hK.count_at j (by omega)] at this
  exact this

theorem KktPattern.pairs_left {S : ConicActiveSet} (hK : KktPattern S) (P : Args) (c : Nat)
    (hc : c < S.nx_) :
    S.kkt_.pairs (kkt S P) c =
      S.H_.pairs P.h c ++ (S.A_.pairs P.a c).map (fun p => (S.nx_ + p.1, p.2)) := by
  obtain ⟨h1, h2, h3⟩ := hK.left_slots c hc
  unfold Sparsity.pairs
  rw [List.map_map, S.kkt_.col_eq, S.H_.col_eq, S.A_.col_eq, h1, range_split, List.map_append]
  congr 1
  · exact range_map_eq _ _ _ _ _ (fun p hp => by
      show (_, _) = (_, _)
      rw [h2 p hp, hK.val_h P c hc p hp])
  · exact range_map_eq _ _ _ _ _ (fun p hp => by
      show (_, _) = (_, _)
      rw [h3 p hp, hK.val_a P c hc p hp])

theorem KktPattern.pairs_right {S : ConicActiveSet} (hK : KktPattern S) (P : Args) (j : Nat)
    (hj : j < S.na_) :
    S.kkt_.pairs (kkt S P) (S.nx_ + j) = S.AT_.pairs (trans_a S P) j := by
  obtain ⟨h1, h2⟩ := hK.right_slots j hj
  unfold Sparsity.pairs
  rw [S.kkt_.col_eq, S.AT_.col_eq, h1]
  exact range_map_eq _ _ _ _ _ (fun p hp => by
    show (_, _) = (_, _)
    rw [h2 p hp, hK.val_at P j hj p hp])

/-- With the pattern of `kkt_` that `init` builds, the assembled matrix has the
blocks `H`, `A`, the transposed values and zero. -/
theorem KktPattern.blocks {S : ConicActiveSet} (hK : KktPattern S) (P : Args) :
    (∀ r c, r < S.nx_ → c < S.nx_ → S.kkt_.entry (kkt S P) r c = S.H_.entry P.h r c) ∧
    (∀ i c, c < S.nx_ → S.kkt_.entry (kkt S P) (S.nx_ + i) c = S.A_.entry P.a i c) ∧
    (∀ r j, j < S.na_ →
      S.kkt_.entry (kkt S P) r (S.nx_ + j) = S.AT_.entry (trans_a S P) r j) ∧
    (∀ i j, j < S.na_ → S.kkt_.entry (kkt S P) (S.nx_ + i) (S.nx_ + j) = 0) := by
  have hr : ∀ r j, j < S.na_ →
      S.kkt_.entry (kkt S P) r (S.nx_ + j) = S.AT_.entry (trans_a S P) r j := by
    intro r j hj
    rw [Sparsity.entry_lookup, Sparsity.entry_lookup, hK.pairs_right P j hj]
  refine ⟨?_, ?_, hr, ?_⟩
  · intro r c hr hc
    rw [Sparsity.entry_lookup, Sparsity.entry_lookup, hK.pairs_left P c hc, lookup_last_append,
      lookup_last_absent r ((S.A_.pairs P.a c).map _)]
    intro p hp
    rw [List.mem_map] at hp
    obtain ⟨q, _, rfl⟩ := hp
    show S.nx_ + q.1 ≠ r
    omega
  · intro i c hc
    rw [Sparsity.entry_lookup, Sparsity.entry_lookup, hK.pairs_left P c hc, lookup_last_append,
      lookup_last_absent (S.nx_ + i) (S.H_.pairs P.h c), lookup_last_shift]
    intro p hp
    unfold Sparsity.pairs at hp
    rw [List.mem_map] at hp
    obtain ⟨k, hk, rfl⟩ := hp
    have := hK.h_rows c hc k hk
    show S.H_.row k ≠ S.nx_ + i
    omega
  · intro i j hj
    rw [hr _ j hj, Sparsity.entry_lookup, lookup_last_absent]
    intro p hp
    unfold Sparsity.pairs at hp
    rw [List.mem_map] at hp
    obtain ⟨k, hk, rfl⟩ := hp
    have := hK.at_rows j hj k hk
    show S.AT_.row k ≠ S.nx_ + i
    omega

theorem solver24_pattern : KktPattern solver24 where
  kkt_mono := by unfold Sparsity.Monotone; decide
  h_mono := by unfold Sparsity.Monotone; decide
  a_mono := by unfold Sparsity.Monotone; decide
  at_mono := by unfold Sparsity.Monotone; decide
  h_zero := by decide
  a_zero := by decide
  at_zero := by decide
  left := by decide
  right := by decide
  h_rows := by decide
  a_rows := by decide
  at_rows := by decide
  h_asc := by unfold Sparsity.AscendingRows; decide
  a_asc := by unfold Sparsity.AscendingRows; decide
  at_asc := by unfold Sparsity.AscendingRows; decide

theorem solver24_trans : ∀ r < solver24.nx_, ∀ j < solver24.na_,
    solver24.AT_.entry (trans_a solver24 args24) r j = solver24.A_.entry args24.a j r := by
  decide!

/-- C24: KKT assembly. On a column-compressed sparsity with non-decreasing
column pointers and ascending rows within each column, `casadi_set_sub(y, x, sp,
rbeg, rend, cbeg, cend)` writes the consecutive values of `y`, in column-major
order, to exactly the stored entries of `x` with row in `[rbeg, rend)` and column
in `[cbeg, cend)`: the `p`-th such entry of column `c` receives `y[n + p]`, `n`
being the number of such entries in the columns before `c`, and every other entry
of `x` is unchanged. Hence, on the pattern of `kkt_` that `init` builds, the matrix
assembled by the three calls in `eval` has the blocks `H` (top left), `A` (bottom
left), the values that `casadi_trans` wrote on `AT_` (top right) and zero (bottom
right); the top right block is the transpose of `A` when `casadi_trans` has
transposed. -/
theorem kkt_assembly :
    (∀ (y x : Nat → ℚ) (sp : Sparsity) (rbeg rend cbeg cend : Nat),
      sp.Monotone cend → sp.AscendingRows cend →
      (∀ c, cbeg ≤ c → c < cend → ∀ p < (sp.block_col rbeg rend c).length,
        casadi_set_sub y x sp rbeg rend cbeg cend ((sp.block_col rbeg rend c).getD p 0) =
          y (sp.block_count rbeg rend cbeg c + p)) ∧
      (∀ k, (∀ c, cbeg ≤ c → c < cend →
          ¬ (k ∈ sp.col c ∧ rbeg ≤ sp.row k ∧ sp.row k < rend)) →
        casadi_set_sub y x sp rbeg rend cbeg cend k = x k)) ∧
    (∀ (S : ConicActiveSet) (P : Args), KktPattern S →
      (∀ r c, r < S.nx_ → c < S.nx_ → S.kkt_.entry (kkt S P) r c = S.H_.entry P.h r c) ∧
      (∀ i c, c < S.nx_ → S.kkt_.entry (kkt S P) (S.nx_ + i) c = S.A_.entry P.a i c) ∧
      (∀ r j, j < S.na_ →
        S.kkt_.entry (kkt S P) r (S.nx_ + j) = S.AT_.entry (trans_a S P) r j) ∧
      (∀ i j, j < S.na_ → S.kkt_.entry (kkt S P) (S.nx_ + i) (S.nx_ + j) = 0) ∧
      ((∀ r < S.nx_, ∀ j < S.na_,
          S.AT_.entry (trans_a S P) r j = S.A_.entry P.a j r) →
        ∀ r < S.nx_, ∀ j < S.na_,
          S.kkt_.entry (kkt S P) r (S.nx_ + j) = S.A_.entry P.a j r)) := by
  refine ⟨fun y x sp rbeg rend cbeg cend hmono hasc =>
    casadi_set_sub_spec y x sp rbeg rend cbeg cend hmono hasc, fun S P hK => ?_⟩
  obtain ⟨b1, b2, b3, b4⟩ := hK.blocks P
  exact ⟨b1, b2, b3, b4, fun htr r hr j hj => by rw [b3 r j hj, htr r hr j hj]⟩

/-- The assembly on the dense instance `solver24`, `args24`: the pattern is the one
of `init`, the transpose is exact, and the assembled matrix is
`[[1, 3, 5], [2, 4, 6], [5, 6, 0]]`. -/
theorem kkt_assembly_witness :
    KktPattern solver24 ∧
    (∀ r < solver24.nx_, ∀ j < solver24.na_,
      solver24.AT_.entry (trans_a solver24 args24) r j = solver24.A_.entry args24.a j r) ∧
    (∀ r < solver24.nx_, ∀ j < solver24.na_,
      solver24.kkt_.entry (kkt solver24 args24) r (solver24.nx_ + j) =
        solver24.A_.entry args24.a j r) ∧
    (List.range 3).map (fun r => (List.range 3).map (fun c =>
      solver24.kkt_.entry (kkt solver24 args24) r c)) = [[1, 3, 5], [2, 4, 6], [5, 6, 0]] ∧
    casadi_set_sub (vec [7, 8] 0) (vec [1, 2, 3, 4, 5, 6, 0, 0] 0) solver24.kkt_ 0 2 2 3 6 = 7 ∧
    casadi_set_sub (vec [7, 8] 0) (vec [1, 2, 3, 4, 5, 6, 0, 0] 0) solver24.kkt_ 0 2 2 3 2 = 3 :=
  ⟨solver24_pattern, solver24_trans,
    (kkt_assembly.2 solver24 args24 solver24_pattern).2.2.2.2 solver24_trans,
    by decide!,
    (kkt_assembly.1 (vec [7, 8] 0) (vec [1, 2, 3, 4, 5, 6, 0, 0] 0) solver24.kkt_ 0 2 2 3
      solver24_pattern.kkt_mono solver24_pattern.ascending).1 2 (by decide) (by decide) 0
      (by decide),
    (kkt_assembly.1 (vec [7, 8] 0) (vec [1, 2, 3, 4, 5, 6, 0, 0] 0) solver24.kkt_ 0 2 2 3
      solver24_pattern.kkt_mono solver24_pattern.ascending).2 2 (by decide)⟩

/-! ## The developer assertion and the uninitialised locals -/

theorem prerr_scan_no_assert (z : Nat → ℚ) (lbz ubz : Nat → Ext) (is : List Nat) (st : PrErr) :
    prerr_scan z lbz ubz is st ≠ .error .dev_assert := by
  induction is generalizing st with
  | nil => intro h; cases h
  | cons i is ih =>
    unfold prerr_scan
    split_ifs
    · split
      · exact ih _
      · intro h; cases h
    · split
      · exact ih _
      · intro h; cases h
    · exact ih _

theorem residual_loop_no_assert (nx : Nat) (z lam glag : Nat → ℚ) (lbz ubz : Nat → Ext)
    (is : List Nat) (dz : Nat → ℚ) :
    residual_loop nx z lam glag lbz ubz is dz ≠ .error .dev_assert := by
  induction is generalizing dz with
  | nil => intro h; cases h
  | cons i is ih =>
    unfold residual_loop
    split
    · exact ih _
    · intro h; cases h

theorem search_direction_no_assert (qr : QRKernel) (S : ConicActiveSet) (sing : Bool)
    (kktd z lam glag : Nat → ℚ) (lbz ubz : Nat → Ext) :
    search_direction qr S sing kktd z lam glag lbz ubz ≠ .error .dev_assert := by
  unfold search_direction
  split_ifs
  · intro h; cases h
  · split
    · intro h; cases h
    · rename_i e he
      intro h
      simp only [Except.error.injEq] at h
      subst h
      exact residual_loop_no_assert _ _ _ _ _ _ _ _ he

theorem flip_candidate_no_assert (S : ConicActiveSet) (F : Flags) (kkt trans_a w : Nat → ℚ)
    (lbz ubz : Nat → Ext) (derr : ℚ) (v : Iterate) (i : Nat) (f : Flip) :
    flip_candidate S F kkt trans_a w lbz ubz derr v i f ≠ .error .dev_assert := by
  unfold flip_candidate
  intro h
  repeat (first | split at h | cases h)

theorem select_flip_no_assert (S : ConicActiveSet) (F : Flags) (kkt trans_a w : Nat → ℚ)
    (lbz ubz : Nat → Ext) (derr : ℚ) (v : Iterate) (is : List Nat) (f : Flip) :
    select_flip S F kkt trans_a w lbz ubz derr v is f ≠ .error .dev_assert := by
  induction is generalizing f with
  | nil => intro h; cases h
  | cons i is ih =>
    rw [select_flip_cons]
    split
    · exact ih _
    · rename_i e he
      intro h
      simp only [Except.error.injEq] at h
      subst h
      exact flip_candidate_no_assert _ _ _ _ _ _ _ _ _ _ _ he

theorem handle_sing_no_assert (qr : QRKernel) (S : ConicActiveSet) (F : Flags)
    (kkt trans_a kktd : Nat → ℚ) (lbz ubz : Nat → Ext) (e : PrErr) (d : DuErr) (v : Iterate)
    (sing_sign : Int) :
    handle_sing qr S F kkt trans_a kktd lbz ubz e d v sing_sign ≠ .error .dev_assert := by
  unfold handle_sing
  split
  · rename_i e he
    intro h
    simp only [Except.error.injEq] at h
    subst h
    exact select_flip_no_assert _ _ _ _ _ _ _ _ _ _ _ he
  · intro h
    repeat (first | split at h | cases h)

theorem primal_bracket_no_assert (prerr : ℚ) (z dz : Nat → ℚ) (lbz ubz : Nat → Ext)
    (is : List Nat) (b : Bracket) :
    primal_bracket prerr z dz lbz ubz is b ≠ .error .dev_assert := by
  induction is generalizing b with
  | nil => intro h; cases h
  | cons i is ih =>
    unfold primal_bracket
    intro h
    repeat (first | exact ih _ h | split at h | cases h)

theorem dual_check_no_assert (e tau_k dtau tau : ℚ) (infeas tinfeas : Nat → ℚ)
    (ks : List Nat) :
    dual_check e tau_k dtau tau infeas tinfeas ks ≠ .error .dev_assert := by
  induction ks with
  | nil => intro h; cases h
  | cons k ks ih =>
    unfold dual_check
    intro h
    repeat (first | exact ih h | split at h | cases h)

theorem dual_bracket_no_assert (S : ConicActiveSet) (F : Flags) (trans_a : Nat → ℚ) (duerr : ℚ)
    (w : Nat → ℚ) (is : List Nat) (d : Dual) :
    dual_bracket S F trans_a duerr w is d ≠ .error .dev_assert := by
  induction is generalizing d with
  | nil => intro h; cases h
  | cons i is ih =>
    unfold dual_bracket
    split
    · rename_i e he
      intro h
      simp only [Except.error.injEq] at h
      subst h
      exact dual_check_no_assert _ _ _ _ _ _ _ he
    · intro h; cases h
    · exact ih _

theorem take_step_no_assert (S : ConicActiveSet) (F : Flags) (trans_a : Nat → ℚ)
    (lbz ubz : Nat → Ext) (prerr duerr : ℚ) (z lam dz dlam infeas tinfeas : Nat → ℚ) :
    take_step S F trans_a lbz ubz prerr duerr z lam dz dlam infeas tinfeas ≠
      .error .dev_assert := by
  unfold take_step
  split
  · rename_i e he
    intro h
    simp only [Except.error.injEq] at h
    subst h
    exact primal_bracket_no_assert _ _ _ _ _ _ _ he
  · simp only []
    split
    · rename_i e he
      intro h
      simp only [Except.error.injEq] at h
      subst h
      exact dual_bracket_no_assert _ _ _ _ _ _ _ he
    · intro h; cases h

theorem Flip.Same.better {f g : Flip} (h : f.Same g) (t : ℚ) : f.better t ↔ g.better t := by
  unfold Flip.better
  rw [h.1]

theorem try_bound_same (derr t : ℚ) (i : Nat) (sg : Int) (f g : Flip) (h : f.Same g) :
    (try_bound derr t i sg f).Same (try_bound derr t i sg g) := by
  unfold try_bound
  by_cases h1 : (!decide ((derr > 0 ∧ t > 0) ∨ (derr < 0 ∧ t < 0))) = true
  · rw [if_pos h1, if_pos h1]
    by_cases h2 : |t| ≥ 1 / 10 ^ 16
    · rw [if_pos h2, if_pos h2]
      by_cases h3 : f.better t
      · rw [if_pos h3, if_pos ((h.better t).mp h3)]
        exact ⟨rfl, rfl, h.2.2.1, fun _ => rfl⟩
      · rw [if_neg h3, if_neg (fun h4 => h3 ((h.better t).mpr h4))]
        exact h
    · rw [if_neg h2, if_neg h2]
      exact h
  · rw [if_neg h1, if_neg h1]
    exact h

theorem bound_stage_same (c : Bool) (o : Option ℚ) (b : ℚ → Flip → Flip) (f g : Flip)
    (hb : ∀ t, (b t f).Same (b t g)) (h : f.Same g) :
    ((if c then o.map (fun t => b t f) else some f) = none ∧
      (if c then o.map (fun t => b t g) else some g) = none) ∨
    ∃ f1 g1, (if c then o.map (fun t => b t f) else some f) = some f1 ∧
      (if c then o.map (fun t => b t g) else some g) = some g1 ∧ f1.Same g1 := by
  cases c
  · exact Or.inr ⟨f, g, rfl, rfl, h⟩
  · cases o with
    | none => exact Or.inl ⟨rfl, rfl⟩
    | some t => exact Or.inr ⟨_, _, rfl, rfl, hb t⟩

theorem flip_candidate_same (S : ConicActiveSet) (F : Flags) (kkt trans_a w : Nat → ℚ)
    (lbz ubz : Nat → Ext) (derr : ℚ) (v : Iterate) (i : Nat) (f g : Flip) (h : f.Same g) :
    Agree Flip.Same (flip_candidate S F kkt trans_a w lbz ubz derr v i f)
      (flip_candidate S F kkt trans_a w lbz ubz derr v i g) := by
  have hinc : ∀ f g : Flip, f.Same g →
      Flip.Same { f with nflip := f.nflip + 1 } { g with nflip := g.nflip + 1 } :=
    fun f g h => ⟨h.1, h.2.1, by show f.nflip + 1 = g.nflip + 1; rw [h.2.2.1], h.2.2.2⟩
  unfold flip_candidate
  by_cases h1 : |if i < S.nx_ then v.dz i else v.dlam i| < 1 / 10 ^ 12
  · rw [if_pos h1, if_pos h1]; exact h
  rw [if_neg h1, if_neg h1]
  by_cases h2 : |flip_dot S kkt w i| < 1 / 10 ^ 12
  · rw [if_pos h2, if_pos h2]; exact h
  rw [if_neg h2, if_neg h2]
  by_cases h3 : v.lam i ≠ 0 ∧ flip_increases S trans_a v.duerr v.glag v.infeas v.lam i = true
  · rw [if_pos h3, if_pos h3]; exact h
  rw [if_neg h3, if_neg h3]
  by_cases h4 : v.lam i = 0
  · rw [if_pos h4, if_pos h4]
    by_cases h5 : |v.dz i| < 1 / 10 ^ 12
    · rw [if_pos h5, if_pos h5]; exact h
    rw [if_neg h5, if_neg h5]
    rcases bound_stage_same (!F.neverlower i) (((lbz i).sub (v.z i)).div (v.dz i)).finite
      (fun t f => try_bound derr t i (-1) f) f g
      (fun t => try_bound_same derr t i (-1) f g h) h with ⟨e1, e2⟩ | ⟨f1, g1, e1, e2, h6⟩
    · rw [e1, e2]; exact rfl
    · rw [e1, e2]
      simp only []
      rcases bound_stage_same (!F.neverupper i) (((ubz i).sub (v.z i)).div (v.dz i)).finite
        (fun t f => try_bound derr t i 1 f) f1 g1
        (fun t => try_bound_same derr t i 1 f1 g1 h6) h6 with ⟨e3, e4⟩ | ⟨f2, g2, e3, e4, h7⟩
      · rw [e3, e4]; exact rfl
      · rw [e3, e4]
        exact hinc f2 g2 h7
  · rw [if_neg h4, if_neg h4]
    by_cases h5 : |v.dlam i| < 1 / 10 ^ 12
    · rw [if_pos h5, if_pos h5]; exact h
    rw [if_neg h5, if_neg h5]
    by_cases h6 : (!F.neverzero i) = true
    · rw [if_pos h6, if_pos h6]
      by_cases h7 : (derr > 0 ∧ -v.lam i / v.dlam i > 0) ∨ (derr < 0 ∧ -v.lam i / v.dlam i < 0)
      · rw [if_pos h7, if_pos h7]; exact h
      rw [if_neg h7, if_neg h7]
      by_cases h8 : f.better (-v.lam i / v.dlam i)
      · rw [if_pos h8, if_pos ((h.better _).mp h8)]
        exact ⟨rfl, rfl, by show f.nflip + 1 = g.nflip + 1; rw [h.2.2.1], fun _ => rfl⟩
      · rw [if_neg h8, if_neg (fun h9 => h8 ((h.better _).mpr h9))]
        exact hinc f g h
    · rw [if_neg h6, if_neg h6]
      exact hinc f g h

theorem select_flip_same (S : ConicActiveSet) (F : Flags) (kkt trans_a w : Nat → ℚ)
    (lbz ubz : Nat → Ext) (derr : ℚ) (v : Iterate) (is : List Nat) (f g : Flip)
    (h : f.Same g) :
    Agree Flip.Same (select_flip S F kkt trans_a w lbz ubz derr v is f)
      (select_flip S F kkt trans_a w lbz ubz derr v is g) := by
  induction is generalizing f g with
  | nil => exact h
  | cons i is ih =>
    rw [select_flip_cons, select_flip_cons]
    have h1 := flip_candidate_same S F kkt trans_a w lbz ubz derr v i f g h
    revert h1
    cases flip_candidate S F kkt trans_a w lbz ubz derr v i f with
    | error e1 =>
      cases flip_candidate S F kkt trans_a w lbz ubz derr v i g with
      | error e2 => exact fun h1 => h1
      | ok g1 => exact fun h1 => h1.elim
    | ok f1 =>
      cases flip_candidate S F kkt trans_a w lbz ubz derr v i g with
      | error e2 => exact fun h1 => h1.elim
      | ok g1 => exact fun h1 => ih f1 g1 h1

theorem handle_sing_same (qr : QRKernel) (S : ConicActiveSet) (F : Flags)
    (kkt trans_a kktd : Nat → ℚ) (lbz ubz : Nat → Ext) (e : PrErr) (d : DuErr) (v : Iterate)
    (a b : Int) :
    Agree SingResult.Same (handle_sing qr S F kkt trans_a kktd lbz ubz e d v a)
      (handle_sing qr S F kkt trans_a kktd lbz ubz e d v b) := by
  have h0 : Flip.Same ⟨none, -1, a, 0⟩ ⟨none, -1, b, 0⟩ :=
    ⟨rfl, rfl, rfl, fun h => absurd h (by show ¬ (0 : Int) ≤ -1; decide)⟩
  have h1 := select_flip_same S F kkt trans_a (left_null qr S kktd) lbz ubz
    (calc_derr e d v.dz v.infeas v.tinfeas) v (List.range (S.nx_ + S.na_)) _ _ h0
  unfold handle_sing
  revert h1
  cases select_flip S F kkt trans_a (left_null qr S kktd) lbz ubz
    (calc_derr e d v.dz v.infeas v.tinfeas) v (List.range (S.nx_ + S.na_)) ⟨none, -1, a, 0⟩ with
  | error e1 =>
    cases select_flip S F kkt trans_a (left_null qr S kktd) lbz ubz
      (calc_derr e d v.dz v.infeas v.tinfeas) v (List.range (S.nx_ + S.na_))
      ⟨none, -1, b, 0⟩ with
    | error e2 => exact fun h1 => h1
    | ok g => exact fun h1 => h1.elim
  | ok f =>
    cases select_flip S F kkt trans_a (left_null qr S kktd) lbz ubz
      (calc_derr e d v.dz v.infeas v.tinfeas) v (List.range (S.nx_ + S.na_))
      ⟨none, -1, b, 0⟩ with
    | error e2 => exact fun h1 => h1.elim
    | ok g =>
      intro h1
      have h1 : f.Same g := h1
      simp only []
      rw [← h1.2.1, ← h1.1, ← h1.2.2.1]
      by_cases h2 : f.sing_ind ≥ 0
      · rw [if_pos h2, if_pos h2]
        cases hb : f.best_tau with
        | none =>
          simp only []
          by_cases h3 : f.nflip = 0
          · rw [if_pos h3, if_pos h3]; exact True.intro
          · rw [if_neg h3, if_neg h3]; exact rfl
        | some t =>
          simp only []
          by_cases h3 : |t| < 1 / 10 ^ 12
          · rw [if_pos h3, if_pos h3]; exact ⟨h1, h2⟩
          · rw [if_neg h3, if_neg h3]
            by_cases h4 : f.nflip = 0
            · rw [if_pos h4, if_pos h4]; exact True.intro
            · rw [if_neg h4, if_neg h4]; exact ⟨rfl, h1, h2⟩
      · rw [if_neg h2, if_neg h2]; exact True.intro

theorem post_step_same (s t : State) (h : s.Same t) (e : PrErr) (z lam : Nat → ℚ)
    (lbz : Nat → Ext) : post_step s e z lam lbz = post_step t e z lam lbz := by
  obtain ⟨_, _, hn, _, _, _, hs⟩ := h
  unfold post_step
  rw [← hn]
  cases hnas : s.new_active_set with
  | true => rfl
  | false =>
    obtain ⟨h1, h2⟩ := hs hnas
    rw [← h1]
    cases hsing : s.sing with
    | false => rfl
    | true =>
      obtain ⟨h3, h4⟩ := h2 hsing
      rw [← h3, ← h4]

theorem pass_step_same (qr : QRKernel) (S : ConicActiveSet) (P : Args) (F : Flags)
    (kkt trans_a : Nat → ℚ) (s t : State) (h : s.Same t) (z lam glag infeas kktd : Nat → ℚ)
    (sing : Bool) (e : PrErr) (d : DuErr) (fk : ℚ) :
    Agree Outcome.Same (pass_step qr S P F kkt trans_a s z lam glag infeas kktd sing e d fk)
      (pass_step qr S P F kkt trans_a t z lam glag infeas kktd sing e d fk) := by
  obtain ⟨_, _, _, htau, hiter, _, _⟩ := h
  unfold pass_step
  cases search_direction qr S sing kktd z lam glag (lbz S P) (ubz S P) with
  | error e1 => exact rfl
  | ok dz0 =>
    simp only []
    cases sing with
    | false =>
      simp only [Bool.false_eq_true, if_false]
      cases take_step S F trans_a (lbz S P) (ubz S P) e.prerr d.duerr z lam (calc_dz S P dz0)
        (calc_dlam S P lam dz0) infeas
        (calc_tinfeas S P (calc_dz S P dz0) (calc_dlam S P lam dz0)) with
      | error e1 => exact rfl
      | ok st =>
        exact ⟨rfl, rfl, rfl, rfl, by show s.iter + 1 = t.iter + 1; rw [hiter], rfl,
          fun _ => ⟨rfl, fun h => absurd h (by show ¬ false = true; decide)⟩⟩
    | true =>
      simp only [if_true]
      have h1 := handle_sing_same qr S F kkt trans_a kktd (lbz S P) (ubz S P) e d
        ⟨z, lam, calc_dz S P dz0, calc_dlam S P lam dz0, glag, infeas,
          calc_tinfeas S P (calc_dz S P dz0) (calc_dlam S P lam dz0), e.prerr, d.duerr⟩
        s.sing_sign t.sing_sign
      revert h1
      cases handle_sing qr S F kkt trans_a kktd (lbz S P) (ubz S P) e d
        ⟨z, lam, calc_dz S P dz0, calc_dlam S P lam dz0, glag, infeas,
          calc_tinfeas S P (calc_dz S P dz0) (calc_dlam S P lam dz0), e.prerr, d.duerr⟩
        s.sing_sign with
      | error e1 =>
        cases handle_sing qr S F kkt trans_a kktd (lbz S P) (ubz S P) e d
          ⟨z, lam, calc_dz S P dz0, calc_dlam S P lam dz0, glag, infeas,
            calc_tinfeas S P (calc_dz S P dz0) (calc_dlam S P lam dz0), e.prerr, d.duerr⟩
          t.sing_sign with
        | error e2 => exact fun h1 => h1
        | ok r2 => exact fun h1 => h1.elim
      | ok r1 =>
        cases handle_sing qr S F kkt trans_a kktd (lbz S P) (ubz S P) e d
          ⟨z, lam, calc_dz S P dz0, calc_dlam S P lam dz0, glag, infeas,
            calc_tinfeas S P (calc_dz S P dz0) (calc_dlam S P lam dz0), e.prerr, d.duerr⟩
          t.sing_sign with
        | error e2 => exact fun h1 => h1.elim
        | ok r2 =>
          intro h1
          have h1 : r1.Same r2 := h1
          cases r1 with
          | zero_step f =>
            cases r2 with
            | zero_step g =>
              obtain ⟨hfg, hind⟩ : f.Same g ∧ 0 ≤ f.sing_ind := h1
              exact ⟨rfl, rfl, rfl, rfl, by show s.iter + 1 = t.iter + 1; rw [hiter], rfl,
                fun _ => ⟨rfl, fun _ => ⟨hfg.2.1, hfg.2.2.2 hind⟩⟩⟩
            | cannot_restore g => exact h1.elim
            | scaled c g => exact h1.elim
          | cannot_restore f =>
            cases r2 with
            | zero_step g => exact h1.elim
            | cannot_restore g => exact ⟨rfl, rfl, rfl, rfl⟩
            | scaled c g => exact h1.elim
          | scaled b f =>
            cases r2 with
            | zero_step g => exact h1.elim
            | cannot_restore g => exact h1.elim
            | scaled c g =>
              obtain ⟨hbc, hfg, hind⟩ : b = c ∧ f.Same g ∧ 0 ≤ f.sing_ind := h1
              subst hbc
              simp only []
              cases take_step S F trans_a (lbz S P) (ubz S P) e.prerr d.duerr z lam
                (casadi_scal (S.nx_ + S.na_) b (calc_dz S P dz0))
                (casadi_scal (S.nx_ + S.na_) b (calc_dlam S P lam dz0)) infeas
                (casadi_scal S.nx_ b
                  (calc_tinfeas S P (calc_dz S P dz0) (calc_dlam S P lam dz0))) with
              | error e1 => exact rfl
              | ok st =>
                exact ⟨rfl, rfl, rfl, rfl, by show s.iter + 1 = t.iter + 1; rw [hiter], rfl,
                  fun _ => ⟨rfl, fun _ => ⟨hfg.2.1, hfg.2.2.2 hind⟩⟩⟩

theorem pass_same (qr : QRKernel) (S : ConicActiveSet) (P : Args) (F : Flags)
    (kkt trans_a : Nat → ℚ) (s t : State) (h : s.Same t) :
    Agree Outcome.Same (pass qr S P F kkt trans_a s) (pass qr S P F kkt trans_a t) := by
  have hps := post_step_same s t h
  obtain ⟨hz, hl, hn, htau, hiter, hfk, hs⟩ := h
  unfold pass
  simp only []
  rw [← hz, ← hl, ← hiter]
  generalize prerr_scan (calc_g S P s.z) (lbz S P) (ubz S P) (List.range (S.nx_ + S.na_))
    ⟨0, -1, false⟩ = r
  cases r with
  | error e1 => exact rfl
  | ok e =>
    simp only []
    rw [← hps]
    generalize post_step s e (calc_g S P s.z)
      (recalc_lam S.nx_ (calc_glag S P (calc_g S P s.z) s.lam) s.lam) (lbz S P) = r
    cases r with
    | error e1 => exact rfl
    | ok pr =>
      obtain ⟨lam, nas⟩ := pr
      simp only []
      by_cases h1 : (!nas) = true
      · rw [if_pos h1, if_pos h1]
        exact ⟨rfl, rfl, rfl, rfl⟩
      · rw [if_neg h1, if_neg h1]
        by_cases h2 : s.iter ≥ S.max_iter_
        · rw [if_pos h2, if_pos h2]
          exact ⟨rfl, rfl, rfl, rfl⟩
        · rw [if_neg h2, if_neg h2]
          exact pass_step_same qr S P F kkt trans_a s t ⟨hz, hl, hn, htau, hiter, hfk, hs⟩
            _ _ _ _ _ _ _ _ _

theorem qp_loop_same (qr : QRKernel) (S : ConicActiveSet) (P : Args) (F : Flags)
    (kkt trans_a : Nat → ℚ) (fuel : Nat) (s t : State) (h : s.Same t) :
    Agree SameFinal (qp_loop qr S P F kkt trans_a fuel s)
      (qp_loop qr S P F kkt trans_a fuel t) := by
  induction fuel generalizing s t with
  | zero => exact True.intro
  | succ n ih =>
    rw [qp_loop_succ, qp_loop_succ]
    have h1 := pass_same qr S P F kkt trans_a s t h
    revert h1
    generalize pass qr S P F kkt trans_a s = r1
    generalize pass qr S P F kkt trans_a t = r2
    intro h1
    cases r1 with
    | error e1 =>
      cases r2 with
      | error e2 => exact h1
      | ok o2 => exact h1.elim
    | ok o1 =>
      cases r2 with
      | error e2 => exact h1.elim
      | ok o2 =>
        have h1 : o1.Same o2 := h1
        cases o1 with
        | next s1 =>
          cases o2 with
          | next t1 => exact ih s1 t1 h1
          | ret fl t1 => exact h1.elim
        | ret fl s1 =>
          cases o2 with
          | next t1 => exact h1.elim
          | ret fl1 t1 => exact h1

/-- The result of `eval` does not depend on the indeterminate initial values of
`sing`, `sing_ind` and `sing_sign`. -/
theorem eval_fuel_uninit (qr : QRKernel) (S : ConicActiveSet) (P : Args) (u v : Uninit)
    (fuel : Nat) : eval_fuel qr S P u fuel = eval_fuel qr S P v fuel := by
  unfold eval_fuel init_state
  cases lam_start S P with
  | error i => rfl
  | ok lam =>
    simp only []
    have h1 := qp_loop_same qr S P (flags S P) (kkt S P) (trans_a S P) fuel
      ⟨z_init S P, lam, true, 0, u.sing, u.sing_ind, u.sing_sign, 0, 0⟩
      ⟨z_init S P, lam, true, 0, v.sing, v.sing_ind, v.sing_sign, 0, 0⟩
      ⟨rfl, rfl, rfl, rfl, rfl, rfl, fun h => absurd h (by show ¬ true = false; decide)⟩
    revert h1
    generalize qp_loop qr S P (flags S P) (kkt S P) (trans_a S P) fuel
      ⟨z_init S P, lam, true, 0, u.sing, u.sing_ind, u.sing_sign, 0, 0⟩ = r1
    generalize qp_loop qr S P (flags S P) (kkt S P) (trans_a S P) fuel
      ⟨z_init S P, lam, true, 0, v.sing, v.sing_ind, v.sing_sign, 0, 0⟩ = r2
    intro h1
    cases r1 with
    | error e1 =>
      cases r2 with
      | error e2 =>
        have h1 : e1 = e2 := h1
        rw [h1]
      | ok o2 => exact h1.elim
    | ok o1 =>
      cases r2 with
      | error e2 => exact h1.elim
      | ok o2 =>
        have h1 : SameFinal o1 o2 := h1
        cases o1 with
        | none =>
          cases o2 with
          | none => rfl
          | some p2 => exact h1.elim
        | some p1 =>
          cases o2 with
          | none => exact h1.elim
          | some p2 =>
            obtain ⟨fl, s1⟩ := p1
            obtain ⟨fl1, t1⟩ := p2
            obtain ⟨h2, h3, h4, h5⟩ : fl = fl1 ∧ s1.z = t1.z ∧ s1.lam = t1.lam ∧
              s1.fk = t1.fk := h1
            simp only []
            unfold copy_out
            rw [h2, h3, h4, h5]

theorem try_bound_set (derr t : ℚ) (i : Nat) (sg : Int) (f : Flip) (h : f.Set)
    (hs : sg = -1 ∨ sg = 0 ∨ sg = 1) : (try_bound derr t i sg f).Set := by
  unfold try_bound
  split_ifs
  · exact fun _ => hs
  · exact h
  · exact h
  · exact h

theorem bound_stage_set (c : Bool) (o : Option ℚ) (b : ℚ → Flip → Flip) (f f1 : Flip)
    (hb : ∀ t, (b t f).Set) (h : f.Set)
    (h1 : (if c then o.map (fun t => b t f) else some f) = some f1) : f1.Set := by
  cases c
  · simp only [Bool.false_eq_true, if_false, Option.some.injEq] at h1
    rw [← h1]; exact h
  · cases o with
    | none => simp at h1
    | some t =>
      simp only [if_true, Option.map, Option.some.injEq] at h1
      rw [← h1]; exact hb t

theorem flip_candidate_set (S : ConicActiveSet) (F : Flags) (kkt trans_a w : Nat → ℚ)
    (lbz ubz : Nat → Ext) (derr : ℚ) (v : Iterate) (i : Nat) (f f1 : Flip) (h : f.Set)
    (h1 : flip_candidate S F kkt trans_a w lbz ubz derr v i f = .ok f1) : f1.Set := by
  have hinc : ∀ f : Flip, f.Set → Flip.Set { f with nflip := f.nflip + 1 } := fun f h => h
  unfold flip_candidate at h1
  by_cases c1 : |if i < S.nx_ then v.dz i else v.dlam i| < 1 / 10 ^ 12
  · rw [if_pos c1] at h1; cases h1; exact h
  rw [if_neg c1] at h1
  by_cases c2 : |flip_dot S kkt w i| < 1 / 10 ^ 12
  · rw [if_pos c2] at h1; cases h1; exact h
  rw [if_neg c2] at h1
  by_cases c3 : v.lam i ≠ 0 ∧ flip_increases S trans_a v.duerr v.glag v.infeas v.lam i = true
  · rw [if_pos c3] at h1; cases h1; exact h
  rw [if_neg c3] at h1
  by_cases c4 : v.lam i = 0
  · rw [if_pos c4] at h1
    by_cases c5 : |v.dz i| < 1 / 10 ^ 12
    · rw [if_pos c5] at h1; cases h1; exact h
    rw [if_neg c5] at h1
    split at h1
    · cases h1
    · rename_i g1 e1
      split at h1
      · cases h1
      · rename_i g2 e2
        cases h1
        exact hinc g2 (bound_stage_set (!F.neverupper i) _
          (fun t f => try_bound derr t i 1 f) g1 g2
          (fun t => try_bound_set derr t i 1 g1
            (bound_stage_set (!F.neverlower i) _ (fun t f => try_bound derr t i (-1) f) f g1
              (fun t => try_bound_set derr t i (-1) f h (Or.inl rfl)) h e1)
            (Or.inr (Or.inr rfl)))
          (bound_stage_set (!F.neverlower i) _ (fun t f => try_bound derr t i (-1) f) f g1
            (fun t => try_bound_set derr t i (-1) f h (Or.inl rfl)) h e1) e2)
  · rw [if_neg c4] at h1
    by_cases c5 : |v.dlam i| < 1 / 10 ^ 12
    · rw [if_pos c5] at h1; cases h1; exact h
    rw [if_neg c5] at h1
    by_cases c6 : (!F.neverzero i) = true
    · rw [if_pos c6] at h1
      by_cases c7 : (derr > 0 ∧ -v.lam i / v.dlam i > 0) ∨ (derr < 0 ∧ -v.lam i / v.dlam i < 0)
      · rw [if_pos c7] at h1; cases h1; exact h
      rw [if_neg c7] at h1
      by_cases c8 : f.better (-v.lam i / v.dlam i)
      · rw [if_pos c8] at h1; cases h1
        exact fun _ => Or.inr (Or.inl rfl)
      · rw [if_neg c8] at h1; cases h1
        exact hinc f h
    · rw [if_neg c6] at h1; cases h1
      exact hinc f h

theorem select_flip_set (S : ConicActiveSet) (F : Flags) (kkt trans_a w : Nat → ℚ)
    (lbz ubz : Nat → Ext) (derr : ℚ) (v : Iterate) (is : List Nat) (f f1 : Flip) (h : f.Set)
    (h1 : select_flip S F kkt trans_a w lbz ubz derr v is f = .ok f1) : f1.Set := by
  induction is generalizing f with
  | nil =>
    change Except.ok f = Except.ok f1 at h1
    cases h1
    exact h
  | cons i is ih =>
    rw [select_flip_cons] at h1
    split at h1
    · rename_i f2 h2
      exact ih f2 (flip_candidate_set S F kkt trans_a w lbz ubz derr v i f f2 h h2) h1
    · cases h1

/-- A singular pass goes on, by a zero step or a scaled step, only with a
recorded index and its sign. -/
theorem handle_sing_selected (qr : QRKernel) (S : ConicActiveSet) (F : Flags)
    (kkt trans_a kktd : Nat → ℚ) (lbz ubz : Nat → Ext) (e : PrErr) (d : DuErr) (v : Iterate)
    (a : Int) (r : SingResult) (f : Flip)
    (h : handle_sing qr S F kkt trans_a kktd lbz ubz e d v a = .ok r)
    (hr : r = .zero_step f ∨ ∃ b, r = .scaled b f) :
    0 ≤ f.sing_ind ∧ (f.sing_sign = -1 ∨ f.sing_sign = 0 ∨ f.sing_sign = 1) := by
  unfold handle_sing at h
  split at h
  · cases h
  · rename_i f1 hf
    have hset : f1.Set := select_flip_set S F kkt trans_a _ lbz ubz _ v _ _ f1
      (fun h0 => absurd h0 (by show ¬ (0 : Int) ≤ -1; decide)) hf
    by_cases h1 : f1.sing_ind ≥ 0
    · rw [if_pos h1] at h
      have key : f1 = f := by
        rcases hr with rfl | ⟨b, rfl⟩
        · split at h <;> split_ifs at h <;>
            first
            | (simp only [Except.ok.injEq, SingResult.zero_step.injEq, reduceCtorEq] at h; done)
            | (simp only [Except.ok.injEq, SingResult.zero_step.injEq, reduceCtorEq] at h
               exact h)
        · split at h <;> split_ifs at h <;>
            first
            | (simp only [Except.ok.injEq, SingResult.scaled.injEq, reduceCtorEq] at h; done)
            | (simp only [Except.ok.injEq, SingResult.scaled.injEq, reduceCtorEq] at h
               exact h.2)
      rw [← key]
      exact ⟨h1, hset h1⟩
    · rw [if_neg h1] at h
      rcases hr with rfl | ⟨b, rfl⟩
      · simp only [Except.ok.injEq, reduceCtorEq] at h
      · simp only [Except.ok.injEq, reduceCtorEq] at h

theorem pass_step_no_assert (qr : QRKernel) (S : ConicActiveSet) (P : Args) (F : Flags)
    (kkt trans_a : Nat → ℚ) (s : State) (z lam glag infeas kktd : Nat → ℚ) (sing : Bool)
    (e : PrErr) (d : DuErr) (fk : ℚ) :
    pass_step qr S P F kkt trans_a s z lam glag infeas kktd sing e d fk ≠
      .error .dev_assert := by
  unfold pass_step
  split
  · rename_i err he
    intro h
    simp only [Except.error.injEq] at h
    subst h
    exact search_direction_no_assert _ _ _ _ _ _ _ _ _ he
  · simp only []
    split_ifs
    · split
      · rename_i err he
        intro h
        simp only [Except.error.injEq] at h
        subst h
        exact handle_sing_no_assert _ _ _ _ _ _ _ _ _ _ _ _ he
      · intro h; cases h
      · intro h; cases h
      · split
        · rename_i err he
          intro h
          simp only [Except.error.injEq] at h
          subst h
          exact take_step_no_assert _ _ _ _ _ _ _ _ _ _ _ _ _ he
        · intro h; cases h
    · split
      · rename_i err he
        intro h
        simp only [Except.error.injEq] at h
        subst h
        exact take_step_no_assert _ _ _ _ _ _ _ _ _ _ _ _ _ he
      · intro h; cases h

/-- A pass that goes on after a singular factorisation has recorded an index
and its sign. -/
theorem pass_step_next (qr : QRKernel) (S : ConicActiveSet) (P : Args) (F : Flags)
    (kkt trans_a : Nat → ℚ) (s : State) (z lam glag infeas kktd : Nat → ℚ) (sing : Bool)
    (e : PrErr) (d : DuErr) (fk : ℚ) (s1 : State)
    (h : pass_step qr S P F kkt trans_a s z lam glag infeas kktd sing e d fk = .ok (.next s1))
    (hs : s1.sing = true) :
    0 ≤ s1.sing_ind ∧ (s1.sing_sign = -1 ∨ s1.sing_sign = 0 ∨ s1.sing_sign = 1) := by
  unfold pass_step at h
  split at h
  · cases h
  · simp only [] at h
    split_ifs at h with hsing
    · split at h
      · cases h
      · rename_i f hf
        simp only [Except.ok.injEq, Outcome.next.injEq] at h
        subst h
        exact handle_sing_selected _ _ _ _ _ _ _ _ _ _ _ _ _ f hf (Or.inl rfl)
      · simp only [Except.ok.injEq, reduceCtorEq] at h
      · rename_i b f hf
        split at h
        · cases h
        · simp only [Except.ok.injEq, Outcome.next.injEq] at h
          subst h
          exact handle_sing_selected _ _ _ _ _ _ _ _ _ _ _ _ _ f hf (Or.inr ⟨b, rfl⟩)
    · split at h
      · cases h
      · simp only [Except.ok.injEq, Outcome.next.injEq] at h
        subst h
        exact absurd hs hsing

theorem post_step_no_assert (s : State) (e : PrErr) (z lam : Nat → ℚ) (lbz : Nat → Ext)
    (hv : s.new_active_set = false → s.sing = true → 0 ≤ s.sing_ind) :
    post_step s e z lam lbz ≠ .error .dev_assert := by
  unfold post_step
  intro h
  split_ifs at h with h1 h2 h3
  · exact h3 (hv (by simpa using h1) h2)

theorem pass_next (qr : QRKernel) (S : ConicActiveSet) (P : Args) (F : Flags)
    (kkt trans_a : Nat → ℚ) (s s1 : State)
    (h : pass qr S P F kkt trans_a s = .ok (.next s1)) (hs : s1.sing = true) :
    0 ≤ s1.sing_ind ∧ (s1.sing_sign = -1 ∨ s1.sing_sign = 0 ∨ s1.sing_sign = 1) := by
  unfold pass at h
  simp only [] at h
  split at h
  · cases h
  · split at h
    · cases h
    · split_ifs at h
      · simp only [Except.ok.injEq, reduceCtorEq] at h
      · simp only [Except.ok.injEq, reduceCtorEq] at h
      · exact pass_step_next _ _ _ _ _ _ _ _ _ _ _ _ _ _ _ _ s1 h hs

theorem pass_no_assert (qr : QRKernel) (S : ConicActiveSet) (P : Args) (F : Flags)
    (kkt trans_a : Nat → ℚ) (s : State)
    (hv : s.new_active_set = false → s.sing = true → 0 ≤ s.sing_ind) :
    pass qr S P F kkt trans_a s ≠ .error .dev_assert := by
  unfold pass
  simp only []
  split
  · rename_i err he
    intro h
    simp only [Except.error.injEq] at h
    subst h
    exact prerr_scan_no_assert _ _ _ _ _ he
  · split
    · rename_i err he
      intro h
      simp only [Except.error.injEq] at h
      subst h
      exact post_step_no_assert s _ _ _ _ hv he
    · split_ifs
      · intro h; cases h
      · intro h; cases h
      · exact pass_step_no_assert _ _ _ _ _ _ _ _ _ _ _ _ _ _ _ _

theorem qp_loop_no_assert (qr : QRKernel) (S : ConicActiveSet) (P : Args) (F : Flags)
    (kkt trans_a : Nat → ℚ) (fuel : Nat) (s : State)
    (hv : s.new_active_set = false → s.sing = true → 0 ≤ s.sing_ind) :
    qp_loop qr S P F kkt trans_a fuel s ≠ .error .dev_assert := by
  induction fuel generalizing s with
  | zero => intro h; cases h
  | succ n ih =>
    rw [qp_loop_succ]
    split
    · rename_i err he
      intro h
      simp only [Except.error.injEq] at h
      subst h
      exact pass_no_assert qr S P F kkt trans_a s hv he
    · intro h; cases h
    · rename_i s1 h1
      exact ih s1 (fun _ hs => (pass_next qr S P F kkt trans_a s s1 h1 hs).1)

/-- The developer assertion `sing_ind >= 0` does not fire. -/
theorem eval_fuel_no_assert (qr : QRKernel) (S : ConicActiveSet) (P : Args) (u : Uninit)
    (fuel : Nat) : eval_fuel qr S P u fuel ≠ .error .dev_assert := by
  unfold eval_fuel init_state
  cases lam_start S P with
  | error i => intro h; cases h
  | ok lam =>
    simp only []
    split
    · rename_i err he
      intro h
      simp only [Except.error.injEq] at h
      subst h
      exact qp_loop_no_assert qr S P _ _ _ fuel _
        (fun h => absurd h (by show ¬ true = false; decide)) he
    · intro h; cases h
    · intro h; cases h

/-- A reachable state with `new_active_set` unset and `sing` set comes from a
pass that recorded an index and its sign. -/
theorem reachable_selected (qr : QRKernel) (S : ConicActiveSet) (P : Args) (u : Uninit)
    (s : State) (hr : Reachable qr S P u s) (hn : s.new_active_set = false)
    (hs : s.sing = true) :
    0 ≤ s.sing_ind ∧ (s.sing_sign = -1 ∨ s.sing_sign = 0 ∨ s.sing_sign = 1) ∧
    ∃ s0, Reachable qr S P u s0 ∧
      pass qr S P (flags S P) (kkt S P) (trans_a S P) s0 = .ok (.next s) := by
  cases hr with
  | init _ h0 =>
    unfold init_state at h0
    split at h0
    · cases h0
    · simp only [Except.ok.injEq] at h0
      subst h0
      exact absurd hn (by show ¬ true = false; decide)
  | step s0 _ h0 h1 =>
    obtain ⟨h2, h3⟩ := pass_next qr S P _ _ _ s0 s h1 hs
    exact ⟨h2, h3, s0, h0, h1⟩

/-- The state after the first pass of the flat one-variable problem is reachable. -/
theorem warm_flat_reachable :
    Reachable qr_scalar (solver1 1000) args_warm_flat uninit_neg
      (second_state qr_scalar (solver1 1000) args_warm_flat uninit_neg) :=
  Reachable.step (first_state (solver1 1000) args_warm_flat uninit_neg) _
    (Reachable.init _ (first_state_eq _ _ _ (by decide!)))
    (next_state_eq _ (by decide!))

/-- C25: the developer assertion `sing_ind >= 0` of the post-step sign management
never fires, and `sing`, `sing_ind`, `sing_sign` are never read before they are
assigned. For every kernel, instance, input and indeterminate initial values of
the three locals: `eval` does not fail with the developer assertion; its result
does not depend on the initial values; every state in which a pass is entered
with `new_active_set` unset and `sing` set was handed over by a pass (the
previous one) that recorded a candidate, `sing_ind >= 0` with `sing_sign` one of
`-1`, `0`, `1`; and any pass that goes on with `sing` set has recorded a candidate,
a singular pass without one returning the flag 1 instead. -/
theorem sing_ind_assigned :
    (∀ (qr : QRKernel) (S : ConicActiveSet) (P : Args) (u : Uninit),
      eval qr S P u ≠ .error .dev_assert) ∧
    (∀ (qr : QRKernel) (S : ConicActiveSet) (P : Args) (u v : Uninit),
      eval qr S P u = eval qr S P v) ∧
    (∀ (qr : QRKernel) (S : ConicActiveSet) (P : Args) (u : Uninit) (s : State),
      Reachable qr S P u s → s.new_active_set = false → s.sing = true →
      0 ≤ s.sing_ind ∧ (s.sing_sign = -1 ∨ s.sing_sign = 0 ∨ s.sing_sign = 1) ∧
      ∃ s0, Reachable qr S P u s0 ∧
        pass qr S P (flags S P) (kkt S P) (trans_a S P) s0 = .ok (.next s)) ∧
    (∀ (qr : QRKernel) (S : ConicActiveSet) (P : Args) (F : Flags) (kkt trans_a : Nat → ℚ)
        (s : State) (o : Outcome), pass qr S P F kkt trans_a s = .ok o →
      match o with
      | .next s1 => s1.sing = true →
          0 ≤ s1.sing_ind ∧ (s1.sing_sign = -1 ∨ s1.sing_sign = 0 ∨ s1.sing_sign = 1)
      | .ret flag s1 => s1.iter = s.iter + 1 → flag = 1 ∧ s1.sing = true ∧ s1.sing_ind < 0) := by
  refine ⟨fun qr S P u => eval_fuel_no_assert qr S P u _,
    fun qr S P u v => eval_fuel_uninit qr S P u v _,
    fun qr S P u s hr hn hs => reachable_selected qr S P u s hr hn hs, ?_⟩
  intro qr S P F kkt trans_a s o h
  cases o with
  | next s1 => exact fun hs => pass_next qr S P F kkt trans_a s s1 h hs
  | ret flag s1 =>
    intro hi
    rcases pass_cases qr S P F kkt trans_a s _ h with ⟨_, _, h3⟩ | ⟨_, _, h3⟩ | ⟨h1, _, _, h4, h5⟩
    · rw [h3] at hi; omega
    · rw [h3] at hi; omega
    · exact ⟨h1, h4, h5⟩

/-- On the flat one-variable problem, started with `sing` set and `sing_ind = -1`,
the second pass is entered with `new_active_set` unset and `sing` set, with the
index `0` and the sign `-1` recorded by the first pass; `eval` returns the flag 0. -/
theorem sing_ind_assigned_witness :
    Reachable qr_scalar (solver1 1000) args_warm_flat uninit_neg
      (second_state qr_scalar (solver1 1000) args_warm_flat uninit_neg) ∧
    (second_state qr_scalar (solver1 1000) args_warm_flat uninit_neg).new_active_set = false ∧
    (second_state qr_scalar (solver1 1000) args_warm_flat uninit_neg).sing = true ∧
    0 ≤ (second_state qr_scalar (solver1 1000) args_warm_flat uninit_neg).sing_ind ∧
    (second_state qr_scalar (solver1 1000) args_warm_flat uninit_neg).sing_ind = 0 ∧
    (second_state qr_scalar (solver1 1000) args_warm_flat uninit_neg).sing_sign = -1 ∧
    eval qr_scalar (solver1 1000) args_warm_flat uninit_neg ≠ .error .dev_assert ∧
    flag_of (eval qr_scalar (solver1 1000) args_warm_flat uninit_neg) = some 0 ∧
    eval qr_scalar (solver1 1000) args_warm_flat uninit_neg =
      eval qr_scalar (solver1 1000) args_warm_flat uninit0 :=
  ⟨warm_flat_reachable, by decide!, by decide!,
    (sing_ind_assigned.2.2.1 _ _ _ _ _ warm_flat_reachable (by decide!) (by decide!)).1,
    by decide!, by decide!,
    sing_ind_assigned.1 _ _ _ _, by decide!, sing_ind_assigned.2.1 _ _ _ _ _⟩

/-! ## The tangent of the dual infeasibility -/

theorem Sparsity.colDot_congr (sp : Sparsity) (x z z1 : Nat → ℚ) (c : Nat)
    (h : ∀ k ∈ sp.col c, z (sp.row k) = z1 (sp.row k)) : sp.colDot x z c = sp.colDot x z1 c := by
  unfold Sparsity.colDot
  congr 1
  apply List.map_congr_left
  intro k hk
  rw [h k hk]

/-- The gradient change `H dz + Aᵀ dlam(g)` that `dlam` and `tinfeas` are built
from: the value before the step in `z(g)` equals the value after it. -/
theorem calc_dlam_gradient (S : ConicActiveSet) (P : Args) (hH : S.H_.ncol = S.nx_)
    (hA : S.A_.ncol = S.nx_) (hArow : ∀ c < S.nx_, ∀ k ∈ S.A_.col c, S.A_.row k < S.na_)
    (lam dz0 : Nat → ℚ) (i : Nat) (hi : i < S.nx_) :
    casadi_mv P.a S.A_ (offset dz0 S.nx_)
        (casadi_mv P.h S.H_ dz0 (casadi_fill (fun _ => 0) S.nx_ 0) false) true i =
      S.H_.mulVec P.h (calc_dz S P dz0) i +
        S.A_.colDot P.a (offset (calc_dlam S P lam dz0) S.nx_) i := by
  rw [casadi_mv_trans_apply, if_pos (by rw [hA]; exact hi), casadi_mv_apply]
  unfold casadi_fill
  rw [if_pos hi, zero_add,
    S.H_.mulVec_congr P.h dz0 (calc_dz S P dz0) i (fun c hc => by
      rw [calc_dz_eq, calc_g_lo S P dz0 c (by rw [← hH]; exact hc)]),
    S.A_.colDot_congr P.a (offset dz0 S.nx_) (offset (calc_dlam S P lam dz0) S.nx_) i
      (fun k hk => by
        show dz0 (S.nx_ + S.A_.row k) = calc_dlam S P lam dz0 (S.nx_ + S.A_.row k)
        rw [calc_dlam_hi S P lam dz0 _ (by omega) (by have := hArow i hi k hk; omega)])]

theorem calc_dlam_lo (S : ConicActiveSet) (P : Args) (hH : S.H_.ncol = S.nx_)
    (hA : S.A_.ncol = S.nx_) (hArow : ∀ c < S.nx_, ∀ k ∈ S.A_.col c, S.A_.row k < S.na_)
    (lam dz0 : Nat → ℚ) (i : Nat) (hi : i < S.nx_) :
    calc_dlam S P lam dz0 i = if lam i = 0 then 0 else
      -(S.H_.mulVec P.h (calc_dz S P dz0) i +
        S.A_.colDot P.a (offset (calc_dlam S P lam dz0) S.nx_) i) := by
  have hg := calc_dlam_gradient S P hH hA hArow lam dz0 i hi
  by_cases hl : lam i = 0
  · rw [if_pos hl]
    unfold calc_dlam splice
    simp only []
    rw [if_pos hi, if_pos ⟨hi, hl⟩]
  · rw [if_neg hl, ← hg]
    unfold calc_dlam splice casadi_scal
    simp only []
    rw [if_pos hi, if_neg (fun h => hl h.2), if_pos hi]
    ring

theorem calc_tinfeas_lo (S : ConicActiveSet) (P : Args) (hA : S.A_.ncol = S.nx_)
    (dz dlam : Nat → ℚ) (i : Nat) (hi : i < S.nx_) :
    calc_tinfeas S P dz dlam i =
      S.H_.mulVec P.h dz i + S.A_.colDot P.a (offset dlam S.nx_) i + dlam i := by
  unfold calc_tinfeas casadi_axpy
  rw [if_pos hi, casadi_mv_trans_apply, if_pos (by rw [hA]; exact hi), casadi_mv_apply]
  unfold casadi_fill
  rw [if_pos hi]
  ring

/-- C26: the tangent of the dual infeasibility vanishes on active box indices.
For the direction `dz0` of a pass, singular or not, with `dlam`, `dz` and
`tinfeas` as the pass computes them from it, and with `H` and `A` stored with `nx`
columns and the rows of `A` below `na`: every `i < nx` with `lam[i] != 0` has
`dlam[i] = -(H dz + Aᵀ dlam(g))[i]` and `tinfeas[i] = 0`, also after the scaling of
a singular pass, and every `i < nx` with `lam[i] = 0` has `dlam[i] = 0` and
`tinfeas[i] = (H dz + Aᵀ dlam(g))[i]`. -/
theorem tangent_vanishes (S : ConicActiveSet) (P : Args) (hH : S.H_.ncol = S.nx_)
    (hA : S.A_.ncol = S.nx_) (hArow : ∀ c < S.nx_, ∀ k ∈ S.A_.col c, S.A_.row k < S.na_)
    (lam dz0 : Nat → ℚ) (i : Nat) (hi : i < S.nx_) :
    (lam i ≠ 0 →
      calc_dlam S P lam dz0 i = -(S.H_.mulVec P.h (calc_dz S P dz0) i +
        S.A_.colDot P.a (offset (calc_dlam S P lam dz0) S.nx_) i) ∧
      calc_tinfeas S P (calc_dz S P dz0) (calc_dlam S P lam dz0) i = 0 ∧
      ∀ b : ℚ, casadi_scal S.nx_ b
        (calc_tinfeas S P (calc_dz S P dz0) (calc_dlam S P lam dz0)) i = 0) ∧
    (lam i = 0 →
      calc_dlam S P lam dz0 i = 0 ∧
      calc_tinfeas S P (calc_dz S P dz0) (calc_dlam S P lam dz0) i =
        S.H_.mulVec P.h (calc_dz S P dz0) i +
          S.A_.colDot P.a (offset (calc_dlam S P lam dz0) S.nx_) i) := by
  have h1 := calc_dlam_lo S P hH hA hArow lam dz0 i hi
  have h2 := calc_tinfeas_lo S P hA (calc_dz S P dz0) (calc_dlam S P lam dz0) i hi
  constructor
  · intro hl
    rw [if_neg hl] at h1
    have h3 : calc_tinfeas S P (calc_dz S P dz0) (calc_dlam S P lam dz0) i = 0 := by
      rw [h2]
      linarith
    refine ⟨h1, h3, fun b => ?_⟩
    unfold casadi_scal
    rw [if_pos hi, h3, mul_zero]
  · intro hl
    rw [if_pos hl] at h1
    refine ⟨h1, ?_⟩
    rw [h2, h1, add_zero]

/-- The relations on the instance `solver21` with `H = diag(1, 1)` and
`A = [[1, 0]]`, for the direction `(1, 2, 3)` with the first bound active. -/
theorem tangent_vanishes_witness :
    (solver21 1000).H_.ncol = (solver21 1000).nx_ ∧
    (solver21 1000).A_.ncol = (solver21 1000).nx_ ∧
    (∀ c < (solver21 1000).nx_, ∀ k ∈ (solver21 1000).A_.col c,
      (solver21 1000).A_.row k < (solver21 1000).na_) ∧
    calc_dlam (solver21 1000) args_early (vec [-1, 0, -2] 0) (vec [1, 2, 3] 0) 0 = -4 ∧
    calc_tinfeas (solver21 1000) args_early
      (calc_dz (solver21 1000) args_early (vec [1, 2, 3] 0))
      (calc_dlam (solver21 1000) args_early (vec [-1, 0, -2] 0) (vec [1, 2, 3] 0)) 0 = 0 ∧
    calc_dlam (solver21 1000) args_early (vec [-1, 0, -2] 0) (vec [1, 2, 3] 0) 1 = 0 ∧
    calc_tinfeas (solver21 1000) args_early
      (calc_dz (solver21 1000) args_early (vec [1, 2, 3] 0))
      (calc_dlam (solver21 1000) args_early (vec [-1, 0, -2] 0) (vec [1, 2, 3] 0)) 1 = 2 :=
  ⟨by decide, by decide, by decide, by decide!,
    ((tangent_vanishes (solver21 1000) args_early (by decide) (by decide) (by decide)
      (vec [-1, 0, -2] 0) (vec [1, 2, 3] 0) 0 (by decide)).1 (by decide!)).2.1,
    ((tangent_vanishes (solver21 1000) args_early (by decide) (by decide) (by decide)
      (vec [-1, 0, -2] 0) (vec [1, 2, 3] 0) 1 (by decide)).2 (by decide!)).1,
    by decide!⟩

end casadi
